import Mathlib

/-!
# kern/pmap.c : physical page allocator, page-table walker and mapping primitives

A shallow embedding of the x86-64 virtual-memory core in `kern/pmap.c`.

* A `struct PageInfo *` is modelled by the index of the frame in the `pages`
  array (`Option Nat`, `none` being `NULL`).
* Kernel memory is a map from the address of an 8-byte word to its 64-bit value;
  page tables are read and written through kernel virtual addresses exactly as
  the C code does (`KADDR`, pointer arithmetic in units of 8 bytes).
* Table pointers (`pml4e_t *`, `pte_t *`, ...) are addresses, `0` being `NULL`.
* An `int perm` argument is represented by its value converted to `uint64_t`,
  which is what C does at each of its uses (`|` and `&` with a 64-bit entry).
-/

namespace Pmap

/-! ## Layout constants and address macros (inc/mmu.h, inc/memlayout.h, kern/pmap.h) -/

/-- Modelled from the spec: page size of the x86-64 layout (12-bit page offset);
`inc/mmu.h` is not part of the sources. -/
def PGSIZE : Nat := 4096

/-- Modelled from the spec: log2 of the page size. -/
def PGSHIFT : Nat := 12

/-- Modelled from the spec: the present bit of a table entry (x86-64). -/
def PTE_P : Nat := 0x001

/-- Modelled from the spec: the writable bit of a table entry (x86-64). -/
def PTE_W : Nat := 0x002

/-- Modelled from the spec: the user bit of a table entry (x86-64). -/
def PTE_U : Nat := 0x004

/-- Modelled from the spec: the software-available bits of a table entry. -/
def PTE_AVAIL : Nat := 0xE00

/-- The value of the C expression `~PTE_AVAIL` once converted to `uint64_t`. -/
def NOT_PTE_AVAIL : Nat := 0xFFFFFFFFFFFFF1FF

/-- Modelled from the spec: flag asking `page_alloc` to zero-fill the frame
(`kern/pmap.h` is not part of the sources). -/
def ALLOC_ZERO : Nat := 1

/-- Modelled from the spec: the out-of-memory error code (`inc/error.h`). -/
def E_NO_MEM : Int := 4

/-- Modelled from the spec: base of the direct physical-memory map, the constant
offset between a physical address and the kernel virtual address used to access
it (`inc/memlayout.h` is not part of the sources). -/
def KERNBASE : Nat := 0x8004000000

/-- The macro `PTE_ADDR(pte)`, `pte & ~0xFFF` on a 64-bit entry. -/
def PTE_ADDR (pte : Nat) : Nat := pte &&& 0xFFFFFFFFFFFFF000

/-- The macro `PML4(la)`: index bits 39..47. -/
def PML4 (la : Nat) : Nat := (la >>> 39) &&& 0x1FF

/-- The macro `PDPE(la)`: index bits 30..38. -/
def PDPE (la : Nat) : Nat := (la >>> 30) &&& 0x1FF

/-- The macro `PDX(la)`: index bits 21..29. -/
def PDX (la : Nat) : Nat := (la >>> 21) &&& 0x1FF

/-- The macro `PTX(la)`: index bits 12..20. -/
def PTX (la : Nat) : Nat := (la >>> 12) &&& 0x1FF

/-- The macro `PGNUM(pa)`: frame number of a physical address. -/
def PGNUM (pa : Nat) : Nat := pa >>> PGSHIFT

/-- Modelled from the spec: `KADDR(pa)`, the kernel virtual address of physical
address `pa` in the direct map (constant offset). The range assertion of the
header version is not modelled. -/
def KADDR (pa : Nat) : Nat := pa + KERNBASE

/-- The inline helper `page2pa(pp)`: `(pp - pages) << PGSHIFT`. -/
def page2pa (pp : Nat) : Nat := pp <<< PGSHIFT

/-- The inline helper `pa2page(pa)`: `&pages[PGNUM(pa)]`. The range assertion of
the header version is not modelled. -/
def pa2page (pa : Nat) : Nat := PGNUM pa

/-- The inline helper `page2kva(pp)`: `KADDR(page2pa(pp))`. -/
def page2kva (pp : Nat) : Nat := KADDR (page2pa pp)

/-! ## State -/

/-- Modelled from the spec: one entry of the `pages` array (`struct PageInfo`,
declared in `inc/memlayout.h`, which is not part of the sources): the free-list
link and the reference count. The count is an unbounded integer, the spec
describing it as the number of live mappings. -/
structure PageInfo where
  pp_link : Option Nat
  pp_ref : Int
deriving DecidableEq

/-- The global state touched by the allocator and the mapping primitives:
the `pages` array, the head of the free list and kernel memory. -/
structure KState where
  pages : Nat → PageInfo
  page_free_list : Option Nat
  mem : Nat → Nat

/-- Assignment `pages[pp].pp_link = v`. -/
def KState.setLink (s : KState) (pp : Nat) (v : Option Nat) : KState :=
  { s with pages := fun i => if i = pp then { s.pages i with pp_link := v } else s.pages i }

/-- Assignment `pages[pp].pp_ref = v`. -/
def KState.setRef (s : KState) (pp : Nat) (v : Int) : KState :=
  { s with pages := fun i => if i = pp then { s.pages i with pp_ref := v } else s.pages i }

/-- Assignment `*(uint64_t *) a = v`. -/
def KState.store (s : KState) (a v : Nat) : KState :=
  { s with mem := fun x => if x = a then v else s.mem x }

/-- The call `memset(dst, 0, n)`: every word whose address lies in
`[dst, dst + n)` becomes zero. -/
def KState.memset0 (s : KState) (dst n : Nat) : KState :=
  { s with mem := fun x => if dst ≤ x ∧ x < dst + n then 0 else s.mem x }

/-- Byte `a` of memory (little endian), read from the aligned word containing it. -/
def byteAt (mem : Nat → Nat) (a : Nat) : Nat :=
  (mem (a - a % 8) >>> (8 * (a % 8))) % 256

/-! ## Physical page allocator -/

/-- The function `page_alloc(alloc_flags)`. Returns the frame (or `none` for
`NULL`) and the new state. -/
def page_alloc (s : KState) (alloc_flags : Nat) : Option Nat × KState :=
  match s.page_free_list with
  | none => (none, s)
  | some pp =>
    let s1 : KState := { s with page_free_list := (s.pages pp).pp_link }
    let s2 := s1.setLink pp none
    let s3 := if alloc_flags &&& ALLOC_ZERO ≠ 0 then s2.memset0 (page2kva pp) PGSIZE else s2
    (some pp, s3)

/-- The function `page_free(pp)`. -/
def page_free (s : KState) (pp : Nat) : KState :=
  if (s.pages pp).pp_ref ≠ 0 ∨ (s.pages pp).pp_link ≠ none then
    s
  else
    let s1 := s.setLink pp s.page_free_list
    let s2 : KState := { s1 with page_free_list := some pp }
    s2.setRef pp 0

/-- The function `page_decref(pp)`. -/
def page_decref (s : KState) (pp : Nat) : KState :=
  let s1 := s.setRef pp ((s.pages pp).pp_ref - 1)
  if (s1.pages pp).pp_ref = 0 then page_free s1 pp else s1

/-! ## Page-table walker -/

/-- The function `pgdir_walk(pgdir, va, create)`. -/
def pgdir_walk (s : KState) (pgdir va create : Nat) : Nat × KState :=
  if pgdir ≠ 0 then
    let pte := s.mem (pgdir + 8 * PDX va)
    if pte &&& PTE_P = 0 ∧ create ≠ 0 then
      match page_alloc s ALLOC_ZERO with
      | (some page, s1) =>
        let s2 := s1.setRef page ((s1.pages page).pp_ref + 1)
        let s3 := s2.store (pgdir + 8 * PDX va) (page2pa page ||| PTE_U ||| PTE_W ||| PTE_P)
        (KADDR (PTE_ADDR (s3.mem (pgdir + 8 * PDX va)) + 8 * PTX va), s3)
      | (none, s1) => (0, s1)
    else if pte &&& PTE_P ≠ 0 then
      (KADDR (PTE_ADDR pte + 8 * PTX va), s)
    else (0, s)
  else (0, s)

/-- The function `pdpe_walk(pdpe, va, create)`. -/
def pdpe_walk (s : KState) (pdpe va create : Nat) : Nat × KState :=
  if pdpe ≠ 0 then
    let pdp := s.mem (pdpe + 8 * PDPE va)
    if pdp &&& PTE_P = 0 ∧ create ≠ 0 then
      match page_alloc s ALLOC_ZERO with
      | (some page, s1) =>
        let s2 := s1.setRef page ((s1.pages page).pp_ref + 1)
        let s3 := s2.store (pdpe + 8 * PDPE va) (page2pa page ||| PTE_U ||| PTE_W ||| PTE_P)
        let r := pgdir_walk s3 (KADDR (PTE_ADDR (s3.mem (pdpe + 8 * PDPE va)))) va create
        if r.1 ≠ 0 then r
        else
          let s4 := r.2.store (pdpe + 8 * PDPE va) 0
          (0, page_decref s4 page)
      | (none, s1) => (0, s1)
    else if pdp &&& PTE_P ≠ 0 then
      pgdir_walk s (KADDR (PTE_ADDR pdp)) va create
    else (0, s)
  else (0, s)

/-- The function `pml4e_walk(pml4e, va, create)`. -/
def pml4e_walk (s : KState) (pml4e va create : Nat) : Nat × KState :=
  if pml4e ≠ 0 then
    let pdpe := s.mem (pml4e + 8 * PML4 va)
    if pdpe &&& PTE_P = 0 ∧ create ≠ 0 then
      match page_alloc s ALLOC_ZERO with
      | (some page, s1) =>
        let s2 := s1.setRef page ((s1.pages page).pp_ref + 1)
        let s3 := s2.store (pml4e + 8 * PML4 va) (page2pa page ||| PTE_U ||| PTE_W ||| PTE_P)
        let r := pdpe_walk s3 (KADDR (PTE_ADDR (s3.mem (pml4e + 8 * PML4 va)))) va create
        if r.1 ≠ 0 then r
        else
          let s4 := r.2.store (pml4e + 8 * PML4 va) 0
          (0, page_decref s4 page)
      | (none, s1) => (0, s1)
    else if pdpe &&& PTE_P ≠ 0 then
      pdpe_walk s (KADDR (PTE_ADDR pdpe)) va create
    else (0, s)
  else (0, s)

/-! ## Mapping primitives -/

/-- The function `tlb_invalidate(pml4e, va)`: the translation cache is not part
of the modelled state, so the call leaves the state as it is. -/
def tlb_invalidate (s : KState) (_pml4e _va : Nat) : KState := s

/-- Result of `page_lookup`: the returned frame, the content of `*pte_store`
after the call (`none` when the caller passed a null `pte_store`), and the state. -/
structure LookupResult where
  page : Option Nat
  store : Option Nat
  state : KState

/-- The function `page_lookup(pml4e, va, pte_store)`. The argument `pte_store`
is `none` for a null pointer and `some v` for a pointer to a variable holding `v`. -/
def page_lookup (s : KState) (pml4e va : Nat) (pte_store : Option Nat) : LookupResult :=
  if pml4e ≠ 0 then
    let r := pml4e_walk s pml4e va 0
    if r.1 ≠ 0 ∧ r.2.mem r.1 &&& PTE_P ≠ 0 then
      { page := some (pa2page (PTE_ADDR (r.2.mem r.1))),
        store := pte_store.map (fun _ => r.1),
        state := r.2 }
    else { page := none, store := pte_store, state := r.2 }
  else { page := none, store := pte_store, state := s }

/-- The function `page_remove(pml4e, va)`. -/
def page_remove (s : KState) (pml4e va : Nat) : KState :=
  let r := page_lookup s pml4e va (some 0)
  match r.page with
  | some page =>
    let s1 := tlb_invalidate r.state pml4e va
    let s2 := page_decref s1 page
    s2.store (r.store.getD 0) 0
  | none => r.state

/-- The function `page_insert(pml4e, pp, va, perm)`. -/
def page_insert (s : KState) (pml4e : Nat) (pp : Option Nat) (va perm : Nat) : Int × KState :=
  match pp with
  | none => (-E_NO_MEM, s)
  | some pp =>
    if pml4e ≠ 0 then
      let w := pml4e_walk s pml4e va 1
      let pte := w.1
      let s1 := w.2
      if pte ≠ 0 then
        let s2 := s1.store (pml4e + 8 * PML4 va)
          (s1.mem (pml4e + 8 * PML4 va) ||| (perm &&& NOT_PTE_AVAIL))
        let pdpe := KADDR (PTE_ADDR (s2.mem (pml4e + 8 * PML4 va)))
        let s3 := s2.store (pdpe + 8 * PDPE va)
          (s2.mem (pdpe + 8 * PDPE va) ||| (perm &&& NOT_PTE_AVAIL))
        let pde := KADDR (PTE_ADDR (s3.mem (pdpe + 8 * PDPE va)))
        let s4 := s3.store (pde + 8 * PDX va)
          (s3.mem (pde + 8 * PDX va) ||| (perm &&& NOT_PTE_AVAIL))
        if s4.mem pte &&& PTE_P ≠ 0 ∧ page2pa pp = PTE_ADDR (s4.mem pte) then
          let s5 := s4.store pte (PTE_ADDR (s4.mem pte) ||| perm ||| PTE_P)
          (0, tlb_invalidate s5 pml4e va)
        else
          let s5 := if s4.mem pte &&& PTE_P ≠ 0 then page_remove s4 pml4e va else s4
          let s6 := s5.setRef pp ((s5.pages pp).pp_ref + 1)
          let s7 := s6.store pte (page2pa pp ||| perm ||| PTE_P)
          (0, tlb_invalidate s7 pml4e va)
      else (-E_NO_MEM, s1)
    else (-E_NO_MEM, s)

/-! ## Auxiliary definitions used to state the properties -/

/-- The chain of `pp_link` pointers starting at `h` visits exactly the frames of
`l`, in order, and then ends with `NULL`: the free list holds the frames `l`. -/
def isList (pages : Nat → PageInfo) : Option Nat → List Nat → Prop
  | h, [] => h = none
  | h, x :: xs => h = some x ∧ isList pages (pages x).pp_link xs

instance decIsList (pages : Nat → PageInfo) :
    (h : Option Nat) → (l : List Nat) → Decidable (isList pages h l)
  | h, [] => inferInstanceAs (Decidable (h = none))
  | _, _ :: xs => @instDecidableAnd _ _ _ (decIsList pages _ xs)

/-- The results and the final state of `n` consecutive calls `page_alloc(alloc_flags)`. -/
def page_alloc_seq (s : KState) (alloc_flags : Nat) : Nat → List (Option Nat) × KState
  | 0 => ([], s)
  | n + 1 =>
    let r := page_alloc s alloc_flags
    let rest := page_alloc_seq r.2 alloc_flags n
    (r.1 :: rest.1, rest.2)

/-- Location of the leaf entry of `va` under `root`, following the spec's words:
the entry `PTX(va)` of the table referenced by entry `PDX(va)` of the table
referenced by entry `PDPE(va)` of the table referenced by `root[PML4(va)]`;
`none` when some intermediate table on the path is not present. -/
def leafSlot (s : KState) (root va : Nat) : Option Nat :=
  if s.mem (root + 8 * PML4 va) &&& PTE_P = 0 then none
  else
    let pdpe := KADDR (PTE_ADDR (s.mem (root + 8 * PML4 va)))
    if s.mem (pdpe + 8 * PDPE va) &&& PTE_P = 0 then none
    else
      let pde := KADDR (PTE_ADDR (s.mem (pdpe + 8 * PDPE va)))
      if s.mem (pde + 8 * PDX va) &&& PTE_P = 0 then none
      else some (KADDR (PTE_ADDR (s.mem (pde + 8 * PDX va))) + 8 * PTX va)

/-- Index of `va` into the table of level `lvl`: level 3 is `PML4(va)`, level 2
`PDPE(va)`, level 1 `PDX(va)` and level 0 `PTX(va)`. -/
def idx (lvl va : Nat) : Nat := (va >>> (12 + 9 * lvl)) &&& 0x1FF

/-- The three level-specific walkers of `pmap.c` written as one function of the
level: `walkGen 3` is `pml4e_walk`, `walkGen 2` is `pdpe_walk` and `walkGen 1`
is `pgdir_walk` (proved below); level 0 is the address of the leaf entry in the
leaf table `tbl`. -/
def walkGen : Nat → KState → Nat → Nat → Nat → Nat × KState
  | 0, s, tbl, va, _ => (tbl + 8 * PTX va, s)
  | lvl + 1, s, tbl, va, create =>
    if tbl ≠ 0 then
      let e := s.mem (tbl + 8 * idx (lvl + 1) va)
      if e &&& PTE_P = 0 ∧ create ≠ 0 then
        match page_alloc s ALLOC_ZERO with
        | (some page, s1) =>
          let s2 := s1.setRef page ((s1.pages page).pp_ref + 1)
          let s3 := s2.store (tbl + 8 * idx (lvl + 1) va)
            (page2pa page ||| PTE_U ||| PTE_W ||| PTE_P)
          let r := walkGen lvl s3
            (KADDR (PTE_ADDR (s3.mem (tbl + 8 * idx (lvl + 1) va)))) va create
          if r.1 ≠ 0 then r
          else
            let s4 := r.2.store (tbl + 8 * idx (lvl + 1) va) 0
            (0, page_decref s4 page)
        | (none, s1) => (0, s1)
      else if e &&& PTE_P ≠ 0 then
        walkGen lvl s (KADDR (PTE_ADDR e)) va create
      else (0, s)
    else (0, s)

/-- The state right after a walker has taken frame `f` from the head of the
free list with `page_alloc(ALLOC_ZERO)`, incremented its `pp_ref` and installed
it in the slot at address `a`. -/
def install (s : KState) (f a : Nat) : KState :=
  { pages := fun i => if i = f then { pp_link := none, pp_ref := (s.pages f).pp_ref + 1 }
                      else s.pages i
    page_free_list := (s.pages f).pp_link
    mem := fun x => if x = a then page2pa f ||| PTE_U ||| PTE_W ||| PTE_P
                    else if page2kva f ≤ x ∧ x < page2kva f + PGSIZE then 0 else s.mem x }

/-- The tables met on the path of `va` below the level-`lvl` table `tbl`, as far
as the entries are present: `tbl` itself, then the table its entry for `va`
references, and so on down to the leaf table. -/
def pathFrom : Nat → KState → Nat → Nat → List Nat
  | 0, _, tbl, _ => [tbl]
  | lvl + 1, s, tbl, va =>
    tbl :: (if s.mem (tbl + 8 * idx (lvl + 1) va) &&& PTE_P = 0 then []
            else pathFrom lvl s (KADDR (PTE_ADDR (s.mem (tbl + 8 * idx (lvl + 1) va)))) va)

/-- The 4 KB regions starting at `a` and at `b` do not overlap. -/
def Sep (a b : Nat) : Prop := a + PGSIZE ≤ b ∨ b + PGSIZE ≤ a

instance decSep (a b : Nat) : Decidable (Sep a b) := by
  unfold Sep; exact inferInstance

/-- Address `x` lies in the 4 KB region starting at `t`. -/
def inPg (t x : Nat) : Prop := t ≤ x ∧ x < t + PGSIZE

/-- Well-formedness of the part of the state a walk of `va` from the
level-`lvl` table `tbl` can touch: the free list holds the frames `l` (each a
valid frame number), and the tables already on the path of `va` and the free
frames are pairwise disjoint pages. -/
structure WalkPre (lvl : Nat) (s : KState) (tbl va : Nat) (l : List Nat) : Prop where
  tbl_ne : tbl ≠ 0
  free : isList s.pages s.page_free_list l
  frames : ∀ f ∈ l, f < 2 ^ 52
  sep : (pathFrom lvl s tbl va ++ l.map page2kva).Pairwise Sep

/-- What a successful walk that took `k` frames from the free list `l` leaves
behind: the path of `va` is complete and consists of the old path followed by
the `k` new tables, the returned pointer is the entry `PTX(va)` of the last one,
the free list holds the remaining frames, each new table has a null link and one
more reference, and every other frame is untouched. -/
structure WalkOk (lvl : Nat) (s : KState) (tbl va : Nat) (l : List Nat)
    (r : Nat × KState) (k : Nat) : Prop where
  k_le : k ≤ l.length
  path : pathFrom lvl r.2 tbl va = pathFrom lvl s tbl va ++ (l.take k).map page2kva
  full : (pathFrom lvl r.2 tbl va).length = lvl + 1
  leaf : ∃ t, (pathFrom lvl r.2 tbl va).getLast? = some t ∧ r.1 = t + 8 * PTX va
  free : isList r.2.pages r.2.page_free_list (l.drop k)
  pages_other : ∀ i, i ∉ l.take k → r.2.pages i = s.pages i
  pages_taken : ∀ i ∈ l.take k,
    r.2.pages i = { pp_link := none, pp_ref := (s.pages i).pp_ref + 1 }
  same : k = 0 → r.2 = s
  fresh : 0 < k → r.2.mem r.1 = 0

/-- Postcondition of a creating walk with result `r`: memory outside the tables
of the path and the free frames is unchanged; on success `WalkOk` holds for some
number of new tables; on failure a later walk without creation fails too. -/
structure WalkPost (lvl : Nat) (s : KState) (tbl va : Nat) (l : List Nat)
    (r : Nat × KState) : Prop where
  frame : ∀ x, (∀ t ∈ pathFrom lvl s tbl va ++ l.map page2kva, ¬ inPg t x) →
    r.2.mem x = s.mem x
  ok : r.1 ≠ 0 → ∃ k, WalkOk lvl s tbl va l r k
  fail : r.1 = 0 → (walkGen lvl r.2 tbl va 0).1 = 0

/-- The three updates `entry |= perm & ~PTE_AVAIL` that `page_insert` applies to
the PML4, PDPE and PDE entries of `va` once the walk has succeeded. -/
def orPerm (s : KState) (pml4e va perm : Nat) : KState :=
  let s2 := s.store (pml4e + 8 * PML4 va)
    (s.mem (pml4e + 8 * PML4 va) ||| (perm &&& NOT_PTE_AVAIL))
  let pdpe := KADDR (PTE_ADDR (s2.mem (pml4e + 8 * PML4 va)))
  let s3 := s2.store (pdpe + 8 * PDPE va)
    (s2.mem (pdpe + 8 * PDPE va) ||| (perm &&& NOT_PTE_AVAIL))
  let pde := KADDR (PTE_ADDR (s3.mem (pdpe + 8 * PDPE va)))
  s3.store (pde + 8 * PDX va) (s3.mem (pde + 8 * PDX va) ||| (perm &&& NOT_PTE_AVAIL))

/-- The path of `va` under `root` is complete in state `s`: the PML4, PDPE and
PDE entries are present and reference the tables `t3`, `t2` and `t1`, and the
four tables are pairwise disjoint pages. -/
structure FullPath (s : KState) (root va t3 t2 t1 : Nat) : Prop where
  e4 : s.mem (root + 8 * PML4 va) &&& PTE_P ≠ 0
  h3 : t3 = KADDR (PTE_ADDR (s.mem (root + 8 * PML4 va)))
  e3 : s.mem (t3 + 8 * PDPE va) &&& PTE_P ≠ 0
  h2 : t2 = KADDR (PTE_ADDR (s.mem (t3 + 8 * PDPE va)))
  e2 : s.mem (t2 + 8 * PDX va) &&& PTE_P ≠ 0
  h1 : t1 = KADDR (PTE_ADDR (s.mem (t2 + 8 * PDX va)))
  sep : [root, t3, t2, t1].Pairwise Sep

/-- What a successful `page_insert` does to the `pages` array and the free list,
given the state `w` left by its walk and the leaf entry `e` found for `va`:
nothing when `e` already maps `pp`; otherwise the frame mapped by a present `e`
is `page_decref`ed and `pp->pp_ref` is incremented. -/
def insertMeta (w : KState) (e pp : Nat) : KState :=
  if e &&& PTE_P ≠ 0 ∧ page2pa pp = PTE_ADDR e then w
  else
    let b := if e &&& PTE_P ≠ 0 then page_decref w (pa2page (PTE_ADDR e)) else w
    b.setRef pp ((b.pages pp).pp_ref + 1)

/-- Description of the state `s2` produced by a successful
`page_insert(root, pp, va, perm)` from state `s` with free list `l`: the walk
took `k` frames, the path of `va` is complete with tables `t3`, `t2`, `t1`, the
leaf entry is `page2pa(pp)|perm|PTE_P`, and the frame metadata is `insertMeta`. -/
structure InsertPost (s : KState) (root pp va perm : Nat) (l : List Nat) (s2 : KState)
    (t3 t2 t1 k : Nat) : Prop where
  walk : WalkOk 3 s root va l (pml4e_walk s root va 1) k
  ptr : (pml4e_walk s root va 1).1 = t1 + 8 * PTX va
  full : FullPath s2 root va t3 t2 t1
  leaf : s2.mem (t1 + 8 * PTX va) = page2pa pp ||| perm ||| PTE_P
  before : (page_lookup s root va none).page =
    if (pml4e_walk s root va 1).2.mem (t1 + 8 * PTX va) &&& PTE_P ≠ 0
    then some (pa2page (PTE_ADDR ((pml4e_walk s root va 1).2.mem (t1 + 8 * PTX va))))
    else none
  pages : s2.pages =
    (insertMeta (pml4e_walk s root va 1).2
      ((pml4e_walk s root va 1).2.mem (t1 + 8 * PTX va)) pp).pages
  flist : s2.page_free_list =
    (insertMeta (pml4e_walk s root va 1).2
      ((pml4e_walk s root va 1).2.mem (t1 + 8 * PTX va)) pp).page_free_list

/-- Allocator invariant of the spec's data model for a free list holding the
frames `l`: a frame on the free list has reference count 0, and a frame that is
not on the free list has a null `pp_link`. -/
structure AllocInv (s : KState) (l : List Nat) : Prop where
  ref0 : ∀ f ∈ l, (s.pages f).pp_ref = 0
  nolink : ∀ f, f ∉ l → (s.pages f).pp_link = none

/-! ## Concrete states used to instantiate the theorems -/

/-- A state with empty page tables and the free list 1, 2, 3. -/
def exFresh : KState :=
  { pages := fun i =>
      if i = 1 then { pp_link := some 2, pp_ref := 0 }
      else if i = 2 then { pp_link := some 3, pp_ref := 0 }
      else { pp_link := none, pp_ref := 0 }
    page_free_list := some 1
    mem := fun _ => 0 }

/-- A state with empty page tables and the free list 1, 2. -/
def exTwo : KState :=
  { pages := fun i =>
      if i = 1 then { pp_link := some 2, pp_ref := 0 }
      else { pp_link := none, pp_ref := 0 }
    page_free_list := some 1
    mem := fun _ => 0 }

/-- A state with an empty free list in which the root table in frame 0 maps the
page at `0x1000` to frame 5 through the tables in frames 1, 2 and 3. -/
def exMapped : KState :=
  { pages := fun i =>
      if i = 5 then { pp_link := none, pp_ref := 1 }
      else if i = 1 ∨ i = 2 ∨ i = 3 then { pp_link := none, pp_ref := 1 }
      else { pp_link := none, pp_ref := 0 }
    page_free_list := none
    mem := fun a =>
      if a = 0x8004000000 then 0x1007
      else if a = 0x8004001000 then 0x2007
      else if a = 0x8004002000 then 0x3007
      else if a = 0x8004003008 then 0x5001
      else 0 }


/-- The chain of tables created by one walk of `va`, read in the memory `mem`:
the slot at address `a` references the first new frame `f` with the bits
`PTE_U|PTE_W|PTE_P`; every word of the page of `f` is zero, except the entry of
`f` that references the next new frame (the last new frame, the leaf table, is
zero throughout); and the same holds for the remaining frames. A new table
followed by `n` further new tables is indexed by `idx n va`. -/
def newTables (mem : Nat → Nat) (va : Nat) : Nat → List Nat → Prop
  | _, [] => True
  | a, f :: fs =>
    mem a = page2pa f ||| PTE_U ||| PTE_W ||| PTE_P ∧
    (∀ x, inPg (page2kva f) x → (x = page2kva f + 8 * idx fs.length va → fs = []) → mem x = 0) ∧
    newTables mem va (page2kva f + 8 * idx fs.length va) fs

/-! ## The validator `user_mem_check` -/

/-- Modelled from the spec: the access-violation error code (`inc/error.h` is
not part of the sources); only `E_FAULT ≠ 0` matters. -/
def E_FAULT : Int := 6

/-- The macro `ROUNDUP(a, n)` of `inc/types.h` on a 64-bit value `a`:
`ROUNDDOWN((uint64_t) a + n - 1, n)`, the sum being taken modulo `2^64`. -/
def ROUNDUP (a n : Nat) : Nat :=
  (a + n - 1) % 2 ^ 64 - ((a + n - 1) % 2 ^ 64) % n

/-- Result of `user_mem_check`: the returned `int`, the content of the static
variable `user_mem_check_addr` after the call, and the state. -/
structure CheckResult where
  ret : Int
  addr : Nat
  state : KState

/-- The `while (va < endva)` loop of `user_mem_check`, run for at most `fuel`
iterations; `none` when the loop has not ended by then. The argument `addr` is
the current content of `user_mem_check_addr`. -/
def user_mem_check_loop (env_pml4e endva perm : Nat) :
    Nat → Nat → Nat → KState → Option CheckResult
  | 0, va, addr, s => if va < endva then none else some ⟨0, addr, s⟩
  | fuel + 1, va, addr, s =>
    if va < endva then
      let r := pml4e_walk s env_pml4e va 0
      if r.1 = 0 ∨ r.2.mem r.1 &&& (perm ||| PTE_P) ≠ (perm ||| PTE_P) then
        some ⟨-E_FAULT, va, r.2⟩
      else
        user_mem_check_loop env_pml4e endva perm fuel (ROUNDUP ((va + 1) % 2 ^ 64) PGSIZE) addr r.2
    else some ⟨0, addr, s⟩

/-- The function `user_mem_check(env, va, len, perm)`. The layout constant
`ULIM` (`inc/memlayout.h`, not part of the sources) is a parameter,
`env_pml4e` is the field `env->env_pml4e`, and `addr` is the content of
`user_mem_check_addr` before the call. The loop is given `len / PGSIZE + 2`
iterations, the bound stated in the comment of the function. -/
def user_mem_check (ULIM : Nat) (s : KState) (env_pml4e va len perm addr : Nat) :
    Option CheckResult :=
  let endva := (va + len) % 2 ^ 64
  if endva ≥ ULIM ∨ va > endva then some ⟨-E_FAULT, va, s⟩
  else user_mem_check_loop env_pml4e endva perm (len / PGSIZE + 2) va addr s

/-- The test applied by `user_mem_check` to the page of address `a`: the walk
without creation finds a leaf entry, and the entry has every bit of
`perm | PTE_P`. -/
def pageOK (s : KState) (env_pml4e perm a : Nat) : Prop :=
  (pml4e_walk s env_pml4e a 0).1 ≠ 0 ∧
  (pml4e_walk s env_pml4e a 0).2.mem (pml4e_walk s env_pml4e a 0).1 &&& (perm ||| PTE_P)
    = perm ||| PTE_P

instance decPageOK (s : KState) (env_pml4e perm a : Nat) : Decidable (pageOK s env_pml4e perm a) := by
  unfold pageOK; exact inferInstance

/-! ## Static region mapping: `boot_map_region`, `check_va2pa`, `mmio_map_region` -/

/-- Modelled from the spec: the write-through bit of a table entry (x86-64). -/
def PTE_PWT : Nat := 0x008

/-- Modelled from the spec: the cache-disable bit of a table entry (x86-64). -/
def PTE_PCD : Nat := 0x010

/-- One iteration of the `for` loop of `boot_map_region`, for the loop variable
`i`: the creating walk of `la + i`, the write of the leaf entry when the walk
succeeded, and the three updates `entry = entry | perm | PTE_P` of the
upper-level entries. Sums of 64-bit values are taken modulo `2^64`. -/
def boot_map_region_body (s : KState) (pml4e la pa perm i : Nat) : KState :=
  let va := (la + i) % 2 ^ 64
  let w := pml4e_walk s pml4e va 1
  let addr := (pa + i) % 2 ^ 64
  let s1 := if w.1 ≠ 0 then w.2.store w.1 (PTE_ADDR addr ||| perm ||| PTE_P) else w.2
  let s2 := s1.store (pml4e + 8 * PML4 va) (s1.mem (pml4e + 8 * PML4 va) ||| perm ||| PTE_P)
  let pdpe := KADDR (PTE_ADDR (s2.mem (pml4e + 8 * PML4 va)))
  let s3 := s2.store (pdpe + 8 * PDPE va) (s2.mem (pdpe + 8 * PDPE va) ||| perm ||| PTE_P)
  let pde := KADDR (PTE_ADDR (s3.mem (pdpe + 8 * PDPE va)))
  s3.store (pde + 8 * PDX va) (s3.mem (pde + 8 * PDX va) ||| perm ||| PTE_P)

/-- The loop `for (i = ...; i < size; i += PGSIZE)` of `boot_map_region`, run
for at most `fuel` iterations from the value `i` of the loop variable; `none`
when the loop has not ended by then. -/
def boot_map_region_loop (pml4e la size pa perm : Nat) : Nat → Nat → KState → Option KState
  | 0, i, s => if i < size then none else some s
  | fuel + 1, i, s =>
    if i < size then
      boot_map_region_loop pml4e la size pa perm fuel ((i + PGSIZE) % 2 ^ 64)
        (boot_map_region_body s pml4e la pa perm i)
    else some s

/-- The function `boot_map_region(pml4e, la, size, pa, perm)`; `none` when the
loop does not end within `size / PGSIZE + 1` iterations. -/
def boot_map_region (s : KState) (pml4e la size pa perm : Nat) : Option KState :=
  boot_map_region_loop pml4e la size pa perm (size / PGSIZE + 1) 0 s

/-- The function `check_va2pa(pml4e, va)`; the value `~0` is `2^64 - 1`. -/
def check_va2pa (s : KState) (pml4e va : Nat) : Nat :=
  if s.mem (pml4e + 8 * PML4 va) &&& PTE_P = 0 then 2 ^ 64 - 1
  else
    let pdpe := KADDR (PTE_ADDR (s.mem (pml4e + 8 * PML4 va)))
    if s.mem (pdpe + 8 * PDPE va) &&& PTE_P = 0 then 2 ^ 64 - 1
    else
      let pde := KADDR (PTE_ADDR (s.mem (pdpe + 8 * PDPE va)))
      if s.mem (pde + 8 * PDX va) &&& PTE_P = 0 then 2 ^ 64 - 1
      else
        let pte := KADDR (PTE_ADDR (s.mem (pde + 8 * PDX va)))
        if s.mem (pte + 8 * PTX va) &&& PTE_P = 0 then 2 ^ 64 - 1
        else PTE_ADDR (s.mem (pte + 8 * PTX va))

/-- The function `mmio_map_region(pa, size)`. The static variable `base` is
passed in and its new value returned; the layout constant `MMIOLIM`
(`inc/memlayout.h`, not part of the sources) is a parameter and `boot_pml4e` is
the global root table. The result is the returned address, the new `base` and
the state; `none` stands for the `panic` (or for a loop that does not end). -/
def mmio_map_region (MMIOLIM : Nat) (s : KState) (boot_pml4e base pa size : Nat) :
    Option (Nat × Nat × KState) :=
  let va := base
  let size2 := ROUNDUP size PGSIZE
  let base2 := (base + size2) % 2 ^ 64
  if base2 ≥ MMIOLIM then none
  else
    match boot_map_region s boot_pml4e va size2 pa (PTE_P ||| PTE_W ||| PTE_PWT ||| PTE_PCD) with
    | some s2 => some (va, base2, s2)
    | none => none

/-- The addresses of the upper-level entries read on the path of `va` below the
level-`lvl` table `tbl`, as far as the entries are present. -/
def slotsOf : Nat → KState → Nat → Nat → List Nat
  | 0, _, _, _ => []
  | lvl + 1, s, tbl, va =>
    (tbl + 8 * idx (lvl + 1) va) ::
      (if s.mem (tbl + 8 * idx (lvl + 1) va) &&& PTE_P = 0 then []
       else slotsOf lvl s (KADDR (PTE_ADDR (s.mem (tbl + 8 * idx (lvl + 1) va)))) va)

/-- Well-formedness of the page-table tree under `root` and of the free list
`l`. The relation `lab t p` says that the page at `t` is the table reached from
`root` through the indices `p` (at most three of them); the table referenced by
a present entry `j` of a table at position `p` is at position `p ++ [j]`; two
tables are the same page at the same position or disjoint pages; tables are
disjoint from the free frames, which are valid, pairwise distinct frames. -/
structure TreeWF (s : KState) (root : Nat) (lab : Nat → List Nat → Prop) (l : List Nat) :
    Prop where
  root_lab : lab root []
  len : ∀ t p, lab t p → p.length ≤ 3
  child : ∀ t p j, lab t p → p.length < 3 → j < 512 → s.mem (t + 8 * j) &&& PTE_P ≠ 0 →
    lab (KADDR (PTE_ADDR (s.mem (t + 8 * j)))) (p ++ [j])
  inj : ∀ t p t2 p2, lab t p → lab t2 p2 → (t = t2 ∧ p = p2) ∨ Sep t t2
  free_sep : ∀ t p f, lab t p → f ∈ l → Sep t (page2kva f)
  free : isList s.pages s.page_free_list l
  frames : ∀ f ∈ l, f < 2 ^ 52
  free_pair : (l.map page2kva).Pairwise Sep

/-- The page of `va` is mapped in state `s`: the path of `va` under `root` is
complete, the leaf entry holds `val`, and each of the three upper-level entries
on the path has every bit of `m`. -/
def Mapped (s : KState) (root va val m : Nat) : Prop :=
  ∃ t3 t2 t1, FullPath s root va t3 t2 t1 ∧ s.mem (t1 + 8 * PTX va) = val ∧
    s.mem (root + 8 * PML4 va) &&& m = m ∧ s.mem (t3 + 8 * PDPE va) &&& m = m ∧
    s.mem (t2 + 8 * PDX va) &&& m = m

/-- No table allocation fails during the run of the loop of `boot_map_region`
from the value `i` of the loop variable: each call of `pml4e_walk` made in the
first `fuel` iterations returns a non-null pointer. -/
def boot_map_region_walks (pml4e la size pa perm : Nat) : Nat → Nat → KState → Prop
  | 0, _, _ => True
  | fuel + 1, i, s =>
    i < size →
      (pml4e_walk s pml4e ((la + i) % 2 ^ 64) 1).1 ≠ 0 ∧
      boot_map_region_walks pml4e la size pa perm fuel ((i + PGSIZE) % 2 ^ 64)
        (boot_map_region_body s pml4e la pa perm i)

/-- What one iteration of the loop of `boot_map_region` for the address `v`
leaves behind, starting from a well-formed state `s` with tables labelled by
`lab` and free list `l`: the new state `s2` has a complete path for `v` through
the tables `t3`, `t2`, `t1`, each of which was a table before or is one of the
`k` frames taken from the free list; the leaf entry holds `val`, the upper
entries have the bits `perm | PTE_P`; the words of old tables are unchanged,
except the entries on the path of `v`; a new table is zero outside that path. -/
structure IterPost (s s2 : KState) (root v val perm : Nat) (lab : Nat → List Nat → Prop)
    (l : List Nat) (t3 t2 t1 k : Nat) : Prop where
  full : FullPath s2 root v t3 t2 t1
  k_le : k ≤ l.length
  free : isList s2.pages s2.page_free_list (l.drop k)
  leaf : s2.mem (t1 + 8 * PTX v) = val
  up4 : s2.mem (root + 8 * PML4 v) &&& (perm ||| PTE_P) = perm ||| PTE_P
  up3 : s2.mem (t3 + 8 * PDPE v) &&& (perm ||| PTE_P) = perm ||| PTE_P
  up2 : s2.mem (t2 + 8 * PDX v) &&& (perm ||| PTE_P) = perm ||| PTE_P
  dich3 : lab t3 [PML4 v] ∨ ∃ f ∈ l.take k, t3 = page2kva f
  dich2 : lab t2 [PML4 v, PDPE v] ∨ ∃ f ∈ l.take k, t2 = page2kva f
  dich1 : lab t1 [PML4 v, PDPE v, PDX v] ∨ ∃ f ∈ l.take k, t1 = page2kva f
  old : ∀ t p x, lab t p → inPg t x →
    x ∉ [t1 + 8 * PTX v, root + 8 * PML4 v, t3 + 8 * PDPE v, t2 + 8 * PDX v] →
    s2.mem x = s.mem x
  oldup : ∀ t p x, lab t p → inPg t x →
    x ∈ [root + 8 * PML4 v, t3 + 8 * PDPE v, t2 + 8 * PDX v] → s.mem x &&& PTE_P ≠ 0 →
    s2.mem x = s.mem x ||| perm ||| PTE_P
  new : ∀ f ∈ l.take k, ∀ x, inPg (page2kva f) x →
    x ∉ [t1 + 8 * PTX v, root + 8 * PML4 v, t3 + 8 * PDPE v, t2 + 8 * PDX v] →
    s2.mem x = 0

/-- The three updates `entry = entry | perm | PTE_P` that an iteration of
`boot_map_region` applies to the PML4, PDPE and PDE entries of `va`. -/
def orBoot (s : KState) (pml4e va perm : Nat) : KState :=
  let s2 := s.store (pml4e + 8 * PML4 va) (s.mem (pml4e + 8 * PML4 va) ||| perm ||| PTE_P)
  let pdpe := KADDR (PTE_ADDR (s2.mem (pml4e + 8 * PML4 va)))
  let s3 := s2.store (pdpe + 8 * PDPE va) (s2.mem (pdpe + 8 * PDPE va) ||| perm ||| PTE_P)
  let pde := KADDR (PTE_ADDR (s3.mem (pdpe + 8 * PDPE va)))
  s3.store (pde + 8 * PDX va) (s3.mem (pde + 8 * PDX va) ||| perm ||| PTE_P)

instance decWalks (pml4e la size pa perm : Nat) :
    (fuel i : Nat) → (s : KState) →
      Decidable (boot_map_region_walks pml4e la size pa perm fuel i s)
  | 0, _, _ => isTrue trivial
  | fuel + 1, i, s =>
    if h : i < size then
      @decidable_of_iff _ ((pml4e_walk s pml4e ((la + i) % 2 ^ 64) 1).1 ≠ 0 ∧
          boot_map_region_walks pml4e la size pa perm fuel ((i + PGSIZE) % 2 ^ 64)
            (boot_map_region_body s pml4e la pa perm i))
        ⟨fun hh _ => hh, fun hh => hh h⟩
        (@instDecidableAnd _ _ _ (decWalks pml4e la size pa perm fuel _ _))
    else isTrue (fun h2 => absurd h2 h)

/-- A state with empty page tables whose free list holds the frames
`1, 2, ..., n` in this order. -/
def exLong (n : Nat) : KState :=
  { pages := fun f => { pp_link := if f < n then some (f + 1) else none, pp_ref := 0 }
    page_free_list := if n = 0 then none else some 1
    mem := fun _ => 0 }

/-! ## Boot-time allocation, memory detection and `page_init` -/

/-- Constants, linker symbols and helper functions declared outside
`kern/pmap.c` (`inc/memlayout.h`, `inc/mmu.h`, `kern/kclock.h`,
`kern/multiboot.h`, the linker script), none of which is part of the sources:
they are parameters of the model. The field `pml4phys` is the address of the
symbol `pml4phys`, `end_debug` the value of the symbol used to initialise the
boot allocator, and `sizeof_PageInfo` is `sizeof(struct PageInfo)`. -/
structure Hdr where
  ULIM : Nat
  UPAGES : Nat
  UVPT : Nat
  sizeof_PageInfo : Nat
  IOPHYSMEM : Nat
  EXTPHYSMEM : Nat
  MPENTRY_PADDR : Nat
  pml4phys : Nat
  end_debug : Nat
  NVRAM_BASELO : Nat
  NVRAM_EXTLO : Nat
  NVRAM_EXTGT16LO : Nat
  MB_TYPE_USABLE : Nat
  MB_TYPE_RESERVED : Nat
  MB_TYPE_ACPI_RECLM : Nat
  restrictive_type : Nat → Nat → Nat

/-- Values of the header constants used to instantiate the theorems: the layout
of a 64-bit JOS kernel with `KERNBASE = 0x8004000000`, 16-byte `struct PageInfo`
and the standard CMOS and multiboot codes. -/
def exHdr : Hdr :=
  { ULIM := 0x8003c00000
    UPAGES := 0x8000a00000
    UVPT := 0x10000000000
    sizeof_PageInfo := 16
    IOPHYSMEM := 0x0A0000
    EXTPHYSMEM := 0x100000
    MPENTRY_PADDR := 0x7000
    pml4phys := 0x102000
    end_debug := 0x8004234567
    NVRAM_BASELO := 0x15
    NVRAM_EXTLO := 0x17
    NVRAM_EXTGT16LO := 0x34
    MB_TYPE_USABLE := 1
    MB_TYPE_RESERVED := 2
    MB_TYPE_ACPI_RECLM := 3
    restrictive_type := fun a b => max a b }

/-- The macro `PADDR(kva)`, `kva - KERNBASE`; its panic for an address below
`KERNBASE` is not modelled (the subtraction is truncated). -/
def PADDR (kva : Nat) : Nat := kva - KERNBASE

/-- The function `boot_alloc(n)` for the 32-bit argument `n`. The static
variable `nextfree` is passed in (0 before the first call) and the result is the
returned address together with the new value of `nextfree`; `none` stands for
the `panic`. Pointer sums are taken modulo `2^64`. -/
def boot_alloc (h : Hdr) (npages nextfree n : Nat) : Option (Nat × Nat) :=
  let nextfree1 := if nextfree = 0 then ROUNDUP h.end_debug PGSIZE else nextfree
  if (nextfree1 + n) % 2 ^ 64 < nextfree1 ∨
      (nextfree1 + n) % 2 ^ 64 > (npages * PGSIZE + KERNBASE) % 2 ^ 64 then none
  else some (nextfree1, ROUNDUP ((nextfree1 + n) % 2 ^ 64) PGSIZE)

/-- The macro `BOOT_PAGE_TABLE_START`. -/
def BOOT_PAGE_TABLE_START (h : Hdr) : Nat := KADDR h.pml4phys

/-- The macro `BOOT_PAGE_TABLE_END`. -/
def BOOT_PAGE_TABLE_END (h : Hdr) : Nat := KADDR (h.pml4phys + 5 * PGSIZE)

/-- The value of `inuse` at the end of iteration `i` of the loop of `page_init`;
`nextfree` is the address returned by `boot_alloc(0)`. -/
def page_init_inuse (h : Hdr) (npages_basemem nextfree i : Nat) : Int :=
  let inuse0 : Int := 1
  let inuse1 := if i ≠ 0 ∧ i < npages_basemem then 0 else inuse0
  let inuse2 := if i = h.MPENTRY_PADDR / PGSIZE then 1 else inuse1
  let inuse3 := if i ≥ PADDR nextfree / PGSIZE then 0 else inuse2
  let va := (KERNBASE + i * PGSIZE) % 2 ^ 64
  if va ≥ BOOT_PAGE_TABLE_START h ∧ va < BOOT_PAGE_TABLE_END h then 1 else inuse3

/-- Iteration `i` of the loop of `page_init`, from state `s` and the current
value of the local pointer `last`; returns the new state and the new `last`. -/
def page_init_body (h : Hdr) (npages_basemem nextfree : Nat) (s : KState) (last : Option Nat)
    (i : Nat) : KState × Option Nat :=
  let inuse := page_init_inuse h npages_basemem nextfree i
  let s1 := (s.setRef i inuse).setLink i none
  if inuse = 0 then
    let s2 : KState := match last with
      | some l => s1.setLink l (some i)
      | none => { s1 with page_free_list := some i }
    (s2, some i)
  else (s1, last)

/-- The loop `for (i = ...; i < npages; i++)` of `page_init`, with `k`
iterations left. -/
def page_init_loop (h : Hdr) (npages_basemem nextfree : Nat) :
    Nat → Nat → Option Nat → KState → KState
  | 0, _, _, s => s
  | k + 1, i, last, s =>
    page_init_loop h npages_basemem nextfree k (i + 1)
      (page_init_body h npages_basemem nextfree s last i).2
      (page_init_body h npages_basemem nextfree s last i).1

/-- The function `page_init()`: `nextfree0` is the static cursor of
`boot_alloc` at the time of the call; `none` when `boot_alloc(0)` panics. -/
def page_init (h : Hdr) (npages npages_basemem nextfree0 : Nat) (s : KState) : Option KState :=
  match boot_alloc h npages nextfree0 0 with
  | none => none
  | some r => some (page_init_loop h npages_basemem r.1 npages 0 none s)

/-- The classification of frame `i` by `page_init` in the spec's words: the
frame is free when `KERNBASE + i*PGSIZE` lies outside the boot page tables and
either `i` is at or above the frame of the boot-allocator boundary `nextfree`,
or `i` is a frame of base memory other than frame 0 and the frame of
`MPENTRY_PADDR`. -/
def specFree (h : Hdr) (npages_basemem nextfree i : Nat) : Prop :=
  ¬ (BOOT_PAGE_TABLE_START h ≤ KERNBASE + i * PGSIZE ∧
      KERNBASE + i * PGSIZE < BOOT_PAGE_TABLE_END h) ∧
  (i ≥ PADDR nextfree / PGSIZE ∨
    (i ≠ 0 ∧ i < npages_basemem ∧ i ≠ h.MPENTRY_PADDR / PGSIZE))

instance decSpecFree (h : Hdr) (npages_basemem nextfree i : Nat) :
    Decidable (specFree h npages_basemem nextfree i) := by
  unfold specFree; exact inferInstance

/-! ## Memory detection: `multiboot_read`, `nvram_read`, `i386_detect_memory` -/

/-- The type `memory_map_t` of `kern/multiboot.h` (not part of the sources), with
the fields used by `multiboot_read`; each field is a 32-bit word. -/
structure memory_map_t where
  size : Nat
  base_addr_low : Nat
  base_addr_high : Nat
  length_low : Nat
  length_high : Nat
  type : Nat
deriving DecidableEq

/-- Modelled from the spec: the macro `APPEND_HILO(hi, lo)` of
`kern/multiboot.h`, the 64-bit value whose high word is `hi` and low word `lo`. -/
def APPEND_HILO (hi lo : Nat) : Nat := (hi * 2 ^ 32 + lo) % 2 ^ 64

/-- The two arrays `multiboot_read` works on: the firmware map `mmap_base`
(`ents`, modified in place) and the local array of pointers `mmap_list`, whose
elements are the index of an entry of `mmap_base` or `none` (a null or not yet
assigned pointer). The array `mmap_list` is declared with as many elements as
the firmware map has entries; the functions that store to it take this number
`n` and give no result when an index is not below it. -/
structure MbState where
  ents : Nat → memory_map_t
  list : Nat → Option Nat

/-- The search `for (; j < i; j++) ... if (this_addr > addr) ... break` of the
insertion step, with `k` iterations left from `j`: the index at which the search
stops. -/
def mb_find (ents : Nat → memory_map_t) (list : Nat → Option Nat) (addr : Nat) :
    Nat → Nat → Nat
  | 0, j => j
  | k + 1, j =>
    match list j with
    | some t =>
      if APPEND_HILO (ents t).base_addr_high (ents t).base_addr_low > addr then j
      else mb_find ents list addr k (j + 1)
    | none => mb_find ents list addr k (j + 1)

/-- The loop `while (last != j) { mmap_list[last] = mmap_list[last-1]; last--; }`
with `last = j + d`, on the array `mmap_list` of `n` elements: `none` when the
store `mmap_list[last]` is outside the array (undefined behaviour). -/
def mb_shift (n : Nat) (list : Nat → Option Nat) (j : Nat) : Nat → Option (Nat → Option Nat)
  | 0 => some list
  | d + 1 =>
    if j + d + 1 < n then mb_shift n (Function.update list (j + d + 1) (list (j + d))) j d
    else none

/-- Iteration `i` of the first loop of `multiboot_read` for a map of `n`
entries: the type of entry `i` is normalised and the entry is inserted in the
list sorted by base address; `none` when the shift stores outside the array. -/
def mb_insert_body (n : Nat) (h : Hdr) (st : MbState) (i : Nat) : Option MbState :=
  let mmap := st.ents i
  let addr := APPEND_HILO mmap.base_addr_high mmap.base_addr_low
  let ents1 := if mmap.type > 5 ∨ mmap.type < 1
    then Function.update st.ents i { mmap with type := h.MB_TYPE_RESERVED } else st.ents
  let j := mb_find ents1 st.list addr i 0
  match (if j < i then mb_shift n st.list j (i + 1 - j) else some st.list) with
  | some list1 => some { ents := ents1, list := Function.update list1 j (some i) }
  | none => none

/-- The first loop of `multiboot_read` for a map of `n` entries, with `k`
iterations left from `i`. -/
def mb_insert_loop (n : Nat) (h : Hdr) : Nat → Nat → MbState → Option MbState
  | 0, _, st => some st
  | k + 1, i, st =>
    match mb_insert_body n h st i with
    | some st1 => mb_insert_loop n h k (i + 1) st1
    | none => none

/-- Iteration `i` of the sanitising loop of `multiboot_read`. The stores through
`this` and `prev` are applied in program order. The first loop has filled the
positions below the number of entries, so neither pointer is null there; for a
null pointer, which the C code would dereference, the state is returned as it
is. -/
def mb_sanitize_body (h : Hdr) (st : MbState) (i : Nat) : MbState :=
  match st.list (i - 1), st.list i with
  | some p, some t =>
    let prev := st.ents p
    let this := st.ents t
    let this_addr := APPEND_HILO this.base_addr_high this.base_addr_low
    let prev_addr := APPEND_HILO prev.base_addr_high prev.base_addr_low
    let prev_length := APPEND_HILO prev.length_high prev.length_low
    let this_length := APPEND_HILO this.length_high this.length_low
    if (prev_addr + prev_length) % 2 ^ 64 = this_addr ∧ prev.type = this.type then
      let this1 := { this with
        length_low := ((prev_length % 2 ^ 32 + this_length) % 2 ^ 64) % 2 ^ 32
        length_high := (((prev_length + this_length) % 2 ^ 64) >>> 32) % 2 ^ 32 }
      let prev1 := if p = t then this1 else prev
      let this2 := { this1 with
        base_addr_low := prev1.base_addr_low
        base_addr_high := prev1.base_addr_high }
      { ents := Function.update st.ents t this2, list := Function.update st.list (i - 1) none }
    else if (prev_addr + prev_length) % 2 ^ 64 > this_addr then
      let type := h.restrictive_type prev.type this.type
      let ents1 := Function.update st.ents p { prev with type := type }
      { ents := Function.update ents1 t { ents1 t with type := type }, list := st.list }
    else st
  | _, _ => st

/-- The sanitising loop of `multiboot_read`, with `k` iterations left from `i`. -/
def mb_sanitize_loop (h : Hdr) : Nat → Nat → MbState → MbState
  | 0, _, st => st
  | k + 1, i, st => mb_sanitize_loop h k (i + 1) (mb_sanitize_body h st i)

/-- Iteration `i` of the last loop of `multiboot_read`; `acc` is the pair
`(*basemem, *extmem)`. -/
def mb_sum_body (h : Hdr) (st : MbState) (acc : Nat × Nat) (i : Nat) : Nat × Nat :=
  match st.list i with
  | some m =>
    let mmap := st.ents m
    if mmap.type = h.MB_TYPE_USABLE ∨ mmap.type = h.MB_TYPE_ACPI_RECLM then
      if mmap.base_addr_low < 0x100000 ∧ mmap.base_addr_high = 0 then
        ((acc.1 + APPEND_HILO mmap.length_high mmap.length_low) % 2 ^ 64, acc.2)
      else (acc.1, (acc.2 + APPEND_HILO mmap.length_high mmap.length_low) % 2 ^ 64)
    else acc
  | none => acc

/-- The last loop of `multiboot_read`, with `k` iterations left from `i`. -/
def mb_sum_loop (h : Hdr) (st : MbState) : Nat → Nat → Nat × Nat → Nat × Nat
  | 0, _, acc => acc
  | k + 1, i, acc => mb_sum_loop h st k (i + 1) (mb_sum_body h st acc i)

/-- The function `multiboot_read(mbinfo, &basemem, &extmem)`: `mmap_base` is the
firmware map at `mbinfo->mmap_addr`, `count` is
`mbinfo->mmap_length / sizeof(memory_map_t)`, the length of `mmap_list`, and the
result is the pair of the new values of `*basemem` and `*extmem`, or `none`
when the first loop stores outside `mmap_list`. -/
def multiboot_read (h : Hdr) (mmap_base : Nat → memory_map_t) (count : Nat)
    (basemem extmem : Nat) : Option (Nat × Nat) :=
  let st0 : MbState := { ents := mmap_base, list := fun _ => none }
  match mb_insert_loop count h count 0 st0 with
  | some st1 =>
    let st2 := mb_sanitize_loop h (count - 1) 1 st1
    some (mb_sum_loop h st2 count 0 (basemem, extmem))
  | none => none

/-- The array whose first elements are those of `l`. -/
def mbArray (l : List memory_map_t) : Nat → memory_map_t :=
  fun i => l.getD i ⟨0, 0, 0, 0, 0, 0⟩

/-- The function `nvram_read(r)`; `mc146818_read` is the CMOS read of
`kern/kclock.c`, a parameter. -/
def nvram_read (mc146818_read : Nat → Nat) (r : Nat) : Nat :=
  mc146818_read r ||| (mc146818_read (r + 1) <<< 8)

/-- The `size_t` value of an `int` expression whose mathematical value is the
natural number `x`. The `int` holds the 32-bit two's complement number
congruent to `x`: `x` itself within the range of `int`; beyond it the C
expression overflows, and the wrapped value is what the compiled kernel
computes. The conversion to the 64-bit unsigned type keeps a non-negative value
and turns a negative one into a value of at least `2^63`. -/
def int_to_size_t (x : Nat) : Nat :=
  if x % 2 ^ 32 < 2 ^ 31 then x % 2 ^ 32 else x % 2 ^ 32 + (2 ^ 64 - 2 ^ 32)

/-- The statements of `i386_detect_memory` up to the computation of `npages`
from the detected sizes: the result is the pair `(npages, npages_basemem)`, or
`none` when `assert(basemem)` fails or `multiboot_read` gives no result. The
argument `mb` is the firmware map and its number of entries when the boot
loader passed a multiboot structure with the flag `MB_FLAG_MMAP`, `none`
otherwise. The products with the CMOS words are `int` products converted to
`size_t`; the sum `16MB + pextmem - 1MB` is taken in 64 bits. -/
def i386_detect_memory_detect (h : Hdr) (mc146818_read : Nat → Nat)
    (mb : Option ((Nat → memory_map_t) × Nat)) : Option (Nat × Nat) :=
  let sizes : Option (Nat × Nat) := match mb with
    | some m => multiboot_read h m.1 m.2 0 0
    | none => some (int_to_size_t (nvram_read mc146818_read h.NVRAM_BASELO * 1024),
        int_to_size_t (nvram_read mc146818_read h.NVRAM_EXTLO * 1024))
  match sizes with
  | none => none
  | some sz =>
    let basemem := sz.1
    let extmem := sz.2
    if basemem = 0 then none
    else
      let npages_basemem := basemem / PGSIZE
      let npages_extmem0 := extmem / PGSIZE
      let npages_extmem :=
        if nvram_read mc146818_read h.NVRAM_EXTLO = 0xffff then
          let pextmem :=
            int_to_size_t (nvram_read mc146818_read h.NVRAM_EXTGT16LO * (64 * 1024))
          (((16 * 1024 * 1024) + pextmem + (2 ^ 64 - (1 * 1024 * 1024))) % 2 ^ 64) / PGSIZE
        else npages_extmem0
      let npages := if npages_extmem ≠ 0 then h.EXTPHYSMEM / PGSIZE + npages_extmem
        else npages_basemem
      some (npages, npages_basemem)

/-- The value `max_npages` computed by `i386_detect_memory`. -/
def max_npages (h : Hdr) : Nat :=
  let upages_max := (h.ULIM - h.UPAGES) / h.sizeof_PageInfo
  let kern_mem_max := (h.UVPT - KERNBASE) / PGSIZE
  if upages_max < kern_mem_max then upages_max else kern_mem_max

/-- The function `i386_detect_memory()`: the detection above followed by the
clamp of `npages`; the result is the pair of the globals
`(npages, npages_basemem)`. The subtraction `max_npages - 1024` is taken in 64
bits. -/
def i386_detect_memory (h : Hdr) (mc146818_read : Nat → Nat)
    (mb : Option ((Nat → memory_map_t) × Nat)) : Option (Nat × Nat) :=
  match i386_detect_memory_detect h mc146818_read mb with
  | none => none
  | some r =>
    if r.1 > max_npages h then some ((max_npages h + 2 ^ 64 - 1024) % 2 ^ 64, r.2)
    else some r

/-- Labelling of the four tables of the state `exMapped`: the root and the
tables in frames 1, 2 and 3, each reached through entries 0. -/
def exMappedLab (t : Nat) (p : List Nat) : Prop :=
  (t = 0x8004000000 ∧ p = []) ∨ (t = 0x8004001000 ∧ p = [0]) ∨
  (t = 0x8004002000 ∧ p = [0, 0]) ∨ (t = 0x8004003000 ∧ p = [0, 0, 0])

/-- The free list of state `s` holds the frames `l`, and each of them has a
reference count of 0: a frame with a positive count is not on the free list. -/
def FreeListOK (s : KState) (l : List Nat) : Prop :=
  isList s.pages s.page_free_list l ∧ ∀ f ∈ l, (s.pages f).pp_ref = 0

/-- The 64-bit base address of a region of the firmware map. -/
def mb_addr (e : memory_map_t) : Nat := APPEND_HILO e.base_addr_high e.base_addr_low

/-- The 64-bit length of a region of the firmware map. -/
def mb_len (e : memory_map_t) : Nat := APPEND_HILO e.length_high e.length_low

/-- The region that starts at the base of `prev` and whose length is the 64-bit
sum of the lengths of `prev` and `this`, with the other fields of `this`. -/
def mb_merged (prev this : memory_map_t) : memory_map_t :=
  { this with
    base_addr_low := prev.base_addr_low
    base_addr_high := prev.base_addr_high
    length_low := ((mb_len prev + mb_len this) % 2 ^ 64) % 2 ^ 32
    length_high := ((mb_len prev + mb_len this) % 2 ^ 64) / 2 ^ 32 }

/-- The state of `multiboot_read` after its first loop on a firmware map with
the two usable regions `[0x100000, 0x200000)` and `[0x200000, 0x300000)`. -/
def exRun : MbState :=
  (mb_insert_loop 2 exHdr 2 0
    { ents := mbArray [⟨20, 0x100000, 0, 0x100000, 0, 1⟩, ⟨20, 0x200000, 0, 0x100000, 0, 1⟩],
      list := fun _ => none }).getD
    { ents := mbArray [], list := fun _ => none }

/-- The values of `va` at which the loop of `user_mem_check` runs its test (the
calls `pml4e_walk(env->env_pml4e, va, 0)`), in the order of the iterations, for
at most `fuel` iterations. -/
def user_mem_check_tested (env_pml4e endva perm : Nat) : Nat → Nat → KState → List Nat
  | 0, _, _ => []
  | fuel + 1, va, s =>
    if va < endva then
      let r := pml4e_walk s env_pml4e va 0
      if r.1 = 0 ∨ r.2.mem r.1 &&& (perm ||| PTE_P) ≠ (perm ||| PTE_P) then [va]
      else
        va :: user_mem_check_tested env_pml4e endva perm fuel
          (ROUNDUP ((va + 1) % 2 ^ 64) PGSIZE) r.2
    else []

/-- The values of `va` at which `user_mem_check(env, va, len, perm)` runs its
test: none when the range test fails, otherwise those of the loop, which is
given `len / PGSIZE + 2` iterations as in `user_mem_check`. -/
def user_mem_check_visits (ULIM : Nat) (s : KState) (env_pml4e va len perm : Nat) : List Nat :=
  let endva := (va + len) % 2 ^ 64
  if endva ≥ ULIM ∨ va > endva then []
  else user_mem_check_tested env_pml4e endva perm (len / PGSIZE + 2) va s

/-- The number of pages that intersect `[va, endva)`. -/
def pagesIn (va endva : Nat) : Nat :=
  if va < endva then (endva - 1) / PGSIZE + 1 - va / PGSIZE else 0

/-- Region `x` of the firmware map `ents` comes before region `y` in the order
of the sorted list: its 64-bit base address is smaller, or the bases are equal
and `x` comes first in the map. -/
def mb_before (ents : Nat → memory_map_t) (x y : Nat) : Prop :=
  mb_addr (ents x) < mb_addr (ents y) ∨ (mb_addr (ents x) = mb_addr (ents y) ∧ x < y)

/-- The value of `j` at which the search of iteration `i` of the first loop of
`multiboot_read` stops: the position at which entry `i` is stored. -/
def mb_insert_pos (h : Hdr) (st : MbState) (i : Nat) : Nat :=
  mb_find (if (st.ents i).type > 5 ∨ (st.ents i).type < 1
      then Function.update st.ents i { st.ents i with type := h.MB_TYPE_RESERVED }
      else st.ents) st.list (APPEND_HILO (st.ents i).base_addr_high (st.ents i).base_addr_low) i 0

/-- The loop `while (last != j) { mmap_list[last] = mmap_list[last-1]; last--; }`
with `last = j + d`, on a list with room after the last element of `mmap_list`:
the stores as the statements make them, whatever the index. -/
def mb_shift_ext (list : Nat → Option Nat) (j : Nat) : Nat → Nat → Option Nat
  | 0 => list
  | d + 1 => mb_shift_ext (Function.update list (j + d + 1) (list (j + d))) j d

/-- Iteration `i` of the first loop of `multiboot_read` on a list with room
after the last element of `mmap_list`: the statements of `mb_insert_body`
without the bound of the array. It tells which slots the iteration accesses and
what it leaves in them; it agrees with `mb_insert_body` whenever that gives a
result. -/
def mb_insert_body_ext (h : Hdr) (st : MbState) (i : Nat) : MbState :=
  let mmap := st.ents i
  let addr := APPEND_HILO mmap.base_addr_high mmap.base_addr_low
  let ents1 := if mmap.type > 5 ∨ mmap.type < 1
    then Function.update st.ents i { mmap with type := h.MB_TYPE_RESERVED } else st.ents
  let j := mb_find ents1 st.list addr i 0
  let list1 := if j < i then mb_shift_ext st.list j (i + 1 - j) else st.list
  { ents := ents1, list := Function.update list1 j (some i) }

/-- The first loop of `multiboot_read` on a list with room after the last
element of `mmap_list`, with `k` iterations left from `i`. -/
def mb_insert_loop_ext (h : Hdr) : Nat → Nat → MbState → MbState
  | 0, _, st => st
  | k + 1, i, st => mb_insert_loop_ext h k (i + 1) (mb_insert_body_ext h st i)

/-- An access to the array `mmap_list` of `multiboot_read`: a read or a write of
the element at an index. -/
inductive MbAccess where
  | read (i : Nat)
  | write (i : Nat)
deriving DecidableEq

/-- The accesses to `mmap_list` made by the search
`for (; j < i; j++) { this = mmap_list[j]; ... }` of the insertion step, with
`k` iterations left from `j`: one read per iteration, up to the `break`. -/
def mb_find_acc (ents : Nat → memory_map_t) (list : Nat → Option Nat) (addr : Nat) :
    Nat → Nat → List MbAccess
  | 0, _ => []
  | k + 1, j =>
    MbAccess.read j ::
      (match list j with
       | some t =>
         if APPEND_HILO (ents t).base_addr_high (ents t).base_addr_low > addr then []
         else mb_find_acc ents list addr k (j + 1)
       | none => mb_find_acc ents list addr k (j + 1))

/-- The accesses to `mmap_list` made by the loop
`while (last != j) { mmap_list[last] = mmap_list[last-1]; last--; }` with
`last = j + d`: each iteration reads the element `last - 1` and writes the
element `last`. -/
def mb_shift_acc (j : Nat) : Nat → List MbAccess
  | 0 => []
  | d + 1 => MbAccess.read (j + d) :: MbAccess.write (j + d + 1) :: mb_shift_acc j d

/-- The accesses to `mmap_list` made by iteration `i` of the first loop of
`multiboot_read`, in program order: the search, the shift from `last = i + 1`
when the search has stopped at some `j < i`, and the store `mmap_list[j] = mmap`. -/
def mb_insert_body_acc (h : Hdr) (st : MbState) (i : Nat) : List MbAccess :=
  let mmap := st.ents i
  let addr := APPEND_HILO mmap.base_addr_high mmap.base_addr_low
  let ents1 := if mmap.type > 5 ∨ mmap.type < 1
    then Function.update st.ents i { mmap with type := h.MB_TYPE_RESERVED } else st.ents
  let j := mb_find ents1 st.list addr i 0
  mb_find_acc ents1 st.list addr i 0 ++ (if j < i then mb_shift_acc j (i + 1 - j) else []) ++
    [MbAccess.write j]

/-- The accesses to `mmap_list` made by the first loop of `multiboot_read`, with
`k` iterations left from `i`. -/
def mb_insert_loop_acc (h : Hdr) : Nat → Nat → MbState → List MbAccess
  | 0, _, _ => []
  | k + 1, i, st =>
    mb_insert_body_acc h st i ++ mb_insert_loop_acc h k (i + 1) (mb_insert_body_ext h st i)

/-! ## Free-list lemmas -/

theorem isList_unique (pages : Nat → PageInfo) : ∀ (l1 l2 : List Nat) (h : Option Nat),
    isList pages h l1 → isList pages h l2 → l1 = l2
  | [], [], _, _, _ => rfl
  | [], _ :: _, _, h1, h2 => by
      simp only [isList] at h1 h2; rw [h1] at h2; exact absurd h2.1 (by simp)
  | _ :: _, [], _, h1, h2 => by
      simp only [isList] at h1 h2; rw [h2] at h1; exact absurd h1.1 (by simp)
  | x :: xs, y :: ys, _, h1, h2 => by
      simp only [isList] at h1 h2
      have hxy : x = y := Option.some.inj (h1.1.symm.trans h2.1)
      subst hxy
      rw [isList_unique pages xs ys _ h1.2 h2.2]

theorem isList_suffix (pages : Nat → PageInfo) : ∀ (l1 l2 : List Nat) (h : Option Nat),
    isList pages h (l1 ++ l2) → ∃ h2, isList pages h2 l2
  | [], _, h, hl => ⟨h, hl⟩
  | _ :: xs, l2, _, hl => by
      simp only [List.cons_append, isList] at hl
      exact isList_suffix pages xs l2 _ hl.2

theorem isList_head_not_mem (pages : Nat → PageInfo) (x : Nat) (xs : List Nat) (h : Option Nat)
    (hl : isList pages h (x :: xs)) : x ∉ xs := by
  intro hx
  obtain ⟨ys, zs, rfl⟩ := List.append_of_mem hx
  have h1 : isList pages (pages x).pp_link (ys ++ x :: zs) := hl.2
  obtain ⟨h2, h3⟩ := isList_suffix pages ys (x :: zs) _ h1
  have h4 : isList pages (pages x).pp_link zs := h3.2
  have hlen := congrArg List.length (isList_unique pages _ _ _ h1 h4)
  simp at hlen
  omega

theorem isList_nodup (pages : Nat → PageInfo) : ∀ (l : List Nat) (h : Option Nat),
    isList pages h l → l.Nodup
  | [], _, _ => List.nodup_nil
  | x :: xs, h, hl =>
      List.nodup_cons.mpr ⟨isList_head_not_mem pages x xs h hl, isList_nodup pages xs _ hl.2⟩

theorem isList_congr (p1 p2 : Nat → PageInfo) : ∀ (l : List Nat) (h : Option Nat),
    (∀ x ∈ l, (p2 x).pp_link = (p1 x).pp_link) → isList p1 h l → isList p2 h l
  | [], _, _, hl => hl
  | x :: xs, _, hp, hl => by
      refine ⟨hl.1, ?_⟩
      rw [hp x (List.mem_cons_self _ _)]
      exact isList_congr p1 p2 xs _ (fun y hy => hp y (List.mem_cons_of_mem _ hy)) hl.2

/-! ## page_alloc, page_free -/

theorem page_alloc_none (s : KState) (flags : Nat) (h : s.page_free_list = none) :
    page_alloc s flags = (none, s) := by
  simp [page_alloc, h]

theorem page_alloc_some_fst (s : KState) (flags pp : Nat) (h : s.page_free_list = some pp) :
    (page_alloc s flags).1 = some pp := by
  simp [page_alloc, h]

theorem page_alloc_some_free (s : KState) (flags pp : Nat) (h : s.page_free_list = some pp) :
    (page_alloc s flags).2.page_free_list = (s.pages pp).pp_link := by
  simp only [page_alloc, h]
  split_ifs <;> rfl

theorem page_alloc_some_pages (s : KState) (flags pp : Nat) (h : s.page_free_list = some pp) :
    (page_alloc s flags).2.pages =
      fun i => if i = pp then { s.pages i with pp_link := none } else s.pages i := by
  simp only [page_alloc, h]
  split_ifs <;> rfl

theorem page_alloc_list (s : KState) (flags x : Nat) (xs : List Nat)
    (hl : isList s.pages s.page_free_list (x :: xs)) :
    isList (page_alloc s flags).2.pages (page_alloc s flags).2.page_free_list xs := by
  have hx := isList_head_not_mem _ _ _ _ hl
  rw [page_alloc_some_free s flags x hl.1, page_alloc_some_pages s flags x hl.1]
  refine isList_congr s.pages _ xs _ ?_ hl.2
  intro y hy
  have : y ≠ x := fun h => hx (h ▸ hy)
  simp [this]

theorem page_alloc_seq_spec (flags : Nat) : ∀ (n : Nat) (s : KState) (l : List Nat),
    isList s.pages s.page_free_list l → n ≤ l.length →
    (page_alloc_seq s flags n).1 = (l.take n).map some ∧
    isList (page_alloc_seq s flags n).2.pages (page_alloc_seq s flags n).2.page_free_list
      (l.drop n) ∧
    (∀ i, i ∉ l.take n → (page_alloc_seq s flags n).2.pages i = s.pages i) ∧
    (∀ i ∈ l.take n, (page_alloc_seq s flags n).2.pages i = { s.pages i with pp_link := none })
  | 0, s, l, hl, _ => by simp [page_alloc_seq, hl]
  | n + 1, s, [], _, hn => by simp at hn
  | n + 1, s, x :: xs, hl, hn => by
      have hx := isList_head_not_mem _ _ _ _ hl
      have hn2 : n ≤ xs.length := by simpa using hn
      obtain ⟨h1, h2, h3, h4⟩ :=
        page_alloc_seq_spec flags n (page_alloc s flags).2 xs (page_alloc_list s flags x xs hl) hn2
      have hp := page_alloc_some_pages s flags x hl.1
      have hxt : x ∉ xs.take n := fun h => hx (List.mem_of_mem_take h)
      refine ⟨?_, ?_, ?_, ?_⟩
      · simp [page_alloc_seq, h1, page_alloc_some_fst s flags x hl.1]
      · simpa [page_alloc_seq] using h2
      · intro i hi
        simp only [List.take_succ_cons, List.mem_cons, not_or] at hi
        simp only [page_alloc_seq]
        rw [h3 i hi.2, hp]
        simp [hi.1]
      · intro i hi
        simp only [List.take_succ_cons, List.mem_cons] at hi
        simp only [page_alloc_seq]
        rcases hi with rfl | hi
        · rw [h3 i hxt, hp]; simp
        · have : i ≠ x := fun h => hxt (h ▸ hi)
          rw [h4 i hi, hp]; simp [this]


/-! ## Arithmetic of addresses -/

theorem KADDR_ne_zero (pa : Nat) : KADDR pa ≠ 0 := by
  unfold KADDR KERNBASE; omega

theorem KADDR_add (pa n : Nat) : KADDR (pa + n) = KADDR pa + n := by
  unfold KADDR; omega

theorem page2kva_eq (pp : Nat) : page2kva pp = pp * 4096 + KERNBASE := by
  simp [page2kva, KADDR, page2pa, PGSHIFT, Nat.shiftLeft_eq]

/-! ## The walk without creation -/

theorem pgdir_walk_nocreate (s : KState) (pgdir va : Nat) (h : pgdir ≠ 0) :
    pgdir_walk s pgdir va 0 =
      (if s.mem (pgdir + 8 * PDX va) &&& PTE_P = 0 then 0
        else KADDR (PTE_ADDR (s.mem (pgdir + 8 * PDX va))) + 8 * PTX va, s) := by
  simp only [pgdir_walk, h, ne_eq, not_false_eq_true, ite_true, not_true_eq_false, and_false,
    ite_false, ite_not, KADDR_add]
  split_ifs <;> rfl

theorem pdpe_walk_nocreate (s : KState) (pdpe va : Nat) (h : pdpe ≠ 0) :
    pdpe_walk s pdpe va 0 =
      (if s.mem (pdpe + 8 * PDPE va) &&& PTE_P = 0 then (0, s)
        else pgdir_walk s (KADDR (PTE_ADDR (s.mem (pdpe + 8 * PDPE va)))) va 0) := by
  simp only [pdpe_walk, h, ne_eq, not_false_eq_true, ite_true, not_true_eq_false, and_false,
    ite_false, ite_not]

theorem pml4e_walk_nocreate (s : KState) (root va : Nat) (h : root ≠ 0) :
    pml4e_walk s root va 0 = ((leafSlot s root va).getD 0, s) := by
  simp only [pml4e_walk, h, ne_eq, not_false_eq_true, ite_true, not_true_eq_false, and_false,
    ite_false, ite_not, leafSlot]
  by_cases h4 : s.mem (root + 8 * PML4 va) &&& PTE_P = 0
  · rw [if_pos h4, if_pos h4]; rfl
  · rw [if_neg h4, if_neg h4, pdpe_walk_nocreate _ _ _ (KADDR_ne_zero _)]
    by_cases h3 : s.mem (KADDR (PTE_ADDR (s.mem (root + 8 * PML4 va))) + 8 * PDPE va) &&& PTE_P = 0
    · rw [if_pos h3, if_pos h3]; rfl
    · rw [if_neg h3, if_neg h3, pgdir_walk_nocreate _ _ _ (KADDR_ne_zero _)]
      split_ifs <;> rfl

theorem leafSlot_ne_zero (s : KState) (root va p : Nat) (h : leafSlot s root va = some p) :
    p ≠ 0 := by
  simp only [leafSlot] at h
  split_ifs at h
  have h2 := Option.some.inj h
  rw [← h2]
  exact fun h0 => KADDR_ne_zero _ (Nat.eq_zero_of_add_eq_zero_right h0)

theorem page_lookup_eq (s : KState) (root va : Nat) (st : Option Nat) (h : root ≠ 0) :
    page_lookup s root va st =
      match leafSlot s root va with
      | none => { page := none, store := st, state := s }
      | some p =>
        if s.mem p &&& PTE_P = 0 then { page := none, store := st, state := s }
        else { page := some (pa2page (PTE_ADDR (s.mem p))), store := st.map (fun _ => p),
               state := s } := by
  unfold page_lookup
  rw [if_pos h, pml4e_walk_nocreate s root va h]
  cases hp : leafSlot s root va with
  | none =>
    have : ¬ ((none : Option Nat).getD 0 ≠ 0 ∧ s.mem ((none : Option Nat).getD 0) &&& PTE_P ≠ 0) := by
      simp
    simp only []
    rw [if_neg this]
  | some p =>
    have hp0 := leafSlot_ne_zero s root va p hp
    simp only [Option.getD_some]
    by_cases hl : s.mem p &&& PTE_P = 0
    · rw [if_pos hl, if_neg (fun hh => hh.2 hl)]
    · rw [if_neg hl, if_pos ⟨hp0, hl⟩]

theorem page_lookup_null (s : KState) (va : Nat) (st : Option Nat) :
    page_lookup s 0 va st = { page := none, store := st, state := s } := by
  simp [page_lookup]


/-! ## Bit-level facts about table entries -/

theorem testBit_addr_mask (i : Nat) :
    Nat.testBit 0xFFFFFFFFFFFFF000 i = (decide (12 ≤ i) && decide (i < 64)) := by
  have h : (0xFFFFFFFFFFFFF000 : Nat) = (2 ^ 52 - 1) <<< 12 := by decide
  rw [h, Nat.testBit_shiftLeft, Nat.testBit_two_pow_sub_one]
  by_cases h1 : 12 ≤ i <;> by_cases h2 : i < 64 <;> simp [h1, h2] <;> omega

theorem testBit_small (p i : Nat) (hp : p < 4096) (hi : 12 ≤ i) : Nat.testBit p i = false := by
  apply Nat.testBit_lt_two_pow
  calc p < 2 ^ 12 := hp
    _ ≤ 2 ^ i := Nat.pow_le_pow_right (by decide) hi

theorem PTE_ADDR_or_low (e p : Nat) (hp : p < 4096) : PTE_ADDR (e ||| p) = PTE_ADDR e := by
  apply Nat.eq_of_testBit_eq
  intro i
  simp only [PTE_ADDR, Nat.testBit_land, Nat.testBit_lor, testBit_addr_mask]
  by_cases h1 : 12 ≤ i
  · rw [testBit_small p i hp h1]; simp
  · simp [h1]

theorem PTE_ADDR_page2pa (f : Nat) (hf : f < 2 ^ 52) : PTE_ADDR (page2pa f) = page2pa f := by
  apply Nat.eq_of_testBit_eq
  intro i
  simp only [PTE_ADDR, page2pa, PGSHIFT, Nat.testBit_land, Nat.testBit_shiftLeft, testBit_addr_mask]
  by_cases h1 : 12 ≤ i
  · by_cases h2 : i < 64
    · simp [h1, h2]
    · have : Nat.testBit f (i - 12) = false := by
        apply Nat.testBit_lt_two_pow
        calc f < 2 ^ 52 := hf
          _ ≤ 2 ^ (i - 12) := Nat.pow_le_pow_right (by decide) (by omega)
      simp [this]
  · simp [h1]

theorem PTE_ADDR_idem (e : Nat) : PTE_ADDR (PTE_ADDR e) = PTE_ADDR e := by
  simp [PTE_ADDR, Nat.land_assoc]

theorem PTE_ADDR_mod (e : Nat) : PTE_ADDR e % 4096 = 0 := by
  have : PTE_ADDR e % 2 ^ 12 = 0 := by
    apply Nat.eq_of_testBit_eq
    intro i
    simp only [Nat.testBit_mod_two_pow, PTE_ADDR, Nat.testBit_land, testBit_addr_mask,
      Nat.zero_testBit]
    by_cases h1 : 12 ≤ i
    · have : ¬ i < 12 := by omega
      simp [this]
    · simp [h1]
  simpa using this

theorem page2pa_pa2page (e : Nat) : page2pa (pa2page (PTE_ADDR e)) = PTE_ADDR e := by
  have := PTE_ADDR_mod e
  simp only [page2pa, pa2page, PGNUM, PGSHIFT, Nat.shiftLeft_eq, Nat.shiftRight_eq_div_pow]
  omega

theorem pa2page_page2pa (f : Nat) : pa2page (page2pa f) = f := by
  simp [page2pa, pa2page, PGNUM, PGSHIFT, Nat.shiftLeft_eq, Nat.shiftRight_eq_div_pow]

theorem land_P_or (e p : Nat) (h : e &&& PTE_P ≠ 0) : (e ||| p) &&& PTE_P ≠ 0 := by
  unfold PTE_P at *
  rw [Nat.and_one_is_mod] at *
  have := Nat.lor_comm e p
  intro h2
  apply h
  have h3 : Nat.testBit (e ||| p) 0 = false := by
    rw [Nat.testBit_zero]; simp [h2]
  rw [Nat.testBit_lor] at h3
  have h4 : Nat.testBit e 0 = false := by
    cases h5 : Nat.testBit e 0 <;> simp_all
  rw [Nat.testBit_zero] at h4
  simpa using h4

theorem or_P_land (e : Nat) : (e ||| PTE_P) &&& PTE_P ≠ 0 := by
  rw [Nat.lor_comm]
  exact land_P_or PTE_P e (by decide)

theorem entry_present (f : Nat) : (page2pa f ||| PTE_U ||| PTE_W ||| PTE_P) &&& PTE_P ≠ 0 :=
  or_P_land _

theorem entry_addr (f : Nat) (hf : f < 2 ^ 52) :
    PTE_ADDR (page2pa f ||| PTE_U ||| PTE_W ||| PTE_P) = page2pa f := by
  rw [Nat.lor_assoc, Nat.lor_assoc, PTE_ADDR_or_low _ _ (by decide), PTE_ADDR_page2pa f hf]

theorem zero_land_P : (0 : Nat) &&& PTE_P = 0 := by simp

theorem idx_lt (lvl va : Nat) : idx lvl va < 512 := by
  unfold idx
  have : (0x1FF : Nat) = 2 ^ 9 - 1 := by decide
  rw [this, Nat.and_pow_two_sub_one_eq_mod]
  exact Nat.mod_lt _ (by decide)

theorem perm_mask_lt (perm : Nat) (h : perm < 4096) : perm &&& NOT_PTE_AVAIL < 4096 :=
  lt_of_le_of_lt Nat.and_le_left h

theorem or_lt_4096 (a b : Nat) (ha : a < 4096) (hb : b < 4096) : a ||| b < 4096 := by
  have : (4096 : Nat) = 2 ^ 12 := by decide
  rw [this] at *
  exact Nat.or_lt_two_pow ha hb

theorem land_or_self (x m : Nat) : (x ||| m) &&& m = m := by
  apply Nat.eq_of_testBit_eq
  intro i
  simp only [Nat.testBit_land, Nat.testBit_lor]
  cases Nat.testBit x i <;> cases Nat.testBit m i <;> rfl

/-! ## One step of a walk -/

theorem idx_three (va : Nat) : idx 3 va = PML4 va := rfl
theorem idx_two (va : Nat) : idx 2 va = PDPE va := rfl
theorem idx_one (va : Nat) : idx 1 va = PDX va := rfl

theorem alloc_install (s : KState) (f a : Nat) (h : s.page_free_list = some f) :
    (((page_alloc s ALLOC_ZERO).2.setRef f (((page_alloc s ALLOC_ZERO).2.pages f).pp_ref + 1)).store
      a (page2pa f ||| PTE_U ||| PTE_W ||| PTE_P)) = install s f a := by
  have hz : ALLOC_ZERO &&& ALLOC_ZERO ≠ 0 := by decide
  simp only [page_alloc, h]
  rw [if_pos hz]
  simp only [install, KState.store, KState.setRef, KState.setLink, KState.memset0, ite_true]
  congr 1
  funext i
  by_cases hi : i = f
  · subst hi; simp
  · simp [hi]

theorem walkGen_zero (s : KState) (tbl va c : Nat) :
    walkGen 0 s tbl va c = (tbl + 8 * PTX va, s) := rfl

theorem walkGen_null (lvl : Nat) (s : KState) (va c : Nat) :
    walkGen (lvl + 1) s 0 va c = (0, s) := by
  simp [walkGen]

theorem walkGen_present (lvl : Nat) (s : KState) (tbl va c : Nat) (ht : tbl ≠ 0)
    (hp : s.mem (tbl + 8 * idx (lvl + 1) va) &&& PTE_P ≠ 0) :
    walkGen (lvl + 1) s tbl va c =
      walkGen lvl s (KADDR (PTE_ADDR (s.mem (tbl + 8 * idx (lvl + 1) va)))) va c := by
  rw [walkGen, if_pos ht]
  simp only []
  rw [if_neg (fun h => hp h.1), if_pos hp]

theorem walkGen_absent_nocreate (lvl : Nat) (s : KState) (tbl va : Nat)
    (hp : s.mem (tbl + 8 * idx (lvl + 1) va) &&& PTE_P = 0) :
    walkGen (lvl + 1) s tbl va 0 = (0, s) := by
  rw [walkGen]
  by_cases ht : tbl ≠ 0
  · rw [if_pos ht]
    simp only []
    rw [if_neg (fun h => h.2 rfl), if_neg (not_not.mpr hp)]
  · rw [if_neg ht]

theorem walkGen_absent_empty (lvl : Nat) (s : KState) (tbl va c : Nat)
    (hp : s.mem (tbl + 8 * idx (lvl + 1) va) &&& PTE_P = 0)
    (hf : s.page_free_list = none) :
    walkGen (lvl + 1) s tbl va c = (0, s) := by
  rw [walkGen]
  by_cases ht : tbl ≠ 0
  · rw [if_pos ht]
    simp only []
    by_cases hc : c ≠ 0
    · rw [if_pos ⟨hp, hc⟩, page_alloc_none s _ hf]
    · rw [if_neg (fun h => hc h.2), if_neg (not_not.mpr hp)]
  · rw [if_neg ht]

theorem walkGen_install (lvl : Nat) (s : KState) (tbl va c f : Nat) (ht : tbl ≠ 0)
    (hp : s.mem (tbl + 8 * idx (lvl + 1) va) &&& PTE_P = 0) (hc : c ≠ 0)
    (hf : s.page_free_list = some f) :
    walkGen (lvl + 1) s tbl va c =
      if (walkGen lvl (install s f (tbl + 8 * idx (lvl + 1) va))
            (KADDR (PTE_ADDR ((install s f (tbl + 8 * idx (lvl + 1) va)).mem
              (tbl + 8 * idx (lvl + 1) va)))) va c).1 ≠ 0
      then walkGen lvl (install s f (tbl + 8 * idx (lvl + 1) va))
            (KADDR (PTE_ADDR ((install s f (tbl + 8 * idx (lvl + 1) va)).mem
              (tbl + 8 * idx (lvl + 1) va)))) va c
      else (0, page_decref ((walkGen lvl (install s f (tbl + 8 * idx (lvl + 1) va))
            (KADDR (PTE_ADDR ((install s f (tbl + 8 * idx (lvl + 1) va)).mem
              (tbl + 8 * idx (lvl + 1) va)))) va c).2.store (tbl + 8 * idx (lvl + 1) va) 0) f) := by
  rw [walkGen, if_pos ht]
  simp only []
  rw [if_pos ⟨hp, hc⟩]
  have h1 : page_alloc s ALLOC_ZERO = (some f, (page_alloc s ALLOC_ZERO).2) := by
    rw [← page_alloc_some_fst s ALLOC_ZERO f hf]
  rw [h1]
  simp only []
  rw [alloc_install s f _ hf]

/-! ## The level-specific walkers are instances of the generic one -/

theorem pgdir_walk_eq (s : KState) (pgdir va c : Nat) :
    pgdir_walk s pgdir va c = walkGen 1 s pgdir va c := by
  unfold pgdir_walk
  rw [walkGen]
  have hi : idx (0 + 1) va = PDX va := rfl
  simp only [hi, walkGen_zero, KADDR_add]
  have hne : ∀ x : Nat, KADDR x + 8 * PTX va ≠ 0 := fun x h =>
    KADDR_ne_zero x (Nat.eq_zero_of_add_eq_zero_right h)
  by_cases ht : pgdir ≠ 0
  · rw [if_pos ht, if_pos ht]
    by_cases hp : s.mem (pgdir + 8 * PDX va) &&& PTE_P = 0 ∧ c ≠ 0
    · rw [if_pos hp, if_pos hp]
      cases hpa : page_alloc s ALLOC_ZERO with
      | mk o s1 =>
        cases o with
        | none => rfl
        | some page =>
          simp only []
          rw [if_pos (hne _)]
    · rw [if_neg hp, if_neg hp]
  · rw [if_neg ht, if_neg ht]

theorem pdpe_walk_eq (s : KState) (pdpe va c : Nat) :
    pdpe_walk s pdpe va c = walkGen 2 s pdpe va c := by
  unfold pdpe_walk
  rw [walkGen]
  have hi : idx (1 + 1) va = PDPE va := rfl
  simp only [hi, pgdir_walk_eq]

theorem pml4e_walk_eq (s : KState) (pml4e va c : Nat) :
    pml4e_walk s pml4e va c = walkGen 3 s pml4e va c := by
  unfold pml4e_walk
  rw [walkGen]
  have hi : idx (2 + 1) va = PML4 va := rfl
  simp only [hi, pdpe_walk_eq]

/-! ## Reading the state produced by `install` -/

theorem install_mem_slot (s : KState) (f a : Nat) :
    (install s f a).mem a = page2pa f ||| PTE_U ||| PTE_W ||| PTE_P := by
  simp [install]

theorem install_mem_zero (s : KState) (f a x : Nat) (hx : x ≠ a) (hin : inPg (page2kva f) x) :
    (install s f a).mem x = 0 := by
  unfold inPg at hin
  simp only [install]
  rw [if_neg hx, if_pos hin]

theorem install_mem_other (s : KState) (f a x : Nat) (hx : x ≠ a) (hin : ¬ inPg (page2kva f) x) :
    (install s f a).mem x = s.mem x := by
  unfold inPg at hin
  simp only [install]
  rw [if_neg hx, if_neg hin]

theorem install_pages_self (s : KState) (f a : Nat) :
    (install s f a).pages f = { pp_link := none, pp_ref := (s.pages f).pp_ref + 1 } := by
  simp [install]

theorem install_pages_other (s : KState) (f a i : Nat) (h : i ≠ f) :
    (install s f a).pages i = s.pages i := by
  simp [install, h]

theorem install_list (s : KState) (f a : Nat) (l : List Nat)
    (hl : isList s.pages s.page_free_list (f :: l)) :
    isList (install s f a).pages (install s f a).page_free_list l := by
  have hx := isList_head_not_mem _ _ _ _ hl
  refine isList_congr s.pages _ l _ ?_ hl.2
  intro y hy
  have : y ≠ f := fun h => hx (h ▸ hy)
  rw [install_pages_other s f a y this]


/-! ## Separation of table pages -/

theorem slot_inPg (tbl lvl va : Nat) : inPg tbl (tbl + 8 * idx lvl va) := by
  have := idx_lt lvl va
  unfold inPg PGSIZE
  omega

theorem leaf_inPg (tbl va : Nat) : inPg tbl (tbl + 8 * PTX va) :=
  slot_inPg tbl 0 va

theorem sep_not_inPg (t u x : Nat) (h : Sep t u) (hx : inPg t x) : ¬ inPg u x := by
  unfold Sep inPg at *
  omega

theorem getLast?_cons_of_some (x t : Nat) (P : List Nat) (h : P.getLast? = some t) :
    (x :: P).getLast? = some t := by
  cases P with
  | nil => simp at h
  | cons y ys => rw [List.getLast?_cons_cons]; exact h

theorem page_free_mem (s : KState) (pp : Nat) : (page_free s pp).mem = s.mem := by
  unfold page_free
  split_ifs <;> rfl

theorem page_decref_mem (s : KState) (pp : Nat) : (page_decref s pp).mem = s.mem := by
  unfold page_decref
  simp only []
  split_ifs
  · rw [page_free_mem]; rfl
  · rfl

theorem store_mem_self (s : KState) (a v : Nat) : (s.store a v).mem a = v := by
  simp [KState.store]

theorem store_mem_other (s : KState) (a v x : Nat) (h : x ≠ a) : (s.store a v).mem x = s.mem x := by
  simp [KState.store, h]

/-! ## The creating walk -/

theorem walkGen_spec (va c : Nat) (hc : c ≠ 0) :
    ∀ (lvl : Nat) (s : KState) (tbl : Nat) (l : List Nat),
      WalkPre lvl s tbl va l → WalkPost lvl s tbl va l (walkGen lvl s tbl va c)
  | 0, s, tbl, l, hpre => by
      rw [walkGen_zero]
      refine ⟨fun x _ => rfl, fun _ => ⟨0, ?_⟩, fun h => h⟩
      exact ⟨Nat.zero_le _, by simp [pathFrom], by simp [pathFrom],
        ⟨tbl, by simp [pathFrom], rfl⟩, by simpa using hpre.free, fun i _ => rfl,
        by simp, fun _ => rfl, fun h => absurd h (lt_irrefl 0)⟩
  | lvl + 1, s, tbl, l, hpre => by
      by_cases hp : s.mem (tbl + 8 * idx (lvl + 1) va) &&& PTE_P = 0
      · cases l with
        | nil =>
          have hf : s.page_free_list = none := hpre.free
          rw [walkGen_absent_empty lvl s tbl va c hp hf]
          refine ⟨fun _ _ => rfl, fun h => absurd rfl h, fun _ => ?_⟩
          rw [walkGen_absent_nocreate lvl s tbl va hp]
        | cons f l' =>
          have hf : s.page_free_list = some f := hpre.free.1
          rw [walkGen_install lvl s tbl va c f hpre.tbl_ne hp hc hf]
          have hpath : pathFrom (lvl + 1) s tbl va = [tbl] := by rw [pathFrom, if_pos hp]
          have hsep := hpre.sep
          rw [hpath] at hsep
          simp only [List.singleton_append, List.map_cons] at hsep
          obtain ⟨hsep_tbl, hsep_rest⟩ := List.pairwise_cons.mp hsep
          have hf52 : f < 2 ^ 52 := hpre.frames f (List.mem_cons_self _ _)
          have hslot := install_mem_slot s f (tbl + 8 * idx (lvl + 1) va)
          have hchild : KADDR (PTE_ADDR ((install s f (tbl + 8 * idx (lvl + 1) va)).mem
              (tbl + 8 * idx (lvl + 1) va))) = page2kva f := by
            rw [hslot, entry_addr f hf52]; rfl
          rw [hchild]
          have hsepf : Sep tbl (page2kva f) := hsep_tbl _ (List.mem_cons_self _ _)
          have hne : ∀ y, inPg (page2kva f) y → y ≠ tbl + 8 * idx (lvl + 1) va := by
            intro y hy h
            exact sep_not_inPg _ _ _ hsepf (slot_inPg tbl (lvl + 1) va) (h ▸ hy)
          have hpath3 : pathFrom lvl (install s f (tbl + 8 * idx (lvl + 1) va)) (page2kva f) va
              = [page2kva f] := by
            cases lvl with
            | zero => rfl
            | succ n =>
              rw [pathFrom, if_pos]
              rw [install_mem_zero _ _ _ _ (hne _ (slot_inPg _ _ _)) (slot_inPg _ _ _)]
              exact zero_land_P
          have hfl : f ∉ l' := isList_head_not_mem _ _ _ _ hpre.free
          have hpre3 : WalkPre lvl (install s f (tbl + 8 * idx (lvl + 1) va)) (page2kva f) va l' :=
            ⟨KADDR_ne_zero _, install_list s f _ l' hpre.free,
              fun g hg => hpre.frames g (List.mem_cons_of_mem _ hg),
              by rw [hpath3]; exact hsep_rest⟩
          obtain ⟨hF, hS, hN⟩ := walkGen_spec va c hc lvl _ (page2kva f) l' hpre3
          rw [hpath3] at hF
          have ha3 := hF (tbl + 8 * idx (lvl + 1) va)
            (fun t ht => sep_not_inPg _ _ _ (hsep_tbl t ht) (slot_inPg tbl (lvl + 1) va))
          by_cases hr : (walkGen lvl (install s f (tbl + 8 * idx (lvl + 1) va))
              (page2kva f) va c).1 ≠ 0
          · rw [if_pos hr]
            refine ⟨?_, fun _ => ?_, fun h => absurd h hr⟩
            · intro x hx
              rw [hpath] at hx
              have hxt : ¬ inPg tbl x := hx tbl (by simp)
              have hxa : x ≠ tbl + 8 * idx (lvl + 1) va :=
                fun h => hxt (h ▸ slot_inPg tbl (lvl + 1) va)
              have hxf : ¬ inPg (page2kva f) x := hx _ (by simp)
              rw [hF x (fun t ht => hx t (by simp at ht ⊢; tauto)),
                install_mem_other s f _ x hxa hxf]
            · obtain ⟨k, hk⟩ := hS hr
              obtain ⟨hk1, hk2, hk3, ⟨t, hk4, hk4b⟩, hk5, hk6, hk7, hk8, hk9⟩ := hk
              rw [hpath3] at hk2
              have hstep : pathFrom (lvl + 1) (walkGen lvl (install s f (tbl + 8 * idx (lvl + 1) va))
                  (page2kva f) va c).2 tbl va
                  = tbl :: pathFrom lvl (walkGen lvl (install s f (tbl + 8 * idx (lvl + 1) va))
                  (page2kva f) va c).2 (page2kva f) va := by
                rw [pathFrom, ha3, hslot, if_neg (entry_present f), entry_addr f hf52]; rfl
              refine ⟨k + 1, ⟨by simpa using hk1, ?_, ?_, ⟨t, ?_, hk4b⟩, by simpa using hk5,
                ?_, ?_, fun h => absurd h (Nat.succ_ne_zero k), fun _ => ?_⟩⟩
              · rw [hstep, hk2, hpath]; simp
              · rw [hstep, List.length_cons, hk3]
              · rw [hstep]; exact getLast?_cons_of_some _ _ _ hk4
              · intro i hi
                simp only [List.take_succ_cons, List.mem_cons, not_or] at hi
                rw [hk6 i hi.2, install_pages_other _ _ _ _ hi.1]
              · intro i hi
                simp only [List.take_succ_cons, List.mem_cons] at hi
                rcases hi with rfl | hi
                · rw [hk6 i (fun h => hfl (List.mem_of_mem_take h)), install_pages_self]
                · have hif : i ≠ f := fun h => hfl (h ▸ List.mem_of_mem_take hi)
                  rw [hk7 i hi, install_pages_other _ _ _ _ hif]
              · by_cases hk0 : 0 < k
                · exact hk9 hk0
                · have hk00 : k = 0 := by omega
                  subst hk00
                  rw [hk2] at hk4
                  simp only [List.take_zero, List.map_nil, List.append_nil,
                    List.getLast?_singleton, Option.some.injEq] at hk4
                  rw [hk8 rfl, hk4b, ← hk4]
                  exact install_mem_zero _ _ _ _ (hne _ (leaf_inPg _ _)) (leaf_inPg _ _)
          · rw [if_neg hr]
            refine ⟨?_, fun h => absurd rfl h, fun _ => ?_⟩
            · intro x hx
              rw [hpath] at hx
              have hxt : ¬ inPg tbl x := hx tbl (by simp)
              have hxa : x ≠ tbl + 8 * idx (lvl + 1) va :=
                fun h => hxt (h ▸ slot_inPg tbl (lvl + 1) va)
              have hxf : ¬ inPg (page2kva f) x := hx _ (by simp)
              show (page_decref _ f).mem x = s.mem x
              rw [page_decref_mem, store_mem_other _ _ _ _ hxa,
                hF x (fun t ht => hx t (by simp at ht ⊢; tauto)),
                install_mem_other s f _ x hxa hxf]
            · show (walkGen (lvl + 1) (page_decref _ f) tbl va 0).1 = 0
              rw [walkGen_absent_nocreate]
              rw [page_decref_mem, store_mem_self]
              exact zero_land_P
      · rw [walkGen_present lvl s tbl va c hpre.tbl_ne hp]
        have hpath : pathFrom (lvl + 1) s tbl va
            = tbl :: pathFrom lvl s (KADDR (PTE_ADDR (s.mem (tbl + 8 * idx (lvl + 1) va)))) va := by
          rw [pathFrom, if_neg hp]
        have hsep := hpre.sep
        rw [hpath, List.cons_append] at hsep
        obtain ⟨hsep_tbl, hsep_rest⟩ := List.pairwise_cons.mp hsep
        have hpre2 : WalkPre lvl s (KADDR (PTE_ADDR (s.mem (tbl + 8 * idx (lvl + 1) va)))) va l :=
          ⟨KADDR_ne_zero _, hpre.free, hpre.frames, hsep_rest⟩
        obtain ⟨hF, hS, hN⟩ := walkGen_spec va c hc lvl s _ l hpre2
        have ha := hF (tbl + 8 * idx (lvl + 1) va)
          (fun t ht => sep_not_inPg _ _ _ (hsep_tbl t ht) (slot_inPg tbl (lvl + 1) va))
        have hstep : pathFrom (lvl + 1) (walkGen lvl s
            (KADDR (PTE_ADDR (s.mem (tbl + 8 * idx (lvl + 1) va)))) va c).2 tbl va
            = tbl :: pathFrom lvl (walkGen lvl s
            (KADDR (PTE_ADDR (s.mem (tbl + 8 * idx (lvl + 1) va)))) va c).2
            (KADDR (PTE_ADDR (s.mem (tbl + 8 * idx (lvl + 1) va)))) va := by
          rw [pathFrom, ha, if_neg hp]
        refine ⟨?_, fun h => ?_, fun h => ?_⟩
        · intro x hx
          exact hF x (fun t ht => hx t (by rw [hpath, List.cons_append]; exact List.mem_cons_of_mem _ ht))
        · obtain ⟨k, hk1, hk2, hk3, ⟨t, hk4, hk4b⟩, hk5, hk6, hk7, hk8, hk9⟩ := hS h
          refine ⟨k, ⟨hk1, ?_, ?_, ⟨t, ?_, hk4b⟩, hk5, hk6, hk7, hk8, hk9⟩⟩
          · rw [hstep, hk2, hpath]; rfl
          · rw [hstep, List.length_cons, hk3]
          · rw [hstep]; exact getLast?_cons_of_some _ _ _ hk4
        · rw [walkGen_present lvl _ tbl va 0 hpre.tbl_ne (by rw [ha]; exact hp), ha]
          exact hN h


/-! ## Failure of a walk leaves reference counts alone -/

theorem page_free_ref (s : KState) (pp i : Nat) :
    ((page_free s pp).pages i).pp_ref = (s.pages i).pp_ref := by
  unfold page_free
  by_cases h : (s.pages pp).pp_ref ≠ 0 ∨ (s.pages pp).pp_link ≠ none
  · rw [if_pos h]
  · rw [if_neg h]
    simp only [not_or, not_not] at h
    by_cases hi : i = pp
    · subst hi; simp [KState.setRef, KState.setLink, h.1]
    · simp [KState.setRef, KState.setLink, hi]

theorem page_decref_ref_self (s : KState) (pp : Nat) :
    ((page_decref s pp).pages pp).pp_ref = (s.pages pp).pp_ref - 1 := by
  unfold page_decref
  simp only []
  split_ifs
  · rw [page_free_ref]; simp [KState.setRef]
  · simp [KState.setRef]

theorem page_decref_ref_other (s : KState) (pp i : Nat) (h : i ≠ pp) :
    ((page_decref s pp).pages i).pp_ref = (s.pages i).pp_ref := by
  unfold page_decref
  simp only []
  split_ifs
  · rw [page_free_ref]; simp [KState.setRef, h]
  · simp [KState.setRef, h]

theorem install_ref_self (s : KState) (f a : Nat) :
    ((install s f a).pages f).pp_ref = (s.pages f).pp_ref + 1 := by
  simp [install]

theorem walkGen_fail_ref (va c : Nat) :
    ∀ (lvl : Nat) (s : KState) (tbl : Nat), (walkGen lvl s tbl va c).1 = 0 →
      ∀ i, ((walkGen lvl s tbl va c).2.pages i).pp_ref = (s.pages i).pp_ref
  | 0, _, _, _, _ => rfl
  | lvl + 1, s, tbl, h, i => by
      by_cases ht : tbl ≠ 0
      · by_cases hp : s.mem (tbl + 8 * idx (lvl + 1) va) &&& PTE_P = 0
        · by_cases hc : c ≠ 0
          · cases hf : s.page_free_list with
            | none => rw [walkGen_absent_empty lvl s tbl va c hp hf]
            | some f =>
              rw [walkGen_install lvl s tbl va c f ht hp hc hf] at h ⊢
              by_cases hr : (walkGen lvl (install s f (tbl + 8 * idx (lvl + 1) va))
                  (KADDR (PTE_ADDR ((install s f (tbl + 8 * idx (lvl + 1) va)).mem
                    (tbl + 8 * idx (lvl + 1) va)))) va c).1 ≠ 0
              · rw [if_pos hr] at h; exact absurd h hr
              · rw [if_neg hr]
                have ih := walkGen_fail_ref va c lvl _ _ (not_not.mp hr)
                show ((page_decref _ f).pages i).pp_ref = _
                by_cases hi : i = f
                · subst hi
                  rw [page_decref_ref_self]
                  show ((walkGen lvl _ _ va c).2.pages i).pp_ref - 1 = _
                  rw [ih i, install_ref_self]; omega
                · rw [page_decref_ref_other _ _ _ hi]
                  show ((walkGen lvl _ _ va c).2.pages i).pp_ref = _
                  rw [ih i, install_pages_other _ _ _ _ hi]
          · have hc0 : c = 0 := not_not.mp hc
            subst hc0
            rw [walkGen_absent_nocreate lvl s tbl va hp]
        · rw [walkGen_present lvl s tbl va c ht hp] at h ⊢
          exact walkGen_fail_ref va c lvl s _ h i
      · have ht0 : tbl = 0 := not_not.mp ht
        subst ht0
        rw [walkGen_null]

theorem walkGen_fail_before (va c : Nat) :
    ∀ (lvl : Nat) (s : KState) (tbl : Nat), (walkGen lvl s tbl va c).1 = 0 →
      (walkGen lvl s tbl va 0).1 = 0
  | 0, _, _, h => h
  | lvl + 1, s, tbl, h => by
      by_cases ht : tbl ≠ 0
      · by_cases hp : s.mem (tbl + 8 * idx (lvl + 1) va) &&& PTE_P = 0
        · rw [walkGen_absent_nocreate lvl s tbl va hp]
        · rw [walkGen_present lvl s tbl va c ht hp] at h
          rw [walkGen_present lvl s tbl va 0 ht hp]
          exact walkGen_fail_before va c lvl s _ h
      · have ht0 : tbl = 0 := not_not.mp ht
        subst ht0
        rw [walkGen_null]


/-! ## Complete paths -/

theorem pathFrom_absent (lvl : Nat) (s : KState) (tbl va : Nat)
    (h : s.mem (tbl + 8 * idx (lvl + 1) va) &&& PTE_P = 0) :
    pathFrom (lvl + 1) s tbl va = [tbl] := by
  rw [pathFrom, if_pos h]

theorem pathFrom_present (lvl : Nat) (s : KState) (tbl va : Nat)
    (h : s.mem (tbl + 8 * idx (lvl + 1) va) &&& PTE_P ≠ 0) :
    pathFrom (lvl + 1) s tbl va =
      tbl :: pathFrom lvl s (KADDR (PTE_ADDR (s.mem (tbl + 8 * idx (lvl + 1) va)))) va := by
  rw [pathFrom, if_neg h]

theorem pathFrom_three_full (s : KState) (root va : Nat)
    (hlen : (pathFrom 3 s root va).length = 4) (hsep : (pathFrom 3 s root va).Pairwise Sep) :
    ∃ t3 t2 t1, FullPath s root va t3 t2 t1 ∧ pathFrom 3 s root va = [root, t3, t2, t1] := by
  by_cases h4 : s.mem (root + 8 * idx (2 + 1) va) &&& PTE_P = 0
  · rw [pathFrom_absent 2 s root va h4] at hlen; simp at hlen
  · rw [pathFrom_present 2 s root va h4] at hlen hsep ⊢
    by_cases h3 : s.mem (KADDR (PTE_ADDR (s.mem (root + 8 * idx (2 + 1) va))) + 8 * idx (1 + 1) va)
        &&& PTE_P = 0
    · rw [pathFrom_absent 1 s _ va h3] at hlen; simp at hlen
    · rw [pathFrom_present 1 s _ va h3] at hlen hsep ⊢
      by_cases h2 : s.mem (KADDR (PTE_ADDR (s.mem (KADDR (PTE_ADDR (s.mem
          (root + 8 * idx (2 + 1) va))) + 8 * idx (1 + 1) va))) + 8 * idx (0 + 1) va) &&& PTE_P = 0
      · rw [pathFrom_absent 0 s _ va h2] at hlen; simp at hlen
      · rw [pathFrom_present 0 s _ va h2] at hsep ⊢
        exact ⟨_, _, _, ⟨h4, rfl, h3, rfl, h2, rfl, hsep⟩, rfl⟩

theorem leafSlot_pathFrom (s : KState) (root va p : Nat) (h : leafSlot s root va = some p) :
    ∃ t3 t2 t1, pathFrom 3 s root va = [root, t3, t2, t1] ∧ p = t1 + 8 * PTX va := by
  simp only [leafSlot] at h
  split_ifs at h with h4 h3 h2
  have h4' : s.mem (root + 8 * idx (2 + 1) va) &&& PTE_P ≠ 0 := h4
  rw [pathFrom_present 2 s root va h4']
  have h3' : s.mem (KADDR (PTE_ADDR (s.mem (root + 8 * idx (2 + 1) va))) + 8 * idx (1 + 1) va)
      &&& PTE_P ≠ 0 := h3
  rw [pathFrom_present 1 s _ va h3']
  have h2' : s.mem (KADDR (PTE_ADDR (s.mem (KADDR (PTE_ADDR (s.mem
      (root + 8 * idx (2 + 1) va))) + 8 * idx (1 + 1) va))) + 8 * idx (0 + 1) va) &&& PTE_P ≠ 0 := h2
  rw [pathFrom_present 0 s _ va h2']
  exact ⟨_, _, _, rfl, (Option.some.inj h).symm⟩

theorem FullPath.leafSlot_eq {s : KState} {root va t3 t2 t1 : Nat}
    (h : FullPath s root va t3 t2 t1) : leafSlot s root va = some (t1 + 8 * PTX va) := by
  obtain ⟨e4, h3, e3, h2, e2, h1, _⟩ := h
  subst h3; subst h2; subst h1
  simp only [leafSlot]
  rw [if_neg e4, if_neg e3, if_neg e2]

theorem sep_ne (t u x y : Nat) (h : Sep t u) (hx : inPg t x) (hy : inPg u y) : x ≠ y := by
  unfold Sep inPg at *
  omega

theorem FullPath.slots {s : KState} {root va t3 t2 t1 : Nat}
    (h : FullPath s root va t3 t2 t1) :
    root + 8 * PML4 va ≠ t3 + 8 * PDPE va ∧ root + 8 * PML4 va ≠ t2 + 8 * PDX va ∧
    root + 8 * PML4 va ≠ t1 + 8 * PTX va ∧ t3 + 8 * PDPE va ≠ t2 + 8 * PDX va ∧
    t3 + 8 * PDPE va ≠ t1 + 8 * PTX va ∧ t2 + 8 * PDX va ≠ t1 + 8 * PTX va := by
  have hs := h.sep
  simp only [List.pairwise_cons, List.mem_cons, List.mem_singleton, forall_eq_or_imp, forall_eq,
    List.not_mem_nil, false_implies, implies_true, List.Pairwise.nil, and_true] at hs
  obtain ⟨⟨a, b, c⟩, ⟨d, e⟩, f⟩ := hs
  exact ⟨sep_ne _ _ _ _ a (slot_inPg root 3 va) (slot_inPg t3 2 va),
    sep_ne _ _ _ _ b (slot_inPg root 3 va) (slot_inPg t2 1 va),
    sep_ne _ _ _ _ c (slot_inPg root 3 va) (slot_inPg t1 0 va),
    sep_ne _ _ _ _ d (slot_inPg t3 2 va) (slot_inPg t2 1 va),
    sep_ne _ _ _ _ e (slot_inPg t3 2 va) (slot_inPg t1 0 va),
    sep_ne _ _ _ _ f (slot_inPg t2 1 va) (slot_inPg t1 0 va)⟩

theorem FullPath.of_entries {s : KState} {root va t3 t2 t1 : Nat}
    (h : FullPath s root va t3 t2 t1) (s' : KState)
    (a4 : PTE_ADDR (s'.mem (root + 8 * PML4 va)) = PTE_ADDR (s.mem (root + 8 * PML4 va)))
    (p4 : s'.mem (root + 8 * PML4 va) &&& PTE_P ≠ 0)
    (a3 : PTE_ADDR (s'.mem (t3 + 8 * PDPE va)) = PTE_ADDR (s.mem (t3 + 8 * PDPE va)))
    (p3 : s'.mem (t3 + 8 * PDPE va) &&& PTE_P ≠ 0)
    (a2 : PTE_ADDR (s'.mem (t2 + 8 * PDX va)) = PTE_ADDR (s.mem (t2 + 8 * PDX va)))
    (p2 : s'.mem (t2 + 8 * PDX va) &&& PTE_P ≠ 0) :
    FullPath s' root va t3 t2 t1 :=
  ⟨p4, by rw [a4]; exact h.h3, p3, by rw [a3]; exact h.h2, p2, by rw [a2]; exact h.h1, h.sep⟩

theorem FullPath.of_mem {s : KState} {root va t3 t2 t1 : Nat}
    (h : FullPath s root va t3 t2 t1) (s' : KState)
    (m4 : s'.mem (root + 8 * PML4 va) = s.mem (root + 8 * PML4 va))
    (m3 : s'.mem (t3 + 8 * PDPE va) = s.mem (t3 + 8 * PDPE va))
    (m2 : s'.mem (t2 + 8 * PDX va) = s.mem (t2 + 8 * PDX va)) :
    FullPath s' root va t3 t2 t1 :=
  h.of_entries s' (by rw [m4]) (by rw [m4]; exact h.e4) (by rw [m3]) (by rw [m3]; exact h.e3)
    (by rw [m2]) (by rw [m2]; exact h.e2)

theorem FullPath.store_leaf {s : KState} {root va t3 t2 t1 : Nat}
    (h : FullPath s root va t3 t2 t1) (v : Nat) :
    FullPath (s.store (t1 + 8 * PTX va) v) root va t3 t2 t1 := by
  obtain ⟨_, _, n4, _, n3, n2⟩ := h.slots
  exact h.of_mem _ (store_mem_other _ _ _ _ n4) (store_mem_other _ _ _ _ n3)
    (store_mem_other _ _ _ _ n2)

/-! ## The permission updates of the upper levels -/

theorem orPerm_eq {s : KState} {root va t3 t2 t1 : Nat} (h : FullPath s root va t3 t2 t1)
    (perm : Nat) (hperm : perm < 4096) :
    orPerm s root va perm =
      ((s.store (root + 8 * PML4 va) (s.mem (root + 8 * PML4 va) ||| (perm &&& NOT_PTE_AVAIL))).store
        (t3 + 8 * PDPE va) (s.mem (t3 + 8 * PDPE va) ||| (perm &&& NOT_PTE_AVAIL))).store
        (t2 + 8 * PDX va) (s.mem (t2 + 8 * PDX va) ||| (perm &&& NOT_PTE_AVAIL)) := by
  obtain ⟨n43, n42, _, n32, _, _⟩ := h.slots
  have hp := perm_mask_lt perm hperm
  simp only [orPerm]
  rw [store_mem_self, PTE_ADDR_or_low _ _ hp, ← h.h3, store_mem_other _ _ _ _ (Ne.symm n43),
    store_mem_self, PTE_ADDR_or_low _ _ hp, ← h.h2, store_mem_other _ _ _ _ (Ne.symm n32),
    store_mem_other _ _ _ _ (Ne.symm n42)]

theorem orPerm_pages (s : KState) (root va perm : Nat) :
    (orPerm s root va perm).pages = s.pages := rfl

theorem orPerm_free (s : KState) (root va perm : Nat) :
    (orPerm s root va perm).page_free_list = s.page_free_list := rfl

theorem orPerm_leaf {s : KState} {root va t3 t2 t1 : Nat} (h : FullPath s root va t3 t2 t1)
    (perm : Nat) (hperm : perm < 4096) :
    (orPerm s root va perm).mem (t1 + 8 * PTX va) = s.mem (t1 + 8 * PTX va) := by
  obtain ⟨_, _, n4, _, n3, n2⟩ := h.slots
  rw [orPerm_eq h perm hperm, store_mem_other _ _ _ _ (Ne.symm n2),
    store_mem_other _ _ _ _ (Ne.symm n3), store_mem_other _ _ _ _ (Ne.symm n4)]

theorem orPerm_full {s : KState} {root va t3 t2 t1 : Nat} (h : FullPath s root va t3 t2 t1)
    (perm : Nat) (hperm : perm < 4096) :
    FullPath (orPerm s root va perm) root va t3 t2 t1 := by
  obtain ⟨n43, n42, _, n32, _, _⟩ := h.slots
  have hp := perm_mask_lt perm hperm
  rw [orPerm_eq h perm hperm]
  refine h.of_entries _ ?_ ?_ ?_ ?_ ?_ ?_
  · rw [store_mem_other _ _ _ _ n42, store_mem_other _ _ _ _ n43, store_mem_self,
      PTE_ADDR_or_low _ _ hp]
  · rw [store_mem_other _ _ _ _ n42, store_mem_other _ _ _ _ n43, store_mem_self]
    exact land_P_or _ _ h.e4
  · rw [store_mem_other _ _ _ _ n32, store_mem_self, PTE_ADDR_or_low _ _ hp]
  · rw [store_mem_other _ _ _ _ n32, store_mem_self]
    exact land_P_or _ _ h.e3
  · rw [store_mem_self, PTE_ADDR_or_low _ _ hp]
  · rw [store_mem_self]
    exact land_P_or _ _ h.e2


/-! ## page_lookup and page_remove on a resolved path -/

theorem page_lookup_state (s : KState) (root va : Nat) (st : Option Nat) :
    (page_lookup s root va st).state = s := by
  by_cases h : root ≠ 0
  · rw [page_lookup_eq s root va st h]
    cases leafSlot s root va with
    | none => rfl
    | some p =>
      simp only []
      split_ifs <;> rfl
  · have h0 : root = 0 := not_not.mp h
    subst h0
    rw [page_lookup_null]

theorem page_lookup_mapped (s : KState) (root va p : Nat) (st : Option Nat) (h : root ≠ 0)
    (hp : leafSlot s root va = some p) (he : s.mem p &&& PTE_P ≠ 0) :
    page_lookup s root va st =
      { page := some (pa2page (PTE_ADDR (s.mem p))), store := st.map (fun _ => p), state := s } := by
  rw [page_lookup_eq s root va st h, hp]
  simp only []
  rw [if_neg he]

theorem page_lookup_unmapped (s : KState) (root va p : Nat) (st : Option Nat)
    (hp : leafSlot s root va = some p) (he : s.mem p &&& PTE_P = 0) :
    page_lookup s root va st = { page := none, store := st, state := s } := by
  by_cases h : root ≠ 0
  · rw [page_lookup_eq s root va st h, hp]
    simp only []
    rw [if_pos he]
  · have h0 : root = 0 := not_not.mp h
    subst h0
    rw [page_lookup_null]

theorem page_lookup_nopath (s : KState) (root va : Nat) (st : Option Nat)
    (hp : leafSlot s root va = none) :
    page_lookup s root va st = { page := none, store := st, state := s } := by
  by_cases h : root ≠ 0
  · rw [page_lookup_eq s root va st h, hp]
  · have h0 : root = 0 := not_not.mp h
    subst h0
    rw [page_lookup_null]

theorem page_lookup_page_store (s : KState) (root va : Nat) (st st2 : Option Nat) :
    (page_lookup s root va st).page = (page_lookup s root va st2).page := by
  by_cases h : root ≠ 0
  · rw [page_lookup_eq s root va st h, page_lookup_eq s root va st2 h]
    cases leafSlot s root va with
    | none => rfl
    | some p =>
      simp only []
      split_ifs <;> rfl
  · have h0 : root = 0 := not_not.mp h
    subst h0
    rw [page_lookup_null, page_lookup_null]

theorem page_remove_mapped (s : KState) (root va p : Nat) (h : root ≠ 0)
    (hp : leafSlot s root va = some p) (he : s.mem p &&& PTE_P ≠ 0) :
    page_remove s root va = (page_decref s (pa2page (PTE_ADDR (s.mem p)))).store p 0 := by
  unfold page_remove
  rw [page_lookup_mapped s root va p (some 0) h hp he]
  rfl

theorem page_remove_unmapped (s : KState) (root va : Nat)
    (h : (page_lookup s root va (some 0)).page = none) :
    page_remove s root va = s := by
  unfold page_remove
  simp only []
  rw [h]
  exact page_lookup_state s root va (some 0)

/-! ## page_decref and the free list -/

theorem page_decref_congr (s t : KState) (q : Nat) (hp : s.pages = t.pages)
    (hf : s.page_free_list = t.page_free_list) :
    (page_decref s q).pages = (page_decref t q).pages ∧
    (page_decref s q).page_free_list = (page_decref t q).page_free_list := by
  obtain ⟨p1, f1, m1⟩ := s
  obtain ⟨p2, f2, m2⟩ := t
  simp only at hp hf
  subst hp; subst hf
  unfold page_decref page_free
  simp only [KState.setRef, KState.setLink]
  split_ifs <;> exact ⟨rfl, rfl⟩

theorem page_decref_keep (s : KState) (q : Nat) (h : (s.pages q).pp_ref ≠ 1) :
    page_decref s q = s.setRef q ((s.pages q).pp_ref - 1) := by
  unfold page_decref
  simp only []
  rw [if_neg]
  simp only [KState.setRef, ite_true]
  omega

theorem page_decref_push (s : KState) (q : Nat) (h : (s.pages q).pp_ref = 1)
    (hl : (s.pages q).pp_link = none) :
    (page_decref s q).page_free_list = some q ∧
    (page_decref s q).pages q = { pp_link := s.page_free_list, pp_ref := 0 } ∧
    (∀ i, i ≠ q → (page_decref s q).pages i = s.pages i) := by
  unfold page_decref
  simp only []
  have h0 : ((s.setRef q ((s.pages q).pp_ref - 1)).pages q).pp_ref = 0 := by
    simp [KState.setRef, h]
  rw [if_pos h0]
  unfold page_free
  have hc : ¬ (((s.setRef q ((s.pages q).pp_ref - 1)).pages q).pp_ref ≠ 0 ∨
      ((s.setRef q ((s.pages q).pp_ref - 1)).pages q).pp_link ≠ none) := by
    simp [KState.setRef, h, hl]
  rw [if_neg hc]
  refine ⟨rfl, ?_, ?_⟩
  · simp [KState.setRef, KState.setLink]
  · intro i hi
    simp [KState.setRef, KState.setLink, hi]

theorem setRef_list (s : KState) (q : Nat) (v : Int) (l : List Nat)
    (hl : isList s.pages s.page_free_list l) :
    isList (s.setRef q v).pages (s.setRef q v).page_free_list l := by
  refine isList_congr s.pages _ l _ ?_ hl
  intro x _
  by_cases hx : x = q
  · subst hx; simp [KState.setRef]
  · simp [KState.setRef, hx]

theorem setRef_link (s : KState) (q : Nat) (v : Int) (i : Nat) :
    ((s.setRef q v).pages i).pp_link = (s.pages i).pp_link := by
  by_cases hx : i = q
  · subst hx; simp [KState.setRef]
  · simp [KState.setRef, hx]

theorem setRef_ref_self (s : KState) (q : Nat) (v : Int) :
    ((s.setRef q v).pages q).pp_ref = v := by
  simp [KState.setRef]

theorem setRef_other (s : KState) (q : Nat) (v : Int) (i : Nat) (h : i ≠ q) :
    (s.setRef q v).pages i = s.pages i := by
  simp [KState.setRef, h]

/-- Effect of `page_decref q` on a well-formed free list `l` that does not hold `q`. -/
theorem page_decref_list (s : KState) (q : Nat) (l : List Nat)
    (hl : isList s.pages s.page_free_list l) (hq : q ∉ l) (hlink : (s.pages q).pp_link = none) :
    ∃ l2, isList (page_decref s q).pages (page_decref s q).page_free_list l2 ∧
      (q ∈ l2 ↔ ((page_decref s q).pages q).pp_ref = 0) ∧
      (∀ i, i ≠ q → (i ∈ l2 ↔ i ∈ l)) ∧
      (∀ i, i ≠ q → (page_decref s q).pages i = s.pages i) ∧
      (q ∉ l2 → ((page_decref s q).pages q).pp_link = none) := by
  by_cases h1 : (s.pages q).pp_ref = 1
  · obtain ⟨a, b, c⟩ := page_decref_push s q h1 hlink
    refine ⟨q :: l, ?_, ?_, ?_, c, ?_⟩
    · refine ⟨a, ?_⟩
      rw [b]
      refine isList_congr s.pages _ l _ ?_ hl
      intro x hx
      rw [c x (fun h => hq (h ▸ hx))]
    · rw [b]; simp
    · intro i hi; simp [hi]
    · intro h; exact absurd (List.mem_cons_self _ _) h
  · rw [page_decref_keep s q h1]
    refine ⟨l, setRef_list s q _ l hl, ?_, fun i _ => Iff.rfl, fun i hi => setRef_other s q _ i hi, ?_⟩
    · rw [setRef_ref_self]
      constructor
      · intro h; exact absurd h hq
      · intro h; exfalso; omega
    · intro _; rw [setRef_link]; exact hlink

/-! ## Decomposition of page_insert -/

theorem neg_E_NO_MEM_ne : -E_NO_MEM ≠ 0 := by decide

theorem page_insert_ok_iff (s : KState) (root pp va perm : Nat) :
    (page_insert s root (some pp) va perm).1 = 0 ↔ root ≠ 0 ∧ (pml4e_walk s root va 1).1 ≠ 0 := by
  unfold page_insert
  simp only []
  by_cases hr : root ≠ 0
  · rw [if_pos hr]
    by_cases hw : (pml4e_walk s root va 1).1 ≠ 0
    · rw [if_pos hw]
      constructor
      · intro _; exact ⟨hr, hw⟩
      · intro _; split_ifs <;> rfl
    · rw [if_neg hw]
      constructor
      · intro h; exact absurd h neg_E_NO_MEM_ne
      · intro h; exact absurd h.2 hw
  · rw [if_neg hr]
    constructor
    · intro h; exact absurd h neg_E_NO_MEM_ne
    · intro h; exact absurd h.1 hr

theorem page_insert_fail (s : KState) (root pp va perm : Nat)
    (h : (page_insert s root (some pp) va perm).1 ≠ 0) :
    (page_insert s root (some pp) va perm).2 = (if root ≠ 0 then (pml4e_walk s root va 1).2 else s) ∧
    (root ≠ 0 → (pml4e_walk s root va 1).1 = 0) := by
  have hiff := page_insert_ok_iff s root pp va perm
  unfold page_insert at h ⊢
  simp only [] at h ⊢
  by_cases hr : root ≠ 0
  · rw [if_pos hr] at h ⊢
    by_cases hw : (pml4e_walk s root va 1).1 ≠ 0
    · exfalso; apply h; rw [if_pos hw]; split_ifs <;> rfl
    · rw [if_neg hw, if_pos hr]
      exact ⟨rfl, fun _ => not_not.mp hw⟩
  · rw [if_neg hr, if_neg hr]
    exact ⟨rfl, fun h2 => absurd h2 hr⟩

theorem page_insert_same (s : KState) (root pp va perm : Nat) (hr : root ≠ 0)
    (hw : (pml4e_walk s root va 1).1 ≠ 0)
    (hc : (orPerm (pml4e_walk s root va 1).2 root va perm).mem (pml4e_walk s root va 1).1
        &&& PTE_P ≠ 0 ∧
      page2pa pp = PTE_ADDR ((orPerm (pml4e_walk s root va 1).2 root va perm).mem
        (pml4e_walk s root va 1).1)) :
    (page_insert s root (some pp) va perm).2 =
      (orPerm (pml4e_walk s root va 1).2 root va perm).store (pml4e_walk s root va 1).1
        (PTE_ADDR ((orPerm (pml4e_walk s root va 1).2 root va perm).mem
          (pml4e_walk s root va 1).1) ||| perm ||| PTE_P) := by
  unfold page_insert
  simp only []
  rw [if_pos hr, if_pos hw]
  have hc2 := hc
  unfold orPerm at hc2
  simp only [] at hc2
  rw [if_pos hc2]
  rfl

theorem page_insert_other (s : KState) (root pp va perm : Nat) (hr : root ≠ 0)
    (hw : (pml4e_walk s root va 1).1 ≠ 0)
    (hc : ¬ ((orPerm (pml4e_walk s root va 1).2 root va perm).mem (pml4e_walk s root va 1).1
        &&& PTE_P ≠ 0 ∧
      page2pa pp = PTE_ADDR ((orPerm (pml4e_walk s root va 1).2 root va perm).mem
        (pml4e_walk s root va 1).1))) :
    (page_insert s root (some pp) va perm).2 =
      (((if (orPerm (pml4e_walk s root va 1).2 root va perm).mem (pml4e_walk s root va 1).1
            &&& PTE_P ≠ 0
          then page_remove (orPerm (pml4e_walk s root va 1).2 root va perm) root va
          else orPerm (pml4e_walk s root va 1).2 root va perm).setRef pp
        (((if (orPerm (pml4e_walk s root va 1).2 root va perm).mem (pml4e_walk s root va 1).1
            &&& PTE_P ≠ 0
          then page_remove (orPerm (pml4e_walk s root va 1).2 root va perm) root va
          else orPerm (pml4e_walk s root va 1).2 root va perm).pages pp).pp_ref + 1)).store
        (pml4e_walk s root va 1).1 (page2pa pp ||| perm ||| PTE_P)) := by
  unfold page_insert
  simp only []
  rw [if_pos hr, if_pos hw]
  have hc2 := hc
  unfold orPerm at hc2
  simp only [] at hc2
  rw [if_neg hc2]
  rfl


/-! ## The state after a successful page_insert -/

theorem walk_setup (s : KState) (root va : Nat) (l : List Nat) (hpre : WalkPre 3 s root va l)
    (hw : (pml4e_walk s root va 1).1 ≠ 0) :
    ∃ t3 t2 t1 k, WalkOk 3 s root va l (pml4e_walk s root va 1) k ∧
      (pml4e_walk s root va 1).1 = t1 + 8 * PTX va ∧
      FullPath (pml4e_walk s root va 1).2 root va t3 t2 t1 := by
  have hspec := walkGen_spec va 1 (by decide) 3 s root l hpre
  rw [← pml4e_walk_eq] at hspec
  obtain ⟨k, hk⟩ := hspec.ok hw
  have hsep : (pathFrom 3 (pml4e_walk s root va 1).2 root va).Pairwise Sep := by
    have h1 := hpre.sep
    rw [← List.take_append_drop k l, List.map_append, ← List.append_assoc, ← hk.path] at h1
    exact (List.pairwise_append.mp h1).1
  obtain ⟨t3, t2, t1, hfull, hpath⟩ := pathFrom_three_full _ root va hk.full hsep
  obtain ⟨t, ht, hptr⟩ := hk.leaf
  rw [hpath] at ht
  simp only [List.getLast?_cons_cons, List.getLast?_singleton, Option.some.injEq] at ht
  subst ht
  exact ⟨t3, t2, t1, k, hk, hptr, hfull⟩

theorem lookup_before_walk (s : KState) (root va : Nat) (l : List Nat) (st : Option Nat)
    (t3 t2 t1 k : Nat) (hr : root ≠ 0)
    (hk : WalkOk 3 s root va l (pml4e_walk s root va 1) k)
    (hfull : FullPath (pml4e_walk s root va 1).2 root va t3 t2 t1) :
    page_lookup s root va st =
      if (pml4e_walk s root va 1).2.mem (t1 + 8 * PTX va) &&& PTE_P ≠ 0
      then { page := some (pa2page (PTE_ADDR ((pml4e_walk s root va 1).2.mem (t1 + 8 * PTX va)))),
             store := st.map (fun _ => t1 + 8 * PTX va), state := s }
      else { page := none, store := st, state := s } := by
  by_cases hk0 : k = 0
  · have hs := hk.same hk0
    rw [hs] at hfull ⊢
    by_cases he : s.mem (t1 + 8 * PTX va) &&& PTE_P ≠ 0
    · rw [if_pos he, page_lookup_mapped s root va _ st hr hfull.leafSlot_eq he]
    · rw [if_neg he, page_lookup_unmapped s root va _ st hfull.leafSlot_eq (not_not.mp he)]
  · have hfresh := hk.fresh (Nat.pos_of_ne_zero hk0)
    have hp : (pml4e_walk s root va 1).1 = t1 + 8 * PTX va := by
      obtain ⟨t, ht, hptr⟩ := hk.leaf
      have h1 := hfull.leafSlot_eq
      obtain ⟨u3, u2, u1, hu, hu1⟩ := leafSlot_pathFrom _ root va _ h1
      rw [hu] at ht
      simp only [List.getLast?_cons_cons, List.getLast?_singleton, Option.some.injEq] at ht
      rw [hptr, ← ht, hu1]
    rw [hp] at hfresh
    have he : ¬ ((pml4e_walk s root va 1).2.mem (t1 + 8 * PTX va) &&& PTE_P ≠ 0) := by
      rw [hfresh]; exact not_not.mpr zero_land_P
    rw [if_neg he]
    have hnone : leafSlot s root va = none := by
      cases hls : leafSlot s root va with
      | none => rfl
      | some p =>
        exfalso
        obtain ⟨u3, u2, u1, hu, _⟩ := leafSlot_pathFrom s root va p hls
        have h4 := hk.full
        rw [hk.path, hu] at h4
        simp only [List.length_append, List.length_cons, List.length_nil, List.length_map,
          List.length_take] at h4
        have := hk.k_le
        omega
    exact page_lookup_nopath s root va st hnone

theorem page_insert_post (s : KState) (root pp va perm : Nat) (l : List Nat)
    (hpre : WalkPre 3 s root va l) (hperm : perm < 4096)
    (hok : (page_insert s root (some pp) va perm).1 = 0) :
    ∃ t3 t2 t1 k, InsertPost s root pp va perm l (page_insert s root (some pp) va perm).2
      t3 t2 t1 k := by
  obtain ⟨hr, hw⟩ := (page_insert_ok_iff s root pp va perm).mp hok
  obtain ⟨t3, t2, t1, k, hk, hptr, hfull⟩ := walk_setup s root va l hpre hw
  have hfull4 := orPerm_full hfull perm hperm
  have hleaf4 := orPerm_leaf hfull perm hperm
  have hbefore := lookup_before_walk s root va l none t3 t2 t1 k hr hk hfull
  refine ⟨t3, t2, t1, k, ⟨hk, hptr, ?_, ?_, ?_, ?_, ?_⟩⟩
  · -- complete path
    by_cases hc : (orPerm (pml4e_walk s root va 1).2 root va perm).mem (pml4e_walk s root va 1).1
        &&& PTE_P ≠ 0 ∧ page2pa pp = PTE_ADDR ((orPerm (pml4e_walk s root va 1).2 root va perm).mem
        (pml4e_walk s root va 1).1)
    · rw [page_insert_same s root pp va perm hr hw hc, hptr]
      exact hfull4.store_leaf _
    · rw [page_insert_other s root pp va perm hr hw hc, hptr]
      refine FullPath.store_leaf ?_ _
      refine @FullPath.of_mem (if (orPerm (pml4e_walk s root va 1).2 root va perm).mem
          (t1 + 8 * PTX va) &&& PTE_P ≠ 0
          then page_remove (orPerm (pml4e_walk s root va 1).2 root va perm) root va
          else orPerm (pml4e_walk s root va 1).2 root va perm) root va t3 t2 t1 ?_ _ rfl rfl rfl
      by_cases he : (orPerm (pml4e_walk s root va 1).2 root va perm).mem (t1 + 8 * PTX va)
          &&& PTE_P ≠ 0
      · rw [if_pos he, page_remove_mapped _ root va _ hr hfull4.leafSlot_eq he]
        refine FullPath.store_leaf ?_ _
        exact hfull4.of_mem _ (by rw [page_decref_mem]) (by rw [page_decref_mem])
          (by rw [page_decref_mem])
      · rw [if_neg he]; exact hfull4
  · -- leaf entry
    by_cases hc : (orPerm (pml4e_walk s root va 1).2 root va perm).mem (pml4e_walk s root va 1).1
        &&& PTE_P ≠ 0 ∧ page2pa pp = PTE_ADDR ((orPerm (pml4e_walk s root va 1).2 root va perm).mem
        (pml4e_walk s root va 1).1)
    · rw [page_insert_same s root pp va perm hr hw hc, hptr, store_mem_self]
      rw [hptr] at hc
      rw [← hc.2]
    · rw [page_insert_other s root pp va perm hr hw hc, hptr, store_mem_self]
  · exact congrArg LookupResult.page hbefore |>.trans (by split_ifs <;> rfl)
  · -- pages
    by_cases hc : (orPerm (pml4e_walk s root va 1).2 root va perm).mem (pml4e_walk s root va 1).1
        &&& PTE_P ≠ 0 ∧ page2pa pp = PTE_ADDR ((orPerm (pml4e_walk s root va 1).2 root va perm).mem
        (pml4e_walk s root va 1).1)
    · rw [page_insert_same s root pp va perm hr hw hc]
      rw [hptr, hleaf4] at hc
      unfold insertMeta
      rw [if_pos hc]
      rfl
    · rw [page_insert_other s root pp va perm hr hw hc]
      rw [hptr, hleaf4] at hc ⊢
      unfold insertMeta
      rw [if_neg hc]
      by_cases he : (pml4e_walk s root va 1).2.mem (t1 + 8 * PTX va) &&& PTE_P ≠ 0
      · have he4 : (orPerm (pml4e_walk s root va 1).2 root va perm).mem (t1 + 8 * PTX va)
            &&& PTE_P ≠ 0 := by rw [hleaf4]; exact he
        simp only []
        rw [if_pos he, if_pos he, page_remove_mapped _ root va _ hr hfull4.leafSlot_eq he4, hleaf4]
        have hcg := page_decref_congr (orPerm (pml4e_walk s root va 1).2 root va perm)
          (pml4e_walk s root va 1).2
          (pa2page (PTE_ADDR ((pml4e_walk s root va 1).2.mem (t1 + 8 * PTX va)))) rfl rfl
        show (KState.setRef _ pp _).pages = (KState.setRef _ pp _).pages
        simp only [KState.setRef, KState.store]
        rw [hcg.1]
      · simp only []
        rw [if_neg he, if_neg he]
        rfl
  · -- free list
    by_cases hc : (orPerm (pml4e_walk s root va 1).2 root va perm).mem (pml4e_walk s root va 1).1
        &&& PTE_P ≠ 0 ∧ page2pa pp = PTE_ADDR ((orPerm (pml4e_walk s root va 1).2 root va perm).mem
        (pml4e_walk s root va 1).1)
    · rw [page_insert_same s root pp va perm hr hw hc]
      rw [hptr, hleaf4] at hc
      unfold insertMeta
      rw [if_pos hc]
      rfl
    · rw [page_insert_other s root pp va perm hr hw hc]
      rw [hptr, hleaf4] at hc ⊢
      unfold insertMeta
      rw [if_neg hc]
      by_cases he : (pml4e_walk s root va 1).2.mem (t1 + 8 * PTX va) &&& PTE_P ≠ 0
      · have he4 : (orPerm (pml4e_walk s root va 1).2 root va perm).mem (t1 + 8 * PTX va)
            &&& PTE_P ≠ 0 := by rw [hleaf4]; exact he
        simp only []
        rw [if_pos he, if_pos he, page_remove_mapped _ root va _ hr hfull4.leafSlot_eq he4, hleaf4]
        have hcg := page_decref_congr (orPerm (pml4e_walk s root va 1).2 root va perm)
          (pml4e_walk s root va 1).2
          (pa2page (PTE_ADDR ((pml4e_walk s root va 1).2.mem (t1 + 8 * PTX va)))) rfl rfl
        show (page_decref _ _).page_free_list = (page_decref _ _).page_free_list
        exact hcg.2
      · simp only []
        rw [if_neg he, if_neg he]
        rfl


/-! ## More facts needed by the claims -/

theorem leaf_entry_addr (pp perm : Nat) (hperm : perm < 4096) (hpp : pp < 2 ^ 52) :
    pa2page (PTE_ADDR (page2pa pp ||| perm ||| PTE_P)) = pp := by
  rw [PTE_ADDR_or_low _ _ (by decide), PTE_ADDR_or_low _ _ hperm, PTE_ADDR_page2pa pp hpp,
    pa2page_page2pa]

theorem leaf_entry_bits (x perm : Nat) :
    (x ||| perm ||| PTE_P) &&& (perm ||| PTE_P) = perm ||| PTE_P := by
  rw [Nat.lor_assoc]; exact land_or_self _ _

theorem leaf_entry_low (pp b : Nat) (hb : b < 4096) : (page2pa pp ||| b) % PGSIZE = b := by
  have h : PGSIZE = 2 ^ 12 := by decide
  rw [h]
  apply Nat.eq_of_testBit_eq
  intro i
  simp only [Nat.testBit_mod_two_pow, Nat.testBit_lor, page2pa, PGSHIFT, Nat.testBit_shiftLeft]
  by_cases h1 : i < 12
  · have : ¬ 12 ≤ i := by omega
    simp [h1, this]
  · rw [testBit_small b i hb (by omega)]
    simp [h1]

theorem lookup_none_of_walk (s : KState) (root va : Nat) (st : Option Nat)
    (h : (pml4e_walk s root va 0).1 = 0) : (page_lookup s root va st).page = none := by
  unfold page_lookup
  by_cases hr : root ≠ 0
  · rw [if_pos hr]
    simp only []
    rw [if_neg (fun hh => hh.1 h)]
  · rw [if_neg hr]

theorem walk_full {s : KState} {root va t3 t2 t1 : Nat} (h : FullPath s root va t3 t2 t1)
    (hr : root ≠ 0) (c : Nat) : pml4e_walk s root va c = (t1 + 8 * PTX va, s) := by
  have i3 : idx (2 + 1) va = PML4 va := rfl
  have i2 : idx (1 + 1) va = PDPE va := rfl
  have i1 : idx (0 + 1) va = PDX va := rfl
  rw [pml4e_walk_eq, walkGen_present 2 s root va c hr h.e4, i3, ← h.h3,
    walkGen_present 1 s t3 va c (by rw [h.h3]; exact KADDR_ne_zero _) h.e3, i2, ← h.h2,
    walkGen_present 0 s t2 va c (by rw [h.h2]; exact KADDR_ne_zero _) h.e2, i1, ← h.h1,
    walkGen_zero]

/-! ## Claims C1 to C5: page_insert -/

/-- Claim C1: if `page_insert(root, pp, va, perm)` returns 0 (with `perm` confined to
the low 12 flag bits), then `page_lookup(root, va)` returns `pp`, reports the
leaf entry of `va`, and that entry has every bit of `perm` and `PTE_P` set.
The state is assumed well formed on the path of `va` (`WalkPre`). -/
theorem page_insert_then_lookup (s : KState) (root pp va perm : Nat) (l : List Nat)
    (st : Option Nat) (hpre : WalkPre 3 s root va l) (hperm : perm < 4096) (hpp : pp < 2 ^ 52)
    (hok : (page_insert s root (some pp) va perm).1 = 0) :
    (page_lookup (page_insert s root (some pp) va perm).2 root va st).page = some pp ∧
    ∃ p, leafSlot (page_insert s root (some pp) va perm).2 root va = some p ∧
      (page_lookup (page_insert s root (some pp) va perm).2 root va st).store
        = st.map (fun _ => p) ∧
      (page_insert s root (some pp) va perm).2.mem p &&& (perm ||| PTE_P) = perm ||| PTE_P := by
  obtain ⟨t3, t2, t1, k, hpost⟩ := page_insert_post s root pp va perm l hpre hperm hok
  have hls := hpost.full.leafSlot_eq
  have he : (page_insert s root (some pp) va perm).2.mem (t1 + 8 * PTX va) &&& PTE_P ≠ 0 := by
    rw [hpost.leaf]; exact or_P_land _
  rw [page_lookup_mapped _ root va _ st hpre.tbl_ne hls he]
  refine ⟨?_, t1 + 8 * PTX va, hls, rfl, ?_⟩
  · show some (pa2page (PTE_ADDR _)) = some pp
    rw [hpost.leaf, leaf_entry_addr pp perm hperm hpp]
  · rw [hpost.leaf]; exact leaf_entry_bits _ _

/-- Witness of C1 on the state `exFresh`: inserting frame 7 at `0x1000` with `PTE_U`. -/
theorem page_insert_then_lookup_witness :
    WalkPre 3 exFresh 0x8004000000 0x1000 [1, 2, 3] ∧
    (page_insert exFresh 0x8004000000 (some 7) 0x1000 4).1 = 0 ∧
    (page_lookup (page_insert exFresh 0x8004000000 (some 7) 0x1000 4).2
      0x8004000000 0x1000 (some 0)).page = some 7 :=
  ⟨⟨by decide, by decide, by decide, by decide⟩, by decide,
    (page_insert_then_lookup exFresh 0x8004000000 7 0x1000 4 [1, 2, 3] (some 0)
      ⟨by decide, by decide, by decide, by decide⟩ (by decide) (by decide) (by decide)).1⟩


theorem insertMeta_same (w : KState) (e pp : Nat)
    (h : e &&& PTE_P ≠ 0 ∧ page2pa pp = PTE_ADDR e) : insertMeta w e pp = w := by
  unfold insertMeta; rw [if_pos h]

theorem insertMeta_replace (w : KState) (e pp : Nat) (he : e &&& PTE_P ≠ 0)
    (h : page2pa pp ≠ PTE_ADDR e) :
    insertMeta w e pp = (page_decref w (pa2page (PTE_ADDR e))).setRef pp
      (((page_decref w (pa2page (PTE_ADDR e))).pages pp).pp_ref + 1) := by
  unfold insertMeta
  rw [if_neg (fun hh => h hh.2)]
  simp only []
  rw [if_pos he]

theorem insertMeta_fresh (w : KState) (e pp : Nat) (he : e &&& PTE_P = 0) :
    insertMeta w e pp = w.setRef pp ((w.pages pp).pp_ref + 1) := by
  unfold insertMeta
  rw [if_neg (fun hh => hh.1 he)]
  simp only []
  rw [if_neg (not_not.mpr he)]

theorem walk_present_same {s : KState} {root va : Nat} {l : List Nat} {k t1 : Nat}
    (hk : WalkOk 3 s root va l (pml4e_walk s root va 1) k)
    (hptr : (pml4e_walk s root va 1).1 = t1 + 8 * PTX va)
    (he : (pml4e_walk s root va 1).2.mem (t1 + 8 * PTX va) &&& PTE_P ≠ 0) :
    (pml4e_walk s root va 1).2 = s := by
  apply hk.same
  by_contra hk0
  have := hk.fresh (Nat.pos_of_ne_zero hk0)
  rw [hptr] at this
  rw [this] at he
  exact he zero_land_P

/-- The free list after a successful `page_insert` of a frame `pp` that was not
on it: it is still a proper list, `pp` is not on it, and `pp` has no link. -/
theorem page_insert_free_list (s : KState) (root pp va perm : Nat) (l : List Nat)
    (hpre : WalkPre 3 s root va l) (hinv : AllocInv s l) (hppl : pp ∉ l) (hperm : perm < 4096)
    (hq : ∀ q, (page_lookup s root va none).page = some q → 1 ≤ (s.pages q).pp_ref)
    (hok : (page_insert s root (some pp) va perm).1 = 0) :
    ∃ l1, isList (page_insert s root (some pp) va perm).2.pages
        (page_insert s root (some pp) va perm).2.page_free_list l1 ∧ pp ∉ l1 ∧
      ((page_insert s root (some pp) va perm).2.pages pp).pp_link = none := by
  obtain ⟨t3, t2, t1, k, hpost⟩ := page_insert_post s root pp va perm l hpre hperm hok
  rw [hpost.pages, hpost.flist]
  have hbefore := hpost.before
  by_cases he : (pml4e_walk s root va 1).2.mem (t1 + 8 * PTX va) &&& PTE_P ≠ 0
  · have hs := walk_present_same hpost.walk hpost.ptr he
    rw [hs] at he hbefore ⊢
    rw [if_pos he] at hbefore
    by_cases hsame : page2pa pp = PTE_ADDR (s.mem (t1 + 8 * PTX va))
    · rw [insertMeta_same _ _ _ ⟨he, hsame⟩]
      exact ⟨l, hpre.free, hppl, hinv.nolink pp hppl⟩
    · rw [insertMeta_replace _ _ _ he hsame]
      have hqpp : pa2page (PTE_ADDR (s.mem (t1 + 8 * PTX va))) ≠ pp := by
        intro h; apply hsame; rw [← h, page2pa_pa2page]
      have hq1 := hq _ hbefore
      have hql : pa2page (PTE_ADDR (s.mem (t1 + 8 * PTX va))) ∉ l := by
        intro h; have := hinv.ref0 _ h; omega
      obtain ⟨l2, h1, _, h3, h4, _⟩ := page_decref_list s _ l hpre.free hql (hinv.nolink _ hql)
      refine ⟨l2, setRef_list _ _ _ _ h1, ?_, ?_⟩
      · rw [h3 pp (Ne.symm hqpp)]; exact hppl
      · rw [setRef_link, h4 pp (Ne.symm hqpp)]; exact hinv.nolink pp hppl
  · rw [insertMeta_fresh _ _ _ (not_not.mp he)]
    have hpt : pp ∉ l.take k := fun h => hppl (List.mem_of_mem_take h)
    refine ⟨l.drop k, setRef_list _ _ _ _ hpost.walk.free,
      fun h => hppl (List.mem_of_mem_drop h), ?_⟩
    rw [setRef_link, hpost.walk.pages_other pp hpt]
    exact hinv.nolink pp hppl

/-- Claim C2: a successful `page_insert(root, pp, va, perm)` at a `va` that did not
already map `pp` raises `pp->pp_ref` by exactly one; a different frame `q` that
was mapped at `va` loses exactly one reference and is on the free list
afterwards iff its count reached 0; and the leaf entry of `va` is exactly
`page2pa(pp)|perm|PTE_P`. The state is assumed well formed (`WalkPre`,
`AllocInv`), `pp` is not a free frame and a mapped frame has a count of at
least 1. -/
theorem page_insert_new_mapping (s : KState) (root pp va perm : Nat) (l : List Nat)
    (hpre : WalkPre 3 s root va l) (hinv : AllocInv s l) (hppl : pp ∉ l) (hperm : perm < 4096)
    (hnew : (page_lookup s root va none).page ≠ some pp)
    (hq : ∀ q, (page_lookup s root va none).page = some q → 1 ≤ (s.pages q).pp_ref)
    (hok : (page_insert s root (some pp) va perm).1 = 0) :
    ((page_insert s root (some pp) va perm).2.pages pp).pp_ref = (s.pages pp).pp_ref + 1 ∧
    (∀ q, (page_lookup s root va none).page = some q →
      ((page_insert s root (some pp) va perm).2.pages q).pp_ref = (s.pages q).pp_ref - 1 ∧
      ∃ l2, isList (page_insert s root (some pp) va perm).2.pages
          (page_insert s root (some pp) va perm).2.page_free_list l2 ∧
        (q ∈ l2 ↔ ((page_insert s root (some pp) va perm).2.pages q).pp_ref = 0)) ∧
    ∃ p, leafSlot (page_insert s root (some pp) va perm).2 root va = some p ∧
      (page_insert s root (some pp) va perm).2.mem p = page2pa pp ||| perm ||| PTE_P := by
  obtain ⟨t3, t2, t1, k, hpost⟩ := page_insert_post s root pp va perm l hpre hperm hok
  refine ⟨?_, ?_, t1 + 8 * PTX va, hpost.full.leafSlot_eq, hpost.leaf⟩
  · rw [hpost.pages]
    by_cases he : (pml4e_walk s root va 1).2.mem (t1 + 8 * PTX va) &&& PTE_P ≠ 0
    · have hs := walk_present_same hpost.walk hpost.ptr he
      have hbefore := hpost.before
      rw [hs] at he hbefore ⊢
      rw [if_pos he] at hbefore
      have hqpp : pa2page (PTE_ADDR (s.mem (t1 + 8 * PTX va))) ≠ pp := by
        intro h; apply hnew; rw [hbefore, h]
      have hsame : page2pa pp ≠ PTE_ADDR (s.mem (t1 + 8 * PTX va)) := by
        intro h; apply hqpp; rw [← h, pa2page_page2pa]
      rw [insertMeta_replace _ _ _ he hsame, setRef_ref_self,
        page_decref_ref_other _ _ _ (Ne.symm hqpp)]
    · rw [insertMeta_fresh _ _ _ (not_not.mp he), setRef_ref_self,
        hpost.walk.pages_other pp (fun h => hppl (List.mem_of_mem_take h))]
  · intro q hqm
    have hbefore := hpost.before
    rw [hqm] at hbefore
    by_cases he : (pml4e_walk s root va 1).2.mem (t1 + 8 * PTX va) &&& PTE_P ≠ 0
    · have hs := walk_present_same hpost.walk hpost.ptr he
      rw [hpost.pages, hpost.flist]
      rw [hs] at he hbefore ⊢
      rw [if_pos he] at hbefore
      have hqe : pa2page (PTE_ADDR (s.mem (t1 + 8 * PTX va))) = q :=
        (Option.some.inj hbefore).symm
      have hqpp : q ≠ pp := fun h => hnew (by rw [hqm, h])
      have hsame : page2pa pp ≠ PTE_ADDR (s.mem (t1 + 8 * PTX va)) := by
        intro h; apply hqpp; rw [← hqe, ← h, pa2page_page2pa]
      rw [insertMeta_replace _ _ _ he hsame, hqe]
      have hq1 := hq q hqm
      have hql : q ∉ l := by
        intro h; have := hinv.ref0 _ h; omega
      obtain ⟨l2, h1, h2, _, _, _⟩ := page_decref_list s q l hpre.free hql (hinv.nolink _ hql)
      rw [setRef_other _ _ _ _ hqpp]
      exact ⟨page_decref_ref_self s q, l2, setRef_list _ _ _ _ h1, h2⟩
    · rw [if_neg he] at hbefore
      exact absurd hbefore (by simp)

/-- Witness of C2 on the state `exMapped`: frame 7 replaces frame 5 at `0x1000`. -/
theorem page_insert_new_mapping_witness :
    WalkPre 3 exMapped 0x8004000000 0x1000 [] ∧ AllocInv exMapped [] ∧
    (page_lookup exMapped 0x8004000000 0x1000 none).page = some 5 ∧
    (page_insert exMapped 0x8004000000 (some 7) 0x1000 2).1 = 0 ∧
    ((page_insert exMapped 0x8004000000 (some 7) 0x1000 2).2.pages 7).pp_ref
      = (exMapped.pages 7).pp_ref + 1 ∧
    ((page_insert exMapped 0x8004000000 (some 7) 0x1000 2).2.pages 5).pp_ref
      = (exMapped.pages 5).pp_ref - 1 := by
  have hpre : WalkPre 3 exMapped 0x8004000000 0x1000 [] :=
    ⟨by decide, by decide, by decide, by decide⟩
  have hinv : AllocInv exMapped [] :=
    ⟨by decide, fun f _ => by unfold exMapped; simp only []; split_ifs <;> rfl⟩
  have hlk : (page_lookup exMapped 0x8004000000 0x1000 none).page = some 5 := by decide
  have hok : (page_insert exMapped 0x8004000000 (some 7) 0x1000 2).1 = 0 := by decide
  have h := page_insert_new_mapping exMapped 0x8004000000 7 0x1000 2 [] hpre hinv (by decide)
    (by decide) (by rw [hlk]; decide)
    (fun q hq => by
      rw [hlk] at hq
      have : q = 5 := (Option.some.inj hq).symm
      subst this
      decide) hok
  exact ⟨hpre, hinv, hlk, hok, h.1, (h.2.1 5 hlk).1⟩


theorem lookup_some_full (s : KState) (root va pp : Nat) (st : Option Nat)
    (hsep : (pathFrom 3 s root va).Pairwise Sep)
    (hmap : (page_lookup s root va st).page = some pp) :
    root ≠ 0 ∧ ∃ t3 t2 t1, FullPath s root va t3 t2 t1 ∧
      s.mem (t1 + 8 * PTX va) &&& PTE_P ≠ 0 ∧
      pa2page (PTE_ADDR (s.mem (t1 + 8 * PTX va))) = pp := by
  have hr : root ≠ 0 := by
    intro h; subst h; rw [page_lookup_null] at hmap; exact absurd hmap (by simp)
  refine ⟨hr, ?_⟩
  cases hls : leafSlot s root va with
  | none => rw [page_lookup_nopath s root va st hls] at hmap; exact absurd hmap (by simp)
  | some p =>
    obtain ⟨u3, u2, u1, hu, _⟩ := leafSlot_pathFrom s root va p hls
    obtain ⟨t3, t2, t1, hfull, _⟩ := pathFrom_three_full s root va (by rw [hu]; rfl) hsep
    have hp : p = t1 + 8 * PTX va := by
      have := hfull.leafSlot_eq
      rw [hls] at this
      exact Option.some.inj this
    subst hp
    by_cases he : s.mem (t1 + 8 * PTX va) &&& PTE_P ≠ 0
    · rw [page_lookup_mapped s root va _ st hr hls he] at hmap
      exact ⟨t3, t2, t1, hfull, he, Option.some.inj hmap⟩
    · rw [page_lookup_unmapped s root va _ st hls (not_not.mp he)] at hmap
      exact absurd hmap (by simp)

/-- Claim C3: if `va` already maps `pp`, then `page_insert(root, pp, va, perm2)`
returns 0, leaves the `pages` array (every reference count and link) and the
free-list head untouched, so `pp` is not placed on the free list, and the leaf
entry of `va` becomes `page2pa(pp)|perm2|PTE_P`: its permission bits are
`perm2|PTE_P`. The tables on the path of `va` are assumed to be distinct pages. -/
theorem page_insert_same_frame (s : KState) (root pp va perm2 : Nat)
    (hsep : (pathFrom 3 s root va).Pairwise Sep) (hperm : perm2 < 4096)
    (hmap : (page_lookup s root va none).page = some pp) :
    (page_insert s root (some pp) va perm2).1 = 0 ∧
    (page_insert s root (some pp) va perm2).2.pages = s.pages ∧
    (page_insert s root (some pp) va perm2).2.page_free_list = s.page_free_list ∧
    ∃ p, leafSlot s root va = some p ∧
      leafSlot (page_insert s root (some pp) va perm2).2 root va = some p ∧
      (page_insert s root (some pp) va perm2).2.mem p = page2pa pp ||| perm2 ||| PTE_P ∧
      (page_insert s root (some pp) va perm2).2.mem p % PGSIZE = perm2 ||| PTE_P := by
  obtain ⟨hr, t3, t2, t1, hfull, he, hq⟩ := lookup_some_full s root va pp none hsep hmap
  have hwalk := walk_full hfull hr 1
  have hw : (pml4e_walk s root va 1).1 ≠ 0 := by
    rw [hwalk]; exact leafSlot_ne_zero s root va _ hfull.leafSlot_eq
  have hleaf4 := orPerm_leaf hfull perm2 hperm
  have hsame : page2pa pp = PTE_ADDR (s.mem (t1 + 8 * PTX va)) := by
    rw [← hq, page2pa_pa2page]
  have hc : (orPerm (pml4e_walk s root va 1).2 root va perm2).mem (pml4e_walk s root va 1).1
      &&& PTE_P ≠ 0 ∧ page2pa pp = PTE_ADDR ((orPerm (pml4e_walk s root va 1).2 root va perm2).mem
      (pml4e_walk s root va 1).1) := by
    rw [hwalk]
    show (orPerm s root va perm2).mem (t1 + 8 * PTX va) &&& PTE_P ≠ 0 ∧
      page2pa pp = PTE_ADDR ((orPerm s root va perm2).mem (t1 + 8 * PTX va))
    rw [hleaf4]
    exact ⟨he, hsame⟩
  have hst := page_insert_same s root pp va perm2 hr hw hc
  rw [hwalk] at hst
  have hst2 : (page_insert s root (some pp) va perm2).2 =
      (orPerm s root va perm2).store (t1 + 8 * PTX va)
        (PTE_ADDR (s.mem (t1 + 8 * PTX va)) ||| perm2 ||| PTE_P) := by
    rw [hst]
    show (orPerm s root va perm2).store (t1 + 8 * PTX va)
      (PTE_ADDR ((orPerm s root va perm2).mem (t1 + 8 * PTX va)) ||| perm2 ||| PTE_P) = _
    rw [hleaf4]
  have hfin : (page_insert s root (some pp) va perm2).2.mem (t1 + 8 * PTX va)
      = page2pa pp ||| perm2 ||| PTE_P := by
    rw [hst2, store_mem_self, hsame]
  refine ⟨(page_insert_ok_iff s root pp va perm2).mpr ⟨hr, hw⟩, ?_, ?_, t1 + 8 * PTX va,
    hfull.leafSlot_eq, ?_, hfin, ?_⟩
  · rw [hst2]; rfl
  · rw [hst2]; rfl
  · rw [hst2]; exact ((orPerm_full hfull perm2 hperm).store_leaf _).leafSlot_eq
  · rw [hfin, Nat.lor_assoc]
    exact leaf_entry_low pp _ (or_lt_4096 _ _ hperm (by decide))

/-- Witness of C3 on the state `exMapped`: frame 5 is inserted again at `0x1000`
with `PTE_U|PTE_W`. -/
theorem page_insert_same_frame_witness :
    (pathFrom 3 exMapped 0x8004000000 0x1000).Pairwise Sep ∧
    (page_lookup exMapped 0x8004000000 0x1000 none).page = some 5 ∧
    (page_insert exMapped 0x8004000000 (some 5) 0x1000 6).1 = 0 ∧
    (page_insert exMapped 0x8004000000 (some 5) 0x1000 6).2.pages = exMapped.pages ∧
    (page_insert exMapped 0x8004000000 (some 5) 0x1000 6).2.page_free_list
      = exMapped.page_free_list :=
  ⟨by decide, by decide,
    (page_insert_same_frame exMapped 0x8004000000 5 0x1000 6 (by decide) (by decide)
      (by decide)).1,
    (page_insert_same_frame exMapped 0x8004000000 5 0x1000 6 (by decide) (by decide)
      (by decide)).2.1,
    (page_insert_same_frame exMapped 0x8004000000 5 0x1000 6 (by decide) (by decide)
      (by decide)).2.2.1⟩

/-- Claim C4: whenever `page_insert(root, pp, va, perm)` returns `-E_NO_MEM`, every
frame has the reference count it had before the call; when `root` or `pp` is
`NULL` the state is untouched, and on a state that is well formed on the path
of `va` the lookup of `va` gives what it gave before the call. -/
theorem page_insert_no_mem (s : KState) (root : Nat) (pp : Option Nat) (va perm : Nat)
    (hfail : (page_insert s root pp va perm).1 = -E_NO_MEM) :
    (∀ i, ((page_insert s root pp va perm).2.pages i).pp_ref = (s.pages i).pp_ref) ∧
    (root = 0 ∨ pp = none → (page_insert s root pp va perm).2 = s) ∧
    (∀ l st, WalkPre 3 s root va l →
      (page_lookup (page_insert s root pp va perm).2 root va st).page
        = (page_lookup s root va st).page) := by
  cases pp with
  | none => exact ⟨fun _ => rfl, fun _ => rfl, fun _ _ _ => rfl⟩
  | some pp =>
    have hne : (page_insert s root (some pp) va perm).1 ≠ 0 := by
      rw [hfail]; exact neg_E_NO_MEM_ne
    obtain ⟨hst, hw⟩ := page_insert_fail s root pp va perm hne
    rw [hst]
    by_cases hr : root ≠ 0
    · rw [if_pos hr]
      have hw0 := hw hr
      refine ⟨?_, fun h => ?_, fun l st hpre => ?_⟩
      · rw [pml4e_walk_eq] at hw0 ⊢
        exact walkGen_fail_ref va 1 3 s root hw0
      · rcases h with h | h
        · exact absurd h hr
        · exact absurd h (by simp)
      · have hspec := walkGen_spec va 1 (by decide) 3 s root l hpre
        rw [← pml4e_walk_eq] at hspec
        have hafter := hspec.fail hw0
        rw [← pml4e_walk_eq] at hafter
        have hbefore := walkGen_fail_before va 1 3 s root (by rw [← pml4e_walk_eq]; exact hw0)
        rw [← pml4e_walk_eq] at hbefore
        rw [lookup_none_of_walk _ root va st hafter, lookup_none_of_walk s root va st hbefore]
    · rw [if_neg hr]
      exact ⟨fun _ => rfl, fun _ => rfl, fun _ _ _ => rfl⟩

/-- Witness of C4 on the state `exTwo`: the walk takes both free frames for the
PDPE and PD tables, fails to allocate the leaf table and rolls back. -/
theorem page_insert_no_mem_witness :
    (page_insert exTwo 0x8004000000 (some 7) 0x1000 0).1 = -E_NO_MEM ∧
    ((page_insert exTwo 0x8004000000 (some 7) 0x1000 0).2.pages 1).pp_ref
      = (exTwo.pages 1).pp_ref ∧
    WalkPre 3 exTwo 0x8004000000 0x1000 [1, 2] ∧
    (page_lookup (page_insert exTwo 0x8004000000 (some 7) 0x1000 0).2
      0x8004000000 0x1000 none).page
      = (page_lookup exTwo 0x8004000000 0x1000 none).page :=
  ⟨by decide,
    (page_insert_no_mem exTwo 0x8004000000 (some 7) 0x1000 0 (by decide)).1 1,
    ⟨by decide, by decide, by decide, by decide⟩,
    (page_insert_no_mem exTwo 0x8004000000 (some 7) 0x1000 0 (by decide)).2.2 [1, 2] none
      ⟨by decide, by decide, by decide, by decide⟩⟩


/-- Claim C5: after a successful `page_insert(root, pp, va, perm)`, the call
`page_remove(root, va)` makes `page_lookup(root, va)` return `NULL` with the
leaf entry of `va` equal to 0, leaves `pp->pp_ref` exactly one lower than after
the insert, and `pp` is on the free list afterwards iff that count is 0. The
state is assumed well formed (`WalkPre`, `AllocInv`), `pp` is a valid frame that
is not free, and a frame mapped at `va` beforehand has a count of at least 1. -/
theorem page_insert_then_remove (s : KState) (root pp va perm : Nat) (l : List Nat)
    (st : Option Nat) (hpre : WalkPre 3 s root va l) (hinv : AllocInv s l) (hppl : pp ∉ l)
    (hperm : perm < 4096) (hpp : pp < 2 ^ 52)
    (hq : ∀ q, (page_lookup s root va none).page = some q → 1 ≤ (s.pages q).pp_ref)
    (hok : (page_insert s root (some pp) va perm).1 = 0) :
    (page_lookup (page_remove (page_insert s root (some pp) va perm).2 root va) root va st).page
      = none ∧
    (∃ p, leafSlot (page_remove (page_insert s root (some pp) va perm).2 root va) root va
        = some p ∧
      (page_remove (page_insert s root (some pp) va perm).2 root va).mem p = 0) ∧
    ((page_remove (page_insert s root (some pp) va perm).2 root va).pages pp).pp_ref
      = ((page_insert s root (some pp) va perm).2.pages pp).pp_ref - 1 ∧
    ∃ l2, isList (page_remove (page_insert s root (some pp) va perm).2 root va).pages
        (page_remove (page_insert s root (some pp) va perm).2 root va).page_free_list l2 ∧
      (pp ∈ l2 ↔
        ((page_remove (page_insert s root (some pp) va perm).2 root va).pages pp).pp_ref = 0) := by
  obtain ⟨t3, t2, t1, k, hpost⟩ := page_insert_post s root pp va perm l hpre hperm hok
  obtain ⟨l1, hl1, hpl1, hlink⟩ :=
    page_insert_free_list s root pp va perm l hpre hinv hppl hperm hq hok
  have hls := hpost.full.leafSlot_eq
  have he : (page_insert s root (some pp) va perm).2.mem (t1 + 8 * PTX va) &&& PTE_P ≠ 0 := by
    rw [hpost.leaf]; exact or_P_land _
  rw [page_remove_mapped _ root va _ hpre.tbl_ne hls he, hpost.leaf,
    leaf_entry_addr pp perm hperm hpp]
  have hfull2 : FullPath ((page_decref (page_insert s root (some pp) va perm).2 pp).store
      (t1 + 8 * PTX va) 0) root va t3 t2 t1 :=
    (hpost.full.of_mem (page_decref (page_insert s root (some pp) va perm).2 pp)
      (by rw [page_decref_mem]) (by rw [page_decref_mem]) (by rw [page_decref_mem])).store_leaf 0
  have hzero : ((page_decref (page_insert s root (some pp) va perm).2 pp).store
      (t1 + 8 * PTX va) 0).mem (t1 + 8 * PTX va) = 0 := store_mem_self _ _ _
  obtain ⟨l2, h1, h2, _, _, _⟩ := page_decref_list _ pp l1 hl1 hpl1 hlink
  refine ⟨?_, ⟨t1 + 8 * PTX va, hfull2.leafSlot_eq, hzero⟩, ?_, l2, h1, h2⟩
  · rw [page_lookup_unmapped _ root va _ st hfull2.leafSlot_eq (by rw [hzero]; exact zero_land_P)]
  · exact page_decref_ref_self _ pp

/-- Witness of C5 on the state `exFresh`: frame 7 is mapped at `0x1000` and
removed again, which puts it on the free list. -/
theorem page_insert_then_remove_witness :
    WalkPre 3 exFresh 0x8004000000 0x1000 [1, 2, 3] ∧ AllocInv exFresh [1, 2, 3] ∧
    (page_insert exFresh 0x8004000000 (some 7) 0x1000 4).1 = 0 ∧
    (page_lookup (page_remove (page_insert exFresh 0x8004000000 (some 7) 0x1000 4).2
      0x8004000000 0x1000) 0x8004000000 0x1000 none).page = none ∧
    ((page_remove (page_insert exFresh 0x8004000000 (some 7) 0x1000 4).2
      0x8004000000 0x1000).pages 7).pp_ref
      = ((page_insert exFresh 0x8004000000 (some 7) 0x1000 4).2.pages 7).pp_ref - 1 := by
  have hpre : WalkPre 3 exFresh 0x8004000000 0x1000 [1, 2, 3] :=
    ⟨by decide, by decide, by decide, by decide⟩
  have hinv : AllocInv exFresh [1, 2, 3] :=
    ⟨by decide, fun f hf => by
      simp only [List.mem_cons, List.mem_singleton, List.not_mem_nil, or_false, not_or] at hf
      unfold exFresh
      simp only []
      rw [if_neg hf.1, if_neg hf.2.1]⟩
  have hok : (page_insert exFresh 0x8004000000 (some 7) 0x1000 4).1 = 0 := by decide
  have hlk : (page_lookup exFresh 0x8004000000 0x1000 none).page = none := by decide
  have h := page_insert_then_remove exFresh 0x8004000000 7 0x1000 4 [1, 2, 3] none hpre hinv
    (by decide) (by decide) (by decide)
    (fun q hq => by rw [hlk] at hq; exact absurd hq (by simp)) hok
  exact ⟨hpre, hinv, hok, h.1, h.2.2.1⟩


/-! ## Claim C6: page_lookup -/

/-- Claim C6: `page_lookup(root, va, store)` is read-only (the state it leaves is the
state it was given). It returns `NULL` exactly when `root` is `NULL`, some
intermediate table on the path of `va` is not present, or the leaf entry lacks
`PTE_P`; otherwise it returns the frame whose physical address is in the leaf
entry and stores the location of the leaf entry through a non-null `store`;
`*store` is left alone when no mapping is found. -/
theorem page_lookup_spec (s : KState) (root va : Nat) (st : Option Nat) :
    (page_lookup s root va st).state = s ∧
    ((page_lookup s root va st).page = none ↔
      (root = 0 ∨ leafSlot s root va = none ∨
        ∃ p, leafSlot s root va = some p ∧ s.mem p &&& PTE_P = 0)) ∧
    (leafSlot s root va = none ↔
      (s.mem (root + 8 * PML4 va) &&& PTE_P = 0 ∨
       s.mem (KADDR (PTE_ADDR (s.mem (root + 8 * PML4 va))) + 8 * PDPE va) &&& PTE_P = 0 ∨
       s.mem (KADDR (PTE_ADDR (s.mem (KADDR (PTE_ADDR (s.mem (root + 8 * PML4 va)))
          + 8 * PDPE va))) + 8 * PDX va) &&& PTE_P = 0)) ∧
    (∀ p, root ≠ 0 → leafSlot s root va = some p → s.mem p &&& PTE_P ≠ 0 →
      (page_lookup s root va st).page = some (pa2page (PTE_ADDR (s.mem p))) ∧
      (page_lookup s root va st).store = st.map (fun _ => p)) ∧
    ((page_lookup s root va st).page = none → (page_lookup s root va st).store = st) := by
  refine ⟨page_lookup_state s root va st, ?_, ?_, ?_, ?_⟩
  · by_cases hr : root ≠ 0
    · cases hls : leafSlot s root va with
      | none =>
        rw [page_lookup_nopath s root va st hls]
        exact ⟨fun _ => Or.inr (Or.inl rfl), fun _ => rfl⟩
      | some p =>
        by_cases he : s.mem p &&& PTE_P ≠ 0
        · rw [page_lookup_mapped s root va p st hr hls he]
          constructor
          · intro h; exact absurd h (by simp)
          · intro h
            rcases h with h | h | ⟨q, hq, hq2⟩
            · exact absurd h hr
            · exact absurd h (by simp)
            · rw [← Option.some.inj hq] at hq2; exact absurd hq2 he
        · rw [page_lookup_unmapped s root va p st hls (not_not.mp he)]
          exact ⟨fun _ => Or.inr (Or.inr ⟨p, rfl, not_not.mp he⟩), fun _ => rfl⟩
    · have h0 : root = 0 := not_not.mp hr
      subst h0
      rw [page_lookup_null]
      exact ⟨fun _ => Or.inl rfl, fun _ => rfl⟩
  · simp only [leafSlot]
    by_cases h4 : s.mem (root + 8 * PML4 va) &&& PTE_P = 0
    · rw [if_pos h4]; exact ⟨fun _ => Or.inl h4, fun _ => rfl⟩
    · rw [if_neg h4]
      by_cases h3 : s.mem (KADDR (PTE_ADDR (s.mem (root + 8 * PML4 va))) + 8 * PDPE va)
          &&& PTE_P = 0
      · rw [if_pos h3]; exact ⟨fun _ => Or.inr (Or.inl h3), fun _ => rfl⟩
      · rw [if_neg h3]
        by_cases h2 : s.mem (KADDR (PTE_ADDR (s.mem (KADDR (PTE_ADDR
            (s.mem (root + 8 * PML4 va))) + 8 * PDPE va))) + 8 * PDX va) &&& PTE_P = 0
        · rw [if_pos h2]; exact ⟨fun _ => Or.inr (Or.inr h2), fun _ => rfl⟩
        · rw [if_neg h2]
          constructor
          · intro h; exact absurd h (by simp)
          · intro h
            rcases h with h | h | h
            · exact absurd h h4
            · exact absurd h h3
            · exact absurd h h2
  · intro p hr hls he
    rw [page_lookup_mapped s root va p st hr hls he]
    exact ⟨rfl, rfl⟩
  · intro h
    by_cases hr : root ≠ 0
    · cases hls : leafSlot s root va with
      | none => rw [page_lookup_nopath s root va st hls]
      | some p =>
        by_cases he : s.mem p &&& PTE_P ≠ 0
        · rw [page_lookup_mapped s root va p st hr hls he] at h
          exact absurd h (by simp)
        · rw [page_lookup_unmapped s root va p st hls (not_not.mp he)]
    · have h0 : root = 0 := not_not.mp hr
      subst h0
      rw [page_lookup_null]

/-- Witness of C6 on the state `exMapped`, where `0x1000` is mapped to frame 5
by the leaf entry at `0x8004003008`. -/
theorem page_lookup_spec_witness :
    leafSlot exMapped 0x8004000000 0x1000 = some 0x8004003008 ∧
    exMapped.mem 0x8004003008 &&& PTE_P ≠ 0 ∧
    (page_lookup exMapped 0x8004000000 0x1000 (some 0)).page
      = some (pa2page (PTE_ADDR (exMapped.mem 0x8004003008))) ∧
    (page_lookup exMapped 0x8004000000 0x1000 (some 0)).store
      = (some 0).map (fun _ => 0x8004003008) :=
  ⟨by decide, by decide,
    ((page_lookup_spec exMapped 0x8004000000 0x1000 (some 0)).2.2.2.1 0x8004003008
      (by decide) (by decide) (by decide)).1,
    ((page_lookup_spec exMapped 0x8004000000 0x1000 (some 0)).2.2.2.1 0x8004003008
      (by decide) (by decide) (by decide)).2⟩

/-! ## Claims C7 to C10: page_alloc and page_free -/

/-- Claim C7: on a free list holding the frames `l`, each with reference count 0,
`n ≤ |l|` consecutive `page_alloc` calls return the first `n` frames of `l`:
pairwise distinct, non-`NULL`, each with `pp_ref == 0` and `pp_link == NULL`;
and after `|l|` calls the next call returns `NULL`. -/
theorem page_alloc_consecutive (s : KState) (flags : Nat) (l : List Nat) (n : Nat)
    (hl : isList s.pages s.page_free_list l)
    (href : ∀ f ∈ l, (s.pages f).pp_ref = 0) (hn : n ≤ l.length) :
    (page_alloc_seq s flags n).1 = (l.take n).map some ∧
    (l.take n).Nodup ∧
    (∀ f ∈ l.take n, ((page_alloc_seq s flags n).2.pages f).pp_ref = 0 ∧
      ((page_alloc_seq s flags n).2.pages f).pp_link = none) ∧
    (n = l.length → (page_alloc (page_alloc_seq s flags n).2 flags).1 = none) := by
  obtain ⟨h1, h2, _, h4⟩ := page_alloc_seq_spec flags n s l hl hn
  refine ⟨h1, (isList_nodup _ l _ hl).sublist (List.take_sublist n l), ?_, ?_⟩
  · intro f hf
    rw [h4 f hf]
    exact ⟨href f (List.mem_of_mem_take hf), rfl⟩
  · intro hn2
    subst hn2
    rw [List.drop_length] at h2
    rw [page_alloc_none _ flags h2]

/-- Witness of C7 on the state `exFresh`, whose free list is 1, 2, 3. -/
theorem page_alloc_consecutive_witness :
    isList exFresh.pages exFresh.page_free_list [1, 2, 3] ∧
    (∀ f ∈ [1, 2, 3], (exFresh.pages f).pp_ref = 0) ∧
    (page_alloc_seq exFresh 0 3).1 = [some 1, some 2, some 3] ∧
    (page_alloc (page_alloc_seq exFresh 0 3).2 0).1 = none :=
  ⟨by decide, by decide,
    (page_alloc_consecutive exFresh 0 [1, 2, 3] 3 (by decide) (by decide) (by decide)).1,
    (page_alloc_consecutive exFresh 0 [1, 2, 3] 3 (by decide) (by decide) (by decide)).2.2.2 rfl⟩

/-- Claim C8: on a non-empty free list `page_alloc` returns the list head, makes the
head's old link the new free-list head (the old list's tail), sets the returned
frame's `pp_link` to `NULL` and leaves every `pp_ref` and every other frame's
entry unchanged; on an empty free list it returns `NULL` and changes no state. -/
theorem page_alloc_spec (s : KState) (flags : Nat) :
    (∀ pp, s.page_free_list = some pp →
      (page_alloc s flags).1 = some pp ∧
      (page_alloc s flags).2.page_free_list = (s.pages pp).pp_link ∧
      ((page_alloc s flags).2.pages pp).pp_link = none ∧
      (∀ i, ((page_alloc s flags).2.pages i).pp_ref = (s.pages i).pp_ref) ∧
      (∀ i, i ≠ pp → (page_alloc s flags).2.pages i = s.pages i) ∧
      (∀ xs, isList s.pages s.page_free_list (pp :: xs) →
        isList (page_alloc s flags).2.pages (page_alloc s flags).2.page_free_list xs)) ∧
    (s.page_free_list = none → page_alloc s flags = (none, s)) := by
  refine ⟨fun pp h => ⟨page_alloc_some_fst s flags pp h, page_alloc_some_free s flags pp h,
    ?_, ?_, ?_, fun xs hl => page_alloc_list s flags pp xs hl⟩, page_alloc_none s flags⟩
  · rw [page_alloc_some_pages s flags pp h]; simp
  · intro i
    rw [page_alloc_some_pages s flags pp h]
    by_cases hi : i = pp
    · simp [hi]
    · simp [hi]
  · intro i hi
    rw [page_alloc_some_pages s flags pp h]
    simp [hi]

/-- Witness of C8: `exFresh` has the free list 1, 2, 3 and `exMapped` an empty one. -/
theorem page_alloc_spec_witness :
    exFresh.page_free_list = some 1 ∧ (page_alloc exFresh 1).1 = some 1 ∧
    (page_alloc exFresh 1).2.page_free_list = (exFresh.pages 1).pp_link ∧
    exMapped.page_free_list = none ∧ page_alloc exMapped 1 = (none, exMapped) :=
  ⟨rfl, ((page_alloc_spec exFresh 1).1 1 rfl).1, ((page_alloc_spec exFresh 1).1 1 rfl).2.1,
    rfl, (page_alloc_spec exMapped 1).2 rfl⟩

/-- Claim C9: for a frame `p` with `pp_ref == 0` and `pp_link == NULL`, `page_free(p)`
followed by `page_alloc(flags)` returns `p` and restores the free-list head and
the whole `pages` array; when `flags` contains `ALLOC_ZERO` all `PGSIZE` bytes
of the frame are zero whatever they were before, and otherwise memory is
unchanged. -/
theorem page_free_then_alloc (s : KState) (p flags : Nat)
    (href : (s.pages p).pp_ref = 0) (hlink : (s.pages p).pp_link = none) :
    (page_alloc (page_free s p) flags).1 = some p ∧
    (page_alloc (page_free s p) flags).2.page_free_list = s.page_free_list ∧
    (page_alloc (page_free s p) flags).2.pages = s.pages ∧
    (flags &&& ALLOC_ZERO ≠ 0 → ∀ i, i < PGSIZE →
      byteAt (page_alloc (page_free s p) flags).2.mem (page2kva p + i) = 0) ∧
    (flags &&& ALLOC_ZERO = 0 → (page_alloc (page_free s p) flags).2.mem = s.mem) := by
  have hc : ¬ ((s.pages p).pp_ref ≠ 0 ∨ (s.pages p).pp_link ≠ none) := by
    simp [href, hlink]
  have hfree : page_free s p =
      (({ s.setLink p s.page_free_list with page_free_list := some p } : KState).setRef p 0) := by
    unfold page_free; rw [if_neg hc]
  have hfl : (page_free s p).page_free_list = some p := by rw [hfree]; rfl
  have hpg : (page_free s p).pages p = { pp_link := s.page_free_list, pp_ref := 0 } := by
    rw [hfree]; simp [KState.setRef, KState.setLink]
  refine ⟨page_alloc_some_fst _ flags p hfl, ?_, ?_, ?_, ?_⟩
  · rw [page_alloc_some_free _ flags p hfl, hpg]
  · rw [page_alloc_some_pages _ flags p hfl]
    funext i
    by_cases hi : i = p
    · subst hi
      rw [if_pos rfl, hpg]
      cases hs : s.pages i with
      | mk lk rf =>
        rw [hs] at href hlink
        simp only at href hlink
        rw [href, hlink]
    · rw [if_neg hi, hfree]
      simp [KState.setRef, KState.setLink, hi]
  · intro hz i hi
    have hmem : (page_alloc (page_free s p) flags).2.mem =
        fun x => if page2kva p ≤ x ∧ x < page2kva p + PGSIZE then 0 else s.mem x := by
      simp only [page_alloc, hfl]
      rw [if_pos hz, hfree]
      rfl
    have hk := page2kva_eq p
    unfold byteAt
    rw [hmem]
    have hin : page2kva p ≤ page2kva p + i - (page2kva p + i) % 8 ∧
        page2kva p + i - (page2kva p + i) % 8 < page2kva p + PGSIZE := by
      unfold PGSIZE KERNBASE at *
      omega
    simp only []
    rw [if_pos hin]
    simp
  · intro hz
    simp only [page_alloc, hfl]
    rw [if_neg (not_not.mpr hz), hfree]
    rfl

/-- Witness of C9 on the state `exMapped`: frame 7 has no reference and no link,
and its first word holds a non-zero value before the calls. -/
theorem page_free_then_alloc_witness :
    (exMapped.pages 7).pp_ref = 0 ∧ (exMapped.pages 7).pp_link = none ∧
    (page_alloc (page_free (exMapped.store (page2kva 7) 0x0101010101010101) 7) 1).1 = some 7 ∧
    byteAt (page_alloc (page_free (exMapped.store (page2kva 7) 0x0101010101010101) 7) 1).2.mem
      (page2kva 7 + 3) = 0 :=
  ⟨by decide, by decide,
    (page_free_then_alloc (exMapped.store (page2kva 7) 0x0101010101010101) 7 1
      (by decide) (by decide)).1,
    (page_free_then_alloc (exMapped.store (page2kva 7) 0x0101010101010101) 7 1
      (by decide) (by decide)).2.2.2.1 (by decide) 3 (by decide)⟩

/-- Claim C10: `page_free(pp)` called with `pp_ref != 0` or `pp_link != NULL` changes
nothing (free-list head, links, reference counts, memory). Called with
`pp_ref == 0` and `pp_link == NULL` it makes `pp` the head of the free list with
the old head as its link, keeps `pp_ref` at 0 and touches no other frame: the
new free list is `pp` followed by the old list. -/
theorem page_free_spec (s : KState) (pp : Nat) :
    (((s.pages pp).pp_ref ≠ 0 ∨ (s.pages pp).pp_link ≠ none) → page_free s pp = s) ∧
    ((s.pages pp).pp_ref = 0 → (s.pages pp).pp_link = none →
      (page_free s pp).page_free_list = some pp ∧
      ((page_free s pp).pages pp).pp_link = s.page_free_list ∧
      ((page_free s pp).pages pp).pp_ref = 0 ∧
      (∀ i, i ≠ pp → (page_free s pp).pages i = s.pages i) ∧
      (page_free s pp).mem = s.mem ∧
      (∀ l, isList s.pages s.page_free_list l → pp ∉ l →
        isList (page_free s pp).pages (page_free s pp).page_free_list (pp :: l))) := by
  constructor
  · intro h
    unfold page_free; rw [if_pos h]
  · intro href hlink
    have hc : ¬ ((s.pages pp).pp_ref ≠ 0 ∨ (s.pages pp).pp_link ≠ none) := by
      simp [href, hlink]
    have hfree : page_free s pp =
        (({ s.setLink pp s.page_free_list with page_free_list := some pp } : KState).setRef pp 0) := by
      unfold page_free; rw [if_neg hc]
    have hpg : (page_free s pp).pages pp = { pp_link := s.page_free_list, pp_ref := 0 } := by
      rw [hfree]; simp [KState.setRef, KState.setLink]
    have hoth : ∀ i, i ≠ pp → (page_free s pp).pages i = s.pages i := by
      intro i hi
      rw [hfree]; simp [KState.setRef, KState.setLink, hi]
    refine ⟨by rw [hfree]; rfl, by rw [hpg], by rw [hpg], hoth, page_free_mem s pp, ?_⟩
    intro l hl hpl
    refine ⟨by rw [hfree]; rfl, ?_⟩
    rw [hpg]
    refine isList_congr s.pages _ l _ ?_ hl
    intro x hx
    rw [hoth x (fun h => hpl (h ▸ hx))]

/-- Witness of C10 on the state `exMapped`: frame 5 is still referenced, frame 7
is unused and the free list is empty. -/
theorem page_free_spec_witness :
    (exMapped.pages 5).pp_ref ≠ 0 ∧ page_free exMapped 5 = exMapped ∧
    (exMapped.pages 7).pp_ref = 0 ∧ (exMapped.pages 7).pp_link = none ∧
    (page_free exMapped 7).page_free_list = some 7 ∧
    isList (page_free exMapped 7).pages (page_free exMapped 7).page_free_list [7] :=
  ⟨by decide, (page_free_spec exMapped 5).1 (Or.inl (by decide)),
    by decide, by decide,
    ((page_free_spec exMapped 7).2 (by decide) (by decide)).1,
    ((page_free_spec exMapped 7).2 (by decide) (by decide)).2.2.2.2.2 [] rfl (by simp)⟩

/-! ## Claims C11 and C12: double free and page_decref -/

/-- A frame that is on the free list before its last element has a non-null link. -/
theorem isList_link_of_not_last (pages : Nat → PageInfo) : ∀ (l : List Nat) (h : Option Nat)
    (pp : Nat), isList pages h l → pp ∈ l → l.getLast? ≠ some pp → (pages pp).pp_link ≠ none
  | [], _, _, _, hm, _ => absurd hm (List.not_mem_nil _)
  | [x], _, pp, _, hm, hlast => by
      simp only [List.mem_singleton] at hm
      subst hm
      exact absurd rfl hlast
  | x :: y :: ys, _, pp, hl, hm, hlast => by
      have hl2 : isList pages (pages x).pp_link (y :: ys) := hl.2
      rcases List.mem_cons.mp hm with hx | hx
      · subst hx
        rw [hl2.1]; simp
      · exact isList_link_of_not_last pages (y :: ys) _ pp hl2 hx
          (by rw [List.getLast?_cons_cons] at hlast; exact hlast)

/-- The part of the double-free check that works: `page_free` of a frame that is
on the free list and is not its last element changes nothing. -/
theorem page_free_listed_not_last (s : KState) (l : List Nat) (pp : Nat)
    (hl : isList s.pages s.page_free_list l) (hm : pp ∈ l) (hlast : l.getLast? ≠ some pp) :
    page_free s pp = s := by
  unfold page_free
  rw [if_pos (Or.inr (isList_link_of_not_last s.pages l _ pp hl hm hlast))]

/-- Claim C11 (fails on the code): on the well-formed free list 1, 2, 3 of
`exFresh`, where every free frame has reference count 0, `page_free` of the
last element 3 is not a no-op: frame 3 becomes the head with frame 1 as its
link, so the chain of links is the cycle 3, 1, 2, 3, ... and no longer a list. -/
theorem page_free_double_free_last :
    isList exFresh.pages exFresh.page_free_list [1, 2, 3] ∧
    (exFresh.pages 3).pp_ref = 0 ∧
    (page_free exFresh 3).page_free_list = some 3 ∧
    ((page_free exFresh 3).pages 3).pp_link = some 1 ∧
    ((page_free exFresh 3).pages 1).pp_link = some 2 ∧
    ((page_free exFresh 3).pages 2).pp_link = some 3 ∧
    ∀ l, ¬ isList (page_free exFresh 3).pages (page_free exFresh 3).page_free_list l := by
  refine ⟨by decide, by decide, by decide, by decide, by decide, by decide, ?_⟩
  intro l hl
  have h0 : (page_free exFresh 3).page_free_list = some 3 := by decide
  have h3 : ((page_free exFresh 3).pages 3).pp_link = some 1 := by decide
  have h1 : ((page_free exFresh 3).pages 1).pp_link = some 2 := by decide
  have h2 : ((page_free exFresh 3).pages 2).pp_link = some 3 := by decide
  rw [h0] at hl
  cases l with
  | nil => exact absurd hl (by simp [isList])
  | cons a l1 =>
    obtain ⟨ha, hl1⟩ := hl
    have ha3 : a = 3 := (Option.some.inj ha).symm
    subst ha3
    rw [h3] at hl1
    cases l1 with
    | nil => exact absurd hl1 (by simp [isList])
    | cons b l2 =>
      obtain ⟨hb, hl2⟩ := hl1
      have hb1 : b = 1 := (Option.some.inj hb).symm
      subst hb1
      rw [h1] at hl2
      cases l2 with
      | nil => exact absurd hl2 (by simp [isList])
      | cons c l3 =>
        obtain ⟨hc, hl3⟩ := hl2
        have hc2 : c = 2 := (Option.some.inj hc).symm
        subst hc2
        rw [h2] at hl3
        have hfull : isList (page_free exFresh 3).pages (some 3) (3 :: 1 :: 2 :: l3) :=
          ⟨rfl, by rw [h3]; exact ⟨rfl, by rw [h1]; exact ⟨rfl, by rw [h2]; exact hl3⟩⟩⟩
        have := congrArg List.length (isList_unique _ _ _ _ hfull hl3)
        simp only [List.length_cons] at this
        omega

/-- Claim C12: for a frame `pp` with reference count `r ≥ 1` that is not on the
free list `l` (and so has a null link), `page_decref(pp)` leaves `pp_ref = r-1`
(still a valid count) and touches no other frame; if `r = 1`, `pp` becomes the head of the free list,
followed by the old list; if `r ≥ 2` the free list (head and links) is unchanged. -/
theorem page_decref_spec (s : KState) (pp : Nat) (l : List Nat)
    (hl : isList s.pages s.page_free_list l) (hpl : pp ∉ l)
    (hlink : (s.pages pp).pp_link = none) (hr : 1 ≤ (s.pages pp).pp_ref) :
    ((page_decref s pp).pages pp).pp_ref = (s.pages pp).pp_ref - 1 ∧
    (∀ i, i ≠ pp → (page_decref s pp).pages i = s.pages i) ∧
    (page_decref s pp).mem = s.mem ∧
    ((s.pages pp).pp_ref = 1 →
      (page_decref s pp).page_free_list = some pp ∧
      ((page_decref s pp).pages pp).pp_link = s.page_free_list ∧
      isList (page_decref s pp).pages (page_decref s pp).page_free_list (pp :: l)) ∧
    (2 ≤ (s.pages pp).pp_ref →
      (page_decref s pp).page_free_list = s.page_free_list ∧
      ((page_decref s pp).pages pp).pp_link = none ∧
      isList (page_decref s pp).pages (page_decref s pp).page_free_list l) ∧
    0 ≤ ((page_decref s pp).pages pp).pp_ref := by
  refine ⟨page_decref_ref_self s pp, ?_, page_decref_mem s pp, ?_, ?_,
    by rw [page_decref_ref_self]; omega⟩
  · intro i hi
    by_cases h1 : (s.pages pp).pp_ref = 1
    · exact (page_decref_push s pp h1 hlink).2.2 i hi
    · rw [page_decref_keep s pp h1]; exact setRef_other s pp _ i hi
  · intro h1
    obtain ⟨a, b, c⟩ := page_decref_push s pp h1 hlink
    refine ⟨a, by rw [b], a, ?_⟩
    rw [b]
    refine isList_congr s.pages _ l _ ?_ hl
    intro x hx
    rw [c x (fun h => hpl (h ▸ hx))]
  · intro h2
    have h1 : (s.pages pp).pp_ref ≠ 1 := by omega
    rw [page_decref_keep s pp h1]
    exact ⟨rfl, by rw [setRef_link]; exact hlink, setRef_list s pp _ l hl⟩

/-- Witness of C12 on the state `exMapped`, where frame 5 has one reference and
the free list is empty. -/
theorem page_decref_spec_witness :
    isList exMapped.pages exMapped.page_free_list [] ∧
    (exMapped.pages 5).pp_link = none ∧ 1 ≤ (exMapped.pages 5).pp_ref ∧
    ((page_decref exMapped 5).pages 5).pp_ref = (exMapped.pages 5).pp_ref - 1 ∧
    isList (page_decref exMapped 5).pages (page_decref exMapped 5).page_free_list [5] :=
  ⟨by decide, by decide, by decide,
    (page_decref_spec exMapped 5 [] (by decide) (by decide) (by decide) (by decide)).1,
    ((page_decref_spec exMapped 5 [] (by decide) (by decide) (by decide) (by decide)).2.2.2.1
      (by decide)).2.2⟩

/-! ## Claim C13: the location returned by the walk -/

theorem idx_eq_div (lvl va : Nat) : idx lvl va = va / 2 ^ (12 + 9 * lvl) % 512 := by
  unfold idx
  have h : (0x1FF : Nat) = 2 ^ 9 - 1 := by decide
  rw [h, Nat.and_pow_two_sub_one_eq_mod, Nat.shiftRight_eq_div_pow]

theorem idx_congr (lvl va va2 : Nat) (h : va2 / PGSIZE = va / PGSIZE) :
    idx lvl va2 = idx lvl va := by
  have h12 : ∀ x : Nat, x / 2 ^ (12 + 9 * lvl) = x / PGSIZE / 2 ^ (9 * lvl) := by
    intro x
    rw [Nat.pow_add, Nat.div_div_eq_div_mul]
    rfl
  rw [idx_eq_div, idx_eq_div, h12, h12, h]

theorem PTX_eq_idx (va : Nat) : PTX va = idx 0 va := rfl

theorem walkGen_congr (va va2 c : Nat) (h : va2 / PGSIZE = va / PGSIZE) :
    ∀ (lvl : Nat) (s : KState) (tbl : Nat), walkGen lvl s tbl va2 c = walkGen lvl s tbl va c
  | 0, s, tbl => by
      rw [walkGen_zero, walkGen_zero, PTX_eq_idx, PTX_eq_idx, idx_congr 0 va va2 h]
  | lvl + 1, s, tbl => by
      have ih := walkGen_congr va va2 c h lvl
      rw [walkGen, walkGen]
      simp only [idx_congr (lvl + 1) va va2 h, ih]

/-- The walk depends on the address only through its page number. -/
theorem pml4e_walk_congr (s : KState) (root va va2 c : Nat) (h : va2 / PGSIZE = va / PGSIZE) :
    pml4e_walk s root va2 c = pml4e_walk s root va c := by
  rw [pml4e_walk_eq, pml4e_walk_eq, walkGen_congr va va2 c h]

theorem walk_setup_any (s : KState) (root va c : Nat) (l : List Nat) (hc : c ≠ 0)
    (hpre : WalkPre 3 s root va l) (hw : (pml4e_walk s root va c).1 ≠ 0) :
    ∃ t3 t2 t1 k, WalkOk 3 s root va l (pml4e_walk s root va c) k ∧
      (pml4e_walk s root va c).1 = t1 + 8 * PTX va ∧
      FullPath (pml4e_walk s root va c).2 root va t3 t2 t1 ∧
      pathFrom 3 (pml4e_walk s root va c).2 root va = [root, t3, t2, t1] := by
  have hspec := walkGen_spec va c hc 3 s root l hpre
  rw [← pml4e_walk_eq] at hspec
  obtain ⟨k, hk⟩ := hspec.ok hw
  have hsep : (pathFrom 3 (pml4e_walk s root va c).2 root va).Pairwise Sep := by
    have h1 := hpre.sep
    rw [← List.take_append_drop k l, List.map_append, ← List.append_assoc, ← hk.path] at h1
    exact (List.pairwise_append.mp h1).1
  obtain ⟨t3, t2, t1, hfull, hpath⟩ := pathFrom_three_full _ root va hk.full hsep
  obtain ⟨t, ht, hptr⟩ := hk.leaf
  rw [hpath] at ht
  simp only [List.getLast?_cons_cons, List.getLast?_singleton, Option.some.injEq] at ht
  subst ht
  exact ⟨t3, t2, t1, k, hk, hptr, hfull, hpath⟩

/-- Claim C13: whenever `pml4e_walk(root, va, create)` returns non-`NULL`, the
result is, in the state after the call, the location of entry `PTX(va)` of the
table referenced by entry `PDX(va)` of the table referenced by entry `PDPE(va)`
of the table referenced by `root[PML4(va)]` (`leafSlot`); the four indices are
the successive 9-bit groups of `va` above the 12-bit page offset; and addresses
with the same page number give the same result. For a creating walk the state
is assumed well formed on the path of `va`. -/
theorem pml4e_walk_location (s : KState) (root va c : Nat) (l : List Nat)
    (hpre : c ≠ 0 → WalkPre 3 s root va l) (hw : (pml4e_walk s root va c).1 ≠ 0) :
    leafSlot (pml4e_walk s root va c).2 root va = some (pml4e_walk s root va c).1 ∧
    (PML4 va = va / 2 ^ 39 % 512 ∧ PDPE va = va / 2 ^ 30 % 512 ∧
      PDX va = va / 2 ^ 21 % 512 ∧ PTX va = va / 2 ^ 12 % 512) ∧
    ∀ va2, va2 / PGSIZE = va / PGSIZE →
      pml4e_walk s root va2 c = pml4e_walk s root va c := by
  refine ⟨?_, ⟨idx_eq_div 3 va, idx_eq_div 2 va, idx_eq_div 1 va, idx_eq_div 0 va⟩,
    fun va2 h => pml4e_walk_congr s root va va2 c h⟩
  by_cases hc : c = 0
  · subst hc
    have hr : root ≠ 0 := by
      intro h0
      apply hw
      rw [h0, pml4e_walk_eq, walkGen_null]
    rw [pml4e_walk_nocreate s root va hr] at hw ⊢
    cases hls : leafSlot s root va with
    | none => rw [hls] at hw; exact absurd rfl hw
    | some p => rfl
  · obtain ⟨t3, t2, t1, k, _, hptr, hfull, _⟩ := walk_setup_any s root va c l hc (hpre hc) hw
    rw [hptr]
    exact hfull.leafSlot_eq

/-- Witness of C13 on the state `exFresh`: the creating walk of `0x1234` builds
the three tables and returns the entry `PTX = 1` of the leaf table in frame 3. -/
theorem pml4e_walk_location_witness :
    WalkPre 3 exFresh 0x8004000000 0x1234 [1, 2, 3] ∧
    (pml4e_walk exFresh 0x8004000000 0x1234 1).1 = 0x8004003008 ∧
    leafSlot (pml4e_walk exFresh 0x8004000000 0x1234 1).2 0x8004000000 0x1234
      = some (pml4e_walk exFresh 0x8004000000 0x1234 1).1 ∧
    pml4e_walk exFresh 0x8004000000 0x1fff 1 = pml4e_walk exFresh 0x8004000000 0x1234 1 :=
  ⟨⟨by decide, by decide, by decide, by decide⟩, by decide,
    (pml4e_walk_location exFresh 0x8004000000 0x1234 1 [1, 2, 3]
      (fun _ => ⟨by decide, by decide, by decide, by decide⟩) (by decide)).1,
    (pml4e_walk_location exFresh 0x8004000000 0x1234 1 [1, 2, 3]
      (fun _ => ⟨by decide, by decide, by decide, by decide⟩) (by decide)).2.2 0x1fff
      (by decide)⟩

/-! ## Claim C14: the tables created by a walk -/

theorem pathFrom_head (lvl : Nat) (s : KState) (tbl va : Nat) :
    ∃ rest, pathFrom lvl s tbl va = tbl :: rest := by
  cases lvl with
  | zero => exact ⟨[], rfl⟩
  | succ n => exact ⟨_, rfl⟩

theorem getLast?_path_cons (lvl : Nat) (s : KState) (tbl child va : Nat) :
    (tbl :: pathFrom lvl s child va).getLast? = (pathFrom lvl s child va).getLast? := by
  obtain ⟨rest, h⟩ := pathFrom_head lvl s child va
  rw [h, List.getLast?_cons_cons]

theorem walkGen_mem (va c : Nat) (hc : c ≠ 0) :
    ∀ (lvl : Nat) (s : KState) (tbl : Nat) (l : List Nat) (k t : Nat),
      WalkPre lvl s tbl va l → (walkGen lvl s tbl va c).1 ≠ 0 →
      k + (pathFrom lvl s tbl va).length = lvl + 1 →
      (pathFrom lvl s tbl va).getLast? = some t →
      newTables (walkGen lvl s tbl va c).2.mem va (t + 8 * idx k va) (l.take k) ∧
      (0 < k → s.mem (t + 8 * idx k va) &&& PTE_P = 0) ∧
      k ≤ l.length ∧
      ∀ x, (∀ f ∈ l.take k, ¬ inPg (page2kva f) x) → (0 < k → x ≠ t + 8 * idx k va) →
        (walkGen lvl s tbl va c).2.mem x = s.mem x
  | 0, s, tbl, l, k, t, _, _, hk, _ => by
      have hk0 : k = 0 := by simpa [pathFrom] using hk
      subst hk0
      rw [walkGen_zero]
      exact ⟨by simp [newTables], fun h => absurd h (lt_irrefl 0), Nat.zero_le _,
        fun _ _ _ => rfl⟩
  | lvl + 1, s, tbl, l, k, t, hpre, hw, hk, ht => by
      by_cases hp : s.mem (tbl + 8 * idx (lvl + 1) va) &&& PTE_P = 0
      · have hpath : pathFrom (lvl + 1) s tbl va = [tbl] := pathFrom_absent lvl s tbl va hp
        rw [hpath] at hk ht
        have hk1 : k = lvl + 1 := by simpa using hk
        have ht1 : t = tbl := by simpa using ht.symm
        subst hk1; subst ht1
        cases l with
        | nil =>
          have hf : s.page_free_list = none := hpre.free
          rw [walkGen_absent_empty lvl s t va c hp hf] at hw
          exact absurd rfl hw
        | cons f l' =>
          have hf : s.page_free_list = some f := hpre.free.1
          rw [walkGen_install lvl s t va c f hpre.tbl_ne hp hc hf] at hw ⊢
          have hsep := hpre.sep
          rw [hpath] at hsep
          simp only [List.singleton_append, List.map_cons] at hsep
          obtain ⟨hsep_tbl, hsep_rest⟩ := List.pairwise_cons.mp hsep
          obtain ⟨hsep_f, _⟩ := List.pairwise_cons.mp hsep_rest
          have hf52 : f < 2 ^ 52 := hpre.frames f (List.mem_cons_self _ _)
          have hslot := install_mem_slot s f (t + 8 * idx (lvl + 1) va)
          have hchild : KADDR (PTE_ADDR ((install s f (t + 8 * idx (lvl + 1) va)).mem
              (t + 8 * idx (lvl + 1) va))) = page2kva f := by
            rw [hslot, entry_addr f hf52]; rfl
          rw [hchild] at hw ⊢
          have hsepf : Sep t (page2kva f) := hsep_tbl _ (List.mem_cons_self _ _)
          have hne : ∀ y, inPg (page2kva f) y → y ≠ t + 8 * idx (lvl + 1) va := by
            intro y hy h
            exact sep_not_inPg _ _ _ hsepf (slot_inPg t (lvl + 1) va) (h ▸ hy)
          have hpath3 : pathFrom lvl (install s f (t + 8 * idx (lvl + 1) va)) (page2kva f) va
              = [page2kva f] := by
            cases lvl with
            | zero => rfl
            | succ n =>
              rw [pathFrom, if_pos]
              rw [install_mem_zero _ _ _ _ (hne _ (slot_inPg _ _ _)) (slot_inPg _ _ _)]
              exact zero_land_P
          have hpre3 : WalkPre lvl (install s f (t + 8 * idx (lvl + 1) va)) (page2kva f) va l' :=
            ⟨KADDR_ne_zero _, install_list s f _ l' hpre.free,
              fun g hg => hpre.frames g (List.mem_cons_of_mem _ hg),
              by rw [hpath3]; exact hsep_rest⟩
          by_cases hr : (walkGen lvl (install s f (t + 8 * idx (lvl + 1) va))
              (page2kva f) va c).1 ≠ 0
          · rw [if_pos hr]
            obtain ⟨hN, _, hK, hFr⟩ := walkGen_mem va c hc lvl _ (page2kva f) l' lvl (page2kva f)
              hpre3 hr (by rw [hpath3]; rfl) (by rw [hpath3]; rfl)
            have hlen : (l'.take lvl).length = lvl := by
              rw [List.length_take]; exact Nat.min_eq_left hK
            have hfr_l : ∀ g ∈ l'.take lvl, Sep t (page2kva g) := fun g hg =>
              hsep_tbl _ (List.mem_cons_of_mem _ (List.mem_map_of_mem _ (List.mem_of_mem_take hg)))
            have hfr_f : ∀ g ∈ l'.take lvl, Sep (page2kva f) (page2kva g) := fun g hg =>
              hsep_f _ (List.mem_map_of_mem _ (List.mem_of_mem_take hg))
            have hs3 : ∀ x, inPg (page2kva f) x → (0 < lvl → x ≠ page2kva f + 8 * idx lvl va) →
                (walkGen lvl (install s f (t + 8 * idx (lvl + 1) va)) (page2kva f) va c).2.mem x
                  = 0 := by
              intro x hx hxs
              rw [hFr x (fun g hg => sep_not_inPg _ _ _ (hfr_f g hg) hx) hxs]
              exact install_mem_zero _ _ _ _ (hne x hx) hx
            refine ⟨?_, fun _ => hp, by simpa using hK, ?_⟩
            · rw [List.take_succ_cons]
              refine ⟨?_, ?_, ?_⟩
              · rw [hFr _ (fun g hg => sep_not_inPg _ _ _ (hfr_l g hg) (slot_inPg t (lvl + 1) va))
                  (fun _ h => hne _ (slot_inPg _ _ _) h.symm)]
                exact hslot
              · intro x hx hxl
                rw [hlen] at hxl
                refine hs3 x hx (fun h0 hxe => ?_)
                have := hxl hxe
                rw [this] at hlen
                simp at hlen
                omega
              · rw [hlen]; exact hN
            · intro x hx hxs
              have hxf : ¬ inPg (page2kva f) x := hx f (by simp)
              rw [hFr x (fun g hg => hx g (by rw [List.take_succ_cons]; exact List.mem_cons_of_mem _ hg))
                (fun _ h => hxf (h ▸ slot_inPg _ _ _)),
                install_mem_other s f _ x (hxs (Nat.succ_pos _)) hxf]
          · rw [if_neg hr] at hw
            exact absurd rfl hw
      · rw [walkGen_present lvl s tbl va c hpre.tbl_ne hp] at hw ⊢
        have hpath := pathFrom_present lvl s tbl va hp
        have hsep := hpre.sep
        rw [hpath, List.cons_append] at hsep
        rw [hpath] at hk ht
        rw [getLast?_path_cons] at ht
        have hpre2 : WalkPre lvl s (KADDR (PTE_ADDR (s.mem (tbl + 8 * idx (lvl + 1) va)))) va l :=
          ⟨KADDR_ne_zero _, hpre.free, hpre.frames, (List.pairwise_cons.mp hsep).2⟩
        exact walkGen_mem va c hc lvl s _ l k t hpre2 hw
          (by rw [List.length_cons] at hk; omega) ht
theorem newTables_spec (mem : Nat → Nat) (va : Nat) :
    ∀ (fs : List Nat) (a : Nat), newTables mem va a fs →
      (∀ f, fs.head? = some f → mem a = page2pa f ||| PTE_U ||| PTE_W ||| PTE_P) ∧
      (∀ j f g, fs[j]? = some f → fs[j + 1]? = some g →
        mem (page2kva f + 8 * idx (fs.length - 1 - j) va)
          = page2pa g ||| PTE_U ||| PTE_W ||| PTE_P) ∧
      (∀ j f, fs[j]? = some f → ∀ x, inPg (page2kva f) x →
        (x = page2kva f + 8 * idx (fs.length - 1 - j) va → j + 1 = fs.length) → mem x = 0)
  | [], _, _ => ⟨fun f h => by simp at h, fun j f g h => by simp at h, fun j f h => by simp at h⟩
  | f0 :: fs, a, h => by
      obtain ⟨h1, h2, h3⟩ := h
      obtain ⟨ih1, ih2, ih3⟩ := newTables_spec mem va fs _ h3
      have hlen : ∀ j, (f0 :: fs).length - 1 - (j + 1) = fs.length - 1 - j := by
        intro j; simp only [List.length_cons]; omega
      have hlen0 : (f0 :: fs).length - 1 - 0 = fs.length := by simp
      refine ⟨fun f hf => ?_, fun j f g hf hg => ?_, fun j f hf x hx hxs => ?_⟩
      · simp only [List.head?_cons, Option.some.injEq] at hf
        subst hf; exact h1
      · cases j with
        | zero =>
          simp only [List.getElem?_cons_zero, Option.some.injEq] at hf
          subst hf
          rw [hlen0]
          rw [zero_add, List.getElem?_cons_succ] at hg
          exact ih1 g (by rw [List.head?_eq_getElem?]; exact hg)
        | succ j =>
          rw [List.getElem?_cons_succ] at hf hg
          rw [hlen]
          exact ih2 j f g hf hg
      · cases j with
        | zero =>
          simp only [List.getElem?_cons_zero, Option.some.injEq] at hf
          subst hf
          rw [hlen0] at hxs
          refine h2 x hx (fun hxe => ?_)
          have := hxs hxe
          simp only [List.length_cons, zero_add] at this
          exact List.eq_nil_of_length_eq_zero (by omega)
        | succ j =>
          rw [List.getElem?_cons_succ] at hf
          rw [hlen] at hxs
          refine ih3 j f hf x hx (fun hxe => ?_)
          have := hxs hxe
          simp only [List.length_cons] at this
          omega

theorem WalkOk.k_eq {lvl : Nat} {s : KState} {tbl va : Nat} {l : List Nat} {r : Nat × KState}
    {k : Nat} (h : WalkOk lvl s tbl va l r k) : k + (pathFrom lvl s tbl va).length = lvl + 1 := by
  have h1 := h.full
  rw [h.path, List.length_append, List.length_map, List.length_take,
    Nat.min_eq_left h.k_le] at h1
  omega

/-- Claim C14: when `pml4e_walk(root, va, 1)` succeeds on a well-formed state,
the `k` tables it creates (`k` is the number of missing levels, positive when a
level is missing) are the first `k` frames of the free list, appended in order to
the path of `va`; each has afterwards a null link and reference count 1; the
slot of the last old table on the path (absent before) references the first new
frame and each new table references the next one, always with
`PTE_U|PTE_W|PTE_P`; every other entry of a new table is 0, and the new leaf
table is all zero. Memory outside the new frames and that one slot is unchanged,
in particular every leaf entry that existed before the call. -/
theorem pml4e_walk_creates (s : KState) (root va : Nat) (l : List Nat)
    (hpre : WalkPre 3 s root va l) (href : ∀ f ∈ l, (s.pages f).pp_ref = 0)
    (hw : (pml4e_walk s root va 1).1 ≠ 0) :
    ∃ k t, k + (pathFrom 3 s root va).length = 4 ∧ k ≤ l.length ∧
      (pathFrom 3 s root va).getLast? = some t ∧
      (leafSlot s root va = none → 0 < k) ∧
      pathFrom 3 (pml4e_walk s root va 1).2 root va
        = pathFrom 3 s root va ++ (l.take k).map page2kva ∧
      isList (pml4e_walk s root va 1).2.pages (pml4e_walk s root va 1).2.page_free_list
        (l.drop k) ∧
      (∀ f ∈ l.take k, (pml4e_walk s root va 1).2.pages f = { pp_link := none, pp_ref := 1 }) ∧
      (∀ i, i ∉ l.take k → (pml4e_walk s root va 1).2.pages i = s.pages i) ∧
      (0 < k → s.mem (t + 8 * idx k va) &&& PTE_P = 0) ∧
      (∀ f, (l.take k).head? = some f →
        (pml4e_walk s root va 1).2.mem (t + 8 * idx k va)
          = page2pa f ||| PTE_P ||| PTE_W ||| PTE_U) ∧
      (∀ j f g, (l.take k)[j]? = some f → (l.take k)[j + 1]? = some g →
        (pml4e_walk s root va 1).2.mem (page2kva f + 8 * idx (k - 1 - j) va)
          = page2pa g ||| PTE_P ||| PTE_W ||| PTE_U) ∧
      (∀ j f, (l.take k)[j]? = some f → ∀ i, i < 512 →
        (i = idx (k - 1 - j) va → j + 1 = k) →
        (pml4e_walk s root va 1).2.mem (page2kva f + 8 * i) = 0) ∧
      (0 < k → ∃ f, (l.take k).getLast? = some f ∧
        (pml4e_walk s root va 1).1 = page2kva f + 8 * PTX va ∧
        ∀ i, i < 512 → (pml4e_walk s root va 1).2.mem (page2kva f + 8 * i) = 0) ∧
      (∀ x, (∀ f ∈ l.take k, ¬ inPg (page2kva f) x) → (0 < k → x ≠ t + 8 * idx k va) →
        (pml4e_walk s root va 1).2.mem x = s.mem x) ∧
      (∀ va2 p, leafSlot s root va2 = some p → (∀ f ∈ l.take k, ¬ inPg (page2kva f) p) →
        (0 < k → ¬ inPg t p) → (pml4e_walk s root va 1).2.mem p = s.mem p) := by
  obtain ⟨t3, t2, t1, k, hk, hptr, hfull, hpath4⟩ :=
    walk_setup_any s root va 1 l (by decide) hpre hw
  have hkeq := hk.k_eq
  obtain ⟨rest, hrest⟩ := pathFrom_head 3 s root va
  obtain ⟨t, ht⟩ : ∃ t, (pathFrom 3 s root va).getLast? = some t := by
    rw [hrest]
    exact ⟨_, List.getLast?_eq_getLast _ (List.cons_ne_nil _ _)⟩
  have hw3 : (walkGen 3 s root va 1).1 ≠ 0 := by rw [← pml4e_walk_eq]; exact hw
  obtain ⟨hN, hA, _, hFr⟩ := walkGen_mem va 1 (by decide) 3 s root l k t hpre hw3 hkeq ht
  rw [← pml4e_walk_eq] at hN hFr
  obtain ⟨n1, n2, n3⟩ := newTables_spec _ va _ _ hN
  have hlen : (l.take k).length = k := by
    rw [List.length_take]; exact Nat.min_eq_left hk.k_le
  rw [hlen] at n2 n3
  have hor : ∀ f : Nat, page2pa f ||| PTE_P ||| PTE_W ||| PTE_U
      = page2pa f ||| PTE_U ||| PTE_W ||| PTE_P := by
    intro f
    rw [Nat.lor_assoc, Nat.lor_assoc, Nat.lor_assoc, Nat.lor_assoc]
    rfl
  have hzero : ∀ j f, (l.take k)[j]? = some f → ∀ i, i < 512 →
      (i = idx (k - 1 - j) va → j + 1 = k) →
      (pml4e_walk s root va 1).2.mem (page2kva f + 8 * i) = 0 := by
    intro j f hf i hi hxs
    refine n3 j f hf _ ⟨Nat.le_add_right _ _, by unfold PGSIZE; omega⟩ (fun hxe => hxs ?_)
    omega
  refine ⟨k, t, hkeq, hk.k_le, ht, ?_, hk.path, hk.free, ?_, hk.pages_other, hA,
    fun f hf => by rw [hor]; exact n1 f hf, fun j f g hf hg => by rw [hor]; exact n2 j f g hf hg,
    hzero, ?_, hFr, ?_⟩
  · intro hnone
    by_contra h0
    have hk0 : k = 0 := by omega
    rw [hk.same hk0] at hfull
    rw [hfull.leafSlot_eq] at hnone
    exact absurd hnone (by simp)
  · intro f hf
    rw [hk.pages_taken f hf, href f (List.mem_of_mem_take hf)]
    rfl
  · intro hk0
    have hne : l.take k ≠ [] := by
      intro h; rw [h] at hlen; simp at hlen; omega
    have hlast : (pathFrom 3 (pml4e_walk s root va 1).2 root va).getLast?
        = ((l.take k).getLast?).map page2kva := by
      rw [hk.path, List.getLast?_append, List.getLast?_map,
        List.getLast?_eq_getLast _ hne]
      rfl
    rw [hpath4] at hlast
    simp only [List.getLast?_cons_cons, List.getLast?_singleton] at hlast
    rw [List.getLast?_eq_getLast _ hne] at hlast ⊢
    simp only [Option.map_some', Option.some.injEq] at hlast
    refine ⟨_, rfl, by rw [hptr, hlast], fun i hi => ?_⟩
    refine hzero (k - 1) _ ?_ i hi (fun _ => by omega)
    have hg := List.getLast?_eq_getElem? (l.take k)
    rw [hlen] at hg
    rw [← hg, List.getLast?_eq_getLast _ hne]
  · intro va2 p hp hfr htp
    refine hFr p hfr (fun h0 hpe => htp h0 ?_)
    rw [hpe]
    exact slot_inPg t k va

/-- Witness of C14 on the state `exFresh`: the walk of `0x1234` takes the frames
1, 2 and 3; the free list is empty afterwards and frame 3 is a zero leaf table. -/
theorem pml4e_walk_creates_witness :
    WalkPre 3 exFresh 0x8004000000 0x1234 [1, 2, 3] ∧
    (∀ f ∈ [1, 2, 3], (exFresh.pages f).pp_ref = 0) ∧
    (pml4e_walk exFresh 0x8004000000 0x1234 1).1 ≠ 0 ∧
    ∃ k t, k + (pathFrom 3 exFresh 0x8004000000 0x1234).length = 4 ∧ k ≤ [1, 2, 3].length ∧
      (pathFrom 3 exFresh 0x8004000000 0x1234).getLast? = some t ∧
      isList (pml4e_walk exFresh 0x8004000000 0x1234 1).2.pages
        (pml4e_walk exFresh 0x8004000000 0x1234 1).2.page_free_list ([1, 2, 3].drop k) := by
  have hpre : WalkPre 3 exFresh 0x8004000000 0x1234 [1, 2, 3] :=
    ⟨by decide, by decide, by decide, by decide⟩
  have href : ∀ f ∈ [1, 2, 3], (exFresh.pages f).pp_ref = 0 := by decide
  have hw : (pml4e_walk exFresh 0x8004000000 0x1234 1).1 ≠ 0 := by decide
  obtain ⟨k, t, h1, h2, h3, _, _, h6, _⟩ :=
    pml4e_walk_creates exFresh 0x8004000000 0x1234 [1, 2, 3] hpre href hw
  exact ⟨hpre, href, hw, k, t, h1, h2, h3, h6⟩

/-! ## Claim C15: a failed walk is rolled back -/

theorem pathFrom_self_mem (lvl : Nat) (s : KState) (tbl va : Nat) :
    tbl ∈ pathFrom lvl s tbl va := by
  obtain ⟨rest, h⟩ := pathFrom_head lvl s tbl va
  rw [h]; exact List.mem_cons_self _ _

theorem pathFrom_congr (s s2 : KState) (va : Nat) :
    ∀ (lvl tbl : Nat), (∀ t ∈ pathFrom lvl s tbl va, ∀ x, inPg t x → s2.mem x = s.mem x) →
      pathFrom lvl s2 tbl va = pathFrom lvl s tbl va
  | 0, _, _ => rfl
  | lvl + 1, tbl, h => by
      have hslot : s2.mem (tbl + 8 * idx (lvl + 1) va) = s.mem (tbl + 8 * idx (lvl + 1) va) :=
        h tbl (pathFrom_self_mem _ _ _ _) _ (slot_inPg tbl (lvl + 1) va)
      by_cases hp : s.mem (tbl + 8 * idx (lvl + 1) va) &&& PTE_P = 0
      · rw [pathFrom_absent lvl s tbl va hp, pathFrom_absent lvl s2 tbl va (by rw [hslot]; exact hp)]
      · rw [pathFrom_present lvl s tbl va hp] at h ⊢
        rw [pathFrom_present lvl s2 tbl va (by rw [hslot]; exact hp), hslot]
        rw [pathFrom_congr s s2 va lvl _ (fun t ht => h t (List.mem_cons_of_mem _ ht))]

theorem walkGen_rollback (va c : Nat) (hc : c ≠ 0) :
    ∀ (lvl : Nat) (s : KState) (tbl : Nat) (l : List Nat),
      WalkPre lvl s tbl va l → (∀ f ∈ l, (s.pages f).pp_ref = 0) →
      (∀ t ∈ pathFrom lvl s tbl va, ∀ x, inPg t x → s.mem x &&& PTE_P = 0 → s.mem x = 0) →
      (walkGen lvl s tbl va c).1 = 0 →
      (walkGen lvl s tbl va c).2.pages = s.pages ∧
      (walkGen lvl s tbl va c).2.page_free_list = s.page_free_list ∧
      ∀ x, (∀ f ∈ l, ¬ inPg (page2kva f) x) → (walkGen lvl s tbl va c).2.mem x = s.mem x
  | 0, s, tbl, l, _, _, _, _ => ⟨rfl, rfl, fun _ _ => rfl⟩
  | lvl + 1, s, tbl, l, hpre, href, hz, hw => by
      by_cases hp : s.mem (tbl + 8 * idx (lvl + 1) va) &&& PTE_P = 0
      · have hpath : pathFrom (lvl + 1) s tbl va = [tbl] := pathFrom_absent lvl s tbl va hp
        cases l with
        | nil =>
          have hf : s.page_free_list = none := hpre.free
          rw [walkGen_absent_empty lvl s tbl va c hp hf]
          exact ⟨rfl, rfl, fun _ _ => rfl⟩
        | cons f l' =>
          have hf : s.page_free_list = some f := hpre.free.1
          rw [walkGen_install lvl s tbl va c f hpre.tbl_ne hp hc hf] at hw ⊢
          have hsep := hpre.sep
          rw [hpath] at hsep
          simp only [List.singleton_append, List.map_cons] at hsep
          obtain ⟨hsep_tbl, hsep_rest⟩ := List.pairwise_cons.mp hsep
          have hf52 : f < 2 ^ 52 := hpre.frames f (List.mem_cons_self _ _)
          have hslot := install_mem_slot s f (tbl + 8 * idx (lvl + 1) va)
          have hchild : KADDR (PTE_ADDR ((install s f (tbl + 8 * idx (lvl + 1) va)).mem
              (tbl + 8 * idx (lvl + 1) va))) = page2kva f := by
            rw [hslot, entry_addr f hf52]; rfl
          rw [hchild] at hw ⊢
          have hsepf : Sep tbl (page2kva f) := hsep_tbl _ (List.mem_cons_self _ _)
          have hne : ∀ y, inPg (page2kva f) y → y ≠ tbl + 8 * idx (lvl + 1) va := by
            intro y hy h
            exact sep_not_inPg _ _ _ hsepf (slot_inPg tbl (lvl + 1) va) (h ▸ hy)
          have hpath3 : pathFrom lvl (install s f (tbl + 8 * idx (lvl + 1) va)) (page2kva f) va
              = [page2kva f] := by
            cases lvl with
            | zero => rfl
            | succ n =>
              rw [pathFrom, if_pos]
              rw [install_mem_zero _ _ _ _ (hne _ (slot_inPg _ _ _)) (slot_inPg _ _ _)]
              exact zero_land_P
          have hfl : f ∉ l' := isList_head_not_mem _ _ _ _ hpre.free
          have hpre3 : WalkPre lvl (install s f (tbl + 8 * idx (lvl + 1) va)) (page2kva f) va l' :=
            ⟨KADDR_ne_zero _, install_list s f _ l' hpre.free,
              fun g hg => hpre.frames g (List.mem_cons_of_mem _ hg),
              by rw [hpath3]; exact hsep_rest⟩
          have href3 : ∀ g ∈ l', ((install s f (tbl + 8 * idx (lvl + 1) va)).pages g).pp_ref = 0 := by
            intro g hg
            rw [install_pages_other _ _ _ g (fun (h : g = f) => hfl (h ▸ hg))]
            exact href g (List.mem_cons_of_mem _ hg)
          have hz3 : ∀ t ∈ pathFrom lvl (install s f (tbl + 8 * idx (lvl + 1) va)) (page2kva f) va,
              ∀ x, inPg t x → (install s f (tbl + 8 * idx (lvl + 1) va)).mem x &&& PTE_P = 0 →
                (install s f (tbl + 8 * idx (lvl + 1) va)).mem x = 0 := by
            intro t ht x hx _
            rw [hpath3, List.mem_singleton] at ht
            subst ht
            exact install_mem_zero _ _ _ _ (hne x hx) hx
          by_cases hr : (walkGen lvl (install s f (tbl + 8 * idx (lvl + 1) va))
              (page2kva f) va c).1 ≠ 0
          · rw [if_pos hr] at hw; exact absurd hw hr
          · rw [if_neg hr]
            obtain ⟨ihp, ihf, ihm⟩ := walkGen_rollback va c hc lvl _ (page2kva f) l' hpre3 href3 hz3
              (not_not.mp hr)
            have hpf : (((walkGen lvl (install s f (tbl + 8 * idx (lvl + 1) va))
                (page2kva f) va c).2.store (tbl + 8 * idx (lvl + 1) va) 0).pages f)
                = { pp_link := none, pp_ref := 1 } := by
              show (walkGen lvl _ _ va c).2.pages f = _
              rw [ihp, install_pages_self, href f (List.mem_cons_self _ _)]; rfl
            obtain ⟨a, b, d⟩ := page_decref_push _ f (by rw [hpf]) (by rw [hpf])
            refine ⟨?_, ?_, ?_⟩
            · funext i
              show (page_decref _ f).pages i = s.pages i
              by_cases hi : i = f
              · subst hi
                rw [b]
                show PageInfo.mk (walkGen lvl _ _ va c).2.page_free_list 0 = _
                rw [ihf]
                show PageInfo.mk (s.pages i).pp_link 0 = s.pages i
                rw [← href i (List.mem_cons_self _ _)]
              · rw [d i hi]
                show (walkGen lvl _ _ va c).2.pages i = _
                rw [ihp, install_pages_other _ _ _ _ hi]
            · show (page_decref _ f).page_free_list = _
              rw [a, hf]
            · intro x hx
              show (page_decref _ f).mem x = s.mem x
              rw [page_decref_mem]
              by_cases hxa : x = tbl + 8 * idx (lvl + 1) va
              · subst hxa
                rw [store_mem_self]
                exact (hz tbl (by rw [hpath]; exact List.mem_singleton_self _) _
                  (slot_inPg tbl (lvl + 1) va) hp).symm
              · rw [store_mem_other _ _ _ _ hxa,
                  ihm x (fun g hg => hx g (List.mem_cons_of_mem _ hg)),
                  install_mem_other s f _ x hxa (hx f (List.mem_cons_self _ _))]
      · rw [walkGen_present lvl s tbl va c hpre.tbl_ne hp] at hw ⊢
        have hpath := pathFrom_present lvl s tbl va hp
        have hsep := hpre.sep
        rw [hpath, List.cons_append] at hsep
        have hpre2 : WalkPre lvl s (KADDR (PTE_ADDR (s.mem (tbl + 8 * idx (lvl + 1) va)))) va l :=
          ⟨KADDR_ne_zero _, hpre.free, hpre.frames, (List.pairwise_cons.mp hsep).2⟩
        exact walkGen_rollback va c hc lvl s _ l hpre2 href
          (fun t ht => hz t (by rw [hpath]; exact List.mem_cons_of_mem _ ht)) hw

/-- Claim C15: if `pml4e_walk(root, va, 1)` returns `NULL` on a well-formed state
(tables on the path of `va` and free frames pairwise disjoint, non-present
entries on the path are 0, free frames have reference count 0), the walk is
rolled back: the `pages` array (reference counts and links) and the head of the
free list are as before, so the free list holds the same frames in the same
order; memory outside the free frames is as before; for every address whose
tables are disjoint from the free frames the reachable tables and all their
entries are unchanged; and the path of `va` is still incomplete. -/
theorem pml4e_walk_rollback (s : KState) (root va : Nat) (l : List Nat)
    (hpre : WalkPre 3 s root va l) (href : ∀ f ∈ l, (s.pages f).pp_ref = 0)
    (hz : ∀ t ∈ pathFrom 3 s root va, ∀ x, inPg t x → s.mem x &&& PTE_P = 0 → s.mem x = 0)
    (hw : (pml4e_walk s root va 1).1 = 0) :
    (pml4e_walk s root va 1).2.pages = s.pages ∧
    (pml4e_walk s root va 1).2.page_free_list = s.page_free_list ∧
    isList (pml4e_walk s root va 1).2.pages (pml4e_walk s root va 1).2.page_free_list l ∧
    (∀ x, (∀ f ∈ l, ¬ inPg (page2kva f) x) → (pml4e_walk s root va 1).2.mem x = s.mem x) ∧
    (∀ va2, (∀ t ∈ pathFrom 3 s root va2, ∀ f ∈ l, Sep t (page2kva f)) →
      pathFrom 3 (pml4e_walk s root va 1).2 root va2 = pathFrom 3 s root va2 ∧
      ∀ t ∈ pathFrom 3 s root va2, ∀ x, inPg t x →
        (pml4e_walk s root va 1).2.mem x = s.mem x) ∧
    leafSlot (pml4e_walk s root va 1).2 root va = none ∧
    leafSlot s root va = none := by
  have hw3 : (walkGen 3 s root va 1).1 = 0 := by rw [← pml4e_walk_eq]; exact hw
  obtain ⟨hp, hf, hm⟩ := walkGen_rollback va 1 (by decide) 3 s root l hpre href hz hw3
  rw [← pml4e_walk_eq] at hp hf hm
  have hreach : ∀ va2, (∀ t ∈ pathFrom 3 s root va2, ∀ f ∈ l, Sep t (page2kva f)) →
      ∀ t ∈ pathFrom 3 s root va2, ∀ x, inPg t x →
        (pml4e_walk s root va 1).2.mem x = s.mem x := fun va2 h t ht x hx =>
    hm x (fun f hfl hin => sep_not_inPg _ _ _ (h t ht f hfl) hx hin)
  have hnone : ∀ s2 : KState, (walkGen 3 s2 root va 0).1 = 0 → leafSlot s2 root va = none := by
    intro s2 h
    rw [← pml4e_walk_eq, pml4e_walk_nocreate s2 root va hpre.tbl_ne] at h
    cases hls : leafSlot s2 root va with
    | none => rfl
    | some p =>
      rw [hls] at h
      exact absurd h (leafSlot_ne_zero s2 root va p hls)
  refine ⟨hp, hf, by rw [hp, hf]; exact hpre.free, hm,
    fun va2 h => ⟨pathFrom_congr s _ va2 3 root (hreach va2 h), hreach va2 h⟩, ?_, ?_⟩
  · have h := (walkGen_spec va 1 (by decide) 3 s root l hpre).fail hw3
    rw [← pml4e_walk_eq s root va 1] at h
    exact hnone _ h
  · exact hnone s (walkGen_fail_before va 1 3 s root hw3)

/-- Witness of C15 on the state `exTwo`: the walk of `0x1234` needs three tables,
takes the frames 1 and 2, fails at the third level and gives both back. -/
theorem pml4e_walk_rollback_witness :
    WalkPre 3 exTwo 0x8004000000 0x1234 [1, 2] ∧
    (∀ f ∈ [1, 2], (exTwo.pages f).pp_ref = 0) ∧
    (pml4e_walk exTwo 0x8004000000 0x1234 1).1 = 0 ∧
    (pml4e_walk exTwo 0x8004000000 0x1234 1).2.pages = exTwo.pages ∧
    (pml4e_walk exTwo 0x8004000000 0x1234 1).2.page_free_list = exTwo.page_free_list ∧
    isList (pml4e_walk exTwo 0x8004000000 0x1234 1).2.pages
      (pml4e_walk exTwo 0x8004000000 0x1234 1).2.page_free_list [1, 2] := by
  have hpre : WalkPre 3 exTwo 0x8004000000 0x1234 [1, 2] :=
    ⟨by decide, by decide, by decide, by decide⟩
  have href : ∀ f ∈ [1, 2], (exTwo.pages f).pp_ref = 0 := by decide
  have hw : (pml4e_walk exTwo 0x8004000000 0x1234 1).1 = 0 := by decide
  have h := pml4e_walk_rollback exTwo 0x8004000000 0x1234 [1, 2] hpre href
    (fun _ _ _ _ _ => rfl) hw
  exact ⟨hpre, href, hw, h.1, h.2.1, h.2.2.1⟩

/-! ## Claims C16 and C17: user_mem_check -/

theorem pml4e_walk_zero_state (s : KState) (root va : Nat) : (pml4e_walk s root va 0).2 = s := by
  by_cases h : root = 0
  · subst h; rw [pml4e_walk_eq, walkGen_null]
  · rw [pml4e_walk_nocreate s root va h]

theorem ROUNDUP_next (va : Nat) (h : va + PGSIZE < 2 ^ 64) :
    ROUNDUP ((va + 1) % 2 ^ 64) PGSIZE = (va / PGSIZE + 1) * PGSIZE := by
  unfold PGSIZE at *
  unfold ROUNDUP
  have h1 : (va + 1) % 2 ^ 64 = va + 1 := Nat.mod_eq_of_lt (by omega)
  have h2 : (va + 1 + 4096 - 1) % 2 ^ 64 = va + 4096 := by
    rw [Nat.mod_eq_of_lt (by omega)]; omega
  rw [h1, h2]
  omega

theorem pageOK_congr (s : KState) (root perm a b : Nat) (h : b / PGSIZE = a / PGSIZE) :
    pageOK s root perm b ↔ pageOK s root perm a := by
  unfold pageOK
  rw [pml4e_walk_congr s root a b 0 h]

theorem neg_E_FAULT_ne : -E_FAULT ≠ 0 := by decide

/-- The loop of `user_mem_check` with enough fuel: it ends, leaves the state
alone, returns 0 exactly when every address of `[va, endva)` passes the test,
and on failure reports the lowest address of `[va, endva)` that fails it. -/
theorem user_mem_check_loop_spec (s : KState) (root endva perm : Nat)
    (hend : endva + PGSIZE < 2 ^ 64) :
    ∀ (fuel va addr : Nat), endva ≤ (va / PGSIZE + fuel) * PGSIZE →
      ∃ r, user_mem_check_loop root endva perm fuel va addr s = some r ∧ r.state = s ∧
        (r.ret = 0 ∨ r.ret = -E_FAULT) ∧
        (r.ret = 0 ↔ ∀ a, va ≤ a → a < endva → pageOK s root perm a) ∧
        (r.ret = 0 → r.addr = addr) ∧
        (r.ret ≠ 0 → va ≤ r.addr ∧ r.addr < endva ∧ ¬ pageOK s root perm r.addr ∧
          ∀ a, va ≤ a → a < r.addr → pageOK s root perm a)
  | 0, va, addr, h => by
      have hva : ¬ va < endva := by
        have := Nat.div_mul_le_self va PGSIZE
        simp only [Nat.add_zero] at h
        omega
      refine ⟨⟨0, addr, s⟩, by rw [user_mem_check_loop, if_neg hva], rfl, Or.inl rfl,
        ⟨fun _ a h1 h2 => absurd (Nat.lt_of_le_of_lt h1 h2) hva, fun _ => rfl⟩, fun _ => rfl,
        fun h => absurd rfl h⟩
  | fuel + 1, va, addr, h => by
      rw [user_mem_check_loop]
      by_cases hva : va < endva
      · rw [if_pos hva]
        simp only []
        rw [pml4e_walk_zero_state]
        by_cases hbad : (pml4e_walk s root va 0).1 = 0 ∨
            s.mem (pml4e_walk s root va 0).1 &&& (perm ||| PTE_P) ≠ (perm ||| PTE_P)
        · rw [if_pos hbad]
          have hnok : ¬ pageOK s root perm va := by
            unfold pageOK
            rw [pml4e_walk_zero_state]
            intro hok
            rcases hbad with h0 | h1
            · exact hok.1 h0
            · exact h1 hok.2
          refine ⟨⟨-E_FAULT, va, s⟩, rfl, rfl, Or.inr rfl,
            ⟨fun h0 => absurd h0 neg_E_FAULT_ne, fun hall => absurd (hall va le_rfl hva) hnok⟩,
            fun h0 => absurd h0 neg_E_FAULT_ne,
            fun _ => ⟨le_rfl, hva, hnok, fun a h1 h2 => absurd h1 (by
              show ¬ va ≤ a
              exact Nat.not_le.mpr h2)⟩⟩
        · rw [if_neg hbad]
          have hok : pageOK s root perm va := by
            unfold pageOK
            rw [pml4e_walk_zero_state]
            simp only [not_or, not_not] at hbad
            exact hbad
          rw [ROUNDUP_next va (by unfold PGSIZE at *; omega)]
          have hnext : (va / PGSIZE + 1) * PGSIZE / PGSIZE = va / PGSIZE + 1 :=
            Nat.mul_div_cancel _ (by decide)
          obtain ⟨r, hr, hst, hret, hiff, hadr, hfirst⟩ :=
            user_mem_check_loop_spec s root endva perm hend fuel ((va / PGSIZE + 1) * PGSIZE) addr
              (by rw [hnext]; rw [show va / PGSIZE + 1 + fuel = va / PGSIZE + (fuel + 1) by omega]
                  exact h)
          have hsame : ∀ a, va ≤ a → a < (va / PGSIZE + 1) * PGSIZE → pageOK s root perm a := by
            intro a h1 h2
            refine (pageOK_congr s root perm va a ?_).mpr hok
            unfold PGSIZE at *
            omega
          have hlt : va < (va / PGSIZE + 1) * PGSIZE := by unfold PGSIZE; omega
          refine ⟨r, hr, hst, hret, ⟨fun h0 a h1 h2 => ?_, fun hall => ?_⟩, hadr, fun hne => ?_⟩
          · by_cases ha : a < (va / PGSIZE + 1) * PGSIZE
            · exact hsame a h1 ha
            · exact hiff.mp h0 a (Nat.le_of_not_lt ha) h2
          · exact hiff.mpr (fun a h1 h2 => hall a (Nat.le_trans (Nat.le_of_lt hlt) h1) h2)
          · obtain ⟨f1, f2, f3, f4⟩ := hfirst hne
            refine ⟨Nat.le_trans (Nat.le_of_lt hlt) f1, f2, f3, fun a h1 h2 => ?_⟩
            by_cases ha : a < (va / PGSIZE + 1) * PGSIZE
            · exact hsame a h1 ha
            · exact f4 a (Nat.le_of_not_lt ha) h2
      · rw [if_neg hva]
        exact ⟨⟨0, addr, s⟩, rfl, rfl, Or.inl rfl,
          ⟨fun _ a h1 h2 => absurd (Nat.lt_of_le_of_lt h1 h2) hva, fun _ => rfl⟩, fun _ => rfl,
          fun h => absurd rfl h⟩

/-- Claim C16: `user_mem_check(env, va, len, perm)` returns (the loop ends
within `len / PGSIZE + 2` iterations); the result is 0 if and only if `va + len`
does not wrap around, `va + len < ULIM`, and every address of `[va, va + len)`
lies on a page for which the walk without creation finds a leaf entry with all
bits of `perm | PTE_P`; otherwise the result is `-E_FAULT`; and the state (page
tables, reference counts, free list) is the one before the call. -/
theorem user_mem_check_spec (ULIM : Nat) (s : KState) (root va len perm addr : Nat)
    (hU : ULIM + PGSIZE ≤ 2 ^ 64) (hva : va < 2 ^ 64) (hlen : len < 2 ^ 64) :
    ∃ r, user_mem_check ULIM s root va len perm addr = some r ∧ r.state = s ∧
      (r.ret = 0 ∨ r.ret = -E_FAULT) ∧
      (r.ret = 0 ↔ va + len < 2 ^ 64 ∧ va + len < ULIM ∧
        ∀ a, va ≤ a → a < va + len → pageOK s root perm a) := by
  unfold user_mem_check
  simp only []
  by_cases hg : (va + len) % 2 ^ 64 ≥ ULIM ∨ va > (va + len) % 2 ^ 64
  · rw [if_pos hg]
    refine ⟨⟨-E_FAULT, va, s⟩, rfl, rfl, Or.inr rfl,
      ⟨fun h0 => absurd h0 neg_E_FAULT_ne, fun hall => ?_⟩⟩
    exfalso
    obtain ⟨h1, h2, _⟩ := hall
    rw [Nat.mod_eq_of_lt h1] at hg
    omega
  · rw [if_neg hg]
    simp only [not_or, not_le, not_lt, ge_iff_le, gt_iff_lt] at hg
    have hnw : va + len < 2 ^ 64 := by
      by_contra hc
      have : (va + len) % 2 ^ 64 = va + len - 2 ^ 64 := by
        rw [Nat.mod_eq_sub_mod (Nat.le_of_not_lt hc), Nat.mod_eq_of_lt (by omega)]
      omega
    rw [Nat.mod_eq_of_lt hnw] at hg ⊢
    obtain ⟨r, hr, hst, hret, hiff, _, _⟩ :=
      user_mem_check_loop_spec s root (va + len) perm (by unfold PGSIZE at *; omega)
        (len / PGSIZE + 2) va addr (by unfold PGSIZE; omega)
    exact ⟨r, hr, hst, hret, ⟨fun h0 => ⟨hnw, hg.1, hiff.mp h0⟩, fun h => hiff.mpr h.2.2⟩⟩

/-- Witness of C16 on the state `exMapped` with `ULIM = 0x8003c00000`: the
page at `0x1000` is mapped, so the check of 16 bytes at `0x1008` returns. -/
theorem user_mem_check_spec_witness :
    ∃ r, user_mem_check 0x8003c00000 exMapped 0x8004000000 0x1008 16 0 0 = some r ∧
      r.state = exMapped ∧ (r.ret = 0 ∨ r.ret = -E_FAULT) ∧
      (r.ret = 0 ↔ 0x1008 + 16 < 2 ^ 64 ∧ 0x1008 + 16 < 0x8003c00000 ∧
        ∀ a, 0x1008 ≤ a → a < 0x1008 + 16 → pageOK exMapped 0x8004000000 0 a) :=
  user_mem_check_spec 0x8003c00000 exMapped 0x8004000000 0x1008 16 0 0
    (by decide) (by decide) (by decide)

/-- Claim C17 fails on the range check: with `ULIM = 0x8003c00000`, in the state
`exMapped` the call `user_mem_check(env, 0x1000, ULIM, 0)` returns `-E_FAULT`
and sets `user_mem_check_addr` to `0x1000`, although `0x1000` is below `ULIM`
and lies on a page that passes the test; the lowest address of the range that
fails is `0x2000`. -/
theorem user_mem_check_addr_not_first :
    (user_mem_check 0x8003c00000 exMapped 0x8004000000 0x1000 0x8003c00000 0 0).map
      (fun r => (r.ret, r.addr)) = some (-E_FAULT, 0x1000) ∧
    0x1000 < 0x8003c00000 ∧
    pageOK exMapped 0x8004000000 0 0x1000 ∧
    (∀ a, 0x1000 ≤ a → a < 0x2000 → pageOK exMapped 0x8004000000 0 a) ∧
    ¬ pageOK exMapped 0x8004000000 0 0x2000 ∧
    0x2000 < 0x1000 + 0x8003c00000 := by
  refine ⟨by decide, by decide, by decide, fun a h1 h2 => ?_, by decide, by decide⟩
  refine (pageOK_congr exMapped 0x8004000000 0 0x1000 a ?_).mpr (by decide)
  unfold PGSIZE
  omega

/-! ## Claim C19: boot_map_region and reference counts -/

theorem isList_head (pages : Nat → PageInfo) (h : Option Nat) (l : List Nat)
    (hl : isList pages h l) : h = l.head? := by
  cases l with
  | nil => exact hl
  | cons x xs => exact hl.1

/-- Effect of a walk on the `pages` array and the free list, whatever the
memory holds: it takes the first `k` frames of the free list, which end with a
null link and one reference; a failed walk takes none. -/
theorem walkGen_pages (va c : Nat) :
    ∀ (lvl : Nat) (s : KState) (tbl : Nat) (l : List Nat),
      isList s.pages s.page_free_list l → (∀ f ∈ l, (s.pages f).pp_ref = 0) →
      ∃ k, k ≤ l.length ∧
        isList (walkGen lvl s tbl va c).2.pages (walkGen lvl s tbl va c).2.page_free_list
          (l.drop k) ∧
        (∀ f ∈ l.take k, (walkGen lvl s tbl va c).2.pages f = { pp_link := none, pp_ref := 1 }) ∧
        (∀ i, i ∉ l.take k → (walkGen lvl s tbl va c).2.pages i = s.pages i) ∧
        ((walkGen lvl s tbl va c).1 = 0 → k = 0)
  | 0, s, tbl, l, hl, _ =>
      ⟨0, Nat.zero_le _, by simpa using hl, by simp, fun _ _ => rfl, fun _ => rfl⟩
  | lvl + 1, s, tbl, l, hl, href => by
      have hnop : ∀ r : Nat × KState, r.2 = s → ∃ k, k ≤ l.length ∧
          isList r.2.pages r.2.page_free_list (l.drop k) ∧
          (∀ f ∈ l.take k, r.2.pages f = { pp_link := none, pp_ref := 1 }) ∧
          (∀ i, i ∉ l.take k → r.2.pages i = s.pages i) ∧ (r.1 = 0 → k = 0) := by
        intro r hr
        rw [hr]
        exact ⟨0, Nat.zero_le _, by simpa using hl, by simp, fun _ _ => rfl, fun _ => rfl⟩
      by_cases ht : tbl ≠ 0
      · by_cases hp : s.mem (tbl + 8 * idx (lvl + 1) va) &&& PTE_P = 0
        · by_cases hc : c ≠ 0
          · cases l with
            | nil =>
              have hf : s.page_free_list = none := hl
              exact hnop _ (by rw [walkGen_absent_empty lvl s tbl va c hp hf])
            | cons f l' =>
              have hf : s.page_free_list = some f := hl.1
              rw [walkGen_install lvl s tbl va c f ht hp hc hf]
              have hfl : f ∉ l' := isList_head_not_mem _ _ _ _ hl
              have hl3 := install_list s f (tbl + 8 * idx (lvl + 1) va) l' hl
              have href3 : ∀ g ∈ l',
                  ((install s f (tbl + 8 * idx (lvl + 1) va)).pages g).pp_ref = 0 := by
                intro g hg
                rw [install_pages_other _ _ _ g (fun (h : g = f) => hfl (h ▸ hg))]
                exact href g (List.mem_cons_of_mem _ hg)
              obtain ⟨k, hk1, hk2, hk3, hk4, hk5⟩ := walkGen_pages va c lvl
                (install s f (tbl + 8 * idx (lvl + 1) va))
                (KADDR (PTE_ADDR ((install s f (tbl + 8 * idx (lvl + 1) va)).mem
                  (tbl + 8 * idx (lvl + 1) va)))) l' hl3 href3
              by_cases hr : (walkGen lvl (install s f (tbl + 8 * idx (lvl + 1) va))
                  (KADDR (PTE_ADDR ((install s f (tbl + 8 * idx (lvl + 1) va)).mem
                    (tbl + 8 * idx (lvl + 1) va)))) va c).1 ≠ 0
              · rw [if_pos hr]
                refine ⟨k + 1, by simpa using hk1, by simpa using hk2, ?_, ?_,
                  fun h => absurd h hr⟩
                · intro i hi
                  simp only [List.take_succ_cons, List.mem_cons] at hi
                  rcases hi with rfl | hi
                  · rw [hk4 i (fun h => hfl (List.mem_of_mem_take h)), install_pages_self,
                      href i (List.mem_cons_self _ _)]
                    rfl
                  · exact hk3 i hi
                · intro i hi
                  simp only [List.take_succ_cons, List.mem_cons, not_or] at hi
                  rw [hk4 i hi.2, install_pages_other _ _ _ _ hi.1]
              · rw [if_neg hr]
                have hk0 : k = 0 := hk5 (not_not.mp hr)
                subst hk0
                simp only [List.drop_zero, List.take_zero, List.not_mem_nil, not_false_eq_true,
                  forall_true_left] at hk2 hk4
                have hpf : (((walkGen lvl (install s f (tbl + 8 * idx (lvl + 1) va))
                    (KADDR (PTE_ADDR ((install s f (tbl + 8 * idx (lvl + 1) va)).mem
                      (tbl + 8 * idx (lvl + 1) va)))) va c).2.store
                      (tbl + 8 * idx (lvl + 1) va) 0).pages f)
                    = { pp_link := none, pp_ref := 1 } := by
                  show (walkGen lvl _ _ va c).2.pages f = _
                  rw [hk4 f, install_pages_self, href f (List.mem_cons_self _ _)]; rfl
                obtain ⟨a, b, d⟩ := page_decref_push _ f (by rw [hpf]) (by rw [hpf])
                have hhead : (walkGen lvl (install s f (tbl + 8 * idx (lvl + 1) va))
                    (KADDR (PTE_ADDR ((install s f (tbl + 8 * idx (lvl + 1) va)).mem
                      (tbl + 8 * idx (lvl + 1) va)))) va c).2.page_free_list
                    = (s.pages f).pp_link := by
                  rw [isList_head _ _ _ hk2, ← isList_head _ _ _ hl.2]
                have hpages : ∀ i, (page_decref ((walkGen lvl
                    (install s f (tbl + 8 * idx (lvl + 1) va))
                    (KADDR (PTE_ADDR ((install s f (tbl + 8 * idx (lvl + 1) va)).mem
                      (tbl + 8 * idx (lvl + 1) va)))) va c).2.store
                      (tbl + 8 * idx (lvl + 1) va) 0) f).pages i = s.pages i := by
                  intro i
                  by_cases hi : i = f
                  · subst hi
                    rw [b]
                    show PageInfo.mk (walkGen lvl _ _ va c).2.page_free_list 0 = _
                    rw [hhead, ← href i (List.mem_cons_self _ _)]
                  · rw [d i hi]
                    show (walkGen lvl _ _ va c).2.pages i = _
                    rw [hk4 i, install_pages_other _ _ _ _ hi]
                refine ⟨0, Nat.zero_le _, ?_, by simp, fun i _ => hpages i, fun _ => rfl⟩
                show isList (page_decref _ f).pages (page_decref _ f).page_free_list (f :: l')
                rw [a]
                exact ⟨rfl, isList_congr s.pages _ l' _ (fun y _ => by rw [hpages y])
                  (by rw [hpages f]; exact hl.2)⟩
          · have hc0 : c = 0 := not_not.mp hc
            subst hc0
            exact hnop _ (by rw [walkGen_absent_nocreate lvl s tbl va hp])
        · rw [walkGen_present lvl s tbl va c ht hp]
          exact walkGen_pages va c lvl s _ l hl href
      · have ht0 : tbl = 0 := not_not.mp ht
        subst ht0
        exact hnop _ (by rw [walkGen_null])

theorem boot_map_region_body_pages (s : KState) (root la pa perm i : Nat) :
    (boot_map_region_body s root la pa perm i).pages
      = (pml4e_walk s root ((la + i) % 2 ^ 64) 1).2.pages ∧
    (boot_map_region_body s root la pa perm i).page_free_list
      = (pml4e_walk s root ((la + i) % 2 ^ 64) 1).2.page_free_list := by
  unfold boot_map_region_body
  simp only []
  split_ifs <;> exact ⟨rfl, rfl⟩

/-- The frames of the free list `l` of state `s` taken so far: the first `k`
have become tables (null link, one reference), all other frames are as in `s`,
and the free list holds the rest. -/
theorem boot_map_region_body_taken (s cur : KState) (root la pa perm i : Nat) (l : List Nat)
    (hnd : l.Nodup) (href : ∀ f ∈ l, (s.pages f).pp_ref = 0) (k : Nat) (hk : k ≤ l.length)
    (hfree : isList cur.pages cur.page_free_list (l.drop k))
    (htaken : ∀ f ∈ l.take k, cur.pages f = { pp_link := none, pp_ref := 1 })
    (hother : ∀ j, j ∉ l.take k → cur.pages j = s.pages j) :
    ∃ k2, k2 ≤ l.length ∧
      isList (boot_map_region_body cur root la pa perm i).pages
        (boot_map_region_body cur root la pa perm i).page_free_list (l.drop k2) ∧
      (∀ f ∈ l.take k2,
        (boot_map_region_body cur root la pa perm i).pages f = { pp_link := none, pp_ref := 1 }) ∧
      (∀ j, j ∉ l.take k2 → (boot_map_region_body cur root la pa perm i).pages j = s.pages j) := by
  obtain ⟨hp, hf⟩ := boot_map_region_body_pages cur root la pa perm i
  rw [hp, hf, pml4e_walk_eq]
  have hdisj : ∀ f, f ∈ l.drop k → f ∉ l.take k := by
    intro f hd ht
    have h := (List.take_append_drop k l).symm ▸ hnd
    exact (List.nodup_append.mp h).2.2 ht hd
  have href2 : ∀ f ∈ l.drop k, (cur.pages f).pp_ref = 0 := by
    intro f hfd
    rw [hother f (hdisj f hfd)]
    exact href f (List.mem_of_mem_drop hfd)
  obtain ⟨k1, h1, h2, h3, h4, _⟩ :=
    walkGen_pages ((la + i) % 2 ^ 64) 1 3 cur root (l.drop k) hfree href2
  rw [List.length_drop] at h1
  have htk : l.take (k + k1) = l.take k ++ (l.drop k).take k1 := List.take_add _ _ _
  refine ⟨k + k1, by omega, ?_, ?_, ?_⟩
  · rw [List.drop_drop] at h2
    exact h2
  · intro f hfm
    rw [htk, List.mem_append] at hfm
    by_cases hfn : f ∈ (l.drop k).take k1
    · exact h3 f hfn
    · rw [h4 f hfn]
      rcases hfm with h | h
      · exact htaken f h
      · exact absurd h hfn
  · intro j hj
    rw [htk, List.mem_append, not_or] at hj
    rw [h4 j hj.2, hother j hj.1]

theorem boot_map_region_loop_taken (s : KState) (root la size pa perm : Nat) (l : List Nat)
    (hnd : l.Nodup) (href : ∀ f ∈ l, (s.pages f).pp_ref = 0) :
    ∀ (fuel i : Nat) (cur s2 : KState) (k : Nat), k ≤ l.length →
      isList cur.pages cur.page_free_list (l.drop k) →
      (∀ f ∈ l.take k, cur.pages f = { pp_link := none, pp_ref := 1 }) →
      (∀ j, j ∉ l.take k → cur.pages j = s.pages j) →
      boot_map_region_loop root la size pa perm fuel i cur = some s2 →
      ∃ k2, k2 ≤ l.length ∧ isList s2.pages s2.page_free_list (l.drop k2) ∧
        (∀ f ∈ l.take k2, s2.pages f = { pp_link := none, pp_ref := 1 }) ∧
        (∀ j, j ∉ l.take k2 → s2.pages j = s.pages j)
  | 0, i, cur, s2, k, hk, h1, h2, h3, hrun => by
      rw [boot_map_region_loop] at hrun
      split_ifs at hrun
      have : cur = s2 := Option.some.inj hrun
      subst this
      exact ⟨k, hk, h1, h2, h3⟩
  | fuel + 1, i, cur, s2, k, hk, h1, h2, h3, hrun => by
      rw [boot_map_region_loop] at hrun
      split_ifs at hrun
      · obtain ⟨k1, a1, a2, a3, a4⟩ :=
          boot_map_region_body_taken s cur root la pa perm i l hnd href k hk h1 h2 h3
        exact boot_map_region_loop_taken s root la size pa perm l hnd href fuel _ _ s2 k1
          a1 a2 a3 a4 hrun
      · have : cur = s2 := Option.some.inj hrun
        subst this
        exact ⟨k, hk, h1, h2, h3⟩

theorem boot_map_region_loop_ends (root la size pa perm : Nat) (hsize : size + PGSIZE ≤ 2 ^ 64) :
    ∀ (fuel i : Nat) (cur : KState), size ≤ i + fuel * PGSIZE →
      ∃ s2, boot_map_region_loop root la size pa perm fuel i cur = some s2
  | 0, i, cur, h => by
      rw [boot_map_region_loop, if_neg (by omega)]
      exact ⟨cur, rfl⟩
  | fuel + 1, i, cur, h => by
      rw [boot_map_region_loop]
      by_cases hi : i < size
      · rw [if_pos hi, Nat.mod_eq_of_lt (by omega)]
        exact boot_map_region_loop_ends root la size pa perm hsize fuel _ _
          (by rw [Nat.add_mul] at h; omega)
      · rw [if_neg hi]
        exact ⟨cur, rfl⟩

/-- Claim C19: `boot_map_region(root, la, size, pa, perm)` returns when
`size + PGSIZE` does not exceed `2^64`, and whenever it returns, the frames whose
entry in `pages` differs from before the call are frames the call took from the
head of the free list to serve as tables: for some `k` they are the first `k`
frames of the old free list, their reference count goes from 0 to 1, the free
list holds the remaining frames, and every other frame (a mapped frame in
particular) keeps its reference count and link. Free frames are assumed to have
count 0. -/
theorem boot_map_region_refs (s : KState) (root la size pa perm : Nat) (l : List Nat)
    (hl : isList s.pages s.page_free_list l) (href : ∀ f ∈ l, (s.pages f).pp_ref = 0) :
    (size + PGSIZE ≤ 2 ^ 64 → ∃ s2, boot_map_region s root la size pa perm = some s2) ∧
    ∀ s2, boot_map_region s root la size pa perm = some s2 →
      ∃ k, k ≤ l.length ∧ isList s2.pages s2.page_free_list (l.drop k) ∧
        (∀ f ∈ l.take k, (s.pages f).pp_ref = 0 ∧ (s2.pages f).pp_ref = 1 ∧
          (s2.pages f).pp_link = none) ∧
        (∀ j, j ∉ l.take k → s2.pages j = s.pages j) := by
  refine ⟨fun hsize => boot_map_region_loop_ends root la size pa perm hsize _ 0 s
    (by unfold PGSIZE; omega), fun s2 hrun => ?_⟩
  obtain ⟨k, h1, h2, h3, h4⟩ := boot_map_region_loop_taken s root la size pa perm l
    (isList_nodup _ _ _ hl) href _ 0 s s2 0 (Nat.zero_le _) (by simpa using hl) (by simp)
    (fun _ _ => rfl) hrun
  refine ⟨k, h1, h2, fun f hf => ?_, h4⟩
  rw [h3 f hf]
  exact ⟨href f (List.mem_of_mem_take hf), rfl, rfl⟩

/-- Witness of C19 on the state `exFresh`: mapping two pages at `0x1000` takes the
three free frames as tables. -/
theorem boot_map_region_refs_witness :
    isList exFresh.pages exFresh.page_free_list [1, 2, 3] ∧
    (∃ s2, boot_map_region exFresh 0x8004000000 0x1000 0x2000 0x5000 2 = some s2) ∧
    ∀ s2, boot_map_region exFresh 0x8004000000 0x1000 0x2000 0x5000 2 = some s2 →
      ∃ k, k ≤ [1, 2, 3].length ∧ isList s2.pages s2.page_free_list ([1, 2, 3].drop k) ∧
        (∀ f ∈ [1, 2, 3].take k, (exFresh.pages f).pp_ref = 0 ∧ (s2.pages f).pp_ref = 1 ∧
          (s2.pages f).pp_link = none) ∧
        (∀ j, j ∉ [1, 2, 3].take k → s2.pages j = exFresh.pages j) :=
  ⟨by decide,
    (boot_map_region_refs exFresh 0x8004000000 0x1000 0x2000 0x5000 2 [1, 2, 3]
      (by decide) (by decide)).1 (by decide),
    (boot_map_region_refs exFresh 0x8004000000 0x1000 0x2000 0x5000 2 [1, 2, 3]
      (by decide) (by decide)).2⟩

/-! ## Claim C20: mmio_map_region -/

/-- Claim C20 fails when `ROUNDUP(size, PGSIZE)` wraps around: with
`MMIOBASE = 0x8003c00000` and `MMIOLIM = 0x8003e00000`, the call
`mmio_map_region(pa, 0xFFFFFFFFFFFFFFFF)` rounds the size to 0, does not panic,
maps nothing, returns `MMIOBASE` and leaves `base` at `MMIOBASE`, although the
range `[MMIOBASE, MMIOBASE + size)` does not end below `MMIOLIM`; the next call
returns `MMIOBASE` again, so the two reserved ranges overlap. -/
theorem mmio_map_region_size_wraps :
    ROUNDUP 0xFFFFFFFFFFFFFFFF PGSIZE = 0 ∧
    (mmio_map_region 0x8003e00000 exFresh 0x8004000000 0x8003c00000 0xfe000000
      0xFFFFFFFFFFFFFFFF).map (fun r => (r.1, r.2.1)) = some (0x8003c00000, 0x8003c00000) ∧
    ¬ (0x8003c00000 + 0xFFFFFFFFFFFFFFFF ≤ 0x8003e00000) ∧
    (mmio_map_region 0x8003e00000 exFresh 0x8004000000 0x8003c00000 0xfe000000
      0xFFFFFFFFFFFFFFFF).bind (fun r =>
        (mmio_map_region 0x8003e00000 r.2.2 0x8004000000 r.2.1 0xfe001000 0x1000).map
          (fun r2 => (r.1, r2.1, r2.2.1)))
      = some (0x8003c00000, 0x8003c00000, 0x8003c01000) ∧
    ¬ (0x8003c00000 + 0xFFFFFFFFFFFFFFFF ≤ 0x8003c00000) := by
  refine ⟨by decide, by decide, by decide, by decide, by decide⟩

/-! ## Claim C18: boot_map_region maps every page of the region -/

theorem slotsOf_full {s : KState} {root va t3 t2 t1 : Nat} (h : FullPath s root va t3 t2 t1) :
    slotsOf 3 s root va = [root + 8 * PML4 va, t3 + 8 * PDPE va, t2 + 8 * PDX va] := by
  obtain ⟨e4, h3, e3, h2, e2, h1, _⟩ := h
  subst h3; subst h2; subst h1
  have i3 : idx (2 + 1) va = PML4 va := rfl
  have i2 : idx (1 + 1) va = PDPE va := rfl
  have i1 : idx (0 + 1) va = PDX va := rfl
  rw [slotsOf, i3, if_neg e4, slotsOf, i2, if_neg e3, slotsOf, i1, if_neg e2, slotsOf]

/-- Memory after a successful creating walk, in terms of the slots on the path
of `va` in the new state: a new table is zero outside these slots, and outside
the new tables every word that is not one of these slots, or was a present
entry, is unchanged. -/
theorem walkGen_slots (va c : Nat) (hc : c ≠ 0) :
    ∀ (lvl : Nat) (s : KState) (tbl : Nat) (l : List Nat) (k : Nat),
      WalkPre lvl s tbl va l → (walkGen lvl s tbl va c).1 ≠ 0 →
      k + (pathFrom lvl s tbl va).length = lvl + 1 →
      (∀ f ∈ l.take k, ∀ x, inPg (page2kva f) x →
        x ∉ slotsOf lvl (walkGen lvl s tbl va c).2 tbl va →
        (walkGen lvl s tbl va c).2.mem x = 0) ∧
      (∀ x, (∀ f ∈ l.take k, ¬ inPg (page2kva f) x) →
        (x ∉ slotsOf lvl (walkGen lvl s tbl va c).2 tbl va ∨ s.mem x &&& PTE_P ≠ 0) →
        (walkGen lvl s tbl va c).2.mem x = s.mem x)
  | 0, s, tbl, l, k, _, _, hk => by
      have hk0 : k = 0 := by simpa [pathFrom] using hk
      subst hk0
      rw [walkGen_zero]
      exact ⟨by simp, fun _ _ _ => rfl⟩
  | lvl + 1, s, tbl, l, k, hpre, hw, hk => by
      by_cases hp : s.mem (tbl + 8 * idx (lvl + 1) va) &&& PTE_P = 0
      · have hpath : pathFrom (lvl + 1) s tbl va = [tbl] := pathFrom_absent lvl s tbl va hp
        rw [hpath] at hk
        have hk1 : k = lvl + 1 := by simpa using hk
        subst hk1
        cases l with
        | nil =>
          have hf : s.page_free_list = none := hpre.free
          rw [walkGen_absent_empty lvl s tbl va c hp hf] at hw
          exact absurd rfl hw
        | cons f l' =>
          have hf : s.page_free_list = some f := hpre.free.1
          rw [walkGen_install lvl s tbl va c f hpre.tbl_ne hp hc hf] at hw ⊢
          have hsep := hpre.sep
          rw [hpath] at hsep
          simp only [List.singleton_append, List.map_cons] at hsep
          obtain ⟨hsep_tbl, hsep_rest⟩ := List.pairwise_cons.mp hsep
          obtain ⟨hsep_f, _⟩ := List.pairwise_cons.mp hsep_rest
          have hf52 : f < 2 ^ 52 := hpre.frames f (List.mem_cons_self _ _)
          have hslot := install_mem_slot s f (tbl + 8 * idx (lvl + 1) va)
          have hchild : KADDR (PTE_ADDR ((install s f (tbl + 8 * idx (lvl + 1) va)).mem
              (tbl + 8 * idx (lvl + 1) va))) = page2kva f := by
            rw [hslot, entry_addr f hf52]; rfl
          rw [hchild] at hw ⊢
          have hsepf : Sep tbl (page2kva f) := hsep_tbl _ (List.mem_cons_self _ _)
          have hne : ∀ y, inPg (page2kva f) y → y ≠ tbl + 8 * idx (lvl + 1) va := by
            intro y hy h
            exact sep_not_inPg _ _ _ hsepf (slot_inPg tbl (lvl + 1) va) (h ▸ hy)
          have hpath3 : pathFrom lvl (install s f (tbl + 8 * idx (lvl + 1) va)) (page2kva f) va
              = [page2kva f] := by
            cases lvl with
            | zero => rfl
            | succ n =>
              rw [pathFrom, if_pos]
              rw [install_mem_zero _ _ _ _ (hne _ (slot_inPg _ _ _)) (slot_inPg _ _ _)]
              exact zero_land_P
          have hpre3 : WalkPre lvl (install s f (tbl + 8 * idx (lvl + 1) va)) (page2kva f) va l' :=
            ⟨KADDR_ne_zero _, install_list s f _ l' hpre.free,
              fun g hg => hpre.frames g (List.mem_cons_of_mem _ hg),
              by rw [hpath3]; exact hsep_rest⟩
          by_cases hr : (walkGen lvl (install s f (tbl + 8 * idx (lvl + 1) va))
              (page2kva f) va c).1 ≠ 0
          · rw [if_pos hr]
            obtain ⟨hZ, hU⟩ := walkGen_slots va c hc lvl _ (page2kva f) l' lvl
              hpre3 hr (by rw [hpath3]; rfl)
            have hfr_l : ∀ g ∈ l'.take lvl, Sep tbl (page2kva g) := fun g hg =>
              hsep_tbl _ (List.mem_cons_of_mem _ (List.mem_map_of_mem _ (List.mem_of_mem_take hg)))
            have hfr_f : ∀ g ∈ l'.take lvl, Sep (page2kva f) (page2kva g) := fun g hg =>
              hsep_f _ (List.mem_map_of_mem _ (List.mem_of_mem_take hg))
            have hslot2 : (walkGen lvl (install s f (tbl + 8 * idx (lvl + 1) va))
                (page2kva f) va c).2.mem (tbl + 8 * idx (lvl + 1) va)
                = page2pa f ||| PTE_U ||| PTE_W ||| PTE_P := by
              rw [hU _ (fun g hg => sep_not_inPg _ _ _ (hfr_l g hg) (slot_inPg tbl (lvl + 1) va))
                (Or.inr (by rw [hslot]; exact entry_present f))]
              exact hslot
            have hslots : slotsOf (lvl + 1) (walkGen lvl (install s f (tbl + 8 * idx (lvl + 1) va))
                (page2kva f) va c).2 tbl va
                = (tbl + 8 * idx (lvl + 1) va) :: slotsOf lvl (walkGen lvl
                  (install s f (tbl + 8 * idx (lvl + 1) va)) (page2kva f) va c).2
                  (page2kva f) va := by
              rw [slotsOf, hslot2, if_neg (entry_present f), entry_addr f hf52]; rfl
            rw [hslots]
            refine ⟨?_, ?_⟩
            · intro g hg x hx hxs
              rw [List.take_succ_cons, List.mem_cons] at hg
              rw [List.mem_cons, not_or] at hxs
              rcases hg with rfl | hg
              · rw [hU x (fun g2 hg2 => sep_not_inPg _ _ _ (hfr_f g2 hg2) hx) (Or.inl hxs.2)]
                exact install_mem_zero _ _ _ _ hxs.1 hx
              · exact hZ g hg x hx hxs.2
            · intro x hx hxs
              have hxf : ¬ inPg (page2kva f) x := hx f (by simp)
              have hxa : x ≠ tbl + 8 * idx (lvl + 1) va := by
                rcases hxs with h | h
                · exact fun he => h (he ▸ List.mem_cons_self _ _)
                · exact fun he => h (he ▸ hp)
              have hs3 := install_mem_other s f _ x hxa hxf
              rw [hU x (fun g hg => hx g (by rw [List.take_succ_cons]; exact List.mem_cons_of_mem _ hg))
                (by
                  rcases hxs with h | h
                  · exact Or.inl (fun hm => h (List.mem_cons_of_mem _ hm))
                  · exact Or.inr (by rw [hs3]; exact h)), hs3]
          · rw [if_neg hr] at hw
            exact absurd rfl hw
      · rw [walkGen_present lvl s tbl va c hpre.tbl_ne hp] at hw ⊢
        have hpath := pathFrom_present lvl s tbl va hp
        have hsep := hpre.sep
        rw [hpath, List.cons_append] at hsep
        rw [hpath] at hk
        obtain ⟨hsep_tbl, hsep_rest⟩ := List.pairwise_cons.mp hsep
        have hpre2 : WalkPre lvl s (KADDR (PTE_ADDR (s.mem (tbl + 8 * idx (lvl + 1) va)))) va l :=
          ⟨KADDR_ne_zero _, hpre.free, hpre.frames, hsep_rest⟩
        obtain ⟨hZ, hU⟩ := walkGen_slots va c hc lvl s _ l k hpre2 hw
          (by rw [List.length_cons] at hk; omega)
        have hslot2 : (walkGen lvl s (KADDR (PTE_ADDR (s.mem (tbl + 8 * idx (lvl + 1) va))))
            va c).2.mem (tbl + 8 * idx (lvl + 1) va) = s.mem (tbl + 8 * idx (lvl + 1) va) :=
          hU _ (fun g hg => sep_not_inPg _ _ _ (hsep_tbl _ (List.mem_append_right _
            (List.mem_map_of_mem _ (List.mem_of_mem_take hg)))) (slot_inPg tbl (lvl + 1) va))
            (Or.inr hp)
        have hslots : slotsOf (lvl + 1) (walkGen lvl s
            (KADDR (PTE_ADDR (s.mem (tbl + 8 * idx (lvl + 1) va)))) va c).2 tbl va
            = (tbl + 8 * idx (lvl + 1) va) :: slotsOf lvl (walkGen lvl s
              (KADDR (PTE_ADDR (s.mem (tbl + 8 * idx (lvl + 1) va)))) va c).2
              (KADDR (PTE_ADDR (s.mem (tbl + 8 * idx (lvl + 1) va)))) va := by
          rw [slotsOf, hslot2, if_neg hp]
        rw [hslots]
        exact ⟨fun g hg x hx hxs => hZ g hg x hx (fun hm => hxs (List.mem_cons_of_mem _ hm)),
          fun x hx hxs => hU x hx (by
            rcases hxs with h | h
            · exact Or.inl (fun hm => h (List.mem_cons_of_mem _ hm))
            · exact Or.inr h)⟩

theorem Sep.symm {a b : Nat} (h : Sep a b) : Sep b a := Or.symm h

theorem TreeWF.sep_of_len {s : KState} {root : Nat} {lab : Nat → List Nat → Prop} {l : List Nat}
    (wf : TreeWF s root lab l) {t t2 : Nat} {p p2 : List Nat} (h1 : lab t p) (h2 : lab t2 p2)
    (hne : p.length ≠ p2.length) : Sep t t2 := by
  rcases wf.inj t p t2 p2 h1 h2 with h | h
  · exact absurd (congrArg List.length h.2) hne
  · exact h

theorem TreeWF.same_table {s : KState} {root : Nat} {lab : Nat → List Nat → Prop} {l : List Nat}
    (wf : TreeWF s root lab l) {t t2 x : Nat} {p p2 : List Nat} (h1 : lab t p) (h2 : lab t2 p2)
    (hx : inPg t x) (hx2 : inPg t2 x) : t = t2 ∧ p = p2 := by
  rcases wf.inj t p t2 p2 h1 h2 with h | h
  · exact h
  · exact absurd hx2 (sep_not_inPg _ _ _ h hx)

/-- The tables on the path of `v` are labelled by the leading indices of `v`. -/
theorem TreeWF.path_lab {s : KState} {root : Nat} {lab : Nat → List Nat → Prop} {l : List Nat}
    (wf : TreeWF s root lab l) (v : Nat) :
    ∀ m t, (pathFrom 3 s root v)[m]? = some t → lab t ([PML4 v, PDPE v, PDX v].take m) := by
  have b3 : PML4 v < 512 := idx_lt 3 v
  have b2 : PDPE v < 512 := idx_lt 2 v
  have b1 : PDX v < 512 := idx_lt 1 v
  have i3 : idx (2 + 1) v = PML4 v := rfl
  have i2 : idx (1 + 1) v = PDPE v := rfl
  have i1 : idx (0 + 1) v = PDX v := rfl
  have l0 := wf.root_lab
  intro m t hm
  by_cases h4 : s.mem (root + 8 * PML4 v) &&& PTE_P = 0
  · rw [pathFrom_absent 2 s root v h4] at hm
    rcases m with _ | m
    · simp at hm; subst hm; exact l0
    · simp at hm
  · have l1 := wf.child root [] (PML4 v) l0 (by simp) b3 h4
    rw [pathFrom_present 2 s root v h4, i3] at hm
    by_cases h3 : s.mem (KADDR (PTE_ADDR (s.mem (root + 8 * PML4 v))) + 8 * PDPE v) &&& PTE_P = 0
    · rw [pathFrom_absent 1 s _ v h3] at hm
      rcases m with _ | _ | m
      · simp at hm; subst hm; exact l0
      · simp at hm; subst hm; exact l1
      · simp at hm
    · have l2 := wf.child _ _ (PDPE v) l1 (by simp) b2 h3
      rw [pathFrom_present 1 s _ v h3, i2] at hm
      by_cases h2 : s.mem (KADDR (PTE_ADDR (s.mem (KADDR (PTE_ADDR (s.mem
          (root + 8 * PML4 v))) + 8 * PDPE v))) + 8 * PDX v) &&& PTE_P = 0
      · rw [pathFrom_absent 0 s _ v h2] at hm
        rcases m with _ | _ | _ | m
        · simp at hm; subst hm; exact l0
        · simp at hm; subst hm; exact l1
        · simp at hm; subst hm; exact l2
        · simp at hm
      · have l3 := wf.child _ _ (PDX v) l2 (by simp) b1 h2
        rw [pathFrom_present 0 s _ v h2, i1] at hm
        rcases m with _ | _ | _ | _ | m
        · simp at hm; subst hm; exact l0
        · simp at hm; subst hm; exact l1
        · simp at hm; subst hm; exact l2
        · simp [pathFrom] at hm; subst hm; exact l3
        · simp [pathFrom] at hm

theorem pathFrom_length_le (s : KState) (va : Nat) :
    ∀ (lvl tbl : Nat), (pathFrom lvl s tbl va).length ≤ lvl + 1
  | 0, _ => by simp [pathFrom]
  | lvl + 1, tbl => by
      rw [pathFrom]
      split_ifs
      · simp
      · have := pathFrom_length_le s va lvl (KADDR (PTE_ADDR (s.mem (tbl + 8 * idx (lvl + 1) va))))
        simp only [List.length_cons]; omega

/-- A well-formed tree satisfies the precondition of a creating walk of any address. -/
theorem TreeWF.walkPre {s : KState} {root : Nat} {lab : Nat → List Nat → Prop} {l : List Nat}
    (wf : TreeWF s root lab l) (hr : root ≠ 0) (v : Nat) : WalkPre 3 s root v l := by
  refine ⟨hr, wf.free, wf.frames, ?_⟩
  rw [List.pairwise_append]
  refine ⟨?_, wf.free_pair, ?_⟩
  · rw [List.pairwise_iff_getElem]
    intro i j hi hj hij
    have hlen := pathFrom_length_le s v 3 root
    have h1 := wf.path_lab v i _ (List.getElem?_eq_getElem hi)
    have h2 := wf.path_lab v j _ (List.getElem?_eq_getElem hj)
    refine wf.sep_of_len h1 h2 ?_
    simp only [List.length_take, List.length_cons, List.length_nil]
    omega
  · intro a ha b hb
    obtain ⟨f, hf, rfl⟩ := List.mem_map.mp hb
    obtain ⟨i, hi, rfl⟩ := List.getElem_of_mem ha
    exact wf.free_sep _ _ f (wf.path_lab v i _ (List.getElem?_eq_getElem hi)) hf

theorem boot_map_region_body_eq (s : KState) (root la pa perm i : Nat) :
    boot_map_region_body s root la pa perm i =
      orBoot (if (pml4e_walk s root ((la + i) % 2 ^ 64) 1).1 ≠ 0
        then (pml4e_walk s root ((la + i) % 2 ^ 64) 1).2.store
          (pml4e_walk s root ((la + i) % 2 ^ 64) 1).1
          (PTE_ADDR ((pa + i) % 2 ^ 64) ||| perm ||| PTE_P)
        else (pml4e_walk s root ((la + i) % 2 ^ 64) 1).2) root ((la + i) % 2 ^ 64) perm := rfl

theorem PTE_ADDR_or_perm (x perm : Nat) (hperm : perm < 4096) :
    PTE_ADDR (x ||| perm ||| PTE_P) = PTE_ADDR x := by
  rw [PTE_ADDR_or_low _ _ (by decide : PTE_P < 4096), PTE_ADDR_or_low _ _ hperm]

theorem or_perm_bits (x perm : Nat) : (x ||| perm ||| PTE_P) &&& (perm ||| PTE_P) = perm ||| PTE_P := by
  rw [Nat.lor_assoc]
  exact land_or_self x (perm ||| PTE_P)

theorem or_perm_present (x perm : Nat) : (x ||| perm ||| PTE_P) &&& PTE_P ≠ 0 :=
  or_P_land (x ||| perm)

theorem orBoot_eq {s : KState} {root va t3 t2 t1 : Nat} (h : FullPath s root va t3 t2 t1)
    (perm : Nat) (hperm : perm < 4096) :
    orBoot s root va perm =
      ((s.store (root + 8 * PML4 va) (s.mem (root + 8 * PML4 va) ||| perm ||| PTE_P)).store
        (t3 + 8 * PDPE va) (s.mem (t3 + 8 * PDPE va) ||| perm ||| PTE_P)).store
        (t2 + 8 * PDX va) (s.mem (t2 + 8 * PDX va) ||| perm ||| PTE_P) := by
  obtain ⟨n43, n42, _, n32, _, _⟩ := h.slots
  simp only [orBoot]
  rw [store_mem_self, PTE_ADDR_or_perm _ _ hperm, ← h.h3, store_mem_other _ _ _ _ (Ne.symm n43),
    store_mem_self, PTE_ADDR_or_perm _ _ hperm, ← h.h2, store_mem_other _ _ _ _ (Ne.symm n32),
    store_mem_other _ _ _ _ (Ne.symm n42)]

/-- Memory after `orBoot` on a complete path. -/
theorem orBoot_mem {s : KState} {root va t3 t2 t1 : Nat} (h : FullPath s root va t3 t2 t1)
    (perm : Nat) (hperm : perm < 4096) :
    (orBoot s root va perm).mem (root + 8 * PML4 va)
      = s.mem (root + 8 * PML4 va) ||| perm ||| PTE_P ∧
    (orBoot s root va perm).mem (t3 + 8 * PDPE va)
      = s.mem (t3 + 8 * PDPE va) ||| perm ||| PTE_P ∧
    (orBoot s root va perm).mem (t2 + 8 * PDX va)
      = s.mem (t2 + 8 * PDX va) ||| perm ||| PTE_P ∧
    (∀ x, x ∉ [root + 8 * PML4 va, t3 + 8 * PDPE va, t2 + 8 * PDX va] →
      (orBoot s root va perm).mem x = s.mem x) ∧
    (orBoot s root va perm).pages = s.pages ∧
    (orBoot s root va perm).page_free_list = s.page_free_list := by
  obtain ⟨n43, n42, _, n32, _, _⟩ := h.slots
  rw [orBoot_eq h perm hperm]
  refine ⟨?_, ?_, ?_, ?_, rfl, rfl⟩
  · rw [store_mem_other _ _ _ _ n42, store_mem_other _ _ _ _ n43, store_mem_self]
  · rw [store_mem_other _ _ _ _ n32, store_mem_self]
  · rw [store_mem_self]
  · intro x hx
    simp only [List.mem_cons, List.mem_singleton, List.not_mem_nil, or_false, not_or] at hx
    rw [store_mem_other _ _ _ _ hx.2.2, store_mem_other _ _ _ _ hx.2.1,
      store_mem_other _ _ _ _ hx.1]

theorem take_mem_of_append {P N T : List Nat} (h : T = P ++ N) (m t : Nat)
    (hm : T[m]? = some t) : P[m]? = some t ∨ t ∈ N := by
  rw [h] at hm
  by_cases hlt : m < P.length
  · rw [List.getElem?_append_left hlt] at hm
    exact Or.inl hm
  · rw [List.getElem?_append_right (Nat.le_of_not_lt hlt)] at hm
    exact Or.inr (List.getElem?_mem hm)

/-- The state after one iteration of the loop of `boot_map_region` whose walk
succeeds, from a well-formed state. -/
theorem boot_map_region_body_post {s : KState} {root : Nat} {lab : Nat → List Nat → Prop}
    {l : List Nat} (wf : TreeWF s root lab l) (la pa perm i : Nat) (hperm : perm < 4096)
    (hw : (pml4e_walk s root ((la + i) % 2 ^ 64) 1).1 ≠ 0) :
    ∃ t3 t2 t1 k, k ≤ 3 ∧ IterPost s (boot_map_region_body s root la pa perm i) root
      ((la + i) % 2 ^ 64) (PTE_ADDR ((pa + i) % 2 ^ 64) ||| perm ||| PTE_P) perm lab l
      t3 t2 t1 k := by
  have hr : root ≠ 0 := by
    intro h0
    apply hw
    rw [h0, pml4e_walk_eq, walkGen_null]
  have hpre := wf.walkPre hr ((la + i) % 2 ^ 64)
  obtain ⟨t3, t2, t1, k, hk, hptr, hfull, hpath4⟩ :=
    walk_setup_any s root ((la + i) % 2 ^ 64) 1 l (by decide) hpre hw
  have hw3 : (walkGen 3 s root ((la + i) % 2 ^ 64) 1).1 ≠ 0 := by
    rw [← pml4e_walk_eq]; exact hw
  obtain ⟨hZ, hU⟩ := walkGen_slots ((la + i) % 2 ^ 64) 1 (by decide) 3 s root l k hpre hw3 hk.k_eq
  rw [← pml4e_walk_eq, slotsOf_full hfull] at hZ hU
  rw [boot_map_region_body_eq, if_pos hw, hptr]
  have hfull1 := hfull.store_leaf (PTE_ADDR ((pa + i) % 2 ^ 64) ||| perm ||| PTE_P)
  obtain ⟨m4, m3, m2, mo, mp, mf⟩ := orBoot_mem hfull1 perm hperm
  obtain ⟨_, _, n41, _, n31, n21⟩ := hfull.slots
  have hfull2 : FullPath (orBoot ((pml4e_walk s root ((la + i) % 2 ^ 64) 1).2.store
      (t1 + 8 * PTX ((la + i) % 2 ^ 64)) (PTE_ADDR ((pa + i) % 2 ^ 64) ||| perm ||| PTE_P))
      root ((la + i) % 2 ^ 64) perm) root ((la + i) % 2 ^ 64) t3 t2 t1 := by
    refine hfull1.of_entries _ ?_ ?_ ?_ ?_ ?_ ?_
    · rw [m4, PTE_ADDR_or_perm _ _ hperm]
    · rw [m4]; exact or_perm_present _ _
    · rw [m3, PTE_ADDR_or_perm _ _ hperm]
    · rw [m3]; exact or_perm_present _ _
    · rw [m2, PTE_ADDR_or_perm _ _ hperm]
    · rw [m2]; exact or_perm_present _ _
  have hleaf : ∀ x, x ∉ [t1 + 8 * PTX ((la + i) % 2 ^ 64), root + 8 * PML4 ((la + i) % 2 ^ 64),
      t3 + 8 * PDPE ((la + i) % 2 ^ 64), t2 + 8 * PDX ((la + i) % 2 ^ 64)] →
      (orBoot ((pml4e_walk s root ((la + i) % 2 ^ 64) 1).2.store
        (t1 + 8 * PTX ((la + i) % 2 ^ 64)) (PTE_ADDR ((pa + i) % 2 ^ 64) ||| perm ||| PTE_P))
        root ((la + i) % 2 ^ 64) perm).mem x = (pml4e_walk s root ((la + i) % 2 ^ 64) 1).2.mem x ∧
      x ∉ [root + 8 * PML4 ((la + i) % 2 ^ 64),
        t3 + 8 * PDPE ((la + i) % 2 ^ 64), t2 + 8 * PDX ((la + i) % 2 ^ 64)] := by
    intro x hx
    rw [List.mem_cons, not_or] at hx
    exact ⟨by rw [mo x hx.2, store_mem_other _ _ _ _ hx.1], hx.2⟩
  have hdich : ∀ m t, [root, t3, t2, t1][m]? = some t →
      lab t ([PML4 ((la + i) % 2 ^ 64), PDPE ((la + i) % 2 ^ 64),
        PDX ((la + i) % 2 ^ 64)].take m) ∨ ∃ f ∈ l.take k, t = page2kva f := by
    intro m t hm
    rcases take_mem_of_append (hpath4.symm.trans hk.path) m t hm with h | h
    · exact Or.inl (wf.path_lab _ m t h)
    · obtain ⟨f, hf, hft⟩ := List.mem_map.mp h
      exact Or.inr ⟨f, hf, hft.symm⟩
  have hnot_taken : ∀ t p x, lab t p → inPg t x → ∀ f ∈ l.take k, ¬ inPg (page2kva f) x :=
    fun t p x hl hx f hf => sep_not_inPg _ _ _ (wf.free_sep t p f hl (List.mem_of_mem_take hf)) hx
  have hk3 : k ≤ 3 := by
    have h1 := hk.k_eq
    obtain ⟨rest, hrest⟩ := pathFrom_head 3 s root ((la + i) % 2 ^ 64)
    rw [hrest, List.length_cons] at h1
    omega
  refine ⟨t3, t2, t1, k, hk3, ⟨hfull2, hk.k_le, ?_, ?_, ?_, ?_, ?_, hdich 1 t3 rfl, hdich 2 t2 rfl,
    hdich 3 t1 rfl, ?_, ?_, ?_⟩⟩
  · rw [mp, mf]; exact hk.free
  · rw [mo _ (by
      simp only [List.mem_cons, List.mem_singleton, List.not_mem_nil, or_false, not_or]
      exact ⟨Ne.symm n41, Ne.symm n31, Ne.symm n21⟩), store_mem_self]
  · rw [m4]; exact or_perm_bits _ _
  · rw [m3]; exact or_perm_bits _ _
  · rw [m2]; exact or_perm_bits _ _
  · intro t p x hl hx hxs
    obtain ⟨e1, e2⟩ := hleaf x hxs
    rw [e1, hU x (hnot_taken t p x hl hx) (Or.inl e2)]
  · intro t p x hl hx hxs hpres
    have hwx := hU x (hnot_taken t p x hl hx) (Or.inr hpres)
    have hs1 : ∀ y, y ≠ t1 + 8 * PTX ((la + i) % 2 ^ 64) →
        ((pml4e_walk s root ((la + i) % 2 ^ 64) 1).2.store (t1 + 8 * PTX ((la + i) % 2 ^ 64))
          (PTE_ADDR ((pa + i) % 2 ^ 64) ||| perm ||| PTE_P)).mem y
          = (pml4e_walk s root ((la + i) % 2 ^ 64) 1).2.mem y :=
      fun y hy => store_mem_other _ _ _ _ hy
    simp only [List.mem_cons, List.mem_singleton, List.not_mem_nil, or_false] at hxs
    rcases hxs with h | h | h
    · subst h; rw [m4, hs1 _ n41, hwx]
    · subst h; rw [m3, hs1 _ n31, hwx]
    · subst h; rw [m2, hs1 _ n21, hwx]
  · intro f hf x hx hxs
    obtain ⟨e1, e2⟩ := hleaf x hxs
    rw [e1, hZ f hf x hx e2]

theorem take_drop_sep (l : List Nat) (k : Nat) (h : (l.map page2kva).Pairwise Sep) :
    ∀ g ∈ l.take k, ∀ f ∈ l.drop k, Sep (page2kva g) (page2kva f) := by
  intro g hg f hf
  rw [← List.take_append_drop k l, List.map_append, List.pairwise_append] at h
  exact h.2.2 _ (List.mem_map_of_mem _ hg) _ (List.mem_map_of_mem _ hf)

theorem slot_inPg_lt (t j : Nat) (hj : j < 512) : inPg t (t + 8 * j) := by
  unfold inPg PGSIZE
  omega

/-- One iteration of the loop of `boot_map_region` keeps the tree well formed,
the tables on the path of `v` being added to the labelled tables. -/
theorem IterPost.treeWF {s s2 : KState} {root v val perm : Nat} {lab : Nat → List Nat → Prop}
    {l : List Nat} {t3 t2 t1 k : Nat} (wf : TreeWF s root lab l)
    (hp : IterPost s s2 root v val perm lab l t3 t2 t1 k) :
    TreeWF s2 root (fun t p => lab t p ∨ (t = t3 ∧ p = [PML4 v]) ∨
      (t = t2 ∧ p = [PML4 v, PDPE v]) ∨ (t = t1 ∧ p = [PML4 v, PDPE v, PDX v])) (l.drop k) := by
  have hs := hp.full.sep
  simp only [List.pairwise_cons, List.mem_cons, List.mem_singleton, forall_eq_or_imp, forall_eq,
    List.not_mem_nil, false_implies, implies_true, List.Pairwise.nil, and_true] at hs
  obtain ⟨⟨s03, s02, s01⟩, ⟨s32, s31⟩, s21⟩ := hs
  have hD : ∀ t p, (lab t p ∨ (t = t3 ∧ p = [PML4 v]) ∨
      (t = t2 ∧ p = [PML4 v, PDPE v]) ∨ (t = t1 ∧ p = [PML4 v, PDPE v, PDX v])) →
      lab t p ∨ ∃ f ∈ l.take k, t = page2kva f := by
    intro t p h
    rcases h with h | ⟨rfl, rfl⟩ | ⟨rfl, rfl⟩ | ⟨rfl, rfl⟩
    · exact Or.inl h
    · exact hp.dich3
    · exact hp.dich2
    · exact hp.dich1
  have hOT : ∀ t p t' p', lab t p → ((t' = t3 ∧ p' = [PML4 v]) ∨
      (t' = t2 ∧ p' = [PML4 v, PDPE v]) ∨ (t' = t1 ∧ p' = [PML4 v, PDPE v, PDX v])) →
      (t = t' ∧ p = p') ∨ Sep t t' := by
    intro t p t' p' h h'
    rcases hD t' p' (Or.inr h') with h2 | ⟨f, hf, rfl⟩
    · exact wf.inj t p t' p' h h2
    · exact Or.inr (wf.free_sep t p f h (List.mem_of_mem_take hf))
  have hinj : ∀ t p t' p', (lab t p ∨ (t = t3 ∧ p = [PML4 v]) ∨
      (t = t2 ∧ p = [PML4 v, PDPE v]) ∨ (t = t1 ∧ p = [PML4 v, PDPE v, PDX v])) →
      (lab t' p' ∨ (t' = t3 ∧ p' = [PML4 v]) ∨
      (t' = t2 ∧ p' = [PML4 v, PDPE v]) ∨ (t' = t1 ∧ p' = [PML4 v, PDPE v, PDX v])) →
      (t = t' ∧ p = p') ∨ Sep t t' := by
    intro t p t' p' h h'
    rcases h with h | h
    · rcases h' with h' | h'
      · exact wf.inj t p t' p' h h'
      · exact hOT t p t' p' h h'
    · rcases h' with h' | h'
      · rcases hOT t' p' t p h' h with ⟨e1, e2⟩ | e
        · exact Or.inl ⟨e1.symm, e2.symm⟩
        · exact Or.inr e.symm
      · rcases h with ⟨rfl, rfl⟩ | ⟨rfl, rfl⟩ | ⟨rfl, rfl⟩ <;>
          rcases h' with ⟨rfl, rfl⟩ | ⟨rfl, rfl⟩ | ⟨rfl, rfl⟩
        · exact Or.inl ⟨rfl, rfl⟩
        · exact Or.inr s32
        · exact Or.inr s31
        · exact Or.inr s32.symm
        · exact Or.inl ⟨rfl, rfl⟩
        · exact Or.inr s21
        · exact Or.inr s31.symm
        · exact Or.inr s21.symm
        · exact Or.inl ⟨rfl, rfl⟩
  have hsame : ∀ t p t' p' x, (lab t p ∨ (t = t3 ∧ p = [PML4 v]) ∨
      (t = t2 ∧ p = [PML4 v, PDPE v]) ∨ (t = t1 ∧ p = [PML4 v, PDPE v, PDX v])) →
      (lab t' p' ∨ (t' = t3 ∧ p' = [PML4 v]) ∨
      (t' = t2 ∧ p' = [PML4 v, PDPE v]) ∨ (t' = t1 ∧ p' = [PML4 v, PDPE v, PDX v])) →
      inPg t x → inPg t' x → t = t' ∧ p = p' := by
    intro t p t' p' x h h' hx hx'
    rcases hinj t p t' p' h h' with e | e
    · exact e
    · exact absurd hx' (sep_not_inPg _ _ _ e hx)
  refine ⟨Or.inl wf.root_lab, ?_, ?_, hinj, ?_, hp.free,
    fun f hf => wf.frames f (List.mem_of_mem_drop hf),
    List.Pairwise.sublist ((List.drop_sublist k l).map page2kva) wf.free_pair⟩
  · intro t p h
    rcases h with h | ⟨_, rfl⟩ | ⟨_, rfl⟩ | ⟨_, rfl⟩
    · exact wf.len t p h
    · simp
    · simp
    · simp
  · intro t p j hl hlen hj hpres
    have hx := slot_inPg_lt t j hj
    by_cases hx4 : t + 8 * j = root + 8 * PML4 v
    · obtain ⟨e1, e2⟩ := hsame t p root [] _ hl (Or.inl wf.root_lab) hx
        (hx4 ▸ slot_inPg root 3 v)
      subst e1; subst e2
      have hj3 : j = PML4 v := by omega
      subst hj3
      exact Or.inr (Or.inl ⟨hp.full.h3.symm, rfl⟩)
    · by_cases hx3 : t + 8 * j = t3 + 8 * PDPE v
      · obtain ⟨e1, e2⟩ := hsame t p t3 [PML4 v] _ hl (Or.inr (Or.inl ⟨rfl, rfl⟩)) hx
          (hx3 ▸ slot_inPg t3 2 v)
        subst e1; subst e2
        have hj3 : j = PDPE v := by omega
        subst hj3
        exact Or.inr (Or.inr (Or.inl ⟨hp.full.h2.symm, rfl⟩))
      · by_cases hx2 : t + 8 * j = t2 + 8 * PDX v
        · obtain ⟨e1, e2⟩ := hsame t p t2 [PML4 v, PDPE v] _ hl
            (Or.inr (Or.inr (Or.inl ⟨rfl, rfl⟩))) hx (hx2 ▸ slot_inPg t2 1 v)
          subst e1; subst e2
          have hj3 : j = PDX v := by omega
          subst hj3
          exact Or.inr (Or.inr (Or.inr ⟨hp.full.h1.symm, rfl⟩))
        · by_cases hx1 : t + 8 * j = t1 + 8 * PTX v
          · obtain ⟨_, e2⟩ := hsame t p t1 [PML4 v, PDPE v, PDX v] _ hl
              (Or.inr (Or.inr (Or.inr ⟨rfl, rfl⟩))) hx (hx1 ▸ leaf_inPg t1 v)
            subst e2
            simp at hlen
          · have hxs : t + 8 * j ∉ [t1 + 8 * PTX v, root + 8 * PML4 v, t3 + 8 * PDPE v,
                t2 + 8 * PDX v] := by
              simp only [List.mem_cons, List.mem_singleton, List.not_mem_nil, or_false, not_or]
              exact ⟨hx1, hx4, hx3, hx2⟩
            rcases hD t p hl with h | ⟨f, hf, rfl⟩
            · have hm := hp.old t p _ h hx hxs
              rw [hm] at hpres ⊢
              exact Or.inl (wf.child t p j h hlen hj hpres)
            · have hm := hp.new f hf _ hx hxs
              rw [hm] at hpres
              exact absurd zero_land_P hpres
  · intro t p f hl hf
    rcases hD t p hl with h | ⟨g, hg, rfl⟩
    · exact wf.free_sep t p f h (List.mem_of_mem_drop hf)
    · exact take_drop_sep l k wf.free_pair g hg f hf

theorem TreeWF.full_lab {s : KState} {root : Nat} {lab : Nat → List Nat → Prop} {l : List Nat}
    (wf : TreeWF s root lab l) {v u3 u2 u1 : Nat} (h : FullPath s root v u3 u2 u1) :
    lab u3 [PML4 v] ∧ lab u2 [PML4 v, PDPE v] ∧ lab u1 [PML4 v, PDPE v, PDX v] := by
  have l1 := wf.child root [] (PML4 v) wf.root_lab (by simp) (idx_lt 3 v) h.e4
  rw [← h.h3] at l1
  have l2 := wf.child u3 _ (PDPE v) l1 (by simp) (idx_lt 2 v) h.e3
  rw [← h.h2] at l2
  have l3 := wf.child u2 _ (PDX v) l2 (by simp) (idx_lt 1 v) h.e2
  rw [← h.h1] at l3
  exact ⟨l1, l2, l3⟩

theorem upper_keep (a b perm : Nat) (hperm : perm < 4096)
    (h : b = a ∨ b = a ||| perm ||| PTE_P) :
    PTE_ADDR b = PTE_ADDR a ∧ (a &&& PTE_P ≠ 0 → b &&& PTE_P ≠ 0) ∧
    (a &&& (perm ||| PTE_P) = perm ||| PTE_P → b &&& (perm ||| PTE_P) = perm ||| PTE_P) := by
  rcases h with rfl | rfl
  · exact ⟨rfl, fun h => h, fun h => h⟩
  · exact ⟨PTE_ADDR_or_perm _ _ hperm, fun _ => or_perm_present _ _, fun _ => or_perm_bits _ _⟩

/-- The iteration for `v` establishes the mapping of `v`. -/
theorem IterPost.mapped {s s2 : KState} {root v val perm : Nat} {lab : Nat → List Nat → Prop}
    {l : List Nat} {t3 t2 t1 k : Nat} (hp : IterPost s s2 root v val perm lab l t3 t2 t1 k) :
    Mapped s2 root v val (perm ||| PTE_P) :=
  ⟨t3, t2, t1, hp.full, hp.leaf, hp.up4, hp.up3, hp.up2⟩

/-- The iteration for `v` keeps the mapping of every page with other indices. -/
theorem IterPost.keeps {s s2 : KState} {root v val perm : Nat} {lab : Nat → List Nat → Prop}
    {l : List Nat} {t3 t2 t1 k : Nat} (wf : TreeWF s root lab l)
    (hp : IterPost s s2 root v val perm lab l t3 t2 t1 k) (hperm : perm < 4096)
    (v2 val2 : Nat)
    (hne : PML4 v2 ≠ PML4 v ∨ PDPE v2 ≠ PDPE v ∨ PDX v2 ≠ PDX v ∨ PTX v2 ≠ PTX v)
    (hm : Mapped s root v2 val2 (perm ||| PTE_P)) :
    Mapped s2 root v2 val2 (perm ||| PTE_P) := by
  obtain ⟨u3, u2, u1, hfu, hleaf, hb4, hb3, hb2⟩ := hm
  obtain ⟨lu3, lu2, lu1⟩ := wf.full_lab hfu
  have wf2 := hp.treeWF wf
  have T0 : (fun t p => lab t p ∨ (t = t3 ∧ p = [PML4 v]) ∨
      (t = t2 ∧ p = [PML4 v, PDPE v]) ∨ (t = t1 ∧ p = [PML4 v, PDPE v, PDX v])) root [] :=
    Or.inl wf.root_lab
  have T3 : (fun t p => lab t p ∨ (t = t3 ∧ p = [PML4 v]) ∨
      (t = t2 ∧ p = [PML4 v, PDPE v]) ∨ (t = t1 ∧ p = [PML4 v, PDPE v, PDX v])) t3 [PML4 v] :=
    Or.inr (Or.inl ⟨rfl, rfl⟩)
  have T2 : (fun t p => lab t p ∨ (t = t3 ∧ p = [PML4 v]) ∨
      (t = t2 ∧ p = [PML4 v, PDPE v]) ∨ (t = t1 ∧ p = [PML4 v, PDPE v, PDX v])) t2
      [PML4 v, PDPE v] := Or.inr (Or.inr (Or.inl ⟨rfl, rfl⟩))
  have T1 : (fun t p => lab t p ∨ (t = t3 ∧ p = [PML4 v]) ∨
      (t = t2 ∧ p = [PML4 v, PDPE v]) ∨ (t = t1 ∧ p = [PML4 v, PDPE v, PDX v])) t1
      [PML4 v, PDPE v, PDX v] := Or.inr (Or.inr (Or.inr ⟨rfl, rfl⟩))
  have hup : ∀ tb pb x, lab tb pb → pb.length < 3 → inPg tb x → s.mem x &&& PTE_P ≠ 0 →
      s2.mem x = s.mem x ∨ s2.mem x = s.mem x ||| perm ||| PTE_P := by
    intro tb pb x hl hlen hx hpres
    by_cases hB : x ∈ [root + 8 * PML4 v, t3 + 8 * PDPE v, t2 + 8 * PDX v]
    · exact Or.inr (hp.oldup tb pb x hl hx hB hpres)
    · have h1 : x ≠ t1 + 8 * PTX v :=
        sep_ne _ _ _ _ (wf2.sep_of_len (Or.inl hl) T1 (by simp; omega)) hx (leaf_inPg t1 v)
      refine Or.inl (hp.old tb pb x hl hx ?_)
      rw [List.mem_cons, not_or]
      exact ⟨h1, hB⟩
  have k4 := upper_keep _ _ perm hperm
    (hup root [] _ wf.root_lab (by simp) (slot_inPg root 3 v2) hfu.e4)
  have k3 := upper_keep _ _ perm hperm
    (hup u3 _ _ lu3 (by simp) (slot_inPg u3 2 v2) hfu.e3)
  have k2 := upper_keep _ _ perm hperm
    (hup u2 _ _ lu2 (by simp) (slot_inPg u2 1 v2) hfu.e2)
  have hl1 : s2.mem (u1 + 8 * PTX v2) = s.mem (u1 + 8 * PTX v2) := by
    refine hp.old u1 _ _ lu1 (leaf_inPg u1 v2) ?_
    simp only [List.mem_cons, List.mem_singleton, List.not_mem_nil, or_false, not_or]
    refine ⟨?_, ?_, ?_, ?_⟩
    · rcases wf2.inj u1 _ t1 _ (Or.inl lu1) T1 with ⟨e1, e2⟩ | e
      · simp only [List.cons.injEq, and_true] at e2
        subst e1
        have hptx : PTX v2 ≠ PTX v := by
          rcases hne with h | h | h | h
          · exact absurd e2.1 h
          · exact absurd e2.2.1 h
          · exact absurd e2.2.2 h
          · exact h
        omega
      · exact sep_ne _ _ _ _ e (leaf_inPg u1 v2) (leaf_inPg t1 v)
    · exact sep_ne _ _ _ _ (wf2.sep_of_len (Or.inl lu1) T0 (by simp)) (leaf_inPg u1 v2)
        (slot_inPg root 3 v)
    · exact sep_ne _ _ _ _ (wf2.sep_of_len (Or.inl lu1) T3 (by simp)) (leaf_inPg u1 v2)
        (slot_inPg t3 2 v)
    · exact sep_ne _ _ _ _ (wf2.sep_of_len (Or.inl lu1) T2 (by simp)) (leaf_inPg u1 v2)
        (slot_inPg t2 1 v)
  exact ⟨u3, u2, u1, hfu.of_entries s2 k4.1 (k4.2.1 hfu.e4) k3.1 (k3.2.1 hfu.e3) k2.1
    (k2.2.1 hfu.e2), by rw [hl1, hleaf], k4.2.2 hb4, k3.2.2 hb3, k2.2.2 hb2⟩

theorem idx_tuple (v : Nat) :
    v / 4096 % 2 ^ 36 = PTX v + 512 * PDX v + 2 ^ 18 * PDPE v + 2 ^ 27 * PML4 v := by
  have h0 : PTX v = v / 2 ^ 12 % 512 := idx_eq_div 0 v
  have h1 : PDX v = v / 2 ^ 21 % 512 := idx_eq_div 1 v
  have h2 : PDPE v = v / 2 ^ 30 % 512 := idx_eq_div 2 v
  have h3 : PML4 v = v / 2 ^ 39 % 512 := idx_eq_div 3 v
  rw [h0, h1, h2, h3]
  omega

theorem idx_differ (v v2 : Nat) (h : v2 / 4096 % 2 ^ 36 ≠ v / 4096 % 2 ^ 36) :
    PML4 v2 ≠ PML4 v ∨ PDPE v2 ≠ PDPE v ∨ PDX v2 ≠ PDX v ∨ PTX v2 ≠ PTX v := by
  rw [idx_tuple, idx_tuple] at h
  by_contra hc
  simp only [not_or, not_not] at hc
  obtain ⟨a, b, c, d⟩ := hc
  rw [a, b, c, d] at h
  exact h rfl

theorem pages_differ (la i j : Nat) (hi : i % 4096 = 0) (hj : j % 4096 = 0) (hji : j < i)
    (h48 : i < 2 ^ 48) : (la + j) / 4096 % 2 ^ 36 ≠ (la + i) / 4096 % 2 ^ 36 := by
  omega

/-- The loop of `boot_map_region` from a well-formed state in which the pages
below `i` are mapped: it ends and every page of the region is mapped. -/
theorem boot_map_region_loop_maps (root la size pa perm : Nat) (hperm : perm < 4096)
    (hla : la + size ≤ 2 ^ 64) (h48 : size ≤ 2 ^ 48) :
    ∀ (fuel i : Nat) (cur : KState) (lab : Nat → List Nat → Prop) (l : List Nat),
      i % PGSIZE = 0 → TreeWF cur root lab l →
      (∀ j, j % PGSIZE = 0 → j < i → j < size →
        Mapped cur root (la + j) (PTE_ADDR ((pa + j) % 2 ^ 64) ||| perm ||| PTE_P)
          (perm ||| PTE_P)) →
      boot_map_region_walks root la size pa perm fuel i cur → size ≤ i + fuel * PGSIZE →
      ∃ s2, boot_map_region_loop root la size pa perm fuel i cur = some s2 ∧
        ∀ j, j % PGSIZE = 0 → j < size →
          Mapped s2 root (la + j) (PTE_ADDR ((pa + j) % 2 ^ 64) ||| perm ||| PTE_P)
            (perm ||| PTE_P)
  | 0, i, cur, lab, l, _, _, hdone, _, hfuel => by
      rw [boot_map_region_loop, if_neg (by omega)]
      exact ⟨cur, rfl, fun j hj hjs => hdone j hj (by omega) hjs⟩
  | fuel + 1, i, cur, lab, l, hi, wf, hdone, hok, hfuel => by
      rw [boot_map_region_loop]
      by_cases his : i < size
      · rw [if_pos his]
        obtain ⟨hw, hrest⟩ := hok his
        have hv : (la + i) % 2 ^ 64 = la + i := Nat.mod_eq_of_lt (by omega)
        have hnext : (i + PGSIZE) % 2 ^ 64 = i + PGSIZE :=
          Nat.mod_eq_of_lt (by unfold PGSIZE; omega)
        obtain ⟨t3, t2, t1, k, _, hp⟩ := boot_map_region_body_post wf la pa perm i hperm hw
        rw [hv] at hp
        rw [hnext] at hrest ⊢
        refine boot_map_region_loop_maps root la size pa perm hperm hla h48 fuel (i + PGSIZE) _ _ _
          (by unfold PGSIZE at *; omega) (hp.treeWF wf) ?_ hrest
          (by rw [Nat.add_mul] at hfuel; omega)
        intro j hj hji hjs
        by_cases hjeq : j = i
        · subst hjeq
          exact hp.mapped
        · have hlt : j < i := by unfold PGSIZE at *; omega
          exact hp.keeps wf hperm (la + j) _
            (idx_differ _ _ (pages_differ la i j (by unfold PGSIZE at hi; exact hi)
              (by unfold PGSIZE at hj; exact hj) hlt (by omega)))
            (hdone j hj hlt hjs)
      · rw [if_neg his]
        exact ⟨cur, rfl, fun j hj hjs => hdone j hj (by omega) hjs⟩

theorem check_va2pa_full {s : KState} {root va t3 t2 t1 : Nat} (h : FullPath s root va t3 t2 t1)
    (hpres : s.mem (t1 + 8 * PTX va) &&& PTE_P ≠ 0) :
    check_va2pa s root va = PTE_ADDR (s.mem (t1 + 8 * PTX va)) := by
  obtain ⟨e4, h3, e3, h2, e2, h1, _⟩ := h
  subst h3; subst h2; subst h1
  simp only [check_va2pa]
  rw [if_neg e4, if_neg e3, if_neg e2, if_neg hpres]

theorem PTE_ADDR_aligned (a : Nat) (ha : a < 2 ^ 64) (hal : a % 4096 = 0) : PTE_ADDR a = a := by
  have h1 : a = page2pa (a / 4096) := by
    unfold page2pa PGSHIFT
    rw [Nat.shiftLeft_eq]
    omega
  rw [h1]
  exact PTE_ADDR_page2pa _ (by omega)

/-! ### The number of frames bounds the size of the region -/

theorem boot_map_region_walks_mono (root la size size2 pa perm : Nat) (hs : size2 ≤ size) :
    ∀ (fuel2 fuel i : Nat) (s : KState), fuel2 ≤ fuel →
      boot_map_region_walks root la size pa perm fuel i s →
      boot_map_region_walks root la size2 pa perm fuel2 i s
  | 0, _, _, _, _, _ => trivial
  | fuel2 + 1, 0, _, _, hf, _ => absurd hf (by omega)
  | fuel2 + 1, fuel + 1, i, s, hf, hok => by
      rw [boot_map_region_walks] at hok ⊢
      intro hi
      obtain ⟨hw, hrest⟩ := hok (Nat.lt_of_lt_of_le hi hs)
      exact ⟨hw, boot_map_region_walks_mono root la size size2 pa perm hs fuel2 fuel _ _
        (by omega) hrest⟩

/-- The loop of `boot_map_region` keeps the tree well formed, and its tables are
tables of the initial tree or frames taken from the initial free list: if those
are frames below `N`, so are the tables of the final tree. -/
theorem boot_map_region_loop_tree (root la size pa perm N : Nat) (hperm : perm < 4096)
    (hla : la + size ≤ 2 ^ 64) (h48 : size ≤ 2 ^ 48) :
    ∀ (fuel i : Nat) (cur : KState) (lab : Nat → List Nat → Prop) (l : List Nat),
      i % PGSIZE = 0 → TreeWF cur root lab l →
      (∀ t p, lab t p → ∃ f, f < N ∧ t = page2kva f) → (∀ f, f ∈ l → f < N) →
      (∀ j, j % PGSIZE = 0 → j < i → j < size →
        Mapped cur root (la + j) (PTE_ADDR ((pa + j) % 2 ^ 64) ||| perm ||| PTE_P)
          (perm ||| PTE_P)) →
      boot_map_region_walks root la size pa perm fuel i cur → size ≤ i + fuel * PGSIZE →
      ∃ (s2 : KState) (lab2 : Nat → List Nat → Prop) (l2 : List Nat), TreeWF s2 root lab2 l2 ∧
        (∀ t p, lab2 t p → ∃ f, f < N ∧ t = page2kva f) ∧
        ∀ j, j % PGSIZE = 0 → j < size →
          Mapped s2 root (la + j) (PTE_ADDR ((pa + j) % 2 ^ 64) ||| perm ||| PTE_P)
            (perm ||| PTE_P)
  | 0, i, cur, lab, l, _, wf, hprov, _, hdone, _, hfuel =>
      ⟨cur, lab, l, wf, hprov, fun j hj hjs => hdone j hj (by omega) hjs⟩
  | fuel + 1, i, cur, lab, l, hi, wf, hprov, hfr, hdone, hok, hfuel => by
      by_cases his : i < size
      · rw [boot_map_region_walks] at hok
        obtain ⟨hw, hrest⟩ := hok his
        have hv : (la + i) % 2 ^ 64 = la + i := Nat.mod_eq_of_lt (by omega)
        have hnext : (i + PGSIZE) % 2 ^ 64 = i + PGSIZE :=
          Nat.mod_eq_of_lt (by unfold PGSIZE; omega)
        obtain ⟨t3, t2, t1, k, _, hp⟩ := boot_map_region_body_post wf la pa perm i hperm hw
        rw [hv] at hp
        rw [hnext] at hrest
        have hfrom : ∀ f, f ∈ l.take k → f < N := fun f hf => hfr f (List.mem_of_mem_take hf)
        refine boot_map_region_loop_tree root la size pa perm N hperm hla h48 fuel (i + PGSIZE)
          _ _ _ (by unfold PGSIZE at *; omega) (hp.treeWF wf) ?_
          (fun f hf => hfr f (List.mem_of_mem_drop hf)) ?_ hrest
          (by rw [Nat.add_mul] at hfuel; omega)
        · intro t p hl
          rcases hl with hl | ⟨rfl, _⟩ | ⟨rfl, _⟩ | ⟨rfl, _⟩
          · exact hprov t p hl
          · rcases hp.dich3 with hd | ⟨f, hf, rfl⟩
            · exact hprov _ _ hd
            · exact ⟨f, hfrom f hf, rfl⟩
          · rcases hp.dich2 with hd | ⟨f, hf, rfl⟩
            · exact hprov _ _ hd
            · exact ⟨f, hfrom f hf, rfl⟩
          · rcases hp.dich1 with hd | ⟨f, hf, rfl⟩
            · exact hprov _ _ hd
            · exact ⟨f, hfrom f hf, rfl⟩
        · intro j hj hji hjs
          by_cases hjeq : j = i
          · subst hjeq
            exact hp.mapped
          · have hlt : j < i := by unfold PGSIZE at *; omega
            exact hp.keeps wf hperm (la + j) _
              (idx_differ _ _ (pages_differ la i j (by unfold PGSIZE at hi; exact hi)
                (by unfold PGSIZE at hj; exact hj) hlt (by omega)))
              (hdone j hj hlt hjs)
      · exact ⟨cur, lab, l, wf, hprov, fun j hj hjs => hdone j hj (by omega) hjs⟩

/-- A well-formed tree in which every page of a region of `2^48` bytes is mapped
has a leaf table for each of the `2^27` triples of upper indices, all distinct:
its tables cannot all be frames below `N` unless `2^27 ≤ N`. -/
theorem full_tree_frames {s : KState} {root : Nat} {lab : Nat → List Nat → Prop} {l : List Nat}
    (wf : TreeWF s root lab l) (N la : Nat) (val : Nat → Nat) (m : Nat)
    (hprov : ∀ t p, lab t p → ∃ f, f < N ∧ t = page2kva f)
    (hall : ∀ j, j % PGSIZE = 0 → j < 2 ^ 48 → Mapped s root (la + j) (val j) m) :
    2 ^ 27 ≤ N := by
  have key : ∀ q, q < 2 ^ 27 → ∃ f, f < N ∧ ∃ a b c, lab (page2kva f) [a, b, c] ∧
      a < 512 ∧ b < 512 ∧ c < 512 ∧ c + 512 * b + 2 ^ 18 * a = q := by
    intro q hq
    have hj : ((q * 512 + 2 ^ 36 - la / 4096 % 2 ^ 36) % 2 ^ 36 * 4096) % PGSIZE = 0 := by
      unfold PGSIZE; omega
    obtain ⟨t3, t2, t1, hfull, _⟩ := hall _ hj (by omega)
    obtain ⟨_, _, l1⟩ := wf.full_lab hfull
    obtain ⟨f, hf, rfl⟩ := hprov _ _ l1
    have htup := idx_tuple (la + (q * 512 + 2 ^ 36 - la / 4096 % 2 ^ 36) % 2 ^ 36 * 4096)
    have b3 := idx_lt 3 (la + (q * 512 + 2 ^ 36 - la / 4096 % 2 ^ 36) % 2 ^ 36 * 4096)
    have b2 := idx_lt 2 (la + (q * 512 + 2 ^ 36 - la / 4096 % 2 ^ 36) % 2 ^ 36 * 4096)
    have b1 := idx_lt 1 (la + (q * 512 + 2 ^ 36 - la / 4096 % 2 ^ 36) % 2 ^ 36 * 4096)
    have b0 := idx_lt 0 (la + (q * 512 + 2 ^ 36 - la / 4096 % 2 ^ 36) % 2 ^ 36 * 4096)
    have e3 : idx 3 (la + (q * 512 + 2 ^ 36 - la / 4096 % 2 ^ 36) % 2 ^ 36 * 4096) =
        PML4 (la + (q * 512 + 2 ^ 36 - la / 4096 % 2 ^ 36) % 2 ^ 36 * 4096) := rfl
    have e2 : idx 2 (la + (q * 512 + 2 ^ 36 - la / 4096 % 2 ^ 36) % 2 ^ 36 * 4096) =
        PDPE (la + (q * 512 + 2 ^ 36 - la / 4096 % 2 ^ 36) % 2 ^ 36 * 4096) := rfl
    have e1 : idx 1 (la + (q * 512 + 2 ^ 36 - la / 4096 % 2 ^ 36) % 2 ^ 36 * 4096) =
        PDX (la + (q * 512 + 2 ^ 36 - la / 4096 % 2 ^ 36) % 2 ^ 36 * 4096) := rfl
    have e0 : idx 0 (la + (q * 512 + 2 ^ 36 - la / 4096 % 2 ^ 36) % 2 ^ 36 * 4096) =
        PTX (la + (q * 512 + 2 ^ 36 - la / 4096 % 2 ^ 36) % 2 ^ 36 * 4096) := rfl
    rw [e3] at b3
    rw [e2] at b2
    rw [e1] at b1
    rw [e0] at b0
    refine ⟨f, hf, _, _, _, l1, b3, b2, b1, ?_⟩
    generalize PML4 (la + (q * 512 + 2 ^ 36 - la / 4096 % 2 ^ 36) % 2 ^ 36 * 4096) = a at *
    generalize PDPE (la + (q * 512 + 2 ^ 36 - la / 4096 % 2 ^ 36) % 2 ^ 36 * 4096) = b at *
    generalize PDX (la + (q * 512 + 2 ^ 36 - la / 4096 % 2 ^ 36) % 2 ^ 36 * 4096) = c at *
    generalize PTX (la + (q * 512 + 2 ^ 36 - la / 4096 % 2 ^ 36) % 2 ^ 36 * 4096) = d at *
    omega
  have hinj : Function.Injective (fun q : Fin (2 ^ 27) =>
      (⟨Classical.choose (key q.1 q.2), (Classical.choose_spec (key q.1 q.2)).1⟩ : Fin N)) := by
    intro q q2 he
    have hf : Classical.choose (key q.1 q.2) = Classical.choose (key q2.1 q2.2) :=
      congrArg Fin.val he
    obtain ⟨a, b, c, hl, _, _, _, hq⟩ := (Classical.choose_spec (key q.1 q.2)).2
    obtain ⟨a2, b2, c2, hl2, _, _, _, hq2⟩ := (Classical.choose_spec (key q2.1 q2.2)).2
    rw [hf] at hl
    rcases wf.inj _ _ _ _ hl hl2 with ⟨_, hp⟩ | hsep
    · simp only [List.cons.injEq, and_true] at hp
      apply Fin.ext
      rw [← hq, ← hq2, hp.1, hp.2.1, hp.2.2]
    · exfalso
      unfold Sep PGSIZE at hsep
      omega
  have hcard := Fintype.card_le_of_injective _ hinj
  rw [Fintype.card_fin, Fintype.card_fin] at hcard
  exact hcard

/-- In a state whose tables and free frames are frames below `N < 2^27`, a run
of `boot_map_region` in which no walk fails maps at most `2^48` bytes: a larger
region needs `2^27` leaf tables. -/
theorem boot_map_region_size_le (s : KState) (root la size pa perm N : Nat)
    (lab : Nat → List Nat → Prop) (l : List Nat) (wf : TreeWF s root lab l)
    (hprov : ∀ t p, lab t p → ∃ f, f < N ∧ t = page2kva f) (hfr : ∀ f, f ∈ l → f < N)
    (hN : N < 2 ^ 27) (hperm : perm < 4096) (hla : la + size ≤ 2 ^ 64)
    (hok : boot_map_region_walks root la size pa perm (size / PGSIZE + 1) 0 s) :
    size ≤ 2 ^ 48 := by
  by_contra hc
  have hok2 := boot_map_region_walks_mono root la size (2 ^ 48) pa perm (by omega)
    (2 ^ 48 / PGSIZE + 1) (size / PGSIZE + 1) 0 s (by unfold PGSIZE; omega) hok
  obtain ⟨s2, lab2, l2, wf2, hprov2, hall⟩ := boot_map_region_loop_tree root la (2 ^ 48) pa perm N
    hperm (by omega) (Nat.le_refl _) (2 ^ 48 / PGSIZE + 1) 0 s lab l rfl wf hprov hfr
    (fun j _ hj _ => absurd hj (Nat.not_lt_zero j)) hok2 (by unfold PGSIZE; omega)
  have := full_tree_frames wf2 N la _ _ hprov2 hall
  omega

/-- Claim C18: from a well-formed page-table tree whose tables and free frames
are frames below `N`, with `N < 2^27` (the page count `npages` is at most
`max_npages`, which is below `2^27`), if no walk of the run fails, `pa` is
page-aligned, `perm` lies in the low 12 bits and `[la, la + size)` does not
wrap, then `boot_map_region(root, la, size, pa, perm)` returns, and for every
multiple `i` of `PGSIZE` below `size`: the leaf entry of `la + i` is exactly
`PTE_ADDR(pa + i) | perm | PTE_P`, `check_va2pa` translates `la + i` to `pa + i`
(the sum taken in 64 bits), and the three upper-level entries on the path of
`la + i` have every bit of `perm | PTE_P`. -/
theorem boot_map_region_maps (s : KState) (root la size pa perm : Nat)
    (lab : Nat → List Nat → Prop) (l : List Nat) (N : Nat) (wf : TreeWF s root lab l)
    (hprov : ∀ t p, lab t p → ∃ f, f < N ∧ t = page2kva f) (hfr : ∀ f, f ∈ l → f < N)
    (hN : N < 2 ^ 27)
    (hperm : perm < 4096) (hpa : pa % PGSIZE = 0) (hla : la + size ≤ 2 ^ 64)
    (hok : boot_map_region_walks root la size pa perm (size / PGSIZE + 1) 0 s) :
    ∃ s2, boot_map_region s root la size pa perm = some s2 ∧
      ∀ i, i % PGSIZE = 0 → i < size →
        (∃ p, leafSlot s2 root (la + i) = some p ∧
          s2.mem p = PTE_ADDR ((pa + i) % 2 ^ 64) ||| perm ||| PTE_P) ∧
        check_va2pa s2 root (la + i) = (pa + i) % 2 ^ 64 ∧
        (pa + size ≤ 2 ^ 64 → check_va2pa s2 root (la + i) = pa + i) ∧
        ∃ t3 t2 t1, FullPath s2 root (la + i) t3 t2 t1 ∧
          s2.mem (root + 8 * PML4 (la + i)) &&& (perm ||| PTE_P) = perm ||| PTE_P ∧
          s2.mem (t3 + 8 * PDPE (la + i)) &&& (perm ||| PTE_P) = perm ||| PTE_P ∧
          s2.mem (t2 + 8 * PDX (la + i)) &&& (perm ||| PTE_P) = perm ||| PTE_P := by
  have h48 : size ≤ 2 ^ 48 :=
    boot_map_region_size_le s root la size pa perm N lab l wf hprov hfr hN hperm hla hok
  obtain ⟨s2, hrun, hall⟩ := boot_map_region_loop_maps root la size pa perm hperm hla h48
    (size / PGSIZE + 1) 0 s lab l rfl wf (fun j _ hj _ => absurd hj (Nat.not_lt_zero j)) hok
    (by unfold PGSIZE; omega)
  refine ⟨s2, hrun, fun i hi his => ?_⟩
  obtain ⟨t3, t2, t1, hfull, hleaf, h4, h3, h2⟩ := hall i hi his
  have hval : PTE_ADDR (PTE_ADDR ((pa + i) % 2 ^ 64) ||| perm ||| PTE_P) = (pa + i) % 2 ^ 64 := by
    rw [PTE_ADDR_or_perm _ _ hperm, PTE_ADDR_idem]
    exact PTE_ADDR_aligned _ (Nat.mod_lt _ (by decide)) (by unfold PGSIZE at *; omega)
  have hva : check_va2pa s2 root (la + i) = (pa + i) % 2 ^ 64 := by
    rw [check_va2pa_full hfull (by rw [hleaf]; exact or_perm_present _ _), hleaf, hval]
  exact ⟨⟨_, hfull.leafSlot_eq, hleaf⟩, hva,
    fun hpw => by rw [hva, Nat.mod_eq_of_lt (by omega)], t3, t2, t1, hfull, h4, h3, h2⟩

/-- Witness of C18 on the state `exFresh`, whose root table is frame 0 and whose
free frames are 1, 2 and 3: mapping the two pages at `0x1000` and `0x2000` to
`0x5000` and `0x6000` with `perm = PTE_W`. -/
theorem boot_map_region_maps_witness :
    boot_map_region_walks 0x8004000000 0x1000 0x2000 0x5000 2 (0x2000 / PGSIZE + 1) 0 exFresh ∧
    ∃ s2, boot_map_region exFresh 0x8004000000 0x1000 0x2000 0x5000 2 = some s2 ∧
      check_va2pa s2 0x8004000000 0x1000 = 0x5000 ∧
      check_va2pa s2 0x8004000000 0x2000 = 0x6000 := by
  have hok : boot_map_region_walks 0x8004000000 0x1000 0x2000 0x5000 2 (0x2000 / PGSIZE + 1) 0
      exFresh := by decide
  have wf : TreeWF exFresh 0x8004000000 (fun t p => t = 0x8004000000 ∧ p = []) [1, 2, 3] :=
    ⟨⟨rfl, rfl⟩, fun t p h => by rw [h.2]; decide,
      fun t p j _ _ _ h => absurd zero_land_P h,
      fun t p t2 p2 h h2 => Or.inl ⟨h.1.trans h2.1.symm, h.2.trans h2.2.symm⟩,
      fun t p f h hf => by
        rw [h.1]
        revert f
        decide,
      by decide, by decide, by decide⟩
  obtain ⟨s2, hrun, hall⟩ := boot_map_region_maps exFresh 0x8004000000 0x1000 0x2000 0x5000 2 _
    [1, 2, 3] 4 wf (fun t p h => ⟨0, by decide, h.1.trans (by decide)⟩) (by decide)
    (by decide) (by decide) (by decide) (by decide) hok
  exact ⟨hok, s2, hrun, (hall 0 (by decide) (by decide)).2.1,
    (hall 0x1000 (by decide) (by decide)).2.1⟩

/-! ### Without a bound on the number of frames -/

theorem walkGen_succeeds (va c : Nat) (hc : c ≠ 0) :
    ∀ (lvl : Nat) (s : KState) (tbl : Nat) (l : List Nat),
      WalkPre lvl s tbl va l → lvl ≤ l.length → (walkGen lvl s tbl va c).1 ≠ 0
  | 0, s, tbl, l, hpre, _ => by
      rw [walkGen_zero]
      exact fun h => hpre.tbl_ne (Nat.eq_zero_of_add_eq_zero_right h)
  | lvl + 1, s, tbl, l, hpre, hlen => by
      by_cases hp : s.mem (tbl + 8 * idx (lvl + 1) va) &&& PTE_P = 0
      · have hpath : pathFrom (lvl + 1) s tbl va = [tbl] := pathFrom_absent lvl s tbl va hp
        cases l with
        | nil => simp at hlen
        | cons f l' =>
          have hf : s.page_free_list = some f := hpre.free.1
          rw [walkGen_install lvl s tbl va c f hpre.tbl_ne hp hc hf]
          have hsep := hpre.sep
          rw [hpath] at hsep
          simp only [List.singleton_append, List.map_cons] at hsep
          obtain ⟨hsep_tbl, hsep_rest⟩ := List.pairwise_cons.mp hsep
          have hf52 : f < 2 ^ 52 := hpre.frames f (List.mem_cons_self _ _)
          have hslot := install_mem_slot s f (tbl + 8 * idx (lvl + 1) va)
          have hchild : KADDR (PTE_ADDR ((install s f (tbl + 8 * idx (lvl + 1) va)).mem
              (tbl + 8 * idx (lvl + 1) va))) = page2kva f := by
            rw [hslot, entry_addr f hf52]; rfl
          rw [hchild]
          have hsepf : Sep tbl (page2kva f) := hsep_tbl _ (List.mem_cons_self _ _)
          have hne : ∀ y, inPg (page2kva f) y → y ≠ tbl + 8 * idx (lvl + 1) va := by
            intro y hy h
            exact sep_not_inPg _ _ _ hsepf (slot_inPg tbl (lvl + 1) va) (h ▸ hy)
          have hpath3 : pathFrom lvl (install s f (tbl + 8 * idx (lvl + 1) va)) (page2kva f) va
              = [page2kva f] := by
            cases lvl with
            | zero => rfl
            | succ n =>
              rw [pathFrom, if_pos]
              rw [install_mem_zero _ _ _ _ (hne _ (slot_inPg _ _ _)) (slot_inPg _ _ _)]
              exact zero_land_P
          have hpre3 : WalkPre lvl (install s f (tbl + 8 * idx (lvl + 1) va)) (page2kva f) va l' :=
            ⟨KADDR_ne_zero _, install_list s f _ l' hpre.free,
              fun g hg => hpre.frames g (List.mem_cons_of_mem _ hg),
              by rw [hpath3]; exact hsep_rest⟩
          have ih := walkGen_succeeds va c hc lvl _ (page2kva f) l' hpre3
            (by simp only [List.length_cons] at hlen; omega)
          rw [if_pos ih]
          exact ih
      · rw [walkGen_present lvl s tbl va c hpre.tbl_ne hp]
        have hpath := pathFrom_present lvl s tbl va hp
        have hsep := hpre.sep
        rw [hpath, List.cons_append] at hsep
        have hpre2 : WalkPre lvl s (KADDR (PTE_ADDR (s.mem (tbl + 8 * idx (lvl + 1) va)))) va l :=
          ⟨KADDR_ne_zero _, hpre.free, hpre.frames, (List.pairwise_cons.mp hsep).2⟩
        exact walkGen_succeeds va c hc lvl s _ l hpre2 (by omega)

theorem boot_map_region_loop_done (root la size pa perm fuel i : Nat) (s : KState)
    (h : ¬ i < size) : boot_map_region_loop root la size pa perm fuel i s = some s := by
  cases fuel with
  | zero => rw [boot_map_region_loop, if_neg h]
  | succ n => rw [boot_map_region_loop, if_neg h]

/-- With three free frames per iteration no walk of the loop fails, whatever the
size; the loop ends and the page handled by the last iteration is mapped. -/
theorem boot_map_region_loop_last (root la size pa perm : Nat) (hperm : perm < 4096)
    (hr : root ≠ 0) (hla : la + size ≤ 2 ^ 64) (hsz : size + PGSIZE ≤ 2 ^ 64) :
    ∀ (fuel i : Nat) (cur : KState) (lab : Nat → List Nat → Prop) (l : List Nat),
      i % PGSIZE = 0 → TreeWF cur root lab l → 3 * fuel ≤ l.length →
      size ≤ i + fuel * PGSIZE →
      boot_map_region_walks root la size pa perm fuel i cur ∧
      ∃ s2, boot_map_region_loop root la size pa perm fuel i cur = some s2 ∧
        ∀ j, j % PGSIZE = 0 → i ≤ j → j < size → size ≤ j + PGSIZE →
          Mapped s2 root (la + j) (PTE_ADDR ((pa + j) % 2 ^ 64) ||| perm ||| PTE_P)
            (perm ||| PTE_P)
  | 0, i, cur, lab, l, _, _, _, hfuel => by
      refine ⟨trivial, cur, ?_, fun j _ h1 h2 _ => ?_⟩
      · rw [boot_map_region_loop, if_neg (by omega)]
      · omega
  | fuel + 1, i, cur, lab, l, hi, wf, hfree, hfuel => by
      by_cases his : i < size
      · have hw : (pml4e_walk cur root ((la + i) % 2 ^ 64) 1).1 ≠ 0 := by
          rw [pml4e_walk_eq]
          exact walkGen_succeeds _ 1 (by decide) 3 cur root l (wf.walkPre hr _) (by omega)
        have hv : (la + i) % 2 ^ 64 = la + i := Nat.mod_eq_of_lt (by omega)
        have hnext : (i + PGSIZE) % 2 ^ 64 = i + PGSIZE := Nat.mod_eq_of_lt (by omega)
        obtain ⟨t3, t2, t1, k, hk3, hp⟩ := boot_map_region_body_post wf la pa perm i hperm hw
        rw [hv] at hp
        obtain ⟨ih1, s2, ih2, ih3⟩ := boot_map_region_loop_last root la size pa perm hperm hr hla hsz
          fuel (i + PGSIZE) (boot_map_region_body cur root la pa perm i) _ (l.drop k)
          (by unfold PGSIZE at *; omega) (hp.treeWF wf)
          (by rw [List.length_drop]; omega) (by rw [Nat.add_mul] at hfuel; omega)
        refine ⟨?_, s2, ?_, ?_⟩
        · rw [boot_map_region_walks]
          intro _
          rw [hnext]
          exact ⟨hw, ih1⟩
        · rw [boot_map_region_loop, if_pos his, hnext]
          exact ih2
        · intro j hj h1 h2 h3
          by_cases hji : j = i
          · subst hji
            rw [boot_map_region_loop_done _ _ _ _ _ _ _ _ (by omega)] at ih2
            rw [← Option.some.inj ih2]
            exact hp.mapped
          · exact ih3 j hj (by unfold PGSIZE at *; omega) h2 h3
      · refine ⟨?_, cur, boot_map_region_loop_done _ _ _ _ _ _ _ _ his, fun j _ h1 h2 _ => ?_⟩
        · rw [boot_map_region_walks]
          exact fun h => absurd h his
        · omega

theorem exLong_list (n : Nat) : ∀ (m a : Nat), a + m = n + 1 →
    isList (exLong n).pages (if m = 0 then none else some a) (List.range' a m)
  | 0, _, _ => rfl
  | m + 1, a, h => by
      rw [List.range'_succ, if_neg (Nat.succ_ne_zero m)]
      refine ⟨rfl, ?_⟩
      have ih := exLong_list n m (a + 1) (by omega)
      have hl : ((exLong n).pages a).pp_link = if m = 0 then none else some (a + 1) := by
        show (if a < n then some (a + 1) else none) = _
        by_cases hm : m = 0
        · rw [if_pos hm, if_neg (by omega)]
        · rw [if_neg hm, if_pos (by omega)]
      rw [hl]
      exact ih

/-- The state `exLong n` is a well-formed tree with the root table in frame 0. -/
theorem exLong_wf (n : Nat) (hn : n + 1 ≤ 2 ^ 52) :
    TreeWF (exLong n) 0x8004000000 (fun t p => t = 0x8004000000 ∧ p = []) (List.range' 1 n) := by
  have hkva : ∀ f, page2kva f = f * 4096 + 0x8004000000 := page2kva_eq
  refine ⟨⟨rfl, rfl⟩, fun t p h => by rw [h.2]; decide,
      fun t p j _ _ _ h => absurd zero_land_P h,
      fun t p t2 p2 h h2 => Or.inl ⟨h.1.trans h2.1.symm, h.2.trans h2.2.symm⟩, ?_, ?_, ?_, ?_⟩
  · intro t p f h hf
    rw [h.1, hkva]
    have := (List.mem_range'_1.mp hf).1
    unfold Sep PGSIZE
    omega
  · have h := exLong_list n n 1 (by omega)
    exact h
  · intro f hf
    have := (List.mem_range'_1.mp hf).2
    omega
  · rw [List.pairwise_map]
    refine List.Pairwise.imp ?_ (List.pairwise_lt_range' 1 n)
    intro a b hab
    rw [hkva, hkva]
    unfold Sep PGSIZE
    omega

theorem check_va2pa_congr (s : KState) (root va vb : Nat) (h4 : PML4 vb = PML4 va)
    (h3 : PDPE vb = PDPE va) (h2 : PDX vb = PDX va) (h1 : PTX vb = PTX va) :
    check_va2pa s root vb = check_va2pa s root va := by
  unfold check_va2pa
  rw [h4, h3, h2, h1]

/-- The bound on the number of frames in the mapping theorem of
`boot_map_region` is needed in this model of the state, which does not limit the `pages` array: from the empty
tree `exLong 206158430214`, whose free list of about `2 * 10^11` frames lets
every walk succeed, the last iteration of
`boot_map_region(root, 0, 2^48 + 4096, 0, 0)`, for `la + 2^48`, uses the same
four indices as the first one and overwrites the leaf entry of `la + 0`. Such a
state has more frames than `max_npages` allows. -/
theorem boot_map_region_alias :
    TreeWF (exLong 206158430214) 0x8004000000 (fun t p => t = 0x8004000000 ∧ p = [])
      (List.range' 1 206158430214) ∧
    0 + 0x1000000001000 ≤ 2 ^ 64 ∧
    boot_map_region_walks 0x8004000000 0 0x1000000001000 0 0 (0x1000000001000 / PGSIZE + 1) 0
      (exLong 206158430214) ∧
    ∃ s2, boot_map_region (exLong 206158430214) 0x8004000000 0 0x1000000001000 0 0 = some s2 ∧
      (∃ p, leafSlot s2 0x8004000000 (0 + 0) = some p ∧
        s2.mem p = PTE_ADDR (0 + 0x1000000000000) ||| 0 ||| PTE_P ∧
        s2.mem p ≠ PTE_ADDR (0 + 0) ||| 0 ||| PTE_P) ∧
      check_va2pa s2 0x8004000000 (0 + 0) = 0x1000000000000 ∧
      check_va2pa s2 0x8004000000 (0 + 0) ≠ 0 + 0 := by
  have wf := exLong_wf 206158430214 (by decide)
  obtain ⟨hok, s2, hrun, hlast⟩ := boot_map_region_loop_last 0x8004000000 0 0x1000000001000 0 0
    (by decide) (by decide) (by decide) (by decide) (0x1000000001000 / PGSIZE + 1) 0
    (exLong 206158430214) _ _ rfl wf (by rw [List.length_range']; decide) (by decide)
  obtain ⟨t3, t2, t1, hfull, hleaf, _⟩ := hlast 0x1000000000000 (by decide) (by decide)
    (by decide) (by decide)
  have e4 : PML4 (0 + 0) = PML4 (0 + 0x1000000000000) := by decide
  have e3 : PDPE (0 + 0) = PDPE (0 + 0x1000000000000) := by decide
  have e2 : PDX (0 + 0) = PDX (0 + 0x1000000000000) := by decide
  have e1 : PTX (0 + 0) = PTX (0 + 0x1000000000000) := by decide
  have hslot : leafSlot s2 0x8004000000 (0 + 0) = some (t1 + 8 * PTX (0 + 0x1000000000000)) := by
    rw [← hfull.leafSlot_eq]
    simp only [leafSlot]
    rw [e4, e3, e2, e1]
  have hv1 : (0 + 0x1000000000000) % 2 ^ 64 = 0 + 0x1000000000000 := by decide
  rw [hv1] at hleaf
  have hval : PTE_ADDR (PTE_ADDR (0 + 0x1000000000000) ||| 0 ||| PTE_P) = 0x1000000000000 := by
    decide
  have hva : check_va2pa s2 0x8004000000 (0 + 0) = 0x1000000000000 := by
    rw [check_va2pa_congr s2 _ _ _ e4 e3 e2 e1,
      check_va2pa_full hfull (by rw [hleaf]; exact or_perm_present _ _), hleaf, hval]
  refine ⟨wf, by decide, hok, s2, hrun, ⟨_, hslot, hleaf, ?_⟩, hva, ?_⟩
  · rw [hleaf]; decide
  · rw [hva]; decide

/-! ## Claim C21: the limit test of mmio_map_region -/

theorem mmio_map_region_at_limit (MMIOLIM : Nat) (s : KState) (boot_pml4e base pa size : Nat)
    (h : (base + ROUNDUP size PGSIZE) % 2 ^ 64 = MMIOLIM) :
    mmio_map_region MMIOLIM s boot_pml4e base pa size = none := by
  unfold mmio_map_region
  simp only []
  rw [if_pos (by rw [h])]

/-- Claim C21 fails for a reservation that ends exactly at `MMIOLIM`: with
`MMIOBASE = 0x8003c00000` and `MMIOLIM = 0x8003e00000`, the first call
`mmio_map_region(pa, 0x200000)` asks for the whole window
`[MMIOBASE, MMIOLIM)`; `base + ROUNDUP(size, PGSIZE)` equals `MMIOLIM`, which is
not greater than `MMIOLIM`, yet the test `base >= MMIOLIM` after the addition
is true and the function panics. -/
theorem mmio_map_region_exact_fit :
    ROUNDUP 0x200000 PGSIZE = 0x200000 ∧
    0x8003c00000 + ROUNDUP 0x200000 PGSIZE = 0x8003e00000 ∧
    ¬ (0x8003c00000 + ROUNDUP 0x200000 PGSIZE > 0x8003e00000) ∧
    (0x8003c00000 + ROUNDUP 0x200000 PGSIZE) % 2 ^ 64 ≥ 0x8003e00000 ∧
    (mmio_map_region 0x8003e00000 exFresh 0x8004000000 0x8003c00000 0xfe000000 0x200000).isNone
      = true ∧
    (mmio_map_region 0x8003e00000 exFresh 0x8004000000 0x8003c00000 0xfe000000 0x1000).isSome
      = true := by
  refine ⟨by decide, by decide, by decide, by decide, ?_, ?_⟩
  · rw [mmio_map_region_at_limit _ _ _ _ _ _ (by decide)]
    rfl
  · decide
/-! ## Claims C22 and C23: boot_alloc -/

theorem ROUNDUP_aligned (a : Nat) : ROUNDUP a PGSIZE % PGSIZE = 0 := by
  unfold ROUNDUP PGSIZE
  omega

theorem ROUNDUP_lt (a : Nat) : ROUNDUP a PGSIZE < 2 ^ 64 := by
  unfold ROUNDUP PGSIZE
  have := Nat.mod_lt (a + 4096 - 1) (by decide : 2 ^ 64 > 0)
  omega

/-- The cursor `boot_alloc` works with: the static `nextfree`, or the rounded
end of the kernel image when `nextfree` is still null. -/
theorem boot_alloc_some (h : Hdr) (npages nextfree n r c : Nat)
    (hr : boot_alloc h npages nextfree n = some (r, c)) :
    r = (if nextfree = 0 then ROUNDUP h.end_debug PGSIZE else nextfree) ∧
    c = ROUNDUP ((r + n) % 2 ^ 64) PGSIZE ∧
    ¬ ((r + n) % 2 ^ 64 < r) ∧
    ¬ ((r + n) % 2 ^ 64 > (npages * PGSIZE + KERNBASE) % 2 ^ 64) := by
  unfold boot_alloc at hr
  simp only [] at hr
  by_cases hg : ((if nextfree = 0 then ROUNDUP h.end_debug PGSIZE else nextfree) + n) % 2 ^ 64
      < (if nextfree = 0 then ROUNDUP h.end_debug PGSIZE else nextfree) ∨
      ((if nextfree = 0 then ROUNDUP h.end_debug PGSIZE else nextfree) + n) % 2 ^ 64
      > (npages * PGSIZE + KERNBASE) % 2 ^ 64
  · rw [if_pos hg] at hr
    exact absurd hr (by simp)
  · rw [if_neg hg] at hr
    have h1 := Option.some.inj hr
    have h2 := (Prod.mk.inj h1).1
    have h3 := (Prod.mk.inj h1).2
    rw [not_or] at hg
    rw [h2] at h3 hg
    exact ⟨h2.symm, h3.symm, hg.1, hg.2⟩

/-- Claim C22: a call `boot_alloc(n)` that does not panic returns the cursor it
found (the static `nextfree`, initialised on the first call to the page-rounded
end of the kernel image), which is a multiple of `PGSIZE`, and leaves the cursor
at that value plus `ROUNDUP(n, PGSIZE)`, again a multiple of `PGSIZE`; so the
region has at least `n` bytes, `boot_alloc(0)` does not move the cursor, and the
next call returns an address at or above the end of this region. -/
theorem boot_alloc_spec (h : Hdr) (npages nextfree n r c : Nat) (hn : n < 2 ^ 32)
    (hnf : nextfree < 2 ^ 64) (hal : nextfree % PGSIZE = 0)
    (hr : boot_alloc h npages nextfree n = some (r, c)) :
    r = (if nextfree = 0 then ROUNDUP h.end_debug PGSIZE else nextfree) ∧
    r % PGSIZE = 0 ∧
    c = r + ROUNDUP n PGSIZE ∧
    c % PGSIZE = 0 ∧ c < 2 ^ 64 ∧
    n ≤ ROUNDUP n PGSIZE ∧ r + n ≤ c ∧
    (n = 0 → c = r) ∧
    ∀ n2 r2 c2, boot_alloc h npages c n2 = some (r2, c2) → r2 = c ∧ r + n ≤ r2 := by
  obtain ⟨h1, h2, h3, h4⟩ := boot_alloc_some h npages nextfree n r c hr
  have hE := ROUNDUP_aligned h.end_debug
  have hEl := ROUNDUP_lt h.end_debug
  have hral : r % PGSIZE = 0 := by
    rw [h1]; split_ifs
    · exact hE
    · exact hal
  have hrlt : r < 2 ^ 64 := by
    rw [h1]; split_ifs
    · exact hEl
    · exact hnf
  have hlim : (npages * PGSIZE + KERNBASE) % 2 ^ 64 % PGSIZE = 0 := by
    unfold PGSIZE KERNBASE; omega
  have hliml := Nat.mod_lt (npages * PGSIZE + KERNBASE) (by decide : 2 ^ 64 > 0)
  have hsum : (r + n) % 2 ^ 64 = r + n := by
    apply Nat.mod_eq_of_lt
    by_contra hc
    have : (r + n) % 2 ^ 64 = r + n - 2 ^ 64 := by
      rw [Nat.mod_eq_sub_mod (Nat.le_of_not_lt hc), Nat.mod_eq_of_lt (by omega)]
    omega
  rw [hsum] at h2 h3 h4
  have hc : c = r + ROUNDUP n PGSIZE := by
    rw [h2]
    unfold ROUNDUP PGSIZE at *
    have e1 : (r + n + 4096 - 1) % 2 ^ 64 = r + n + 4095 := by
      rw [Nat.mod_eq_of_lt (by omega)]; omega
    have e2 : (n + 4096 - 1) % 2 ^ 64 = n + 4095 := by
      rw [Nat.mod_eq_of_lt (by omega)]; omega
    rw [e1, e2]
    omega
  have hcal : c % PGSIZE = 0 := by rw [h2]; exact ROUNDUP_aligned _
  have hclt : c < 2 ^ 64 := by rw [h2]; exact ROUNDUP_lt _
  have hnr : n ≤ ROUNDUP n PGSIZE := by
    unfold ROUNDUP PGSIZE
    have e2 : (n + 4096 - 1) % 2 ^ 64 = n + 4095 := by
      rw [Nat.mod_eq_of_lt (by omega)]; omega
    rw [e2]; omega
  have hn0 : n = 0 → c = r := by
    intro h0
    rw [hc, h0]
    have : ROUNDUP 0 PGSIZE = 0 := by decide
    rw [this]; rfl
  refine ⟨h1, hral, hc, hcal, hclt, hnr, by omega, hn0, ?_⟩
  intro n2 r2 c2 hr2
  obtain ⟨g1, _, _, _⟩ := boot_alloc_some h npages c n2 r2 c2 hr2
  have hr2c : r2 = c := by
    rw [g1]
    by_cases hc0 : c = 0
    · rw [if_pos hc0]
      have hr0 : r = 0 := by omega
      rw [hr0] at h1
      by_cases hnf0 : nextfree = 0
      · rw [if_pos hnf0] at h1
        rw [← h1, hc0]
      · rw [if_neg hnf0] at h1
        exact absurd h1.symm hnf0
    · rw [if_neg hc0]
  exact ⟨hr2c, by omega⟩

/-- Witness of C22 with the constants `exHdr`: the first call, with 5000 bytes. -/
theorem boot_alloc_spec_witness :
    boot_alloc exHdr 0x8000 0 5000 = some (0x8004235000, 0x8004237000) ∧
    0x8004235000 % PGSIZE = 0 ∧ 0x8004237000 = 0x8004235000 + ROUNDUP 5000 PGSIZE :=
  ⟨by decide,
    (boot_alloc_spec exHdr 0x8000 0 5000 0x8004235000 0x8004237000 (by decide) (by decide)
      (by decide) (by decide)).2.1,
    (boot_alloc_spec exHdr 0x8000 0 5000 0x8004235000 0x8004237000 (by decide) (by decide)
      (by decide) (by decide)).2.2.1⟩

/-- Claim C23: `boot_alloc(n)` panics if and only if the cursor plus `n` wraps
around or is greater than `KERNBASE + npages*PGSIZE`; after a successful call
the end of the returned region and the new cursor are at or below
`KERNBASE + npages*PGSIZE`. The page count is assumed to be such that
`KERNBASE + npages*PGSIZE` fits in 64 bits. -/
theorem boot_alloc_panic (h : Hdr) (npages nextfree n : Nat) (hn : n < 2 ^ 32)
    (hnf : nextfree < 2 ^ 64) (hlim : KERNBASE + npages * PGSIZE < 2 ^ 64) :
    (boot_alloc h npages nextfree n = none ↔
      (2 ^ 64 ≤ (if nextfree = 0 then ROUNDUP h.end_debug PGSIZE else nextfree) + n ∨
        KERNBASE + npages * PGSIZE
          < (if nextfree = 0 then ROUNDUP h.end_debug PGSIZE else nextfree) + n)) ∧
    ∀ r c, boot_alloc h npages nextfree n = some (r, c) →
      r + n ≤ KERNBASE + npages * PGSIZE ∧ c ≤ KERNBASE + npages * PGSIZE := by
  have hEl := ROUNDUP_lt h.end_debug
  have hcur : (if nextfree = 0 then ROUNDUP h.end_debug PGSIZE else nextfree) < 2 ^ 64 := by
    split_ifs
    · exact hEl
    · exact hnf
  have hl : (npages * PGSIZE + KERNBASE) % 2 ^ 64 = KERNBASE + npages * PGSIZE := by
    rw [Nat.mod_eq_of_lt (by omega)]; omega
  refine ⟨?_, ?_⟩
  · unfold boot_alloc
    simp only []
    rw [hl]
    generalize (if nextfree = 0 then ROUNDUP h.end_debug PGSIZE else nextfree) = cur at hcur ⊢
    by_cases hw : 2 ^ 64 ≤ cur + n
    · have e : (cur + n) % 2 ^ 64 = cur + n - 2 ^ 64 := by
        rw [Nat.mod_eq_sub_mod hw, Nat.mod_eq_of_lt (by omega)]
      rw [if_pos (Or.inl (by omega))]
      exact ⟨fun _ => Or.inl hw, fun _ => rfl⟩
    · have e : (cur + n) % 2 ^ 64 = cur + n := Nat.mod_eq_of_lt (by omega)
      rw [e]
      by_cases hg : cur + n > KERNBASE + npages * PGSIZE
      · rw [if_pos (Or.inr hg)]
        exact ⟨fun _ => Or.inr hg, fun _ => rfl⟩
      · rw [if_neg (by omega)]
        exact ⟨fun hh => absurd hh (by simp), fun hh => by omega⟩
  · intro r c hr
    obtain ⟨h1, h2, h3, h4⟩ := boot_alloc_some h npages nextfree n r c hr
    rw [← h1] at hcur
    rw [hl] at h4
    have hsum : (r + n) % 2 ^ 64 = r + n := by
      apply Nat.mod_eq_of_lt
      by_contra hc
      have : (r + n) % 2 ^ 64 = r + n - 2 ^ 64 := by
        rw [Nat.mod_eq_sub_mod (Nat.le_of_not_lt hc), Nat.mod_eq_of_lt (by omega)]
      omega
    rw [hsum] at h2 h3 h4
    refine ⟨by omega, ?_⟩
    rw [h2]
    unfold ROUNDUP PGSIZE KERNBASE at *
    have e1 : (r + n + 4096 - 1) % 2 ^ 64 = r + n + 4095 := by
      rw [Nat.mod_eq_of_lt (by omega)]; omega
    rw [e1]
    omega

/-- Witness of C23 with the constants `exHdr` and 128 MB of memory: a request of
5000 bytes succeeds on the first call. -/
theorem boot_alloc_panic_witness :
    (boot_alloc exHdr 0x8000 0 5000 = none ↔
      (2 ^ 64 ≤ (if (0 : Nat) = 0 then ROUNDUP exHdr.end_debug PGSIZE else 0) + 5000 ∨
        KERNBASE + 0x8000 * PGSIZE
          < (if (0 : Nat) = 0 then ROUNDUP exHdr.end_debug PGSIZE else 0) + 5000)) ∧
    ∀ r c, boot_alloc exHdr 0x8000 0 5000 = some (r, c) →
      r + 5000 ≤ KERNBASE + 0x8000 * PGSIZE ∧ c ≤ KERNBASE + 0x8000 * PGSIZE :=
  boot_alloc_panic exHdr 0x8000 0 5000 (by decide) (by decide) (by decide)

/-! ## Claims C24 and C29: page_init -/

theorem setLink_other (s : KState) (q : Nat) (v : Option Nat) (i : Nat) (h : i ≠ q) :
    (s.setLink q v).pages i = s.pages i := by
  simp [KState.setLink, h]

theorem setLink_self (s : KState) (q : Nat) (v : Option Nat) :
    (s.setLink q v).pages q = { pp_link := v, pp_ref := (s.pages q).pp_ref } := by
  simp [KState.setLink]

theorem isList_snoc (p : Nat → PageInfo) : ∀ (F : List Nat) (h : Option Nat) (l i : Nat),
    isList p h F → F.getLast? = some l → i ∉ F → (p i).pp_link = none →
    isList (fun j => if j = l then { p j with pp_link := some i } else p j) h (F ++ [i])
  | [], _, _, _, _, hl, _, _ => by simp at hl
  | [x], h, l, i, hF, hl, hi, hn => by
      simp only [List.getLast?_singleton, Option.some.injEq] at hl
      subst hl
      have hix : i ≠ x := fun e => hi (e ▸ List.mem_singleton_self _)
      refine ⟨hF.1, ?_, ?_⟩
      · simp
      · show (if i = x then _ else p i).pp_link = none
        rw [if_neg hix]; exact hn
  | x :: y :: ys, h, l, i, hF, hl, hi, hn => by
      rw [List.getLast?_cons_cons] at hl
      have hnd := isList_nodup p _ _ hF
      have hlm : l ∈ y :: ys := List.mem_of_mem_getLast? (by rw [hl]; exact rfl)
      have hxl : x ≠ l := fun e => (List.nodup_cons.mp hnd).1 (e ▸ hlm)
      refine ⟨hF.1, ?_⟩
      have ih := isList_snoc p (y :: ys) (p x).pp_link l i hF.2 hl
        (fun hm => hi (List.mem_cons_of_mem _ hm)) hn
      show isList _ (if x = l then _ else p x).pp_link _
      rw [if_neg hxl]
      exact ih

theorem page_init_inuse_cases (h : Hdr) (nb nf i : Nat) :
    page_init_inuse h nb nf i = 0 ∨ page_init_inuse h nb nf i = 1 := by
  unfold page_init_inuse
  simp only []
  split_ifs <;> simp

theorem page_init_body_free_none (h : Hdr) (nb nf : Nat) (cur : KState) (i : Nat)
    (hfree : page_init_inuse h nb nf i = 0) :
    page_init_body h nb nf cur none i
      = ({ (cur.setRef i 0).setLink i none with page_free_list := some i }, some i) := by
  unfold page_init_body; simp only []; rw [if_pos hfree, hfree]

theorem page_init_body_free_some (h : Hdr) (nb nf : Nat) (cur : KState) (l i : Nat)
    (hfree : page_init_inuse h nb nf i = 0) :
    page_init_body h nb nf cur (some l) i
      = (((cur.setRef i 0).setLink i none).setLink l (some i), some i) := by
  unfold page_init_body; simp only []; rw [if_pos hfree, hfree]

theorem page_init_body_used (h : Hdr) (nb nf : Nat) (cur : KState) (last : Option Nat) (i : Nat)
    (hone : page_init_inuse h nb nf i = 1) :
    page_init_body h nb nf cur last i = ((cur.setRef i 1).setLink i none, last) := by
  unfold page_init_body; simp only []
  rw [if_neg (by rw [hone]; decide), hone]

/-- The frames below `i` that `page_init` puts on the free list. -/
theorem page_init_loop_inv (h : Hdr) (nb nf : Nat) (s : KState) :
    ∀ (k i : Nat) (last : Option Nat) (cur : KState),
      isList cur.pages cur.page_free_list
        ((List.range i).filter (fun j => decide (page_init_inuse h nb nf j = 0))) →
      last = ((List.range i).filter (fun j => decide (page_init_inuse h nb nf j = 0))).getLast? →
      (∀ j ∈ (List.range i).filter (fun j => decide (page_init_inuse h nb nf j = 0)),
        (cur.pages j).pp_ref = 0) →
      (∀ j, j < i → page_init_inuse h nb nf j ≠ 0 →
        cur.pages j = { pp_link := none, pp_ref := 1 }) →
      (∀ j, i ≤ j → cur.pages j = s.pages j) → cur.mem = s.mem →
      isList (page_init_loop h nb nf k i last cur).pages
        (page_init_loop h nb nf k i last cur).page_free_list
        ((List.range (i + k)).filter (fun j => decide (page_init_inuse h nb nf j = 0))) ∧
      (∀ j ∈ (List.range (i + k)).filter (fun j => decide (page_init_inuse h nb nf j = 0)),
        ((page_init_loop h nb nf k i last cur).pages j).pp_ref = 0) ∧
      (∀ j, j < i + k → page_init_inuse h nb nf j ≠ 0 →
        (page_init_loop h nb nf k i last cur).pages j = { pp_link := none, pp_ref := 1 }) ∧
      (∀ j, i + k ≤ j → (page_init_loop h nb nf k i last cur).pages j = s.pages j) ∧
      (page_init_loop h nb nf k i last cur).mem = s.mem
  | 0, i, last, cur, ha, _, hc, hd, he, hf => ⟨ha, hc, hd, he, hf⟩
  | k + 1, i, last, cur, ha, hb, hc, hd, he, hf => by
      rw [page_init_loop, show i + (k + 1) = (i + 1) + k by omega]
      have hlt : ∀ j ∈ (List.range i).filter
          (fun j => decide (page_init_inuse h nb nf j = 0)), j < i :=
        fun j hj => List.mem_range.mp (List.mem_filter.mp hj).1
      have hiF : i ∉ (List.range i).filter
          (fun j => decide (page_init_inuse h nb nf j = 0)) :=
        fun hm => Nat.lt_irrefl i (hlt i hm)
      have hs1 : ∀ v : Int, ∀ j, j ≠ i → ((cur.setRef i v).setLink i none).pages j
          = cur.pages j := fun v j hj => by
        rw [setLink_other _ _ _ _ hj, setRef_other _ _ _ _ hj]
      have hs1i : ∀ v : Int, ((cur.setRef i v).setLink i none).pages i
          = { pp_link := none, pp_ref := v } := fun v => by
        rw [setLink_self, setRef_ref_self]
      by_cases hfree : page_init_inuse h nb nf i = 0
      · have hF : (List.range (i + 1)).filter (fun j => decide (page_init_inuse h nb nf j = 0))
            = (List.range i).filter (fun j => decide (page_init_inuse h nb nf j = 0)) ++ [i] := by
          rw [List.range_succ, List.filter_append, List.filter_singleton]
          simp [hfree]
        have hlastF : ∀ l, last = some l →
            l ∈ (List.range i).filter (fun j => decide (page_init_inuse h nb nf j = 0)) :=
          fun l hl => List.mem_of_mem_getLast? (by rw [← hb, hl]; exact rfl)
        cases hlast : last with
        | none =>
          rw [page_init_body_free_none h nb nf cur i hfree]
          have hnil : (List.range i).filter
              (fun j => decide (page_init_inuse h nb nf j = 0)) = [] := by
            rw [hlast] at hb
            cases hL : (List.range i).filter
                (fun j => decide (page_init_inuse h nb nf j = 0)) with
            | nil => rfl
            | cons a t =>
              rw [hL] at hb
              have := List.getLast?_eq_getLast (a :: t) (List.cons_ne_nil _ _)
              rw [this] at hb
              exact absurd hb (by simp)
          apply page_init_loop_inv h nb nf s k (i + 1)
          · rw [hF, hnil]
            refine ⟨rfl, ?_⟩
            show (((cur.setRef i 0).setLink i none).pages i).pp_link = none
            rw [hs1i]
          · rw [hF, List.getLast?_concat]
          · intro j hj
            rw [hF, hnil] at hj
            simp only [List.nil_append, List.mem_singleton] at hj
            subst hj
            show (((cur.setRef j 0).setLink j none).pages j).pp_ref = 0
            rw [hs1i]
          · intro j hj hne
            have hji : j ≠ i := fun e => hne (e ▸ hfree)
            show ((cur.setRef i 0).setLink i none).pages j = _
            rw [hs1 0 j hji]
            exact hd j (by omega) hne
          · intro j hj
            show ((cur.setRef i 0).setLink i none).pages j = _
            rw [hs1 0 j (by omega)]
            exact he j (by omega)
          · exact hf
        | some l =>
          rw [page_init_body_free_some h nb nf cur l i hfree]
          have hlF := hlastF l hlast
          have hli : i ≠ l := fun e => hiF (e ▸ hlF)
          have hpj : ∀ j, j ≠ i → j ≠ l →
              (((cur.setRef i 0).setLink i none).setLink l (some i)).pages j = cur.pages j :=
            fun j h1 h2 => by rw [setLink_other _ _ _ _ h2, hs1 0 j h1]
          apply page_init_loop_inv h nb nf s k (i + 1)
          · rw [hF]
            have h1 : isList ((cur.setRef i 0).setLink i none).pages cur.page_free_list
                ((List.range i).filter (fun j => decide (page_init_inuse h nb nf j = 0))) :=
              isList_congr cur.pages _ _ _
                (fun y hy => by rw [hs1 0 y (fun e => hiF (e ▸ hy))]) ha
            exact isList_snoc _ _ _ l i h1 (by rw [← hb, hlast]) hiF (by rw [hs1i])
          · rw [hF, List.getLast?_concat]
          · intro j hj
            rw [hF, List.mem_append, List.mem_singleton] at hj
            rcases hj with hj | rfl
            · have hji : j ≠ i := fun e => hiF (e ▸ hj)
              by_cases hjl : j = l
              · subst hjl
                rw [setLink_self, hs1 0 j hji]; exact hc j hj
              · rw [hpj j hji hjl]; exact hc j hj
            · rw [setLink_other _ _ _ _ hli, hs1i]
          · intro j hj hne
            have hji : j ≠ i := fun e => hne (e ▸ hfree)
            have hjl : j ≠ l := by
              intro e
              subst e
              exact hne (of_decide_eq_true (List.mem_filter.mp hlF).2)
            rw [hpj j hji hjl]
            exact hd j (by omega) hne
          · intro j hj
            have hjl : j ≠ l := fun e => by
              have := hlt l hlF
              omega
            rw [hpj j (by omega) hjl]
            exact he j (by omega)
          · exact hf
      · have hone : page_init_inuse h nb nf i = 1 :=
          (page_init_inuse_cases h nb nf i).resolve_left hfree
        have hF : (List.range (i + 1)).filter (fun j => decide (page_init_inuse h nb nf j = 0))
            = (List.range i).filter (fun j => decide (page_init_inuse h nb nf j = 0)) := by
          rw [List.range_succ, List.filter_append, List.filter_singleton]
          simp [hfree]
        rw [page_init_body_used h nb nf cur last i hone]
        apply page_init_loop_inv h nb nf s k (i + 1)
        · rw [hF]
          exact isList_congr cur.pages _ _ _
            (fun y hy => by rw [hs1 1 y (fun e => hiF (e ▸ hy))]) ha
        · rw [hF]; exact hb
        · intro j hj
          rw [hF] at hj
          rw [hs1 1 j (fun e => hiF (e ▸ hj))]
          exact hc j hj
        · intro j hj hne
          by_cases hji : j = i
          · subst hji; exact hs1i 1
          · rw [hs1 1 j hji]; exact hd j (by omega) hne
        · intro j hj
          rw [hs1 1 j (by omega)]
          exact he j (by omega)
        · exact hf

theorem page_init_inuse_spec (h : Hdr) (nb nf i : Nat) (hi : KERNBASE + i * PGSIZE < 2 ^ 64) :
    page_init_inuse h nb nf i = 0 ↔ specFree h nb nf i := by
  unfold page_init_inuse specFree
  simp only []
  rw [Nat.mod_eq_of_lt hi]
  by_cases hbpt : KERNBASE + i * PGSIZE ≥ BOOT_PAGE_TABLE_START h ∧
      KERNBASE + i * PGSIZE < BOOT_PAGE_TABLE_END h
  · rw [if_pos hbpt]
    constructor
    · intro h1; exact absurd h1 (by decide)
    · intro h1; exact absurd hbpt h1.1
  · rw [if_neg hbpt]
    by_cases h4 : i ≥ PADDR nf / PGSIZE
    · rw [if_pos h4]
      exact ⟨fun _ => ⟨hbpt, Or.inl h4⟩, fun _ => rfl⟩
    · rw [if_neg h4]
      by_cases h3 : i = h.MPENTRY_PADDR / PGSIZE
      · rw [if_pos h3]
        constructor
        · intro h1; exact absurd h1 (by decide)
        · intro h1
          rcases h1.2 with h5 | h5
          · exact absurd h5 h4
          · exact absurd h3 h5.2.2
      · rw [if_neg h3]
        by_cases h2 : i ≠ 0 ∧ i < nb
        · rw [if_pos h2]
          exact ⟨fun _ => ⟨hbpt, Or.inr ⟨h2.1, h2.2, h3⟩⟩, fun _ => rfl⟩
        · rw [if_neg h2]
          constructor
          · intro h1; exact absurd h1 (by decide)
          · intro h1
            rcases h1.2 with h5 | h5
            · exact absurd h5 h4
            · exact absurd ⟨h5.1, h5.2.1⟩ h2

/-- The state produced by `page_init`: the free list holds, in ascending order,
the frames below `npages` that the spec classifies as free; these have count 0,
every other frame below `npages` has count 1 and a null link, and nothing else
changes. -/
theorem page_init_post (h : Hdr) (npages nb nextfree0 : Nat) (s : KState) (nf c : Nat)
    (hs : s.page_free_list = none) (hlim : KERNBASE + npages * PGSIZE ≤ 2 ^ 64)
    (hb : boot_alloc h npages nextfree0 0 = some (nf, c)) :
    ∃ s2, page_init h npages nb nextfree0 s = some s2 ∧
      isList s2.pages s2.page_free_list
        ((List.range npages).filter (fun i => decide (specFree h nb nf i))) ∧
      (∀ i, i < npages → specFree h nb nf i → (s2.pages i).pp_ref = 0) ∧
      (∀ i, i < npages → ¬ specFree h nb nf i → s2.pages i = { pp_link := none, pp_ref := 1 }) ∧
      (∀ i, npages ≤ i → s2.pages i = s.pages i) ∧ s2.mem = s.mem := by
  have hwrap : ∀ i, i < npages → KERNBASE + i * PGSIZE < 2 ^ 64 := by
    intro i hi
    have : (i + 1) * PGSIZE ≤ npages * PGSIZE := Nat.mul_le_mul_right _ hi
    unfold PGSIZE at *
    omega
  have hfilter : (List.range npages).filter (fun j => decide (page_init_inuse h nb nf j = 0))
      = (List.range npages).filter (fun i => decide (specFree h nb nf i)) := by
    apply List.filter_congr
    intro x hx
    have := page_init_inuse_spec h nb nf x (hwrap x (List.mem_range.mp hx))
    simp only [decide_eq_decide]
    exact this
  obtain ⟨h1, h2, h3, h4, h5⟩ := page_init_loop_inv h nb nf s npages 0 none s
    (by rw [List.range_zero]; exact hs) (by simp) (by simp)
    (fun j hj => absurd hj (Nat.not_lt_zero j)) (fun _ _ => rfl) rfl
  rw [Nat.zero_add] at h1 h2 h3 h4
  rw [hfilter] at h1 h2
  refine ⟨page_init_loop h nb nf npages 0 none s, ?_, h1, ?_, ?_, h4, h5⟩
  · unfold page_init
    rw [hb]
  · intro i hi hf
    exact h2 i (List.mem_filter.mpr ⟨List.mem_range.mpr hi, decide_eq_true hf⟩)
  · intro i hi hf
    exact h3 i hi (fun h0 => hf ((page_init_inuse_spec h nb nf i (hwrap i hi)).mp h0))

/-- Claim C24: after `page_init` the free list consists of exactly the frames
`i < npages` such that `KERNBASE + i*PGSIZE` lies outside the boot page tables
and either `i >= PADDR(boot_alloc(0))/PGSIZE` or `i` is a base-memory frame other
than 0 and the frame of `MPENTRY_PADDR`; they are linked in ascending order and
have `pp_ref == 0`; every other frame below `npages` has `pp_ref == 1` and a
null link. The static `page_free_list` is null before the call and the page
count is such that `KERNBASE + npages*PGSIZE` fits in 64 bits. -/
theorem page_init_spec (h : Hdr) (npages nb nextfree0 : Nat) (s : KState) (nf c : Nat)
    (hs : s.page_free_list = none) (hlim : KERNBASE + npages * PGSIZE ≤ 2 ^ 64)
    (hb : boot_alloc h npages nextfree0 0 = some (nf, c)) :
    ∃ s2 l, page_init h npages nb nextfree0 s = some s2 ∧
      isList s2.pages s2.page_free_list l ∧
      (∀ i, i ∈ l ↔ i < npages ∧ specFree h nb nf i) ∧
      l.Pairwise (fun a b => a < b) ∧
      (∀ i ∈ l, (s2.pages i).pp_ref = 0) ∧
      (∀ i, i < npages → i ∉ l → s2.pages i = { pp_link := none, pp_ref := 1 }) ∧
      (∀ i, npages ≤ i → s2.pages i = s.pages i) ∧ s2.mem = s.mem := by
  obtain ⟨s2, h1, h2, h3, h4, h5, h6⟩ := page_init_post h npages nb nextfree0 s nf c hs hlim hb
  have hmem : ∀ i, i ∈ (List.range npages).filter (fun i => decide (specFree h nb nf i)) ↔
      i < npages ∧ specFree h nb nf i := by
    intro i
    rw [List.mem_filter, List.mem_range, decide_eq_true_iff]
  refine ⟨s2, _, h1, h2, hmem, ?_, ?_, ?_, h5, h6⟩
  · exact List.Pairwise.sublist (List.filter_sublist _) (List.pairwise_lt_range npages)
  · intro i hi
    exact h3 i ((hmem i).mp hi).1 ((hmem i).mp hi).2
  · intro i hi hn
    exact h4 i hi (fun hf => hn ((hmem i).mpr ⟨hi, hf⟩))

/-- Witness of C24 with the constants `exHdr`, 128 MB of memory and 160 pages of
base memory, from the state `exMapped` (null free list). -/
theorem page_init_spec_witness :
    boot_alloc exHdr 0x8000 0 0 = some (0x8004235000, 0x8004235000) ∧
    ∃ s2 l, page_init exHdr 0x8000 160 0 exMapped = some s2 ∧
      isList s2.pages s2.page_free_list l ∧
      (∀ i, i ∈ l ↔ i < 0x8000 ∧ specFree exHdr 160 0x8004235000 i) ∧
      l.Pairwise (fun a b => a < b) := by
  have hb : boot_alloc exHdr 0x8000 0 0 = some (0x8004235000, 0x8004235000) := by decide
  obtain ⟨s2, l, h1, h2, h3, h4, _⟩ := page_init_spec exHdr 0x8000 160 0 exMapped _ _ rfl
    (by decide) hb
  exact ⟨hb, s2, l, h1, h2, h3, h4⟩

theorem page2pa_eq (i : Nat) : page2pa i = i * 4096 := by
  unfold page2pa PGSHIFT
  rw [Nat.shiftLeft_eq]

/-- Claim C29: after `page_init`, if base memory does not reach the I/O hole
(`npages_basemem <= IOPHYSMEM/PGSIZE`) and the address returned by
`boot_alloc(0)` lies above `KADDR(EXTPHYSMEM)`, every frame of the free list is
an entry of `pages[0..npages)`, none has physical address 0, `IOPHYSMEM`,
`EXTPHYSMEM - PGSIZE`, `EXTPHYSMEM` or `MPENTRY_PADDR`, and each is below
`EXTPHYSMEM` or at or above the address returned by `boot_alloc(0)`. The header
constants satisfy `IOPHYSMEM + PGSIZE <= EXTPHYSMEM` and
`MPENTRY_PADDR <= EXTPHYSMEM`, and the cursor of `boot_alloc` is page-aligned. -/
theorem page_init_free_frames (h : Hdr) (npages nb nextfree0 : Nat) (s : KState) (nf c : Nat)
    (hs : s.page_free_list = none) (hlim : KERNBASE + npages * PGSIZE ≤ 2 ^ 64)
    (hb : boot_alloc h npages nextfree0 0 = some (nf, c))
    (hal : nextfree0 % PGSIZE = 0) (hnf0 : nextfree0 < 2 ^ 64)
    (hio : h.IOPHYSMEM + PGSIZE ≤ h.EXTPHYSMEM) (hmp : h.MPENTRY_PADDR ≤ h.EXTPHYSMEM)
    (hbase : nb ≤ h.IOPHYSMEM / PGSIZE) (hbound : KADDR h.EXTPHYSMEM < nf) :
    ∃ s2 l, page_init h npages nb nextfree0 s = some s2 ∧
      isList s2.pages s2.page_free_list l ∧
      ∀ i ∈ l, i < npages ∧ page2pa i ≠ 0 ∧ page2pa i ≠ h.IOPHYSMEM ∧
        page2pa i ≠ h.EXTPHYSMEM - PGSIZE ∧ page2pa i ≠ h.EXTPHYSMEM ∧
        page2pa i ≠ h.MPENTRY_PADDR ∧
        (page2pa i < h.EXTPHYSMEM ∨ page2kva i ≥ nf) := by
  obtain ⟨s2, h1, h2, _⟩ := page_init_post h npages nb nextfree0 s nf c hs hlim hb
  refine ⟨s2, _, h1, h2, ?_⟩
  intro i hi
  rw [List.mem_filter, List.mem_range, decide_eq_true_iff] at hi
  obtain ⟨hin, _, hfree⟩ := hi
  have hnfal : nf % PGSIZE = 0 :=
    (boot_alloc_spec h npages nextfree0 0 nf c (by decide) hnf0 hal hb).2.1
  rw [page2pa_eq, page2kva_eq]
  unfold KADDR at hbound
  unfold PADDR at hfree
  unfold PGSIZE KERNBASE at *
  refine ⟨hin, ?_⟩
  rcases hfree with hf | ⟨hf1, hf2, hf3⟩
  · refine ⟨?_, ?_, ?_, ?_, ?_, Or.inr ?_⟩ <;> omega
  · refine ⟨?_, ?_, ?_, ?_, ?_, Or.inl ?_⟩ <;> omega

/-- Witness of C29 with the constants `exHdr`, 128 MB of memory and 160 pages of
base memory. -/
theorem page_init_free_frames_witness :
    boot_alloc exHdr 0x8000 0 0 = some (0x8004235000, 0x8004235000) ∧
    ∃ s2 l, page_init exHdr 0x8000 160 0 exMapped = some s2 ∧
      isList s2.pages s2.page_free_list l ∧
      ∀ i ∈ l, i < 0x8000 ∧ page2pa i ≠ 0 ∧ page2pa i ≠ exHdr.IOPHYSMEM ∧
        page2pa i ≠ exHdr.EXTPHYSMEM - PGSIZE ∧ page2pa i ≠ exHdr.EXTPHYSMEM ∧
        page2pa i ≠ exHdr.MPENTRY_PADDR ∧
        (page2pa i < exHdr.EXTPHYSMEM ∨ page2kva i ≥ 0x8004235000) :=
  ⟨by decide, page_init_free_frames exHdr 0x8000 160 0 exMapped 0x8004235000 0x8004235000 rfl
    (by decide) (by decide)
    (by decide) (by decide) (by decide) (by decide) (by decide) (by decide)⟩

/-! ## Claims C25 and C26: i386_detect_memory -/

theorem int_to_size_t_small (x : Nat) (hx : x < 2 ^ 31) : int_to_size_t x = x := by
  unfold int_to_size_t
  rw [if_pos (by omega)]
  omega

theorem i386_detect_memory_legacy (h : Hdr) (mc : Nat → Nat)
    (hb : nvram_read mc h.NVRAM_BASELO ≠ 0) (hb16 : nvram_read mc h.NVRAM_BASELO < 2 ^ 16)
    (he16 : nvram_read mc h.NVRAM_EXTLO < 2 ^ 16) (he : nvram_read mc h.NVRAM_EXTLO ≠ 0xffff) :
    i386_detect_memory_detect h mc none =
      some (if nvram_read mc h.NVRAM_EXTLO * 1024 / PGSIZE ≠ 0
          then h.EXTPHYSMEM / PGSIZE + nvram_read mc h.NVRAM_EXTLO * 1024 / PGSIZE
          else nvram_read mc h.NVRAM_BASELO * 1024 / PGSIZE,
        nvram_read mc h.NVRAM_BASELO * 1024 / PGSIZE) := by
  have e1 : int_to_size_t (nvram_read mc h.NVRAM_BASELO * 1024) =
      nvram_read mc h.NVRAM_BASELO * 1024 :=
    int_to_size_t_small _ (by omega)
  have e2 : int_to_size_t (nvram_read mc h.NVRAM_EXTLO * 1024) =
      nvram_read mc h.NVRAM_EXTLO * 1024 :=
    int_to_size_t_small _ (by omega)
  rw [i386_detect_memory_detect]
  dsimp only
  rw [e1, e2, if_neg (by omega), if_neg he]

/-- Claim C25, amended: on the legacy path, for a non-zero 16-bit base-memory
word `b` and a 16-bit extended-memory word `e` other than `0xFFFF`: when `e` is
at least 4 KB (one page), `i386_detect_memory` sets
`npages = EXTPHYSMEM/PGSIZE + (e*1024)/PGSIZE` whenever that value does not
exceed `max_npages`; when `e` is below 4 KB the page count of extended memory
is 0 and `npages` is the page count `(b*1024)/PGSIZE` of base memory, whenever
that value does not exceed `max_npages`. -/
theorem i386_detect_memory_ext (h : Hdr) (mc : Nat → Nat)
    (hb : nvram_read mc h.NVRAM_BASELO ≠ 0) (hb16 : nvram_read mc h.NVRAM_BASELO < 2 ^ 16)
    (he16 : nvram_read mc h.NVRAM_EXTLO < 2 ^ 16) (he : nvram_read mc h.NVRAM_EXTLO ≠ 0xffff) :
    (4 ≤ nvram_read mc h.NVRAM_EXTLO →
      h.EXTPHYSMEM / PGSIZE + nvram_read mc h.NVRAM_EXTLO * 1024 / PGSIZE ≤ max_npages h →
      i386_detect_memory h mc none =
        some (h.EXTPHYSMEM / PGSIZE + nvram_read mc h.NVRAM_EXTLO * 1024 / PGSIZE,
          nvram_read mc h.NVRAM_BASELO * 1024 / PGSIZE)) ∧
    (nvram_read mc h.NVRAM_EXTLO < 4 →
      nvram_read mc h.NVRAM_BASELO * 1024 / PGSIZE ≤ max_npages h →
      i386_detect_memory h mc none =
        some (nvram_read mc h.NVRAM_BASELO * 1024 / PGSIZE,
          nvram_read mc h.NVRAM_BASELO * 1024 / PGSIZE)) := by
  constructor
  · intro he4 hmax
    have hne : nvram_read mc h.NVRAM_EXTLO * 1024 / PGSIZE ≠ 0 := by unfold PGSIZE; omega
    rw [i386_detect_memory, i386_detect_memory_legacy h mc hb hb16 he16 he, if_pos hne]
    dsimp only
    rw [if_neg (by omega)]
  · intro he4 hmax
    have hne : ¬ nvram_read mc h.NVRAM_EXTLO * 1024 / PGSIZE ≠ 0 := by unfold PGSIZE; omega
    rw [i386_detect_memory, i386_detect_memory_legacy h mc hb hb16 he16 he, if_neg hne]
    dsimp only
    rw [if_neg (by omega)]

/-- Witness of C25 with the constants `exHdr`: 640 KB of base memory and 32 MB
of extended memory give `1MB/PGSIZE + 32MB/PGSIZE = 8448` pages, no clamp. -/
theorem i386_detect_memory_ext_witness :
    nvram_read (fun r => if r = 0x15 then 0x80 else if r = 0x16 then 0x02
      else if r = 0x18 then 0x80 else 0) exHdr.NVRAM_EXTLO = 32 * 1024 ∧
    i386_detect_memory exHdr (fun r => if r = 0x15 then 0x80 else if r = 0x16 then 0x02
      else if r = 0x18 then 0x80 else 0) none
      = some (0x100000 / PGSIZE + 32 * 1024 * 1024 / PGSIZE, 160) :=
  ⟨by decide, (i386_detect_memory_ext exHdr _ (by decide) (by decide) (by decide)
    (by decide)).1 (by decide) (by decide)⟩

/-- Claim C25 fails for an extended-memory word below one page: with the
constants `exHdr`, 640 KB of base memory and an extended-memory word of 1 KB,
the page count of extended memory is 0, so `i386_detect_memory` sets `npages` to
the 160 pages of base memory and not to
`EXTPHYSMEM/PGSIZE + (1*1024)/PGSIZE = 256`, a value below `max_npages`. -/
theorem i386_detect_memory_small_ext :
    nvram_read (fun r => if r = 0x15 then 0x80 else if r = 0x16 then 0x02
      else if r = 0x17 then 1 else 0) exHdr.NVRAM_BASELO = 640 ∧
    nvram_read (fun r => if r = 0x15 then 0x80 else if r = 0x16 then 0x02
      else if r = 0x17 then 1 else 0) exHdr.NVRAM_EXTLO = 1 ∧
    i386_detect_memory exHdr (fun r => if r = 0x15 then 0x80 else if r = 0x16 then 0x02
      else if r = 0x17 then 1 else 0) none = some (160, 160) ∧
    exHdr.EXTPHYSMEM / PGSIZE + 1 * 1024 / PGSIZE = 256 ∧
    256 ≤ max_npages exHdr := by
  decide

/-- Claim C26: after `i386_detect_memory`, `npages` does not exceed `max_npages`,
the smaller of `(ULIM-UPAGES)/sizeof(struct PageInfo)` and
`(UVPT-KERNBASE)/PGSIZE`: the detected page count `d` is kept when it is at most
`max_npages`, and replaced by `max_npages - 1024` otherwise. The layout
constants are 64-bit values such that `max_npages` is at least 1024. -/
theorem i386_detect_memory_clamp (h : Hdr) (mc : Nat → Nat)
    (mb : Option ((Nat → memory_map_t) × Nat)) (np nb : Nat) (hU : h.ULIM < 2 ^ 64)
    (hmax : 1024 ≤ max_npages h) (hr : i386_detect_memory h mc mb = some (np, nb)) :
    max_npages h = min ((h.ULIM - h.UPAGES) / h.sizeof_PageInfo) ((h.UVPT - KERNBASE) / PGSIZE) ∧
    np ≤ max_npages h ∧
    ∃ d, i386_detect_memory_detect h mc mb = some (d, nb) ∧
      (d ≤ max_npages h → np = d) ∧ (max_npages h < d → np = max_npages h - 1024) := by
  have hmin : max_npages h =
      min ((h.ULIM - h.UPAGES) / h.sizeof_PageInfo) ((h.UVPT - KERNBASE) / PGSIZE) := by
    unfold max_npages
    simp only []
    split_ifs with hlt
    · exact (Nat.min_eq_left (Nat.le_of_lt hlt)).symm
    · exact (Nat.min_eq_right (Nat.le_of_not_lt hlt)).symm
  have hlt : max_npages h < 2 ^ 64 := by
    have h1 : max_npages h ≤ (h.ULIM - h.UPAGES) / h.sizeof_PageInfo := by
      rw [hmin]; exact Nat.min_le_left _ _
    have h2 : (h.ULIM - h.UPAGES) / h.sizeof_PageInfo ≤ h.ULIM - h.UPAGES := Nat.div_le_self _ _
    omega
  refine ⟨hmin, ?_⟩
  rw [i386_detect_memory] at hr
  cases hd : i386_detect_memory_detect h mc mb with
  | none => rw [hd] at hr; exact absurd hr (by simp)
  | some r =>
    obtain ⟨d, b⟩ := r
    rw [hd] at hr
    dsimp only at hr
    by_cases hg : d > max_npages h
    · rw [if_pos hg] at hr
      have h1 := Prod.mk.inj (Option.some.inj hr)
      have hsub : (max_npages h + 2 ^ 64 - 1024) % 2 ^ 64 = max_npages h - 1024 := by
        have : max_npages h + 2 ^ 64 - 1024 = (max_npages h - 1024) + 2 ^ 64 := by omega
        rw [this, Nat.add_mod_right, Nat.mod_eq_of_lt (by omega)]
      rw [hsub] at h1
      refine ⟨by omega, d, by rw [h1.2], fun hc => absurd hc (by omega), fun _ => h1.1.symm⟩
    · rw [if_neg hg] at hr
      have h1 := Prod.mk.inj (Option.some.inj hr)
      refine ⟨by omega, d, by rw [h1.2], fun _ => h1.1.symm, fun hc => absurd hc (by omega)⟩

/-- Witness of C26 with the constants `exHdr`, on the legacy path: 640 KB of
base memory, the sentinel `0xFFFF` in the extended-memory word and `0x8000`
blocks of 64 KB above 16 MB. The `int` product `0x8000 * 65536` overflows to
`-2^31`, which as a `size_t` is `2^64 - 2^31`; the page count detected from it
exceeds `max_npages`, and `npages` is clamped to `max_npages - 1024`. -/
theorem i386_detect_memory_clamp_witness :
    int_to_size_t (0x8000 * (64 * 1024)) = 2 ^ 64 - 2 ^ 31 ∧
    i386_detect_memory_detect exHdr (fun r => if r = 0x15 then 0x80 else if r = 0x16 then 0x02
      else if r = 0x17 then 0xff else if r = 0x18 then 0xff
      else if r = 0x35 then 0x80 else 0) none = some (0xffffffff81000, 160) ∧
    i386_detect_memory exHdr (fun r => if r = 0x15 then 0x80 else if r = 0x16 then 0x02
      else if r = 0x17 then 0xff else if r = 0x18 then 0xff
      else if r = 0x35 then 0x80 else 0) none = some (0x31fc00, 160) ∧
    max_npages exHdr = 0x320000 ∧ 0x31fc00 ≤ max_npages exHdr :=
  have hw := i386_detect_memory_clamp exHdr (fun r => if r = 0x15 then 0x80
      else if r = 0x16 then 0x02 else if r = 0x17 then 0xff else if r = 0x18 then 0xff
      else if r = 0x35 then 0x80 else 0) none 0x31fc00 160 (by decide) (by decide) (by decide)
  ⟨by decide, by decide, by decide, by decide, hw.2.1⟩

/-- The clamp on the map path: with the constants `exHdr`, a firmware map with
640 KB of usable base memory and 16 GB of usable memory from 1 MB gives more
pages than `max_npages`, and `npages` is clamped. -/
theorem i386_detect_memory_clamp_map :
    i386_detect_memory_detect exHdr (fun _ => 0)
      (some (mbArray [⟨20, 0, 0, 0xa0000, 0, 1⟩, ⟨20, 0x100000, 0, 0, 4, 1⟩], 2))
      = some (0x400100, 160) ∧
    i386_detect_memory exHdr (fun _ => 0)
      (some (mbArray [⟨20, 0, 0, 0xa0000, 0, 1⟩, ⟨20, 0x100000, 0, 0, 4, 1⟩], 2))
      = some (0x31fc00, 160) := by
  decide

/-! ## Claim C30: what page_remove leaves unchanged -/

theorem page_free_pages_other (s : KState) (pp i : Nat) (h : i ≠ pp) :
    (page_free s pp).pages i = s.pages i := by
  unfold page_free
  split_ifs
  · rfl
  · simp [KState.setRef, KState.setLink, h]

theorem page_decref_pages_other (s : KState) (pp i : Nat) (h : i ≠ pp) :
    (page_decref s pp).pages i = s.pages i := by
  unfold page_decref
  simp only []
  split_ifs
  · rw [page_free_pages_other _ _ _ h]; simp [KState.setRef, h]
  · simp [KState.setRef, h]

theorem page_free_flist (s : KState) (pp : Nat) :
    (page_free s pp).page_free_list = s.page_free_list ∨
      (page_free s pp).page_free_list = some pp := by
  unfold page_free
  split_ifs
  · exact Or.inl rfl
  · exact Or.inr rfl

theorem page_decref_flist (s : KState) (pp : Nat) :
    (page_decref s pp).page_free_list = s.page_free_list ∨
      (page_decref s pp).page_free_list = some pp := by
  unfold page_decref
  simp only []
  split_ifs
  · exact page_free_flist _ pp
  · exact Or.inl rfl

/-- The upper-level entries read by a lookup are the same in two memories that
agree on the tables of the three upper levels. -/
theorem leafSlot_upper {s s2 : KState} {root : Nat} {lab : Nat → List Nat → Prop} {l : List Nat}
    (wf : TreeWF s root lab l)
    (hup : ∀ tb pb x, lab tb pb → pb.length < 3 → inPg tb x → s2.mem x = s.mem x) (v2 : Nat) :
    leafSlot s2 root v2 = leafSlot s root v2 := by
  have m4 : s2.mem (root + 8 * PML4 v2) = s.mem (root + 8 * PML4 v2) :=
    hup root [] _ wf.root_lab (by simp) (slot_inPg root 3 v2)
  simp only [leafSlot]
  rw [m4]
  by_cases h4 : s.mem (root + 8 * PML4 v2) &&& PTE_P = 0
  · rw [if_pos h4, if_pos h4]
  · rw [if_neg h4, if_neg h4]
    have l3 := wf.child root [] (PML4 v2) wf.root_lab (by simp) (idx_lt 3 v2) h4
    have m3 : s2.mem (KADDR (PTE_ADDR (s.mem (root + 8 * PML4 v2))) + 8 * PDPE v2) =
        s.mem (KADDR (PTE_ADDR (s.mem (root + 8 * PML4 v2))) + 8 * PDPE v2) :=
      hup _ _ _ l3 (by simp) (slot_inPg _ 2 v2)
    rw [m3]
    by_cases h3 : s.mem (KADDR (PTE_ADDR (s.mem (root + 8 * PML4 v2))) + 8 * PDPE v2)
        &&& PTE_P = 0
    · rw [if_pos h3, if_pos h3]
    · rw [if_neg h3, if_neg h3]
      have l2 := wf.child _ _ (PDPE v2) l3 (by simp) (idx_lt 2 v2) h3
      have m2 : s2.mem (KADDR (PTE_ADDR (s.mem (KADDR (PTE_ADDR (s.mem (root + 8 * PML4 v2)))
          + 8 * PDPE v2))) + 8 * PDX v2) =
          s.mem (KADDR (PTE_ADDR (s.mem (KADDR (PTE_ADDR (s.mem (root + 8 * PML4 v2)))
          + 8 * PDPE v2))) + 8 * PDX v2) :=
        hup _ _ _ l2 (by simp) (slot_inPg _ 1 v2)
      rw [m2]

/-- A change of the leaf entry of `va` alone does not change what `page_lookup`
returns for a page with other indices. -/
theorem page_lookup_other_leaf {s s2 : KState} {root : Nat} {lab : Nat → List Nat → Prop}
    {l : List Nat} (wf : TreeWF s root lab l) {va t3 t2 t1 : Nat}
    (full : FullPath s root va t3 t2 t1)
    (hmem : ∀ x, x ≠ t1 + 8 * PTX va → s2.mem x = s.mem x) (v2 : Nat) (st : Option Nat)
    (hne : PML4 v2 ≠ PML4 va ∨ PDPE v2 ≠ PDPE va ∨ PDX v2 ≠ PDX va ∨ PTX v2 ≠ PTX va) :
    (page_lookup s2 root v2 st).page = (page_lookup s root v2 st).page ∧
    (page_lookup s2 root v2 st).store = (page_lookup s root v2 st).store := by
  by_cases hr : root ≠ 0
  · obtain ⟨_, _, l1⟩ := wf.full_lab full
    have hup : ∀ tb pb x, lab tb pb → pb.length < 3 → inPg tb x → s2.mem x = s.mem x := by
      intro tb pb x hl hlen hx
      refine hmem x (sep_ne _ _ _ _ (wf.sep_of_len hl l1 ?_) hx (leaf_inPg t1 va))
      simp only [List.length_cons, List.length_nil]
      omega
    have hslot := leafSlot_upper wf hup v2
    rw [page_lookup_eq s2 root v2 st hr, page_lookup_eq s root v2 st hr, hslot]
    cases hls : leafSlot s root v2 with
    | none => exact ⟨rfl, rfl⟩
    | some p2 =>
      obtain ⟨u3, u2, u1, hu, hp2⟩ := leafSlot_pathFrom s root v2 p2 hls
      have lu1 : lab u1 [PML4 v2, PDPE v2, PDX v2] :=
        wf.path_lab v2 3 u1 (by rw [hu]; rfl)
      have hpne : p2 ≠ t1 + 8 * PTX va := by
        rw [hp2]
        rcases wf.inj u1 _ t1 _ lu1 l1 with ⟨e1, e2⟩ | e
        · simp only [List.cons.injEq, and_true] at e2
          subst e1
          have hptx : PTX v2 ≠ PTX va := by
            rcases hne with h | h | h | h
            · exact absurd e2.1 h
            · exact absurd e2.2.1 h
            · exact absurd e2.2.2 h
            · exact h
          omega
        · exact sep_ne _ _ _ _ e (leaf_inPg u1 v2) (leaf_inPg t1 va)
      simp only []
      rw [hmem p2 hpne]
      split_ifs <;> exact ⟨rfl, rfl⟩
  · have h0 : root = 0 := not_not.mp hr
    subst h0
    rw [page_lookup_null, page_lookup_null]
    exact ⟨rfl, rfl⟩

/-- Claim C30: `page_remove(root, va)` for a mapped page `va` of a well-formed
tree writes one word of memory, the leaf entry of `va`, which becomes 0: no
PML4, PDPE or PDE entry and no other leaf entry changes, the path of `va` stays
complete (the intermediate tables are kept), `page_lookup` at every page with
other indices returns the same frame and entry location as before, and the
reference count and link of every frame other than the one that was mapped,
the frames of the intermediate tables among them, are unchanged. When nothing
is mapped at `va` the call leaves the whole state unchanged. -/
theorem page_remove_frame (s : KState) (root va : Nat) :
    ((page_lookup s root va none).page = none → page_remove s root va = s) ∧
    ∀ (lab : Nat → List Nat → Prop) (l : List Nat) (t3 t2 t1 : Nat),
      root ≠ 0 → TreeWF s root lab l → FullPath s root va t3 t2 t1 →
      s.mem (t1 + 8 * PTX va) &&& PTE_P ≠ 0 →
      (∀ x, x ≠ t1 + 8 * PTX va → (page_remove s root va).mem x = s.mem x) ∧
      (page_remove s root va).mem (t1 + 8 * PTX va) = 0 ∧
      FullPath (page_remove s root va) root va t3 t2 t1 ∧
      (∀ v2 st, (PML4 v2 ≠ PML4 va ∨ PDPE v2 ≠ PDPE va ∨ PDX v2 ≠ PDX va ∨ PTX v2 ≠ PTX va) →
        (page_lookup (page_remove s root va) root v2 st).page = (page_lookup s root v2 st).page ∧
        (page_lookup (page_remove s root va) root v2 st).store
          = (page_lookup s root v2 st).store) ∧
      (∀ i, i ≠ pa2page (PTE_ADDR (s.mem (t1 + 8 * PTX va))) →
        (page_remove s root va).pages i = s.pages i) ∧
      ((page_remove s root va).page_free_list = s.page_free_list ∨
        (page_remove s root va).page_free_list
          = some (pa2page (PTE_ADDR (s.mem (t1 + 8 * PTX va))))) := by
  refine ⟨fun h => page_remove_unmapped s root va
    (by rw [page_lookup_page_store s root va (some 0) none]; exact h), ?_⟩
  intro lab l t3 t2 t1 hr wf full he
  rw [page_remove_mapped s root va _ hr full.leafSlot_eq he]
  have hmem : ∀ x, x ≠ t1 + 8 * PTX va →
      ((page_decref s (pa2page (PTE_ADDR (s.mem (t1 + 8 * PTX va))))).store
        (t1 + 8 * PTX va) 0).mem x = s.mem x := by
    intro x hx
    rw [store_mem_other _ _ _ _ hx, page_decref_mem]
  obtain ⟨_, _, n4, _, n3, n2⟩ := full.slots
  refine ⟨hmem, store_mem_self _ _ _, full.of_mem _ (hmem _ n4) (hmem _ n3) (hmem _ n2),
    fun v2 st hne => page_lookup_other_leaf wf full hmem v2 st hne,
    fun i hi => page_decref_pages_other s _ i hi, page_decref_flist s _⟩

theorem exMapped_wf : TreeWF exMapped 0x8004000000 exMappedLab [] := by
  refine ⟨Or.inl ⟨rfl, rfl⟩, ?_, ?_, ?_, fun _ _ f _ hf => absurd hf (List.not_mem_nil f), rfl,
    fun f hf => absurd hf (List.not_mem_nil f), List.Pairwise.nil⟩
  · intro t p h
    rcases h with ⟨_, rfl⟩ | ⟨_, rfl⟩ | ⟨_, rfl⟩ | ⟨_, rfl⟩ <;> decide
  · intro t p j h hlen hj hpres
    by_cases hj0 : j = 0
    · subst hj0
      rcases h with ⟨rfl, rfl⟩ | ⟨rfl, rfl⟩ | ⟨rfl, rfl⟩ | ⟨rfl, rfl⟩
      · exact Or.inr (Or.inl ⟨by decide, rfl⟩)
      · exact Or.inr (Or.inr (Or.inl ⟨by decide, rfl⟩))
      · exact Or.inr (Or.inr (Or.inr ⟨by decide, rfl⟩))
      · exact absurd hlen (by decide)
    · exfalso
      have hz : exMapped.mem (t + 8 * j) = 0 := by
        unfold exMapped
        simp only []
        rcases h with ⟨rfl, rfl⟩ | ⟨rfl, rfl⟩ | ⟨rfl, rfl⟩ | ⟨rfl, rfl⟩
        · rw [if_neg (by omega), if_neg (by omega), if_neg (by omega), if_neg (by omega)]
        · rw [if_neg (by omega), if_neg (by omega), if_neg (by omega), if_neg (by omega)]
        · rw [if_neg (by omega), if_neg (by omega), if_neg (by omega), if_neg (by omega)]
        · exact absurd hlen (by decide)
      rw [hz] at hpres
      exact hpres zero_land_P
  · intro t p t2 p2 h h2
    rcases h with ⟨rfl, rfl⟩ | ⟨rfl, rfl⟩ | ⟨rfl, rfl⟩ | ⟨rfl, rfl⟩ <;>
    rcases h2 with ⟨rfl, rfl⟩ | ⟨rfl, rfl⟩ | ⟨rfl, rfl⟩ | ⟨rfl, rfl⟩ <;>
    first
    | exact Or.inl ⟨rfl, rfl⟩
    | exact Or.inr (by decide)

/-- Witness of C30 on the state `exMapped`: removing the page at `0x1000` clears
its leaf entry at `0x8004003008` and leaves the entries and the frames of the
three intermediate tables as they were. -/
theorem page_remove_frame_witness :
    TreeWF exMapped 0x8004000000 exMappedLab [] ∧
    FullPath exMapped 0x8004000000 0x1000 0x8004001000 0x8004002000 0x8004003000 ∧
    (page_remove exMapped 0x8004000000 0x1000).mem (0x8004003000 + 8 * PTX 0x1000) = 0 ∧
    FullPath (page_remove exMapped 0x8004000000 0x1000) 0x8004000000 0x1000
      0x8004001000 0x8004002000 0x8004003000 ∧
    (page_remove exMapped 0x8004000000 0x1000).pages 3 = exMapped.pages 3 :=
  have full : FullPath exMapped 0x8004000000 0x1000 0x8004001000 0x8004002000 0x8004003000 :=
    ⟨by decide, by decide, by decide, by decide, by decide, by decide, by decide⟩
  have h := (page_remove_frame exMapped 0x8004000000 0x1000).2 exMappedLab []
    0x8004001000 0x8004002000 0x8004003000 (by decide) exMapped_wf full (by decide)
  ⟨exMapped_wf, full, h.2.1, h.2.2.1, h.2.2.2.2.1 3 (by decide)⟩

/-! ## Claim C28: frames on the free list have no references -/

theorem FreeListOK.congr {s t : KState} {l : List Nat} (hp : t.pages = s.pages)
    (hf : t.page_free_list = s.page_free_list) (h : FreeListOK s l) : FreeListOK t l := by
  unfold FreeListOK
  rw [hp, hf]
  exact h

theorem FreeListOK.setRef {s : KState} {l : List Nat} (h : FreeListOK s l) (pp : Nat) (v : Int)
    (hpp : pp ∉ l) : FreeListOK (s.setRef pp v) l := by
  refine ⟨setRef_list s pp v l h.1, ?_⟩
  intro f hf
  rw [setRef_other s pp v f (fun e => hpp (e ▸ hf))]
  exact h.2 f hf

theorem page_alloc_inv (s : KState) (l : List Nat) (flags : Nat) (h : FreeListOK s l) :
    FreeListOK (page_alloc s flags).2 l.tail := by
  cases l with
  | nil =>
    have hn : s.page_free_list = none := h.1
    rw [page_alloc_none s flags hn]
    exact h
  | cons x xs =>
    have hx := isList_head_not_mem _ _ _ _ h.1
    refine ⟨page_alloc_list s flags x xs h.1, ?_⟩
    intro f hf
    rw [page_alloc_some_pages s flags x h.1.1]
    have hne : f ≠ x := fun e => hx (e ▸ hf)
    simp only []
    rw [if_neg hne]
    exact h.2 f (List.mem_cons_of_mem _ hf)

theorem page_free_inv (s : KState) (l : List Nat) (pp : Nat) (h : FreeListOK s l)
    (hpp : pp ∉ l) :
    ∃ l2, FreeListOK (page_free s pp) l2 ∧ ∀ i ∈ l2, i ∈ l ∨ i = pp := by
  unfold page_free
  by_cases hc : (s.pages pp).pp_ref ≠ 0 ∨ (s.pages pp).pp_link ≠ none
  · rw [if_pos hc]
    exact ⟨l, h, fun i hi => Or.inl hi⟩
  · rw [if_neg hc]
    refine ⟨pp :: l, ⟨⟨rfl, ?_⟩, ?_⟩, ?_⟩
    · have hlink : (((({ s.setLink pp s.page_free_list with page_free_list := some pp } :
          KState).setRef pp 0).pages pp).pp_link) = s.page_free_list := by
        simp [KState.setRef, KState.setLink]
      rw [hlink]
      refine isList_congr s.pages _ l _ ?_ h.1
      intro y hy
      have hne : y ≠ pp := fun e => hpp (e ▸ hy)
      simp [KState.setRef, KState.setLink, hne]
    · intro f hf
      rcases List.mem_cons.mp hf with e | hf
      · subst e
        simp [KState.setRef]
      · have hne : f ≠ pp := fun e => hpp (e ▸ hf)
        have := h.2 f hf
        simp [KState.setRef, KState.setLink, hne, this]
    · intro i hi
      rcases List.mem_cons.mp hi with e | hi
      · exact Or.inr e
      · exact Or.inl hi

theorem page_decref_inv (s : KState) (l : List Nat) (pp : Nat) (h : FreeListOK s l)
    (href : 1 ≤ (s.pages pp).pp_ref) :
    ∃ l2, FreeListOK (page_decref s pp) l2 ∧ ∀ i ∈ l2, i ∈ l ∨ i = pp := by
  have hpp : pp ∉ l := by
    intro hin
    have := h.2 pp hin
    omega
  have h1 := h.setRef pp ((s.pages pp).pp_ref - 1) hpp
  unfold page_decref
  simp only []
  split_ifs
  · exact page_free_inv _ l pp h1 hpp
  · exact ⟨l, h1, fun i hi => Or.inl hi⟩

theorem drop_not_mem_take {l : List Nat} (hn : l.Nodup) (k : Nat) {f : Nat}
    (hf : f ∈ l.drop k) : f ∉ l.take k := by
  intro ht
  have h := hn
  rw [← List.take_append_drop k l, List.nodup_append] at h
  exact h.2.2 ht hf

theorem walkGen_inv (s : KState) (l : List Nat) (lvl tbl va c : Nat) (h : FreeListOK s l) :
    ∃ l2, FreeListOK (walkGen lvl s tbl va c).2 l2 ∧ ∀ i ∈ l2, i ∈ l := by
  obtain ⟨k, _, hk2, _, hk4, _⟩ := walkGen_pages va c lvl s tbl l h.1 h.2
  refine ⟨l.drop k, ⟨hk2, ?_⟩, fun i hi => List.mem_of_mem_drop hi⟩
  intro f hf
  rw [hk4 f (drop_not_mem_take (isList_nodup _ _ _ h.1) k hf)]
  exact h.2 f (List.mem_of_mem_drop hf)

theorem page_remove_some (s : KState) (root va q : Nat)
    (h : (page_lookup s root va (some 0)).page = some q) :
    (page_remove s root va).pages = (page_decref s q).pages ∧
    (page_remove s root va).page_free_list = (page_decref s q).page_free_list := by
  unfold page_remove
  simp only []
  rw [h]
  simp only [tlb_invalidate, page_lookup_state]
  exact ⟨rfl, rfl⟩

theorem page_remove_inv (s : KState) (l : List Nat) (root va : Nat) (h : FreeListOK s l)
    (hq : ∀ q, (page_lookup s root va none).page = some q → 1 ≤ (s.pages q).pp_ref) :
    ∃ l2, FreeListOK (page_remove s root va) l2 := by
  cases hl : (page_lookup s root va (some 0)).page with
  | none =>
    rw [page_remove_unmapped s root va hl]
    exact ⟨l, h⟩
  | some q =>
    obtain ⟨hp, hf⟩ := page_remove_some s root va q hl
    obtain ⟨l2, h2, _⟩ := page_decref_inv s l q h
      (hq q (by rw [page_lookup_page_store s root va none (some 0)]; exact hl))
    exact ⟨l2, h2.congr hp hf⟩

theorem page_insert_inv (s : KState) (l : List Nat) (root pp va perm : Nat)
    (h : FreeListOK s l) (hpre : WalkPre 3 s root va l) (hperm : perm < 4096) (hpp : pp ∉ l)
    (hq : ∀ q, (page_lookup s root va none).page = some q → 1 ≤ (s.pages q).pp_ref) :
    ∃ l2, FreeListOK (page_insert s root (some pp) va perm).2 l2 := by
  obtain ⟨lw, hw, hsub⟩ := walkGen_inv s l 3 root va 1 h
  rw [← pml4e_walk_eq] at hw
  by_cases hok : (page_insert s root (some pp) va perm).1 = 0
  · obtain ⟨t3, t2, t1, k, hpost⟩ := page_insert_post s root pp va perm l hpre hperm hok
    have hbefore := hpost.before
    by_cases he : (pml4e_walk s root va 1).2.mem (t1 + 8 * PTX va) &&& PTE_P ≠ 0
    · have hs := walk_present_same hpost.walk hpost.ptr he
      have hpg := hpost.pages
      have hfl := hpost.flist
      rw [hs] at he hbefore hpg hfl
      rw [if_pos he] at hbefore
      by_cases hsame : page2pa pp = PTE_ADDR (s.mem (t1 + 8 * PTX va))
      · rw [insertMeta_same _ _ _ ⟨he, hsame⟩] at hpg hfl
        exact ⟨l, h.congr hpg hfl⟩
      · rw [insertMeta_replace _ _ _ he hsame] at hpg hfl
        have hqpp : pp ≠ pa2page (PTE_ADDR (s.mem (t1 + 8 * PTX va))) := by
          intro e; apply hsame; rw [e, page2pa_pa2page]
        obtain ⟨l2, h2, hmem⟩ := page_decref_inv s l _ h (hq _ hbefore)
        have hpp2 : pp ∉ l2 := by
          intro hin
          rcases hmem pp hin with e | e
          · exact hpp e
          · exact hqpp e
        exact ⟨l2, (h2.setRef pp _ hpp2).congr hpg hfl⟩
    · have hpg := hpost.pages
      have hfl := hpost.flist
      rw [insertMeta_fresh _ _ _ (not_not.mp he)] at hpg hfl
      exact ⟨lw, (hw.setRef pp _ (fun hin => hpp (hsub pp hin))).congr hpg hfl⟩
  · obtain ⟨hst, _⟩ := page_insert_fail s root pp va perm hok
    rw [hst]
    split_ifs
    · exact ⟨lw, hw⟩
    · exact ⟨l, h⟩

/-- Claim C28: a frame with a positive reference count is not on the free list.
In a state whose free list holds frames of count 0 this is the case, and the
property is kept by `page_alloc`, by `page_free` of a frame that is not on the
list, by `page_decref` of a frame of count at least 1, by `pml4e_walk`, by
`page_remove` when the frame mapped at `va` has a count of at least 1, and by
`page_insert` of a frame that is not on the list, in a state where the tables
on the path of `va` and the free frames are distinct pages and the frame mapped
at `va` has a count of at least 1. The state produced by `page_init` has the
property, and there a frame below `npages` is on the list iff its count is 0. -/
theorem free_list_invariant (s : KState) (l : List Nat) (hinv : FreeListOK s l) :
    (∀ f, 0 < (s.pages f).pp_ref → f ∉ l) ∧
    (∀ flags, ∃ l2, FreeListOK (page_alloc s flags).2 l2) ∧
    (∀ pp, pp ∉ l → ∃ l2, FreeListOK (page_free s pp) l2) ∧
    (∀ pp, 1 ≤ (s.pages pp).pp_ref → ∃ l2, FreeListOK (page_decref s pp) l2) ∧
    (∀ root va create, ∃ l2, FreeListOK (pml4e_walk s root va create).2 l2) ∧
    (∀ root pp va perm, WalkPre 3 s root va l → perm < 4096 → pp ∉ l →
      (∀ q, (page_lookup s root va none).page = some q → 1 ≤ (s.pages q).pp_ref) →
      ∃ l2, FreeListOK (page_insert s root (some pp) va perm).2 l2) ∧
    (∀ root va,
      (∀ q, (page_lookup s root va none).page = some q → 1 ≤ (s.pages q).pp_ref) →
      ∃ l2, FreeListOK (page_remove s root va) l2) ∧
    (∀ (h : Hdr) (npages nb nextfree0 : Nat) (s0 : KState) (nf c : Nat),
      s0.page_free_list = none → KERNBASE + npages * PGSIZE ≤ 2 ^ 64 →
      boot_alloc h npages nextfree0 0 = some (nf, c) →
      ∃ s2 l2, page_init h npages nb nextfree0 s0 = some s2 ∧ FreeListOK s2 l2 ∧
        (∀ i, i ∈ l2 → i < npages) ∧
        ∀ i, i < npages → (i ∈ l2 ↔ (s2.pages i).pp_ref = 0)) := by
  refine ⟨?_, fun flags => ⟨_, page_alloc_inv s l flags hinv⟩, ?_, ?_, ?_, ?_, ?_, ?_⟩
  · intro f hf hin
    have := hinv.2 f hin
    omega
  · intro pp hpp
    obtain ⟨l2, h2, _⟩ := page_free_inv s l pp hinv hpp
    exact ⟨l2, h2⟩
  · intro pp href
    obtain ⟨l2, h2, _⟩ := page_decref_inv s l pp hinv href
    exact ⟨l2, h2⟩
  · intro root va create
    obtain ⟨l2, h2, _⟩ := walkGen_inv s l 3 root va create hinv
    rw [← pml4e_walk_eq] at h2
    exact ⟨l2, h2⟩
  · intro root pp va perm hpre hperm hpp hq
    exact page_insert_inv s l root pp va perm hinv hpre hperm hpp hq
  · intro root va hq
    exact page_remove_inv s l root va hinv hq
  · intro h npages nb nextfree0 s0 nf c hs hlim hb
    obtain ⟨s2, h1, h2, h3, h4, _, _⟩ := page_init_post h npages nb nextfree0 s0 nf c hs hlim hb
    have hmem : ∀ i, i ∈ (List.range npages).filter (fun i => decide (specFree h nb nf i)) ↔
        i < npages ∧ specFree h nb nf i := by
      intro i
      rw [List.mem_filter, List.mem_range, decide_eq_true_iff]
    refine ⟨s2, _, h1, ⟨h2, fun f hf => h3 f ((hmem f).mp hf).1 ((hmem f).mp hf).2⟩,
      fun i hi => ((hmem i).mp hi).1, ?_⟩
    intro i hi
    constructor
    · intro hin
      exact h3 i hi ((hmem i).mp hin).2
    · intro h0
      by_contra hn
      have hns : ¬ specFree h nb nf i := fun hf => hn ((hmem i).mpr ⟨hi, hf⟩)
      rw [h4 i hi hns] at h0
      exact absurd h0 (by decide)

/-- Witness of C28 on the state `exFresh`, whose free list holds the frames 1, 2
and 3 with count 0: the property holds after a `page_alloc`. -/
theorem free_list_invariant_witness :
    FreeListOK exFresh [1, 2, 3] ∧ ∃ l2, FreeListOK (page_alloc exFresh 0).2 l2 :=
  have h : FreeListOK exFresh [1, 2, 3] := ⟨by decide, by decide⟩
  ⟨h, (free_list_invariant exFresh [1, 2, 3] h).2.1 0⟩

/-! ## Claim C27: the sanitising pass of multiboot_read merges adjacent regions -/

theorem mb_len_lt (e : memory_map_t) : mb_len e < 2 ^ 64 :=
  Nat.mod_lt _ (by decide)

theorem mb_merged_addr (p t : memory_map_t) : mb_addr (mb_merged p t) = mb_addr p := rfl

theorem mb_merged_len (p t : memory_map_t) :
    mb_len (mb_merged p t) = (mb_len p + mb_len t) % 2 ^ 64 := by
  show ((((mb_len p + mb_len t) % 2 ^ 64) / 2 ^ 32) * 2 ^ 32 +
    ((mb_len p + mb_len t) % 2 ^ 64) % 2 ^ 32) % 2 ^ 64 = (mb_len p + mb_len t) % 2 ^ 64
  omega

/-- One iteration of the sanitising loop on two adjacent regions of the same
type: `prev` is removed from the list and `this` becomes the merged region. -/
theorem mb_sanitize_body_merge (h : Hdr) (st : MbState) (a p t : Nat)
    (hp : st.list a = some p) (ht : st.list (a + 1) = some t) (hne : p ≠ t)
    (hadj : (mb_addr (st.ents p) + mb_len (st.ents p)) % 2 ^ 64 = mb_addr (st.ents t))
    (hty : (st.ents p).type = (st.ents t).type) :
    mb_sanitize_body h st (a + 1) =
      { ents := Function.update st.ents t (mb_merged (st.ents p) (st.ents t)),
        list := Function.update st.list a none } := by
  unfold mb_sanitize_body
  rw [Nat.add_sub_cancel, hp, ht]
  simp only []
  rw [if_pos ⟨hadj, hty⟩, if_neg hne]
  have e1 : ((APPEND_HILO (st.ents p).length_high (st.ents p).length_low % 2 ^ 32 +
      APPEND_HILO (st.ents t).length_high (st.ents t).length_low) % 2 ^ 64) % 2 ^ 32 =
      ((mb_len (st.ents p) + mb_len (st.ents t)) % 2 ^ 64) % 2 ^ 32 := by
    unfold mb_len
    omega
  have e2 : (((APPEND_HILO (st.ents p).length_high (st.ents p).length_low +
      APPEND_HILO (st.ents t).length_high (st.ents t).length_low) % 2 ^ 64) >>> 32) % 2 ^ 32 =
      ((mb_len (st.ents p) + mb_len (st.ents t)) % 2 ^ 64) / 2 ^ 32 := by
    unfold mb_len
    rw [Nat.shiftRight_eq_div_pow]
    omega
  rw [e1, e2]
  rfl

theorem chain_end (A L : Nat → Nat) : ∀ (k : Nat),
    (∀ j, j < k → (A j + L j) % 2 ^ 64 = A (j + 1)) →
    (A 0 + Finset.sum (Finset.range (k + 1)) L) % 2 ^ 64 = (A k + L k) % 2 ^ 64
  | 0, _ => by simp
  | k + 1, hadj => by
      have ih : (A 0 + Finset.sum (Finset.range (k + 1)) (fun x => L x)) % 2 ^ 64
          = (A k + L k) % 2 ^ 64 := chain_end A L k (fun j hj => hadj j (Nat.lt_succ_of_lt hj))
      have hk := hadj k (Nat.lt_succ_self k)
      rw [Finset.sum_range_succ, ← hk]
      generalize Finset.sum (Finset.range (k + 1)) (fun x => L x) = S at ih ⊢
      omega

/-- The sanitising loop on a run of `k + 1` adjacent regions of the same type at
the positions `a, ..., a + k` of the list. -/
theorem mb_sanitize_run (h : Hdr) : ∀ (k : Nat) (st : MbState) (a : Nat) (t : Nat → Nat),
    (∀ j, j ≤ k → st.list (a + j) = some (t j)) →
    (∀ i, i ≤ k → ∀ j, j ≤ k → t i = t j → i = j) →
    (∀ j, j ≤ k → (st.ents (t j)).type = (st.ents (t 0)).type) →
    (∀ j, j < k → (mb_addr (st.ents (t j)) + mb_len (st.ents (t j))) % 2 ^ 64 =
      mb_addr (st.ents (t (j + 1)))) →
    (∀ j, j < k → (mb_sanitize_loop h k (a + 1) st).list (a + j) = none) ∧
    (mb_sanitize_loop h k (a + 1) st).list (a + k) = some (t k) ∧
    (∀ i, i < a ∨ a + k < i → (mb_sanitize_loop h k (a + 1) st).list i = st.list i) ∧
    ((mb_sanitize_loop h k (a + 1) st).ents (t k)).base_addr_low
      = (st.ents (t 0)).base_addr_low ∧
    ((mb_sanitize_loop h k (a + 1) st).ents (t k)).base_addr_high
      = (st.ents (t 0)).base_addr_high ∧
    mb_len ((mb_sanitize_loop h k (a + 1) st).ents (t k))
      = (Finset.sum (Finset.range (k + 1)) (fun j => mb_len (st.ents (t j)))) % 2 ^ 64 ∧
    ((mb_sanitize_loop h k (a + 1) st).ents (t k)).type = (st.ents (t 0)).type ∧
    (∀ m, (∀ j, 1 ≤ j → j ≤ k → m ≠ t j) → (mb_sanitize_loop h k (a + 1) st).ents m = st.ents m)
  | 0, st, a, t, hl, _, _, _ => by
      refine ⟨fun j hj => absurd hj (Nat.not_lt_zero j), hl 0 (Nat.le_refl 0), fun _ _ => rfl,
        rfl, rfl, ?_, rfl, fun _ _ => rfl⟩
      show mb_len (st.ents (t 0)) = _
      rw [Finset.sum_range_one, Nat.mod_eq_of_lt (mb_len_lt _)]
  | k + 1, st, a, t, hl, hinj, hty, hadj => by
      have h0 : st.list a = some (t 0) := hl 0 (Nat.zero_le _)
      have h1 : st.list (a + 1) = some (t 1) := hl 1 (by omega)
      have hne : t 0 ≠ t 1 := fun e => absurd (hinj 0 (by omega) 1 (by omega) e) (by decide)
      have hstep := mb_sanitize_body_merge h st a (t 0) (t 1) h0 h1 hne (hadj 0 (by omega))
        ((hty 1 (by omega)).symm)
      have hne1 : ∀ j, 1 ≤ j → j ≤ k → t (j + 1) ≠ t 1 := by
        intro j hj1 hjk e
        have := hinj (j + 1) (by omega) 1 (by omega) e
        omega
      have hloop : mb_sanitize_loop h (k + 1) (a + 1) st =
          mb_sanitize_loop h k (a + 1 + 1) (mb_sanitize_body h st (a + 1)) := rfl
      rw [hloop, hstep]
      have hl2 : ∀ j, j ≤ k →
          (Function.update st.list a none) (a + 1 + j) = some (t (j + 1)) := by
        intro j hj
        rw [Function.update_noteq (by omega)]
        have := hl (j + 1) (by omega)
        rw [← this]
        congr 1
        omega
      have hinj2 : ∀ i, i ≤ k → ∀ j, j ≤ k → t (i + 1) = t (j + 1) → i = j := by
        intro i hi j hj e
        have := hinj (i + 1) (by omega) (j + 1) (by omega) e
        omega
      have hent : ∀ j, 1 ≤ j → j ≤ k →
          Function.update st.ents (t 1) (mb_merged (st.ents (t 0)) (st.ents (t 1))) (t (j + 1))
            = st.ents (t (j + 1)) := by
        intro j hj1 hjk
        rw [Function.update_noteq (hne1 j hj1 hjk)]
      have hent0 : Function.update st.ents (t 1) (mb_merged (st.ents (t 0)) (st.ents (t 1)))
          (t (0 + 1)) = mb_merged (st.ents (t 0)) (st.ents (t 1)) := by
        rw [Nat.zero_add, Function.update_same]
      have hty2 : ∀ j, j ≤ k →
          (Function.update st.ents (t 1) (mb_merged (st.ents (t 0)) (st.ents (t 1)))
            (t (j + 1))).type =
          (Function.update st.ents (t 1) (mb_merged (st.ents (t 0)) (st.ents (t 1)))
            (t (0 + 1))).type := by
        intro j hj
        rw [hent0]
        rcases Nat.eq_zero_or_pos j with hj0 | hj0
        · subst hj0
          rw [hent0]
        · rw [hent j hj0 hj, hty (j + 1) (by omega)]
          exact (hty 1 (by omega)).symm
      have hadj2 : ∀ j, j < k →
          (mb_addr (Function.update st.ents (t 1) (mb_merged (st.ents (t 0)) (st.ents (t 1)))
              (t (j + 1))) +
            mb_len (Function.update st.ents (t 1) (mb_merged (st.ents (t 0)) (st.ents (t 1)))
              (t (j + 1)))) % 2 ^ 64 =
          mb_addr (Function.update st.ents (t 1) (mb_merged (st.ents (t 0)) (st.ents (t 1)))
            (t (j + 1 + 1))) := by
        intro j hj
        rw [hent (j + 1) (by omega) (by omega)]
        rcases Nat.eq_zero_or_pos j with hj0 | hj0
        · subst hj0
          rw [hent0, mb_merged_addr, mb_merged_len, ← hadj 1 (by omega), ← hadj 0 (by omega)]
          omega
        · rw [hent j hj0 (by omega)]
          exact hadj (j + 1) (by omega)
      obtain ⟨r1, r2, r3, r4, r5, r6, r7, r8⟩ := mb_sanitize_run h k
        { ents := Function.update st.ents (t 1) (mb_merged (st.ents (t 0)) (st.ents (t 1))),
          list := Function.update st.list a none } (a + 1) (fun j => t (j + 1))
        hl2 hinj2 hty2 hadj2
      simp only [] at r1 r2 r3 r4 r5 r6 r7 r8
      have ea : a + (k + 1) = a + 1 + k := by omega
      refine ⟨?_, by rw [ea]; exact r2, ?_, ?_, ?_, ?_, ?_, ?_⟩
      · intro j hj
        rcases Nat.eq_zero_or_pos j with hj0 | hj0
        · subst hj0
          exact (r3 a (Or.inl (by omega))).trans (Function.update_same _ _ _)
        · have := r1 (j - 1) (by omega)
          have ej : a + 1 + (j - 1) = a + j := by omega
          rw [ej] at this
          exact this
      · intro i hi
        rw [r3 i (by omega), Function.update_noteq (by omega)]
      · rw [r4, hent0]; rfl
      · rw [r5, hent0]; rfl
      · have hs : Finset.sum (Finset.range k) (fun j => mb_len (Function.update st.ents (t 1)
            (mb_merged (st.ents (t 0)) (st.ents (t 1))) (t (j + 1 + 1)))) =
            Finset.sum (Finset.range k) (fun j => mb_len (st.ents (t (j + 1 + 1)))) := by
          apply Finset.sum_congr rfl
          intro j hj
          rw [hent (j + 1) (by omega) (by have := Finset.mem_range.mp hj; omega)]
        have hs2 : Finset.sum (Finset.range (k + 1)) (fun j => mb_len (Function.update st.ents
            (t 1) (mb_merged (st.ents (t 0)) (st.ents (t 1))) (t (j + 1)))) =
            Finset.sum (Finset.range k) (fun j => mb_len (st.ents (t (j + 1 + 1)))) +
              (mb_len (st.ents (t 0)) + mb_len (st.ents (t 1))) % 2 ^ 64 := by
          rw [Finset.sum_range_succ' _ k, hs, hent0, mb_merged_len]
        have hs3 : Finset.sum (Finset.range (k + 1 + 1)) (fun j => mb_len (st.ents (t j))) =
            Finset.sum (Finset.range k) (fun j => mb_len (st.ents (t (j + 1 + 1)))) +
              mb_len (st.ents (t (0 + 1))) + mb_len (st.ents (t 0)) := by
          rw [Finset.sum_range_succ' _ (k + 1), Finset.sum_range_succ' _ k]
        rw [r6, hs2, hs3, Nat.zero_add]
        generalize Finset.sum (Finset.range k) (fun j => mb_len (st.ents (t (j + 1 + 1)))) = S
        omega
      · rw [r7, hent0]
        exact hty 1 (by omega)
      · intro m hm
        rw [r8 m (fun j hj1 hjk => hm (j + 1) (by omega) (by omega)),
          Function.update_noteq (hm 1 (by omega) (by omega))]

theorem mb_sum_loop_succ (h : Hdr) (st : MbState) : ∀ (k a : Nat) (acc : Nat × Nat),
    mb_sum_loop h st (k + 1) a acc = mb_sum_body h st (mb_sum_loop h st k a acc) (a + k)
  | 0, _, _ => rfl
  | k + 1, a, acc => by
      have e : mb_sum_loop h st (k + 1 + 1) a acc =
          mb_sum_loop h st (k + 1) (a + 1) (mb_sum_body h st acc a) := rfl
      rw [e, mb_sum_loop_succ h st k (a + 1)]
      have e2 : a + 1 + k = a + (k + 1) := by omega
      rw [e2]
      rfl

theorem mb_sum_loop_none (h : Hdr) (st : MbState) : ∀ (k a : Nat) (acc : Nat × Nat),
    (∀ j, j < k → st.list (a + j) = none) → mb_sum_loop h st k a acc = acc
  | 0, _, _, _ => rfl
  | k + 1, a, acc, hn => by
      rw [mb_sum_loop_succ, mb_sum_loop_none h st k a acc (fun j hj => hn j (by omega))]
      unfold mb_sum_body
      rw [hn k (by omega)]

/-- Claim C27: in the sanitising pass of `multiboot_read`, a run of `k + 1`
consecutive list entries (distinct regions `t 0, ..., t k` at the positions
`a, ..., a + k`) of the same type in which each region ends where the next one
starts is merged by the iterations `a + 1, ..., a + k`: the first `k` entries
are removed from the list (set to `NULL`), and the last region gets the base of
the first one and the 64-bit sum of the lengths, so it ends where it ended
before and keeps the type. The summing pass over these positions then adds this
sum once, to the bucket chosen by the base of the first region, when the type
is usable or reclaimable. For `k = 1` this is the merge of one pair `prev`,
`this`. -/
theorem multiboot_read_merges (h : Hdr) (k : Nat) (st : MbState) (a : Nat) (t : Nat → Nat)
    (acc : Nat × Nat)
    (hl : ∀ j, j ≤ k → st.list (a + j) = some (t j))
    (hinj : ∀ i, i ≤ k → ∀ j, j ≤ k → t i = t j → i = j)
    (hty : ∀ j, j ≤ k → (st.ents (t j)).type = (st.ents (t 0)).type)
    (hadj : ∀ j, j < k → (mb_addr (st.ents (t j)) + mb_len (st.ents (t j))) % 2 ^ 64 =
      mb_addr (st.ents (t (j + 1)))) :
    (∀ j, j < k → (mb_sanitize_loop h k (a + 1) st).list (a + j) = none) ∧
    (mb_sanitize_loop h k (a + 1) st).list (a + k) = some (t k) ∧
    mb_addr ((mb_sanitize_loop h k (a + 1) st).ents (t k)) = mb_addr (st.ents (t 0)) ∧
    mb_len ((mb_sanitize_loop h k (a + 1) st).ents (t k))
      = (Finset.sum (Finset.range (k + 1)) (fun j => mb_len (st.ents (t j)))) % 2 ^ 64 ∧
    (mb_addr ((mb_sanitize_loop h k (a + 1) st).ents (t k)) +
        mb_len ((mb_sanitize_loop h k (a + 1) st).ents (t k))) % 2 ^ 64
      = (mb_addr (st.ents (t k)) + mb_len (st.ents (t k))) % 2 ^ 64 ∧
    ((mb_sanitize_loop h k (a + 1) st).ents (t k)).type = (st.ents (t 0)).type ∧
    mb_sum_loop h (mb_sanitize_loop h k (a + 1) st) (k + 1) a acc =
      (if (st.ents (t 0)).type = h.MB_TYPE_USABLE ∨ (st.ents (t 0)).type = h.MB_TYPE_ACPI_RECLM
       then
        if (st.ents (t 0)).base_addr_low < 0x100000 ∧ (st.ents (t 0)).base_addr_high = 0 then
          ((acc.1 + (Finset.sum (Finset.range (k + 1)) (fun j => mb_len (st.ents (t j))))
            % 2 ^ 64) % 2 ^ 64, acc.2)
        else
          (acc.1, (acc.2 + (Finset.sum (Finset.range (k + 1)) (fun j => mb_len (st.ents (t j))))
            % 2 ^ 64) % 2 ^ 64)
       else acc) := by
  obtain ⟨r1, r2, _, r4, r5, r6, r7, _⟩ := mb_sanitize_run h k st a t hl hinj hty hadj
  have haddr : mb_addr ((mb_sanitize_loop h k (a + 1) st).ents (t k)) = mb_addr (st.ents (t 0)) := by
    unfold mb_addr
    rw [r4, r5]
  have hend := chain_end (fun j => mb_addr (st.ents (t j))) (fun j => mb_len (st.ents (t j))) k hadj
  simp only [] at hend
  refine ⟨r1, r2, haddr, r6, ?_, r7, ?_⟩
  · rw [haddr, r6, ← hend]
    omega
  · rw [mb_sum_loop_succ, mb_sum_loop_none h _ k a acc r1]
    unfold mb_sum_body
    rw [r2]
    have hlen : APPEND_HILO ((mb_sanitize_loop h k (a + 1) st).ents (t k)).length_high
        ((mb_sanitize_loop h k (a + 1) st).ents (t k)).length_low =
        (Finset.sum (Finset.range (k + 1)) (fun j => mb_len (st.ents (t j)))) % 2 ^ 64 := r6
    simp only []
    rw [r7, r4, r5, hlen]

/-- Witness of C27 with the constants `exHdr`: the usable regions
`[0x100000, 0x200000)` and `[0x200000, 0x300000)` become one region of 2 MB at
`0x100000`, and `multiboot_read` adds `0x200000` to the extended-memory bucket. -/
theorem multiboot_read_merges_witness :
    exRun.list 0 = some 0 ∧ exRun.list 1 = some 1 ∧
    (mb_sanitize_loop exHdr 1 1 exRun).list 0 = none ∧
    (mb_sanitize_loop exHdr 1 1 exRun).list 1 = some 1 ∧
    mb_addr ((mb_sanitize_loop exHdr 1 1 exRun).ents 1) = mb_addr (exRun.ents 0) ∧
    mb_addr (exRun.ents 0) = 0x100000 ∧
    mb_len ((mb_sanitize_loop exHdr 1 1 exRun).ents 1) = 0x200000 ∧
    mb_sum_loop exHdr (mb_sanitize_loop exHdr 1 1 exRun) 2 0 (0, 0) = (0, 0x200000) ∧
    multiboot_read exHdr
      (mbArray [⟨20, 0x100000, 0, 0x100000, 0, 1⟩, ⟨20, 0x200000, 0, 0x100000, 0, 1⟩]) 2 0 0
      = some (0, 0x200000) :=
  have h := multiboot_read_merges exHdr 1 exRun 0 (fun j => j) (0, 0) (by decide)
    (fun _ _ _ _ e => e) (by decide) (by decide)
  ⟨by decide, by decide, h.1 0 (by decide), h.2.1, h.2.2.1, by decide, by decide, by decide,
    by decide⟩

/-! ## Claim C32: the pages tested by user_mem_check -/

theorem tested_cons (va q n : Nat) (hq : q = va / PGSIZE) :
    va :: (List.range' (q + 1) n).map (fun p => max ((q + 1) * PGSIZE) (p * PGSIZE)) =
      (List.range' q (n + 1)).map (fun p => max va (p * PGSIZE)) := by
  rw [List.range'_succ, List.map_cons]
  have h0 : max va (q * PGSIZE) = va := by
    apply Nat.max_eq_left
    rw [hq]
    exact Nat.div_mul_le_self va PGSIZE
  rw [h0]
  congr 1
  apply List.map_congr_left
  intro p hp
  have hp1 := (List.mem_range'_1.mp hp).1
  have h1 : (q + 1) * PGSIZE ≤ p * PGSIZE := Nat.mul_le_mul_right _ hp1
  have h2 : va < (q + 1) * PGSIZE := by
    rw [hq]; unfold PGSIZE; omega
  rw [Nat.max_eq_right h1, Nat.max_eq_right (by omega)]

/-- The loop of `user_mem_check` with enough fuel ends after testing `n`
consecutive pages from the page of `va`, at most the pages that intersect
`[va, endva)`: all of them when it returns 0, and otherwise up to the first
page that fails the test, whose tested address is reported. -/
theorem user_mem_check_tested_spec (s : KState) (root endva perm : Nat)
    (hend : endva + PGSIZE < 2 ^ 64) :
    ∀ (fuel va addr : Nat), endva ≤ (va / PGSIZE + fuel) * PGSIZE →
      ∃ r n, user_mem_check_loop root endva perm fuel va addr s = some r ∧
        user_mem_check_tested root endva perm fuel va s =
          (List.range' (va / PGSIZE) n).map (fun p => max va (p * PGSIZE)) ∧
        n ≤ pagesIn va endva ∧
        (∀ p, va / PGSIZE ≤ p → p + 1 < va / PGSIZE + n → pageOK s root perm (p * PGSIZE)) ∧
        (r.ret = 0 → n = pagesIn va endva) ∧
        (r.ret ≠ 0 → 0 < n ∧ r.addr = max va ((va / PGSIZE + n - 1) * PGSIZE) ∧
          ¬ pageOK s root perm r.addr)
  | 0, va, addr, h => by
      have hva : ¬ va < endva := by
        have := Nat.div_mul_le_self va PGSIZE
        simp only [Nat.add_zero] at h
        omega
      refine ⟨⟨0, addr, s⟩, 0, by rw [user_mem_check_loop, if_neg hva], rfl, Nat.zero_le _,
        fun p h1 h2 => absurd h2 (by omega), fun _ => ?_, fun h0 => absurd rfl h0⟩
      unfold pagesIn
      rw [if_neg hva]
  | fuel + 1, va, addr, h => by
      rw [user_mem_check_loop, user_mem_check_tested]
      by_cases hva : va < endva
      · rw [if_pos hva, if_pos hva]
        simp only []
        rw [pml4e_walk_zero_state]
        have hN : 1 ≤ pagesIn va endva := by
          unfold pagesIn
          rw [if_pos hva]
          unfold PGSIZE
          omega
        by_cases hbad : (pml4e_walk s root va 0).1 = 0 ∨
            s.mem (pml4e_walk s root va 0).1 &&& (perm ||| PTE_P) ≠ (perm ||| PTE_P)
        · rw [if_pos hbad, if_pos hbad]
          have hnok : ¬ pageOK s root perm va := by
            unfold pageOK
            rw [pml4e_walk_zero_state]
            intro hok
            rcases hbad with h0 | h1
            · exact hok.1 h0
            · exact h1 hok.2
          have h0 : max va (va / PGSIZE * PGSIZE) = va :=
            Nat.max_eq_left (Nat.div_mul_le_self va PGSIZE)
          refine ⟨⟨-E_FAULT, va, s⟩, 1, rfl, ?_, hN, fun p h1 h2 => absurd h2 (by omega),
            fun h0 => absurd h0 neg_E_FAULT_ne, fun _ => ⟨Nat.one_pos, ?_, hnok⟩⟩
          · show [va] = [max va (va / PGSIZE * PGSIZE)]
            rw [h0]
          · show va = max va ((va / PGSIZE + 1 - 1) * PGSIZE)
            rw [Nat.add_sub_cancel, h0]
        · rw [if_neg hbad, if_neg hbad]
          have hok : pageOK s root perm va := by
            unfold pageOK
            rw [pml4e_walk_zero_state]
            simp only [not_or, not_not] at hbad
            exact hbad
          rw [ROUNDUP_next va (by unfold PGSIZE at *; omega)]
          have hnext : (va / PGSIZE + 1) * PGSIZE / PGSIZE = va / PGSIZE + 1 :=
            Nat.mul_div_cancel _ (by decide)
          obtain ⟨r, n, hr, ht, hn, hpass, hz, hnz⟩ :=
            user_mem_check_tested_spec s root endva perm hend fuel ((va / PGSIZE + 1) * PGSIZE)
              addr (by rw [hnext]; rw [show va / PGSIZE + 1 + fuel = va / PGSIZE + (fuel + 1) by omega]
                       exact h)
          rw [hnext] at ht hpass hnz
          have hNN : pagesIn va endva = pagesIn ((va / PGSIZE + 1) * PGSIZE) endva + 1 := by
            unfold pagesIn
            rw [if_pos hva, hnext]
            unfold PGSIZE at *
            split_ifs <;> omega
          refine ⟨r, n + 1, hr, ?_, by omega, ?_, fun h0 => by rw [hz h0, hNN], fun hne => ?_⟩
          · rw [ht]
            exact tested_cons va (va / PGSIZE) n rfl
          · intro p h1 h2
            by_cases hp : p = va / PGSIZE
            · refine (pageOK_congr s root perm va (p * PGSIZE) ?_).mpr hok
              rw [hp]
              exact Nat.mul_div_cancel _ (by decide)
            · exact hpass p (by omega) (by omega)
          · obtain ⟨f1, f2, f3⟩ := hnz hne
            refine ⟨Nat.succ_pos n, ?_, f3⟩
            rw [f2]
            have e1 : va / PGSIZE + 1 + n - 1 = va / PGSIZE + (n + 1) - 1 := by omega
            rw [e1]
            have h1 : (va / PGSIZE + 1) * PGSIZE ≤ (va / PGSIZE + (n + 1) - 1) * PGSIZE :=
              Nat.mul_le_mul_right _ (by omega)
            have h2 : va < (va / PGSIZE + 1) * PGSIZE := by unfold PGSIZE; omega
            rw [Nat.max_eq_right h1, Nat.max_eq_right (by omega)]
      · rw [if_neg hva, if_neg hva]
        refine ⟨⟨0, addr, s⟩, 0, rfl, rfl, Nat.zero_le _,
          fun p h1 h2 => absurd h2 (by omega), fun _ => ?_, fun h0 => absurd rfl h0⟩
        unfold pagesIn
        rw [if_neg hva]

/-- Claim C32, amended: when `va + len` does not wrap and is below `ULIM`, the
page loop of `user_mem_check` terminates within `len / PGSIZE + 2` iterations.
It tests `n` consecutive pages in ascending order, each once, starting with the
page of `va`: the first test is at `va`, the others at the next page
boundaries. These are the pages that intersect `[va, va + len)` up to and
including the first one that fails the test; `n` is at most the number of
pages of the range, which lies between `len / PGSIZE` and `len / PGSIZE + 2`,
and equals it when the function returns 0. -/
theorem user_mem_check_pages (ULIM : Nat) (s : KState) (root va len perm addr : Nat)
    (hU : ULIM + PGSIZE ≤ 2 ^ 64) (hnw : va + len < 2 ^ 64) (hlim : va + len < ULIM) :
    ∃ r n, user_mem_check ULIM s root va len perm addr = some r ∧
      user_mem_check_visits ULIM s root va len perm =
        (List.range' (va / PGSIZE) n).map (fun p => max va (p * PGSIZE)) ∧
      n ≤ pagesIn va (va + len) ∧
      len / PGSIZE ≤ pagesIn va (va + len) ∧ pagesIn va (va + len) ≤ len / PGSIZE + 2 ∧
      (∀ p, va / PGSIZE ≤ p → p + 1 < va / PGSIZE + n → pageOK s root perm (p * PGSIZE)) ∧
      (r.ret = 0 → n = pagesIn va (va + len)) ∧
      (r.ret ≠ 0 → 0 < n ∧ r.addr = max va ((va / PGSIZE + n - 1) * PGSIZE) ∧
        ¬ pageOK s root perm r.addr) := by
  have hg : ¬ ((va + len) % 2 ^ 64 ≥ ULIM ∨ va > (va + len) % 2 ^ 64) := by
    rw [Nat.mod_eq_of_lt hnw]
    omega
  unfold user_mem_check user_mem_check_visits
  simp only []
  rw [if_neg hg, if_neg hg, Nat.mod_eq_of_lt hnw]
  obtain ⟨r, n, hr, ht, hn, hpass, hz, hnz⟩ :=
    user_mem_check_tested_spec s root (va + len) perm (by unfold PGSIZE at *; omega)
      (len / PGSIZE + 2) va addr (by unfold PGSIZE; omega)
  refine ⟨r, n, hr, ht, hn, ?_, ?_, hpass, hz, hnz⟩
  · unfold pagesIn PGSIZE
    split_ifs <;> omega
  · unfold pagesIn PGSIZE
    split_ifs <;> omega

/-- Witness of C32 on the state `exMapped` with `ULIM = 0x8003c00000`: the check
of 16 bytes at `0x1008` returns after its loop has ended. -/
theorem user_mem_check_pages_witness :
    ∃ r n, user_mem_check 0x8003c00000 exMapped 0x8004000000 0x1008 16 0 0 = some r ∧
      user_mem_check_visits 0x8003c00000 exMapped 0x8004000000 0x1008 16 0 =
        (List.range' (0x1008 / PGSIZE) n).map (fun p => max 0x1008 (p * PGSIZE)) ∧
      n ≤ pagesIn 0x1008 (0x1008 + 16) :=
  have h := user_mem_check_pages 0x8003c00000 exMapped 0x8004000000 0x1008 16 0 0
    (by decide) (by decide) (by decide)
  h.elim (fun r h2 => h2.elim (fun n h3 => ⟨r, n, h3.1, h3.2.1, h3.2.2.1⟩))

/-- Claim C32 fails when a page fails the test: with `ULIM = 0x8003c00000`, in
the state `exMapped` (only the page at `0x1000` is mapped) the call
`user_mem_check(env, 0x1000, 0x3000, 0)` passes the range test, tests the pages
at `0x1000` and `0x2000` and returns `-E_FAULT` at the second: it has tested 2
pages, fewer than `len / PGSIZE = 3`, and the page at `0x3000`, which
intersects the range, is not tested. -/
theorem user_mem_check_stops_early :
    0x1000 + 0x3000 < 2 ^ 64 ∧ 0x1000 + 0x3000 < 0x8003c00000 ∧
    (user_mem_check 0x8003c00000 exMapped 0x8004000000 0x1000 0x3000 0 0).map
      (fun r => (r.ret, r.addr)) = some (-E_FAULT, 0x2000) ∧
    user_mem_check_visits 0x8003c00000 exMapped 0x8004000000 0x1000 0x3000 0
      = [0x1000, 0x2000] ∧
    (user_mem_check_visits 0x8003c00000 exMapped 0x8004000000 0x1000 0x3000 0).length
      < 0x3000 / PGSIZE ∧
    pagesIn 0x1000 (0x1000 + 0x3000) = 3 ∧
    0x3000 ∉ user_mem_check_visits 0x8003c00000 exMapped 0x8004000000 0x1000 0x3000 0 := by
  decide

/-! ## Claim C31: the insertion loop of multiboot_read -/

theorem mb_find_spec (ents : Nat → memory_map_t) (list : Nat → Option Nat) (addr : Nat) :
    ∀ (k j0 : Nat), j0 ≤ mb_find ents list addr k j0 ∧ mb_find ents list addr k j0 ≤ j0 + k ∧
      (∀ p t, j0 ≤ p → p < mb_find ents list addr k j0 → list p = some t →
        mb_addr (ents t) ≤ addr) ∧
      (mb_find ents list addr k j0 < j0 + k →
        ∃ t, list (mb_find ents list addr k j0) = some t ∧ addr < mb_addr (ents t))
  | 0, j0 => ⟨Nat.le_refl _, Nat.le_refl _, fun p t h1 h2 _ => absurd h2 (by
      show ¬ p < j0
      omega), fun h => absurd h (Nat.lt_irrefl _)⟩
  | k + 1, j0 => by
      obtain ⟨i1, i2, i3, i4⟩ := mb_find_spec ents list addr k (j0 + 1)
      rw [mb_find]
      cases hl : list j0 with
      | none =>
        simp only []
        refine ⟨by omega, by omega, ?_, fun hlt => i4 (by omega)⟩
        intro p t h1 h2 hp
        by_cases hpj : p = j0
        · subst hpj; rw [hl] at hp; exact absurd hp (by simp)
        · exact i3 p t (by omega) h2 hp
      | some t0 =>
        simp only []
        by_cases hgt : APPEND_HILO (ents t0).base_addr_high (ents t0).base_addr_low > addr
        · rw [if_pos hgt]
          exact ⟨Nat.le_refl _, by omega, fun p t h1 h2 _ => absurd h2 (by omega),
            fun _ => ⟨t0, hl, hgt⟩⟩
        · rw [if_neg hgt]
          refine ⟨by omega, by omega, ?_, fun hlt => i4 (by omega)⟩
          intro p t h1 h2 hp
          by_cases hpj : p = j0
          · subst hpj
            rw [hl] at hp
            have e := Option.some.inj hp
            subst e
            exact Nat.le_of_not_lt hgt
          · exact i3 p t (by omega) h2 hp

theorem mb_shift_ext_spec (j : Nat) : ∀ (d : Nat) (list : Nat → Option Nat) (p : Nat),
    mb_shift_ext list j d p = if j < p ∧ p ≤ j + d then list (p - 1) else list p
  | 0, list, p => by
      rw [mb_shift_ext, if_neg (by omega)]
  | d + 1, list, p => by
      rw [mb_shift_ext, mb_shift_ext_spec j d]
      by_cases h1 : j < p ∧ p ≤ j + d
      · rw [if_pos h1, if_pos (by omega), Function.update_noteq (by omega)]
      · rw [if_neg h1]
        by_cases h2 : p = j + d + 1
        · subst h2
          rw [Function.update_same, if_pos (by omega)]
          rfl
        · rw [Function.update_noteq h2, if_neg (by omega)]

/-- One iteration of the insertion loop: entry `i` is inserted in the sorted
list `l` of the entries below `i`, after the entries whose base is not larger. -/
theorem mb_insert_body_ext_inv (h : Hdr) (orig : Nat → memory_map_t) (st : MbState) (i : Nat)
    (l : List Nat) (hperm : l.Perm (List.range i)) (hslots : ∀ p, p < i → st.list p = l[p]?)
    (hsorted : l.Pairwise (mb_before orig))
    (hbase : ∀ x, mb_addr (st.ents x) = mb_addr (orig x)) :
    ∃ l2 : List Nat, l2.Perm (List.range (i + 1)) ∧
      (∀ p, p < i + 1 → (mb_insert_body_ext h st i).list p = l2[p]?) ∧
      l2.Pairwise (mb_before orig) ∧
      (∀ x, mb_addr ((mb_insert_body_ext h st i).ents x) = mb_addr (orig x)) := by
  have hlen : l.length = i := by rw [hperm.length_eq, List.length_range]
  have hmem : ∀ a, a ∈ l → a < i := fun a ha => List.mem_range.mp (hperm.mem_iff.mp ha)
  have hb1 : ∀ x, mb_addr ((if (st.ents i).type > 5 ∨ (st.ents i).type < 1
      then Function.update st.ents i { st.ents i with type := h.MB_TYPE_RESERVED }
      else st.ents) x) = mb_addr (orig x) := by
    intro x
    split_ifs
    · by_cases hx : x = i
      · subst hx
        rw [Function.update_same]
        exact hbase x
      · rw [Function.update_noteq hx]
        exact hbase x
    · exact hbase x
  obtain ⟨_, f2, f3, f4⟩ := mb_find_spec (if (st.ents i).type > 5 ∨ (st.ents i).type < 1
      then Function.update st.ents i { st.ents i with type := h.MB_TYPE_RESERVED }
      else st.ents) st.list (APPEND_HILO (st.ents i).base_addr_high (st.ents i).base_addr_low) i 0
  have haddr : APPEND_HILO (st.ents i).base_addr_high (st.ents i).base_addr_low
      = mb_addr (orig i) := hbase i
  unfold mb_insert_body_ext
  simp only []
  generalize mb_find (if (st.ents i).type > 5 ∨ (st.ents i).type < 1
      then Function.update st.ents i { st.ents i with type := h.MB_TYPE_RESERVED }
      else st.ents) st.list (APPEND_HILO (st.ents i).base_addr_high (st.ents i).base_addr_low) i 0
      = j at f2 f3 f4 ⊢
  rw [haddr] at f3 f4
  rw [Nat.zero_add] at f2 f4
  have hlow : ∀ p t, p < j → l[p]? = some t → mb_addr (orig t) ≤ mb_addr (orig i) := by
    intro p t hp ht
    have := f3 p t (Nat.zero_le _) hp (by rw [hslots p (by omega)]; exact ht)
    rw [hb1] at this
    exact this
  have htake : (l.take j).length = j := by rw [List.length_take, hlen]; omega
  refine ⟨l.take j ++ i :: l.drop j, ?_, ?_, ?_, hb1⟩
  · have h1 : (l.take j ++ i :: l.drop j).Perm (i :: (l.take j ++ l.drop j)) := List.perm_middle
    rw [List.take_append_drop] at h1
    rw [List.range_succ]
    exact h1.trans ((List.Perm.cons i hperm).trans (List.perm_append_singleton i _).symm)
  · intro p hp
    by_cases hpj : p = j
    · subst hpj
      rw [Function.update_same, List.getElem?_append_right (by omega), htake, Nat.sub_self,
        List.getElem?_cons_zero]
    · rw [Function.update_noteq hpj]
      by_cases hlt : p < j
      · rw [List.getElem?_append_left (by omega), List.getElem?_take_of_lt hlt]
        have hs := hslots p (by omega)
        by_cases hji : j < i
        · rw [if_pos hji, mb_shift_ext_spec, if_neg (by omega)]
          exact hs
        · rw [if_neg hji]
          exact hs
      · have hji : j < i := by omega
        rw [if_pos hji, mb_shift_ext_spec, if_pos (by omega),
          List.getElem?_append_right (by omega), htake]
        have e1 : p - j = (p - j - 1) + 1 := by omega
        rw [e1, List.getElem?_cons_succ, List.getElem?_drop, hslots (p - 1) (by omega)]
        congr 1
        omega
  · have hsplit := hsorted
    rw [← List.take_append_drop j l, List.pairwise_append] at hsplit
    obtain ⟨p1, p2, p3⟩ := hsplit
    rw [List.pairwise_append]
    refine ⟨p1, List.pairwise_cons.mpr ⟨?_, p2⟩, ?_⟩
    · intro b hb
      by_cases hji : j < i
      · obtain ⟨t, ht, hgt⟩ := f4 hji
        rw [hb1, hslots j hji] at *
        have hjl : j < l.length := by omega
        rw [List.getElem?_eq_getElem hjl] at ht
        have et := Option.some.inj ht
        rw [List.drop_eq_getElem_cons hjl, et] at hb p2
        rcases List.mem_cons.mp hb with e | hb2
        · subst e
          exact Or.inl hgt
        · have := (List.pairwise_cons.mp p2).1 b hb2
          unfold mb_before at this ⊢
          omega
      · rw [List.drop_of_length_le (by omega)] at hb
        exact absurd hb (List.not_mem_nil b)
    · have hleft : ∀ a, a ∈ l.take j → mb_before orig a i := by
        intro a ha
        obtain ⟨p, hp⟩ := List.mem_iff_getElem?.mp ha
        have hpj : p < j := by
          by_contra hc
          rw [List.getElem?_eq_none (by omega)] at hp
          exact absurd hp (by simp)
        rw [List.getElem?_take_of_lt hpj] at hp
        have h1 := hlow p a hpj hp
        have h2 := hmem a (List.mem_of_mem_take ha)
        unfold mb_before
        omega
      intro a ha b hb
      rcases List.mem_cons.mp hb with e | hb2
      · subst e
        exact hleft a ha
      · exact p3 a ha b hb2

theorem mb_insert_loop_ext_inv (h : Hdr) (orig : Nat → memory_map_t) :
    ∀ (k i : Nat) (st : MbState) (l : List Nat), l.Perm (List.range i) →
      (∀ p, p < i → st.list p = l[p]?) → l.Pairwise (mb_before orig) →
      (∀ x, mb_addr (st.ents x) = mb_addr (orig x)) →
      ∃ l2 : List Nat, l2.Perm (List.range (i + k)) ∧
        (∀ p, p < i + k → (mb_insert_loop_ext h k i st).list p = l2[p]?) ∧
        l2.Pairwise (mb_before orig) ∧
        (∀ x, mb_addr ((mb_insert_loop_ext h k i st).ents x) = mb_addr (orig x))
  | 0, i, st, l, h1, h2, h3, h4 => ⟨l, h1, h2, h3, h4⟩
  | k + 1, i, st, l, h1, h2, h3, h4 => by
      obtain ⟨l1, a1, a2, a3, a4⟩ := mb_insert_body_ext_inv h orig st i l h1 h2 h3 h4
      have e : i + (k + 1) = i + 1 + k := by omega
      rw [e]
      exact mb_insert_loop_ext_inv h orig k (i + 1) (mb_insert_body_ext h st i) l1 a1 a2 a3 a4

/-- On a list with room after the last element, the insertion loop leaves in
the first `n` slots a permutation of the entries `0, ..., n - 1` in
non-decreasing order of the 64-bit base address, entries with equal base in
their input order, and changes no base address. -/
theorem mb_insert_loop_ext_sorted (h : Hdr) (mmap_base : Nat → memory_map_t) (n : Nat) :
    ∃ l : List Nat, l.Perm (List.range n) ∧
      (∀ p, p < n →
        (mb_insert_loop_ext h n 0 { ents := mmap_base, list := fun _ => none }).list p = l[p]?) ∧
      (l.map (fun x => mb_addr (mmap_base x))).Pairwise (fun a b => a ≤ b) ∧
      l.Pairwise (mb_before mmap_base) ∧
      (∀ x, mb_addr ((mb_insert_loop_ext h n 0
          { ents := mmap_base, list := fun _ => none }).ents x) = mb_addr (mmap_base x)) := by
  obtain ⟨l, h1, h2, h3, h4⟩ := mb_insert_loop_ext_inv h mmap_base n 0
    { ents := mmap_base, list := fun _ => none } [] (by rw [List.range_zero])
    (fun p hp => absurd hp (Nat.not_lt_zero p)) List.Pairwise.nil (fun _ => rfl)
  rw [Nat.zero_add] at h1 h2
  refine ⟨l, h1, h2, ?_, h3, h4⟩
  rw [List.pairwise_map]
  refine List.Pairwise.imp ?_ h3
  intro a b hab
  unfold mb_before at hab
  omega


/-- The shift on the array of `n` elements: defined when its first store,
`mmap_list[j + d]`, is inside the array. -/
theorem mb_shift_eq (n j : Nat) : ∀ (d : Nat) (list : Nat → Option Nat),
    mb_shift n list j d = if d = 0 ∨ j + d < n then some (mb_shift_ext list j d) else none
  | 0, list => by
      rw [mb_shift, if_pos (Or.inl rfl)]
      rfl
  | d + 1, list => by
      rw [mb_shift]
      by_cases hin : j + d + 1 < n
      · rw [if_pos hin, mb_shift_eq n j d, if_pos (by omega), if_pos (by omega)]
        rfl
      · rw [if_neg hin, if_neg (by
          intro hc
          rcases hc with hc | hc
          · exact absurd hc (Nat.succ_ne_zero d)
          · exact hin hc)]

/-- Iteration `i` on the array of `n` elements has no result exactly when entry
`i` is inserted before a listed entry and `i + 1` is not an index of the array;
otherwise it does what the statements do. -/
theorem mb_insert_body_eq (n : Nat) (h : Hdr) (st : MbState) (i : Nat) :
    mb_insert_body n h st i =
      if mb_insert_pos h st i < i ∧ n ≤ i + 1 then none else some (mb_insert_body_ext h st i) := by
  unfold mb_insert_body mb_insert_body_ext mb_insert_pos
  dsimp only
  generalize mb_find _ _ _ _ _ = j
  generalize (ite ((st.ents i).type > 5 ∨ (st.ents i).type < 1) _ _ : Nat → memory_map_t) = e1
  by_cases hj : j < i
  · rw [if_pos hj, if_pos hj, mb_shift_eq]
    by_cases hn : n ≤ i + 1
    · rw [if_neg (by omega), if_pos ⟨hj, hn⟩]
    · rw [if_pos (by omega), if_neg (fun hc => hn hc.2)]
  · rw [if_neg hj, if_neg hj, if_neg (fun hc => hj hc.1)]

theorem mb_insert_loop_ext_snoc (h : Hdr) : ∀ (k i : Nat) (st : MbState),
    mb_insert_loop_ext h (k + 1) i st = mb_insert_body_ext h (mb_insert_loop_ext h k i st) (i + k)
  | 0, _, _ => rfl
  | k + 1, i, st => by
      have e : mb_insert_loop_ext h (k + 1 + 1) i st =
          mb_insert_loop_ext h (k + 1) (i + 1) (mb_insert_body_ext h st i) := rfl
      rw [e, mb_insert_loop_ext_snoc h k (i + 1)]
      have e2 : i + 1 + k = i + (k + 1) := by omega
      rw [e2]
      rfl

theorem mb_insert_loop_inside (n : Nat) (h : Hdr) : ∀ (k i : Nat) (st : MbState), i + k < n →
    mb_insert_loop n h k i st = some (mb_insert_loop_ext h k i st)
  | 0, _, _, _ => rfl
  | k + 1, i, st, hk => by
      rw [mb_insert_loop, mb_insert_body_eq, if_neg (by omega)]
      simp only []
      rw [mb_insert_loop_inside n h k (i + 1) _ (by omega)]
      rfl

theorem mb_insert_loop_snoc (n : Nat) (h : Hdr) : ∀ (k i : Nat) (st : MbState),
    mb_insert_loop n h (k + 1) i st =
      (mb_insert_loop n h k i st).bind (fun s => mb_insert_body n h s (i + k))
  | 0, i, st => by
      rw [mb_insert_loop]
      cases hb : mb_insert_body n h st i with
      | none => simp [mb_insert_loop, hb]
      | some s1 => simp [mb_insert_loop, hb]
  | k + 1, i, st => by
      rw [mb_insert_loop]
      cases hb : mb_insert_body n h st i with
      | none =>
        simp only []
        rw [mb_insert_loop, hb]
        rfl
      | some s1 =>
        simp only []
        rw [mb_insert_loop_snoc n h k (i + 1) s1]
        have e : i + 1 + k = i + (k + 1) := by omega
        rw [e]
        show _ = (mb_insert_loop n h (k + 1) i st).bind _
        rw [mb_insert_loop, hb]

/-- The loop on a map of `m + 1` entries: the first `m` iterations stay inside
the array, and the result is that of the last iteration. -/
theorem mb_insert_loop_full (h : Hdr) (st : MbState) (m : Nat) :
    mb_insert_loop (m + 1) h (m + 1) 0 st =
      if mb_insert_pos h (mb_insert_loop_ext h m 0 st) m < m then none
      else some (mb_insert_loop_ext h (m + 1) 0 st) := by
  rw [mb_insert_loop_snoc, mb_insert_loop_inside (m + 1) h m 0 st (by omega), Nat.zero_add]
  show mb_insert_body (m + 1) h (mb_insert_loop_ext h m 0 st) m = _
  rw [mb_insert_body_eq, mb_insert_loop_ext_snoc, Nat.zero_add]
  by_cases hj : mb_insert_pos h (mb_insert_loop_ext h m 0 st) m < m
  · rw [if_pos ⟨hj, Nat.le_refl _⟩, if_pos hj]
  · rw [if_neg (fun hc => hj hc.1), if_neg hj]

/-- When entry `m` has a base address below that of an earlier entry, the search
of its insertion stops before position `m`. -/
theorem mb_insert_pos_last (h : Hdr) (mmap_base : Nat → memory_map_t) (m x : Nat)
    (hx : x < m) (hlt : mb_addr (mmap_base m) < mb_addr (mmap_base x)) :
    mb_insert_pos h (mb_insert_loop_ext h m 0 { ents := mmap_base, list := fun _ => none }) m
      < m := by
  obtain ⟨l, h1, h2, _, h4⟩ := mb_insert_loop_ext_inv h mmap_base m 0
    { ents := mmap_base, list := fun _ => none } [] (by rw [List.range_zero])
    (fun p hp => absurd hp (Nat.not_lt_zero p)) List.Pairwise.nil (fun _ => rfl)
  rw [Nat.zero_add] at h1 h2
  generalize mb_insert_loop_ext h m 0 { ents := mmap_base, list := fun _ => none } = st at h2 h4 ⊢
  have hb1 : ∀ y, mb_addr ((if (st.ents m).type > 5 ∨ (st.ents m).type < 1
      then Function.update st.ents m { st.ents m with type := h.MB_TYPE_RESERVED }
      else st.ents) y) = mb_addr (mmap_base y) := by
    intro y
    split_ifs
    · by_cases hy : y = m
      · subst hy
        rw [Function.update_same]
        exact h4 y
      · rw [Function.update_noteq hy]
        exact h4 y
    · exact h4 y
  obtain ⟨_, f2, f3, _⟩ := mb_find_spec (if (st.ents m).type > 5 ∨ (st.ents m).type < 1
      then Function.update st.ents m { st.ents m with type := h.MB_TYPE_RESERVED }
      else st.ents) st.list (APPEND_HILO (st.ents m).base_addr_high (st.ents m).base_addr_low) m 0
  have haddr : APPEND_HILO (st.ents m).base_addr_high (st.ents m).base_addr_low
      = mb_addr (mmap_base m) := h4 m
  unfold mb_insert_pos
  generalize mb_find (if (st.ents m).type > 5 ∨ (st.ents m).type < 1
      then Function.update st.ents m { st.ents m with type := h.MB_TYPE_RESERVED }
      else st.ents) st.list (APPEND_HILO (st.ents m).base_addr_high (st.ents m).base_addr_low) m 0
      = j at f2 f3 ⊢
  rw [haddr] at f3
  have hxl : x ∈ l := h1.mem_iff.mpr (List.mem_range.mpr hx)
  obtain ⟨p, hp⟩ := List.mem_iff_getElem?.mp hxl
  have hpn : p < m := by
    by_contra hc
    have hlen : l.length = m := by rw [h1.length_eq, List.length_range]
    rw [List.getElem?_eq_none (by omega)] at hp
    exact absurd hp (by simp)
  by_contra hc
  have := f3 p x (Nat.zero_le _) (by omega) (by rw [h2 p hpn]; exact hp)
  rw [hb1] at this
  omega

/-- For every map of `m + 1` entries whose last entry has a base address below
that of an earlier entry, the insertion loop stores outside `mmap_list` and has
no defined result, and neither has `multiboot_read`. -/
theorem mb_insert_loop_undefined (h : Hdr) (mmap_base : Nat → memory_map_t) (m x : Nat)
    (hx : x < m) (hlt : mb_addr (mmap_base m) < mb_addr (mmap_base x)) (basemem extmem : Nat) :
    mb_insert_loop (m + 1) h (m + 1) 0 { ents := mmap_base, list := fun _ => none } = none ∧
    multiboot_read h mmap_base (m + 1) basemem extmem = none := by
  have h1 : mb_insert_loop (m + 1) h (m + 1) 0 { ents := mmap_base, list := fun _ => none }
      = none := by
    rw [mb_insert_loop_full, if_pos (mb_insert_pos_last h mmap_base m x hx hlt)]
  refine ⟨h1, ?_⟩
  unfold multiboot_read
  simp only []
  rw [h1]

/-- Whenever the insertion loop has a result (no store outside `mmap_list`), the
first `n` slots hold a permutation of the entries `0, ..., n - 1` in
non-decreasing order of the 64-bit base address, entries with equal base in
their input order, and no base address has changed. -/
theorem mb_insert_loop_sorted (h : Hdr) (mmap_base : Nat → memory_map_t) (n : Nat)
    (st : MbState)
    (hr : mb_insert_loop n h n 0 { ents := mmap_base, list := fun _ => none } = some st) :
    ∃ l : List Nat, l.Perm (List.range n) ∧ (∀ p, p < n → st.list p = l[p]?) ∧
      (l.map (fun x => mb_addr (mmap_base x))).Pairwise (fun a b => a ≤ b) ∧
      l.Pairwise (mb_before mmap_base) ∧
      (∀ x, mb_addr (st.ents x) = mb_addr (mmap_base x)) := by
  have hst : st = mb_insert_loop_ext h n 0 { ents := mmap_base, list := fun _ => none } := by
    cases n with
    | zero => exact (Option.some.inj hr).symm
    | succ m =>
      rw [mb_insert_loop_full] at hr
      split_ifs at hr
      exact (Option.some.inj hr).symm
  rw [hst]
  exact mb_insert_loop_ext_sorted h mmap_base n

/-- Claim C31 fails for a map whose last entry is not the one with the largest
base: for the three entries with bases `0x100000`, `0x300000` and `0x200000`
(in this order), the insertion of the third entry before the second starts its
shift with the store `mmap_list[3] = mmap_list[2]`, outside the array of
`n = 3` elements: the loop has no defined result, and the first `n` slots are
not established as the sorted list. The first two iterations stay inside the
array, and for the same entries in ascending order the loop leaves the list
`0, 1, 2`. -/
theorem multiboot_read_sort_undefined :
    (mb_insert_loop 3 exHdr 3 0
      { ents := mbArray [⟨20, 0x100000, 0, 0x100000, 0, 1⟩, ⟨20, 0x300000, 0, 0x100000, 0, 1⟩,
          ⟨20, 0x200000, 0, 0x100000, 0, 1⟩],
        list := fun _ => none }).isNone = true ∧
    multiboot_read exHdr
      (mbArray [⟨20, 0x100000, 0, 0x100000, 0, 1⟩, ⟨20, 0x300000, 0, 0x100000, 0, 1⟩,
        ⟨20, 0x200000, 0, 0x100000, 0, 1⟩]) 3 0 0 = none ∧
    (mb_insert_loop 3 exHdr 2 0
      { ents := mbArray [⟨20, 0x100000, 0, 0x100000, 0, 1⟩, ⟨20, 0x300000, 0, 0x100000, 0, 1⟩,
          ⟨20, 0x200000, 0, 0x100000, 0, 1⟩],
        list := fun _ => none }).isSome = true ∧
    mb_insert_pos exHdr (mb_insert_loop_ext exHdr 2 0
      { ents := mbArray [⟨20, 0x100000, 0, 0x100000, 0, 1⟩, ⟨20, 0x300000, 0, 0x100000, 0, 1⟩,
          ⟨20, 0x200000, 0, 0x100000, 0, 1⟩],
        list := fun _ => none }) 2 = 1 ∧
    (mb_insert_loop 3 exHdr 3 0
      { ents := mbArray [⟨20, 0x100000, 0, 0x100000, 0, 1⟩, ⟨20, 0x200000, 0, 0x100000, 0, 1⟩,
          ⟨20, 0x300000, 0, 0x100000, 0, 1⟩],
        list := fun _ => none }).map (fun st => [st.list 0, st.list 1, st.list 2])
      = some [some 0, some 1, some 2] := by
  decide

/-! ## Claim C33: the accesses to mmap_list made by the insertion loop -/

theorem mb_insert_loop_acc_snoc (h : Hdr) : ∀ (k i : Nat) (st : MbState),
    mb_insert_loop_acc h (k + 1) i st =
      mb_insert_loop_acc h k i st ++ mb_insert_body_acc h (mb_insert_loop_ext h k i st) (i + k)
  | 0, i, st => by
      show mb_insert_body_acc h st i ++ [] = [] ++ mb_insert_body_acc h st (i + 0)
      rw [List.append_nil, List.nil_append, Nat.add_zero]
  | k + 1, i, st => by
      have e : mb_insert_loop_acc h (k + 1 + 1) i st =
          mb_insert_body_acc h st i ++
            mb_insert_loop_acc h (k + 1) (i + 1) (mb_insert_body_ext h st i) := rfl
      rw [e, mb_insert_loop_acc_snoc h k (i + 1)]
      have e2 : i + 1 + k = i + (k + 1) := by omega
      rw [e2, ← List.append_assoc]
      rfl

/-- Whenever the last of `n + 1` entries has a base address below that of an
earlier entry, its insertion reads `mmap_list[n]` and writes `mmap_list[n + 1]`,
the position after the last one. -/
theorem mb_insert_loop_acc_last (h : Hdr) (mmap_base : Nat → memory_map_t) (n x : Nat)
    (hx : x < n) (hlt : mb_addr (mmap_base n) < mb_addr (mmap_base x)) :
    MbAccess.read n ∈ mb_insert_loop_acc h (n + 1) 0 { ents := mmap_base, list := fun _ => none } ∧
    MbAccess.write (n + 1) ∈
      mb_insert_loop_acc h (n + 1) 0 { ents := mmap_base, list := fun _ => none } := by
  obtain ⟨l, h1, h2, _, h4⟩ := mb_insert_loop_ext_inv h mmap_base n 0
    { ents := mmap_base, list := fun _ => none } [] (by rw [List.range_zero])
    (fun p hp => absurd hp (Nat.not_lt_zero p)) List.Pairwise.nil (fun _ => rfl)
  rw [Nat.zero_add] at h1 h2
  rw [mb_insert_loop_acc_snoc, Nat.zero_add]
  generalize mb_insert_loop_ext h n 0 { ents := mmap_base, list := fun _ => none } = st at h2 h4 ⊢
  have hb1 : ∀ y, mb_addr ((if (st.ents n).type > 5 ∨ (st.ents n).type < 1
      then Function.update st.ents n { st.ents n with type := h.MB_TYPE_RESERVED }
      else st.ents) y) = mb_addr (mmap_base y) := by
    intro y
    split_ifs
    · by_cases hy : y = n
      · subst hy
        rw [Function.update_same]
        exact h4 y
      · rw [Function.update_noteq hy]
        exact h4 y
    · exact h4 y
  obtain ⟨_, f2, f3, _⟩ := mb_find_spec (if (st.ents n).type > 5 ∨ (st.ents n).type < 1
      then Function.update st.ents n { st.ents n with type := h.MB_TYPE_RESERVED }
      else st.ents) st.list (APPEND_HILO (st.ents n).base_addr_high (st.ents n).base_addr_low) n 0
  have haddr : APPEND_HILO (st.ents n).base_addr_high (st.ents n).base_addr_low
      = mb_addr (mmap_base n) := h4 n
  unfold mb_insert_body_acc
  simp only []
  generalize mb_find (if (st.ents n).type > 5 ∨ (st.ents n).type < 1
      then Function.update st.ents n { st.ents n with type := h.MB_TYPE_RESERVED }
      else st.ents) st.list (APPEND_HILO (st.ents n).base_addr_high (st.ents n).base_addr_low) n 0
      = j at f2 f3 ⊢
  rw [haddr] at f3
  have hxl : x ∈ l := h1.mem_iff.mpr (List.mem_range.mpr hx)
  obtain ⟨p, hp⟩ := List.mem_iff_getElem?.mp hxl
  have hpn : p < n := by
    by_contra hc
    have hlen : l.length = n := by rw [h1.length_eq, List.length_range]
    rw [List.getElem?_eq_none (by omega)] at hp
    exact absurd hp (by simp)
  have hj : j < n := by
    by_contra hc
    have := f3 p x (Nat.zero_le _) (by omega) (by rw [h2 p hpn]; exact hp)
    rw [hb1] at this
    omega
  rw [if_pos hj]
  have e : n + 1 - j = (n - j) + 1 := by omega
  have e2 : j + (n - j) = n := by omega
  rw [e, mb_shift_acc, e2]
  constructor
  · simp
  · simp

/-- Claim C33 fails for a map that is not sorted: for the two entries with bases
`0x200000` and `0x100000` (in this order), the list has `n = 2` elements, and
the insertion of the second entry starts its shift at `last = i + 1 = 2`: it
reads `mmap_list[1]`, which has not been written, and writes `mmap_list[2]`,
the position after the last one. The accesses of the loop are, in order: write
0; read 0, read 1, write 2, read 0, write 1, write 0. On the array of two
elements the loop has no defined result. -/
theorem multiboot_read_list_overrun :
    mb_insert_loop_acc exHdr 2 0
      { ents := mbArray [⟨20, 0x200000, 0, 0x100000, 0, 1⟩, ⟨20, 0x100000, 0, 0x100000, 0, 1⟩],
        list := fun _ => none } =
      [MbAccess.write 0, MbAccess.read 0, MbAccess.read 1, MbAccess.write 2, MbAccess.read 0,
        MbAccess.write 1, MbAccess.write 0] ∧
    MbAccess.write 2 ∈ mb_insert_loop_acc exHdr 2 0
      { ents := mbArray [⟨20, 0x200000, 0, 0x100000, 0, 1⟩, ⟨20, 0x100000, 0, 0x100000, 0, 1⟩],
        list := fun _ => none } ∧
    ¬ 2 < 2 ∧
    MbAccess.read 1 ∈ (mb_insert_loop_acc exHdr 2 0
      { ents := mbArray [⟨20, 0x200000, 0, 0x100000, 0, 1⟩, ⟨20, 0x100000, 0, 0x100000, 0, 1⟩],
        list := fun _ => none }).take 3 ∧
    MbAccess.write 1 ∉ (mb_insert_loop_acc exHdr 2 0
      { ents := mbArray [⟨20, 0x200000, 0, 0x100000, 0, 1⟩, ⟨20, 0x100000, 0, 0x100000, 0, 1⟩],
        list := fun _ => none }).take 3 ∧
    (mb_insert_loop_ext exHdr 2 0
      { ents := mbArray [⟨20, 0x200000, 0, 0x100000, 0, 1⟩, ⟨20, 0x100000, 0, 0x100000, 0, 1⟩],
        list := fun _ => none }).list 0 = some 1 ∧
    (mb_insert_loop_ext exHdr 2 0
      { ents := mbArray [⟨20, 0x200000, 0, 0x100000, 0, 1⟩, ⟨20, 0x100000, 0, 0x100000, 0, 1⟩],
        list := fun _ => none }).list 1 = some 0 ∧
    (mb_insert_loop 2 exHdr 2 0
      { ents := mbArray [⟨20, 0x200000, 0, 0x100000, 0, 1⟩, ⟨20, 0x100000, 0, 0x100000, 0, 1⟩],
        list := fun _ => none }).isNone = true := by
  decide

end Pmap
